import Mathlib

/-!
# NeuroSim chip floor-planning: a shallow embedding of `Chip.cpp` and `main.cpp`

Conventions of the embedding.

* A C++ `double` is modelled by an exact rational `ℚ`: no rounding, no NaN and no
  infinity.  Division by zero follows Lean (`x / 0 = 0`); the theorems state the
  assumptions under which the source never divides by zero.  The rounding of `double`
  arithmetic is modelled in two places, where a result is truncated or compared with a
  bound that it can equal: the rescaling of a weight in `LoadInWeightData` (`newdata`)
  and the accumulation and halving of the bus width in `ChipInitialize`.  There every
  operation rounds its result to 53 significant bits (`roundDouble`).
* A C++ `int` is modelled by an unbounded `ℤ`; the conversion `double → int`
  truncates toward zero (`toInt`).  The source computes these values as long as they
  lie in the range of the 32-bit `int` (`FitsInt`); statements on a value that the
  source holds in an `int` variable carry that bound.  Where the source converts a
  `double` of arbitrary size (`int temp` of `ChipDesignInitialize`, `int value` of
  `LoadInWeightData`) the conversion is `toInt32`, which leaves the range as x86 does.
* `vector<T>` is a `List T`.  `v[i]` outside the vector is undefined behaviour in the
  source; the model reads a default value (`0`, the empty row, the all-zero layer).
  Where a statement is about such a read, the lookup is checked (`at2?`, `readAt`) and
  the function returns `none`: so in `ChipFloorPlanChecked`, which is `ChipFloorPlan`
  with the reads and the `int` division of its tile-location loop checked.
* The `for (x = start; x >= bound; x /= 2)` loops may run forever (when `bound ≤ 0`),
  so they take a fuel argument and return `none` when the fuel runs out; so does the
  `while` loop that halves the bus width in `ChipInitialize`.
* The slicing functions `CopyArray` and `ReshapeArray` read the matrix through `readAt`,
  which returns `none` outside the matrix: a result `some` says that every read was in
  range.
-/

namespace NeuroSim

/-! ## Data model -/

/-- One row of `netStructure`; the field order is the column order of the source:
`[0]` input rows, `[1]` input columns, `[2]` input depth, `[3]` kernel rows,
`[4]` kernel columns, `[5]` output depth, `[6]` followed-by-max-pool flag. -/
structure Layer where
  inputRow : ℚ
  inputCol : ℚ
  inputDepth : ℚ
  kernelRow : ℚ
  kernelCol : ℚ
  outputDepth : ℚ
  followedByMaxPool : ℚ
  deriving DecidableEq, Repr

instance : Inhabited Layer := ⟨⟨0, 0, 0, 0, 0, 0, 0⟩⟩

/-- The fields of the global `param` object that floor planning reads. -/
structure Param where
  novelMapping : Bool
  numRowSubArray : ℤ
  numColSubArray : ℤ
  numRowPerSynapse : ℤ
  numColPerSynapse : ℤ
  deriving DecidableEq, Repr

/-- The element `netStructure[i]`. -/
def layerAt (netStructure : List Layer) (i : ℕ) : Layer := netStructure.getD i default

/-- The element `markNM[i]`. -/
def markAt (markNM : List ℤ) (i : ℕ) : ℤ := markNM.getD i 0

/-- The element `v[k]` of a `vector<double>`. -/
def vecAt (v : List ℚ) (k : ℕ) : ℚ := v.getD k 0

/-- The element `v[r][c]` of a `vector<vector<double> >`. -/
def at2 (v : List (List ℚ)) (r c : ℕ) : ℚ := (v.getD r []).getD c 0

/-- The C function `ceil` on doubles (the result is again a double). -/
def ceilD (x : ℚ) : ℚ := ((⌈x⌉ : ℤ) : ℚ)

/-- Conversion of a double to `int`: truncation toward zero. -/
def toInt (x : ℚ) : ℤ := if 0 ≤ x then ⌊x⌋ else ⌈x⌉

/-- The values of the 32-bit `int` of the source.  The model keeps every `int` as an
unbounded integer, which is what the source computes as long as the values lie in this
range; theorems whose conclusion depends on a value held in an `int` assume it. -/
def FitsInt (z : ℤ) : Prop := -2147483648 ≤ z ∧ z ≤ 2147483647

/-- Conversion of a `double` of arbitrary size to a 32-bit `int` variable (`int temp` in
`ChipDesignInitialize`, `int value` in `LoadInWeightData`): truncation toward zero.  For a
truncated value outside the range of `int` the conversion is not defined by C++; the
conversion instruction of x86 delivers `-2^31` then, and so does the model. -/
def toInt32 (x : ℚ) : ℤ :=
  if -2147483648 ≤ toInt x ∧ toInt x ≤ 2147483647 then toInt x else -2147483648

/-- The expression `pow(2, ceil(log2(x)))`.  For `x > 0` the real number
`ceil(log2 x)` is the least integer `k` with `x ≤ 2^k`, which is `Int.clog 2 x`.
For `x = 0` the source computes `pow(2, -inf) = 0`.  Negative arguments give NaN in
the source and are outside the model (the model answers `0`). -/
def minCube (x : ℚ) : ℚ := if 0 < x then (2 : ℚ) ^ (Int.clog 2 x) else 0

/-- The expression `ceil(sqrt(x))` converted to `int`, for `x ≥ 0`: the least natural
number `r` with `x ≤ r * r`.  Negative arguments give NaN in the source and are
outside the model (the model answers `0`). -/
def ceilSqrt (x : ℚ) : ℤ :=
  let n := ⌈x⌉₊
  let s := Nat.sqrt n
  if s * s = n then (s : ℤ) else (s : ℤ) + 1

/-- Rows of the weight matrix of a conventionally mapped layer:
`netStructure[i][2]*netStructure[i][3]*netStructure[i][4]*numRowPerSynapse`. -/
def weightRows (l : Layer) (numRowPerSynapse : ℤ) : ℚ :=
  l.inputDepth * l.kernelRow * l.kernelCol * (numRowPerSynapse : ℚ)

/-- Columns of the weight matrix of a layer: `netStructure[i][5]*numColPerSynapse`. -/
def weightCols (l : Layer) (numColPerSynapse : ℤ) : ℚ :=
  l.outputDepth * (numColPerSynapse : ℚ)

/-! ## `ChipDesignInitialize` (Chip.cpp 72-140) -/

/-- The local variables `count`, `most`, `numPE` of the counting loops. -/
structure MostState where
  count : ℤ
  most : ℤ
  numPE : ℤ
  deriving DecidableEq, Repr

/-- Body of the inner loop over `j` (Chip.cpp 103-111). -/
def countBody (netStructure : List Layer) (temp : ℤ) (s : MostState) (j : ℕ) : MostState :=
  let count :=
    if (temp : ℚ) = (layerAt netStructure j).kernelRow * (layerAt netStructure j).kernelCol
    then s.count + 1 else s.count
  if s.most < count then ⟨count, count, temp⟩ else ⟨count, s.most, s.numPE⟩

/-- Body of the outer loop over `i` (Chip.cpp 100-112): `int temp` is the truncated
kernel product of layer `i` (`toInt32`), `count` restarts at `1`. -/
def mostBody (netStructure : List Layer) (s : MostState) (i : ℕ) : MostState :=
  let temp := toInt32 ((layerAt netStructure i).kernelRow * (layerAt netStructure i).kernelCol)
  (List.range netStructure.length).foldl (countBody netStructure temp) ⟨1, s.most, s.numPE⟩

/-- The two nested loops computing `numPE` (Chip.cpp 98-112). -/
def mostCommonKernel (netStructure : List Layer) : MostState :=
  (List.range netStructure.length).foldl (mostBody netStructure) ⟨0, 0, 0⟩

/-- The outputs of `ChipDesignInitialize`: the returned vector and the three
out-parameters. -/
structure ChipDesign where
  markNM : List ℤ
  maxPESizeNM : ℚ
  maxTileSizeCM : ℚ
  numPENM : ℚ
  deriving DecidableEq, Repr

/-- Body of the marking loop with novel mapping (Chip.cpp 115-129). -/
def markBodyNM (p : Param) (netStructure : List Layer) (s : ChipDesign) (i : ℕ) :
    ChipDesign :=
  let l := layerAt netStructure i
  if l.kernelRow * l.kernelCol = s.numPENM ∧
      l.inputDepth * l.kernelRow * l.kernelCol * (p.numRowPerSynapse : ℚ)
        ≥ (p.numRowSubArray : ℚ) then
    { s with markNM := s.markNM ++ [1],
             maxPESizeNM := max (minCube (l.outputDepth * (p.numColPerSynapse : ℚ)))
               s.maxPESizeNM }
  else
    { s with markNM := s.markNM ++ [0],
             maxTileSizeCM := max (minCube (l.outputDepth * (p.numColPerSynapse : ℚ)))
               s.maxTileSizeCM }

/-- Body of the marking loop without novel mapping (Chip.cpp 132-136). -/
def markBodyCM (p : Param) (netStructure : List Layer) (s : ChipDesign) (i : ℕ) :
    ChipDesign :=
  let l := layerAt netStructure i
  { s with markNM := s.markNM ++ [0],
           maxTileSizeCM := max (minCube (l.outputDepth * (p.numColPerSynapse : ℚ)))
             s.maxTileSizeCM }

/-- The function `ChipDesignInitialize` (the construction of the circuit modules, which
does not influence the outputs, is left out). -/
def ChipDesignInitialize (p : Param) (netStructure : List Layer) : ChipDesign :=
  if p.novelMapping then
    let numPE := (mostCommonKernel netStructure).numPE
    (List.range netStructure.length).foldl (markBodyNM p netStructure)
      ⟨[], 0, 0, (numPE : ℚ)⟩
  else
    (List.range netStructure.length).foldl (markBodyCM p netStructure) ⟨[], 0, 0, 0⟩

/-! ## Tile, PE and sub-array design (Chip.cpp 757-954) -/

/-- Body of the loop of `TileDesignCM` (Chip.cpp 761-766); the state is the pair
`(numTileTotal, matrixTotalCM)`. -/
def tileBodyCM (tileSize : ℚ) (markNM : List ℤ) (netStructure : List Layer)
    (numRowPerSynapse numColPerSynapse : ℤ) (acc : ℚ × ℚ) (i : ℕ) : ℚ × ℚ :=
  let l := layerAt netStructure i
  if markAt markNM i = 0 then
    (acc.1 + ceilD (l.inputDepth * l.kernelRow * l.kernelCol * (numRowPerSynapse : ℚ) / tileSize)
        * ceilD (l.outputDepth * (numColPerSynapse : ℚ) / tileSize),
     acc.2 + l.inputDepth * l.kernelRow * l.kernelCol * (numRowPerSynapse : ℚ)
        * l.outputDepth * (numColPerSynapse : ℚ))
  else acc

/-- The function `TileDesignCM`: the vector `[numTileTotal, matrixTotalCM, utilization]`. -/
def TileDesignCM (tileSize : ℚ) (markNM : List ℤ) (netStructure : List Layer)
    (numRowPerSynapse numColPerSynapse : ℤ) : List ℚ :=
  let acc := (List.range netStructure.length).foldl
    (tileBodyCM tileSize markNM netStructure numRowPerSynapse numColPerSynapse) (0, 0)
  [acc.1, acc.2, acc.2 / (acc.1 * tileSize * tileSize)]

/-- Body of the loop of `TileDesignNM` (Chip.cpp 781-786). -/
def tileBodyNM (peSize : ℚ) (markNM : List ℤ) (netStructure : List Layer)
    (numRowPerSynapse numColPerSynapse : ℤ) (acc : ℚ × ℚ) (i : ℕ) : ℚ × ℚ :=
  let l := layerAt netStructure i
  if markAt markNM i = 1 then
    (acc.1 + ceilD (l.inputDepth * (numRowPerSynapse : ℚ) / peSize)
        * ceilD (l.outputDepth * (numColPerSynapse : ℚ) / peSize),
     acc.2 + l.inputDepth * l.kernelRow * l.kernelCol * (numRowPerSynapse : ℚ)
        * l.outputDepth * (numColPerSynapse : ℚ))
  else acc

/-- The function `TileDesignNM`: the vector `[numTileTotal, matrixTotalNM, utilization]`. -/
def TileDesignNM (peSize : ℚ) (markNM : List ℤ) (netStructure : List Layer)
    (numRowPerSynapse numColPerSynapse : ℤ) (numPENM : ℚ) : List ℚ :=
  let acc := (List.range netStructure.length).foldl
    (tileBodyNM peSize markNM netStructure numRowPerSynapse numColPerSynapse) (0, 0)
  [acc.1, acc.2, acc.2 / (acc.1 * peSize * peSize * numPENM)]

/-- The pair `(actualDupRow, actualDupCol)` that `PEDesign` computes for layer `i`
(Chip.cpp 803-822); both are `int` variables of the source. -/
def peDupOf (peSize desiredTileSize : ℚ) (markNM : List ℤ) (netStructure : List Layer)
    (numRowPerSynapse numColPerSynapse : ℤ) (i : ℕ) : ℤ × ℤ :=
  let l := layerAt netStructure i
  if markAt markNM i = 0 then
    if l.inputDepth * l.kernelRow * l.kernelCol * (numRowPerSynapse : ℚ) ≤ desiredTileSize
        ∨ l.outputDepth * (numColPerSynapse : ℚ) ≤ desiredTileSize then
      let peForOneMatrixRow : ℤ :=
        ⌈l.inputDepth * l.kernelRow * l.kernelCol * (numRowPerSynapse : ℚ) / peSize⌉
      let peForOneMatrixCol : ℤ := ⌈l.outputDepth * (numColPerSynapse : ℚ) / peSize⌉
      let numPERow : ℤ := ⌈desiredTileSize / peSize⌉
      let numPECol : ℤ := ⌈desiredTileSize / peSize⌉
      (⌈(numPERow : ℚ) / (peForOneMatrixRow : ℚ)⌉, ⌈(numPECol : ℚ) / (peForOneMatrixCol : ℚ)⌉)
    else (1, 1)
  else (1, 1)

/-- The local variables `matrixTotalCM`, `peDupRow`, `peDupCol` of `PEDesign`. -/
structure PEState where
  matrixTotalCM : ℚ
  peDupRow : List ℚ
  peDupCol : List ℚ
  deriving DecidableEq, Repr

/-- Body of the loop of `PEDesign` (Chip.cpp 802-825): conventional layers add their
duplicated matrix to `matrixTotalCM`, every layer appends its duplication factors. -/
def peBody (peSize desiredTileSize : ℚ) (markNM : List ℤ) (netStructure : List Layer)
    (numRowPerSynapse numColPerSynapse : ℤ) (s : PEState) (i : ℕ) : PEState :=
  let l := layerAt netStructure i
  let d := peDupOf peSize desiredTileSize markNM netStructure numRowPerSynapse numColPerSynapse i
  { matrixTotalCM :=
      if markAt markNM i = 0 then
        s.matrixTotalCM + (d.1 : ℚ) * (d.2 : ℚ) * l.inputDepth * l.kernelRow * l.kernelCol
          * (numRowPerSynapse : ℚ) * l.outputDepth * (numColPerSynapse : ℚ)
      else s.matrixTotalCM,
    peDupRow := s.peDupRow ++ [(d.1 : ℚ)],
    peDupCol := s.peDupCol ++ [(d.2 : ℚ)] }

/-- The function `PEDesign`: with `Design` it returns `[[matrixTotalCM], [utilization]]`,
otherwise `[peDupRow, peDupCol]`. -/
def PEDesign (Design : Bool) (peSize desiredTileSize numTileTotal : ℚ) (markNM : List ℤ)
    (netStructure : List Layer) (numRowPerSynapse numColPerSynapse : ℤ) : List (List ℚ) :=
  let s := (List.range netStructure.length).foldl
    (peBody peSize desiredTileSize markNM netStructure numRowPerSynapse numColPerSynapse)
    ⟨0, [], []⟩
  let utilization := s.matrixTotalCM / (numTileTotal * desiredTileSize * desiredTileSize)
  if Design then [[s.matrixTotalCM], [utilization]] else [s.peDupRow, s.peDupCol]

/-- The pair `(actualDupRow, actualDupCol)` that `SubArrayDup` computes for layer `i`
(Chip.cpp 856-882). -/
def subArrayDupOf (p : Param) (desiredPESizeCM desiredPESizeNM : ℚ) (markNM : List ℤ)
    (netStructure : List Layer) (numRowPerSynapse numColPerSynapse : ℤ) (i : ℕ) : ℤ × ℤ :=
  let l := layerAt netStructure i
  if markAt markNM i = 0 then
    if l.inputDepth * l.kernelRow * l.kernelCol * (numRowPerSynapse : ℚ) ≤ desiredPESizeCM
        ∨ l.outputDepth * (numColPerSynapse : ℚ) ≤ desiredPESizeCM then
      let arrayForOneMatrixRow : ℤ :=
        ⌈l.inputDepth * l.kernelRow * l.kernelCol * (numRowPerSynapse : ℚ)
          / (p.numRowSubArray : ℚ)⌉
      let arrayForOneMatrixCol : ℤ :=
        ⌈l.outputDepth * (numColPerSynapse : ℚ) / (p.numColSubArray : ℚ)⌉
      let numSubArrayRow : ℤ := ⌈desiredPESizeCM / (p.numRowSubArray : ℚ)⌉
      let numSubArrayCol : ℤ := ⌈desiredPESizeCM / (p.numColSubArray : ℚ)⌉
      (⌈(numSubArrayRow : ℚ) / (arrayForOneMatrixRow : ℚ)⌉,
       ⌈(numSubArrayCol : ℚ) / (arrayForOneMatrixCol : ℚ)⌉)
    else (1, 1)
  else
    if l.inputDepth * (numRowPerSynapse : ℚ) ≤ desiredPESizeNM
        ∨ l.outputDepth * (numColPerSynapse : ℚ) ≤ desiredPESizeNM then
      let arrayForOneMatrixRow : ℤ :=
        ⌈l.inputDepth * (numRowPerSynapse : ℚ) / (p.numRowSubArray : ℚ)⌉
      let arrayForOneMatrixCol : ℤ :=
        ⌈l.outputDepth * (numColPerSynapse : ℚ) / (p.numColSubArray : ℚ)⌉
      let numSubArrayRow : ℤ := ⌈desiredPESizeCM / (p.numRowSubArray : ℚ)⌉
      let numSubArrayCol : ℤ := ⌈desiredPESizeCM / (p.numColSubArray : ℚ)⌉
      (⌈(numSubArrayRow : ℚ) / (arrayForOneMatrixRow : ℚ)⌉,
       ⌈(numSubArrayCol : ℚ) / (arrayForOneMatrixCol : ℚ)⌉)
    else (1, 1)

/-- The function `SubArrayDup`: the table `[subArrayDupRow, subArrayDupCol]`. -/
def SubArrayDup (p : Param) (desiredPESizeCM desiredPESizeNM : ℚ) (markNM : List ℤ)
    (netStructure : List Layer) (numRowPerSynapse numColPerSynapse : ℤ) : List (List ℚ) :=
  let d := fun i => subArrayDupOf p desiredPESizeCM desiredPESizeNM markNM netStructure
    numRowPerSynapse numColPerSynapse i
  [(List.range netStructure.length).map (fun i => ((d i).1 : ℚ)),
   (List.range netStructure.length).map (fun i => ((d i).2 : ℚ))]

/-- The values `numtileEachLayerRow`, `numtileEachLayerCol`, `utilizationEach` that
`OverallEachLayer` computes for layer `i` (Chip.cpp 906-923). -/
def overallOf (peDup subArrayDup : List (List ℚ)) (desiredTileSizeCM desiredPESizeNM : ℚ)
    (markNM : List ℤ) (netStructure : List Layer) (numRowPerSynapse numColPerSynapse : ℤ)
    (numPENM : ℚ) (i : ℕ) : ℚ × ℚ × ℚ :=
  let l := layerAt netStructure i
  if markAt markNM i = 0 then
    let numtileEachLayerRow :=
      ceilD (l.inputDepth * l.kernelRow * l.kernelCol * (numRowPerSynapse : ℚ) / desiredTileSizeCM)
    let numtileEachLayerCol := ceilD (l.outputDepth * (numColPerSynapse : ℚ) / desiredTileSizeCM)
    (numtileEachLayerRow, numtileEachLayerCol,
      (at2 peDup 0 i * at2 peDup 1 i * at2 subArrayDup 0 i * at2 subArrayDup 1 i
          * l.inputDepth * l.kernelRow * l.kernelCol * (numRowPerSynapse : ℚ)
          * l.outputDepth * (numColPerSynapse : ℚ))
        / (numtileEachLayerRow * numtileEachLayerCol * desiredTileSizeCM * desiredTileSizeCM))
  else
    let numtileEachLayerRow := ceilD (l.inputDepth * (numRowPerSynapse : ℚ) / desiredPESizeNM)
    let numtileEachLayerCol := ceilD (l.outputDepth * (numColPerSynapse : ℚ) / desiredPESizeNM)
    (numtileEachLayerRow, numtileEachLayerCol,
      (at2 peDup 0 i * at2 peDup 1 i * at2 subArrayDup 0 i * at2 subArrayDup 1 i
          * l.inputDepth * numPENM * (numRowPerSynapse : ℚ) * l.outputDepth
          * (numColPerSynapse : ℚ))
        / (numtileEachLayerRow * numtileEachLayerCol * desiredPESizeNM * desiredPESizeNM
            * numPENM))

/-- The function `OverallEachLayer`: with `utilization` it returns one one-element row
per layer, with `speedUp` the table `[speedUpEachLayerRow, speedUpEachLayerCol]`, and
otherwise the table `[numTileEachLayerRow, numTileEachLayerCol]`. -/
def OverallEachLayer (utilization speedUp : Bool) (peDup subArrayDup : List (List ℚ))
    (desiredTileSizeCM desiredPESizeNM : ℚ) (markNM : List ℤ) (netStructure : List Layer)
    (numRowPerSynapse numColPerSynapse : ℤ) (numPENM : ℚ) : List (List ℚ) :=
  let o := fun i => overallOf peDup subArrayDup desiredTileSizeCM desiredPESizeNM markNM
    netStructure numRowPerSynapse numColPerSynapse numPENM i
  let idx := List.range netStructure.length
  if utilization then idx.map (fun i => [(o i).2.2])
  else if speedUp then
    [idx.map (fun i => at2 peDup 0 i * at2 subArrayDup 0 i),
     idx.map (fun i => at2 peDup 1 i * at2 subArrayDup 1 i)]
  else [idx.map (fun i => (o i).1), idx.map (fun i => (o i).2.1)]

/-! ## `ChipFloorPlan` (Chip.cpp 143-298) -/

/-- The out-parameters and the local variables of `ChipFloorPlan`. -/
structure FloorPlan where
  maxUtilizationNM : ℚ
  maxUtilizationCM : ℚ
  desiredNumTileNM : ℚ
  desiredPESizeNM : ℚ
  desiredNumTileCM : ℚ
  desiredTileSizeCM : ℚ
  desiredPESizeCM : ℚ
  numTileRow : ℤ
  numTileCol : ℤ
  peDup : List (List ℚ)
  subArrayDup : List (List ℚ)
  numTileEachLayer : List (List ℚ)
  utilizationEachLayer : List (List ℚ)
  speedUpEachLayer : List (List ℚ)
  tileLocaEachLayer : List (List ℚ)
  deriving DecidableEq, Repr

/-- The state after the initialisations of Chip.cpp 152-167. -/
def FloorPlan.init : FloorPlan :=
  { maxUtilizationNM := 0, maxUtilizationCM := 0, desiredNumTileNM := 0, desiredPESizeNM := 0,
    desiredNumTileCM := 0, desiredTileSizeCM := 0, desiredPESizeCM := 0, numTileRow := 0,
    numTileCol := 0, peDup := [], subArrayDup := [], numTileEachLayer := [],
    utilizationEachLayer := [], speedUpEachLayer := [], tileLocaEachLayer := [] }

/-- The loop `for (x = start; x >= bound; x /= 2) body`: `none` when the fuel is used
up before the loop condition fails. -/
def forHalving {σ : Type} (bound : ℚ) (body : ℚ → σ → σ) : ℕ → ℚ → σ → Option σ
  | 0, _, _ => none
  | fuel + 1, x, s =>
    if bound ≤ x then forHalving bound body fuel (x / 2) (body x s) else some s

/-- Body of the novel-mapping PE-size search (Chip.cpp 176-186). -/
def searchBodyNM (p : Param) (netStructure : List Layer) (markNM : List ℤ)
    (maxPESizeNM numPENM : ℚ) (thisPESize : ℚ) (s : FloorPlan) : FloorPlan :=
  let s := { s with desiredPESizeNM := maxPESizeNM }
  let thisDesign := TileDesignNM thisPESize markNM netStructure p.numRowPerSynapse
    p.numColPerSynapse numPENM
  let thisUtilization := vecAt thisDesign 2
  if thisUtilization > s.maxUtilizationNM then
    { s with maxUtilizationNM := thisUtilization, desiredPESizeNM := thisPESize,
             desiredNumTileNM := vecAt thisDesign 0 }
  else s

/-- Body of the conventional tile-size search (Chip.cpp 189-199 and 228-238). -/
def searchBodyCM (p : Param) (netStructure : List Layer) (markNM : List ℤ)
    (maxTileSizeCM : ℚ) (thisTileSize : ℚ) (s : FloorPlan) : FloorPlan :=
  let s := { s with desiredTileSizeCM := maxTileSizeCM }
  let thisDesign := TileDesignCM thisTileSize markNM netStructure p.numRowPerSynapse
    p.numColPerSynapse
  let thisUtilization := vecAt thisDesign 2
  if thisUtilization > s.maxUtilizationCM then
    { s with maxUtilizationCM := thisUtilization, desiredTileSizeCM := thisTileSize,
             desiredNumTileCM := vecAt thisDesign 0 }
  else s

/-- Body of the conventional PE-size search (Chip.cpp 203-212 and 243-252). -/
def searchBodyPE (p : Param) (netStructure : List Layer) (markNM : List ℤ)
    (thisPESize : ℚ) (s : FloorPlan) : FloorPlan :=
  let s := { s with desiredPESizeCM := s.desiredTileSizeCM / 2 }
  let thisDesign := PEDesign true thisPESize s.desiredTileSizeCM s.desiredNumTileCM markNM
    netStructure p.numRowPerSynapse p.numColPerSynapse
  let thisUtilization := at2 thisDesign 1 0
  if thisUtilization > s.maxUtilizationCM then
    { s with maxUtilizationCM := thisUtilization, desiredPESizeCM := thisPESize }
  else s

/-- The statements after the searches (Chip.cpp 214-220 and 254-260); `peNM` is the
novel PE size handed to `SubArrayDup` and `OverallEachLayer`: `*desiredPESizeNM` with
novel mapping and the constant `0` without. -/
def planTables (p : Param) (netStructure : List Layer) (markNM : List ℤ) (numPENM peNM : ℚ)
    (s : FloorPlan) : FloorPlan :=
  let peDup := PEDesign false s.desiredPESizeCM s.desiredTileSizeCM s.desiredNumTileCM markNM
    netStructure p.numRowPerSynapse p.numColPerSynapse
  let subArrayDup := SubArrayDup p s.desiredPESizeCM peNM markNM netStructure
    p.numRowPerSynapse p.numColPerSynapse
  { s with
    peDup := peDup,
    subArrayDup := subArrayDup,
    numTileEachLayer := OverallEachLayer false false peDup subArrayDup s.desiredTileSizeCM peNM
      markNM netStructure p.numRowPerSynapse p.numColPerSynapse numPENM,
    utilizationEachLayer := OverallEachLayer true false peDup subArrayDup s.desiredTileSizeCM
      peNM markNM netStructure p.numRowPerSynapse p.numColPerSynapse numPENM,
    speedUpEachLayer := OverallEachLayer false true peDup subArrayDup s.desiredTileSizeCM peNM
      markNM netStructure p.numRowPerSynapse p.numColPerSynapse numPENM }

/-- The size search of `ChipFloorPlan` (Chip.cpp 161-262): the feasibility check, the
halving searches and the per-layer tables. -/
def floorPlanSearch (p : Param) (fuel : ℕ) (netStructure : List Layer) (markNM : List ℤ)
    (maxPESizeNM maxTileSizeCM numPENM : ℚ) : Option FloorPlan :=
  if p.novelMapping then
    if maxPESizeNM < 2 * (p.numRowSubArray : ℚ) ∨ maxTileSizeCM < 4 * (p.numRowSubArray : ℚ) then
      some FloorPlan.init
    else do
      let s ← forHalving (2 * (p.numRowSubArray : ℚ))
        (searchBodyNM p netStructure markNM maxPESizeNM numPENM) fuel maxPESizeNM FloorPlan.init
      let s ← forHalving (4 * (p.numRowSubArray : ℚ))
        (searchBodyCM p netStructure markNM maxTileSizeCM) fuel maxTileSizeCM s
      let s ← forHalving (2 * (p.numRowSubArray : ℚ))
        (searchBodyPE p netStructure markNM) fuel (s.desiredTileSizeCM / 2) s
      some (planTables p netStructure markNM numPENM s.desiredPESizeNM s)
  else
    if maxTileSizeCM < 4 * (p.numRowSubArray : ℚ) then
      some FloorPlan.init
    else do
      let s ← forHalving (4 * (p.numRowSubArray : ℚ))
        (searchBodyCM p netStructure markNM maxTileSizeCM) fuel maxTileSizeCM FloorPlan.init
      let s ← forHalving (2 * (p.numRowSubArray : ℚ))
        (searchBodyPE p netStructure markNM) fuel (s.desiredTileSizeCM / 2) s
      some (planTables p netStructure markNM numPENM 0 s)

/-- The local variables of the tile-location loop (Chip.cpp 267-280). -/
structure LocaState where
  thisTileTotal : ℚ
  tileLocaEachLayerRow : List ℚ
  tileLocaEachLayerCol : List ℚ
  deriving DecidableEq, Repr

/-- Body of the tile-location loop (Chip.cpp 271-280).  The `int` division and remainder
of C truncate toward zero (`Int.tdiv`, `Int.tmod`).  This step reads `numTileEachLayer`
with the default `0` and divides by `numTileRow = 0` with the result `0`; it is the step
of the source where the table has an entry for layer `i` and `numTileRow ≠ 0`, as on a
feasible plan with a positive tile count.  Elsewhere the source reads outside the table
or divides an `int` by `0`; `locaBodyChecked` is the step with both conditions
checked. -/
def locaBody (numTileEachLayer : List (List ℚ)) (numTileRow : ℤ) (s : LocaState) (i : ℕ) :
    LocaState :=
  if i = 0 then
    { s with tileLocaEachLayerRow := s.tileLocaEachLayerRow ++ [0],
             tileLocaEachLayerCol := s.tileLocaEachLayerCol ++ [0] }
  else
    let thisTileTotal := s.thisTileTotal + at2 numTileEachLayer 0 i * at2 numTileEachLayer 1 i
    { thisTileTotal := thisTileTotal,
      tileLocaEachLayerRow :=
        s.tileLocaEachLayerRow ++ [((Int.tdiv (toInt thisTileTotal) numTileRow : ℤ) : ℚ)],
      tileLocaEachLayerCol :=
        s.tileLocaEachLayerCol ++ [((Int.tmod (toInt thisTileTotal) numTileRow - 1 : ℤ) : ℚ)] }

/-- The function `ChipFloorPlan`.  The result is the returned table together with the
final values of the out-parameters (and of the local tables).  The source declares
`thisTileTotal` without initialising it; its start value is the argument
`thisTileTotal0`.  The tile-location loop is that of `locaBody`, with default reads: on
an infeasible plan, where the table is empty and `numTileRow = 0`, this function returns
for every network although the source is aborted in the loop when the network has two or
more layers.  `ChipFloorPlanChecked` is the function with the loop checked; wherever it
returns, this function returns the same (`ChipFloorPlanChecked_some`), on a feasible plan
with `numTileRow ≠ 0` the two agree (`ChipFloorPlanChecked_feasible`), and statements
about the infeasible branch are made on `ChipFloorPlanChecked`. -/
def ChipFloorPlan (p : Param) (fuel : ℕ) (findNumTile findUtilization findSpeedUp : Bool)
    (netStructure : List Layer) (markNM : List ℤ) (maxPESizeNM maxTileSizeCM numPENM : ℚ)
    (thisTileTotal0 : ℚ) : Option (List (List ℚ) × FloorPlan) := do
  let s ← floorPlanSearch p fuel netStructure markNM maxPESizeNM maxTileSizeCM numPENM
  let numTileRow := ceilSqrt (s.desiredNumTileCM + s.desiredNumTileNM)
  let numTileCol : ℤ := ⌈(s.desiredNumTileCM + s.desiredNumTileNM) / (numTileRow : ℚ)⌉
  let loca := (List.range netStructure.length).foldl (locaBody s.numTileEachLayer numTileRow)
    ⟨thisTileTotal0, [], []⟩
  let s := { s with numTileRow := numTileRow, numTileCol := numTileCol,
                    tileLocaEachLayer := [loca.tileLocaEachLayerRow, loca.tileLocaEachLayerCol] }
  if findNumTile then some (s.numTileEachLayer, s)
  else if findUtilization then some (s.utilizationEachLayer, s)
  else if findSpeedUp then some (s.speedUpEachLayer, s)
  else some (s.tileLocaEachLayer, s)

/-! ## `main` (main.cpp 115-119) -/

/-- The sum `totalNumTile` that `main` accumulates over the layers. -/
def totalNumTile (netStructure : List Layer) (numTileEachLayer : List (List ℚ)) : ℚ :=
  (List.range netStructure.length).foldl
    (fun acc i => acc + at2 numTileEachLayer 0 i * at2 numTileEachLayer 1 i) 0

/-! ## Concrete inputs -/

/-- Parameters of a conventional-only run with 128×128 sub-arrays and one cell per
synapse (`numColPerSynapse = ceil(synapseBit/cellBit) = 1`). -/
def paramCM : Param :=
  { novelMapping := false, numRowSubArray := 128, numColSubArray := 128,
    numRowPerSynapse := 1, numColPerSynapse := 1 }

/-- A one-layer network: a fully connected layer with 1024 inputs and 2048 outputs
(network file row `1,1,1024,1,1,2048,0`). -/
def netWide : List Layer :=
  [{ inputRow := 1, inputCol := 1, inputDepth := 1024, kernelRow := 1, kernelCol := 1,
     outputDepth := 2048, followedByMaxPool := 0 }]

/-- A one-layer network: a 3×3 convolution from 64 to 1024 channels on a 16×16 input
(network file row `16,16,64,3,3,1024,0`). -/
def netConv : List Layer :=
  [{ inputRow := 16, inputCol := 16, inputDepth := 64, kernelRow := 3, kernelCol := 3,
     outputDepth := 1024, followedByMaxPool := 0 }]

/-! ## Auxiliary predicates of the proofs -/

/-- The number `m` is the running maximum, started at `0`, of the values `c i` over
the indices `i < n` selected by `sel`: it bounds every selected value, and it is `0`
with nothing selected or else one of the selected values. -/
def RunningMax (sel : ℕ → Prop) (c : ℕ → ℚ) (n : ℕ) (m : ℚ) : Prop :=
  (∀ i, i < n → sel i → c i ≤ m) ∧
    ((m = 0 ∧ ∀ i, i < n → ¬ sel i) ∨ ∃ i, i < n ∧ sel i ∧ m = c i)

/-- The truncated kernel product `temp` of layer `i` (Chip.cpp 101). -/
def kernelTemp (netStructure : List Layer) (i : ℕ) : ℤ :=
  toInt32 ((layerAt netStructure i).kernelRow * (layerAt netStructure i).kernelCol)

/-- The value of `count` when the inner loop for the product `temp` has finished: one
plus the number of layers whose kernel product equals `temp`. -/
def finalCount (netStructure : List Layer) (temp : ℤ) : ℤ :=
  1 + (((List.range netStructure.length).countP (fun j => decide ((temp : ℚ) =
    (layerAt netStructure j).kernelRow * (layerAt netStructure j).kernelCol)) : ℕ) : ℤ)

/-- Parameters of a run with novel mapping, 128×128 sub-arrays and one cell per
synapse. -/
def paramNM : Param :=
  { novelMapping := true, numRowSubArray := 128, numColSubArray := 128,
    numRowPerSynapse := 1, numColPerSynapse := 1 }

/-- A two-layer network of 3×3 convolutions (network file rows `16,16,64,3,3,128,0`
and `16,16,128,3,3,256,0`). -/
def netTwo : List Layer :=
  [{ inputRow := 16, inputCol := 16, inputDepth := 64, kernelRow := 3, kernelCol := 3,
     outputDepth := 128, followedByMaxPool := 0 },
   { inputRow := 16, inputCol := 16, inputDepth := 128, kernelRow := 3, kernelCol := 3,
     outputDepth := 256, followedByMaxPool := 0 }]

/-- A one-layer network: a 5×5 convolution from 1 to 8 channels on a 28×28 input
(network file row `28,28,1,5,5,8,0`). -/
def netSmall : List Layer :=
  [{ inputRow := 28, inputCol := 28, inputDepth := 1, kernelRow := 5, kernelCol := 5,
     outputDepth := 8, followedByMaxPool := 0 }]

/-- A one-layer network: a 3×3 convolution from 64 to 2048 channels on a 16×16 input
(network file row `16,16,64,3,3,2048,0`). -/
def netConvWide : List Layer :=
  [{ inputRow := 16, inputCol := 16, inputDepth := 64, kernelRow := 3, kernelCol := 3,
     outputDepth := 2048, followedByMaxPool := 0 }]

/-- A two-layer network of fully connected layers, 512 → 1024 → 512 (network file rows
`1,1,512,1,1,1024,0` and `1,1,1024,1,1,512,0`). -/
def netFC2 : List Layer :=
  [{ inputRow := 1, inputCol := 1, inputDepth := 512, kernelRow := 1, kernelCol := 1,
     outputDepth := 1024, followedByMaxPool := 0 },
   { inputRow := 1, inputCol := 1, inputDepth := 1024, kernelRow := 1, kernelCol := 1,
     outputDepth := 512, followedByMaxPool := 0 }]

/-! ## `ChipCalculateArea` (Chip.cpp 398-486) -/

/-- The fields of the global `param` object read by `ChipCalculateArea`,
`ChipCalculatePerformance` and `LoadInWeightData`, on top of those of `Param`. -/
structure ChipParam extends Param where
  chipActivation : Bool
  reLu : Bool
  synapseBit : ℤ
  cellBit : ℤ
  deriving DecidableEq, Repr

/-- The result of the device model `TileCalculateArea`, which is not part of this
source file: the returned vector `[area, areaIC, areaADC, areaAccum, areaOther]` and the
two out-parameters `height` and `width`. -/
structure TileAreaResult where
  areas : List ℚ
  height : ℚ
  width : ℚ
  deriving DecidableEq, Repr

/-- The `area` fields of the shared circuit modules after their `CalculateArea` calls
(Chip.cpp 456-470); the modules are device models outside this source file. -/
structure ModuleAreas where
  globalBuffer : ℚ
  GhTree : ℚ
  maxPool : ℚ
  Gaccumulation : ℚ
  GreLu : ℚ
  Gsigmoid : ℚ
  deriving DecidableEq, Repr

/-- The outputs of `ChipCalculateArea`: the returned vector `areaResults` and the four
tile out-parameters.  The out-parameters `*height = sqrt(area)` and
`*width = area/(*height)` are left out of the model (the square root is not rational). -/
structure ChipArea where
  areaResults : List ℚ
  CMTileheight : ℚ
  CMTilewidth : ℚ
  NMTileheight : ℚ
  NMTilewidth : ℚ
  deriving DecidableEq, Repr

/-- The function `ChipCalculateArea`; the device model `TileCalculateArea` and the module
areas are arguments. -/
def ChipCalculateArea (p : ChipParam) (TileCalculateArea : ℚ → ℚ → TileAreaResult)
    (m : ModuleAreas) (desiredNumTileNM numPENM desiredPESizeNM desiredNumTileCM
      desiredTileSizeCM desiredPESizeCM : ℚ) : ChipArea :=
  let area : ℚ := 0
  let areaIC : ℚ := 0
  let areaADC : ℚ := 0
  let areaAccum : ℚ := 0
  let areaOther : ℚ := 0
  let areaNMTile := TileCalculateArea numPENM desiredPESizeNM
  -- Chip.cpp 424-438
  let area := if p.novelMapping then area + vecAt areaNMTile.areas 0 * desiredNumTileNM else area
  let areaIC :=
    if p.novelMapping then areaIC + vecAt areaNMTile.areas 1 * desiredNumTileNM else areaIC
  let areaADC :=
    if p.novelMapping then areaADC + vecAt areaNMTile.areas 2 * desiredNumTileNM else areaADC
  let areaAccum :=
    if p.novelMapping then areaAccum + vecAt areaNMTile.areas 3 * desiredNumTileNM else areaAccum
  let areaOther :=
    if p.novelMapping then areaOther + vecAt areaNMTile.areas 4 * desiredNumTileNM else areaOther
  let NMTileheight := if p.novelMapping then areaNMTile.height else 0
  let NMTilewidth := if p.novelMapping then areaNMTile.width else 0
  -- Chip.cpp 440-454
  let areaCMTile := TileCalculateArea (ceilD (desiredTileSizeCM / desiredPESizeCM) ^ 2)
    desiredPESizeCM
  let area := area + vecAt areaCMTile.areas 0 * desiredNumTileCM
  let areaIC := areaIC + vecAt areaCMTile.areas 1 * desiredNumTileCM
  let areaADC := areaADC + vecAt areaCMTile.areas 2 * desiredNumTileCM
  let areaAccum := areaAccum + vecAt areaCMTile.areas 3 * desiredNumTileCM
  let areaOther := areaOther + vecAt areaCMTile.areas 4 * desiredNumTileCM
  -- Chip.cpp 463-472
  let area :=
    if p.chipActivation then
      if p.reLu then area + m.GreLu else area + m.Gsigmoid
    else area
  -- Chip.cpp 474-480
  let area := area + (m.globalBuffer + m.GhTree + m.maxPool + m.Gaccumulation)
  let areaIC := areaIC + m.GhTree
  { areaResults := [area, areaIC, areaADC, areaAccum + m.Gaccumulation,
      areaOther + m.globalBuffer + m.GhTree + m.maxPool],
    CMTileheight := areaCMTile.height,
    CMTilewidth := areaCMTile.width,
    NMTileheight := NMTileheight,
    NMTilewidth := NMTilewidth }

/-! ## `ChipCalculatePerformance` (Chip.cpp 489-753) -/

/-- The values that the device model `TileCalculatePerformance`, which is not part of
this source file, writes through its out-parameters for one tile. -/
structure TileResult where
  tileReadLatency : ℚ
  tileReadDynamicEnergy : ℚ
  tileLeakage : ℚ
  tilebufferLatency : ℚ
  tilebufferDynamicEnergy : ℚ
  tileicLatency : ℚ
  tileicDynamicEnergy : ℚ
  tileLatencyADC : ℚ
  tileLatencyAccum : ℚ
  tileLatencyOther : ℚ
  tileEnergyADC : ℚ
  tileEnergyAccum : ℚ
  tileEnergyOther : ℚ
  deriving DecidableEq, Repr

/-- The fields `readLatency` and `readDynamicEnergy` of a shared circuit module after its
`CalculateLatency` and `CalculatePower` calls. -/
structure ModuleCost where
  readLatency : ℚ
  readDynamicEnergy : ℚ
  deriving DecidableEq, Repr

/-- The fields of `globalBuffer` after its `CalculateLatency` and `CalculatePower`
calls. -/
structure BufferCost where
  readLatency : ℚ
  writeLatency : ℚ
  readDynamicEnergy : ℚ
  writeDynamicEnergy : ℚ
  deriving DecidableEq, Repr

/-- The device models that `ChipCalculatePerformance` calls, as functions of the tile
index `(i, j)` at which they are called: the tile model, the chip-level ReLU and Sigmoid
units, the accumulation tree and the max-pool unit inside the tile loop, and the
interconnect tree and the global buffer after it. -/
structure PerfModels where
  tile : ℕ → ℕ → TileResult
  GreLu : ℕ → ℕ → ModuleCost
  Gsigmoid : ℕ → ℕ → ModuleCost
  Gaccumulation : ℕ → ℕ → ModuleCost
  maxPool : ℕ → ℕ → ModuleCost
  GhTree : ModuleCost
  globalBuffer : BufferCost

/-- The out-parameters of `ChipCalculatePerformance`.  During the tile loop the field
`leakage` holds the local variable `tileLeakage`, which the source copies to `*leakage`
at the end (Chip.cpp 752). -/
structure Performance where
  readLatency : ℚ
  readDynamicEnergy : ℚ
  leakage : ℚ
  bufferLatency : ℚ
  bufferDynamicEnergy : ℚ
  icLatency : ℚ
  icDynamicEnergy : ℚ
  coreLatencyADC : ℚ
  coreLatencyAccum : ℚ
  coreLatencyOther : ℚ
  coreEnergyADC : ℚ
  coreEnergyAccum : ℚ
  coreEnergyOther : ℚ
  deriving DecidableEq, Repr

/-- The state after the initialisations of Chip.cpp 513-528. -/
def Performance.init : Performance :=
  { readLatency := 0, readDynamicEnergy := 0, leakage := 0, bufferLatency := 0,
    bufferDynamicEnergy := 0, icLatency := 0, icDynamicEnergy := 0, coreLatencyADC := 0,
    coreLatencyAccum := 0, coreLatencyOther := 0, coreEnergyADC := 0, coreEnergyAccum := 0,
    coreEnergyOther := 0 }

/-- Body of the tile loop for tile `(i, j)` (Chip.cpp 562-612 for conventional mapping
and, with the same statements, 671-722 for novel mapping); `numTileRowL` is
`numTileEachLayer[0][l]`. -/
def perfTileBody (p : ChipParam) (followedByMaxPool : Bool) (numTileRowL : ℚ) (m : PerfModels)
    (i : ℕ) (s : Performance) (j : ℕ) : Performance :=
  let t := m.tile i j
  -- Chip.cpp 562-575
  let s : Performance :=
    { readLatency := max t.tileReadLatency s.readLatency,
      readDynamicEnergy := s.readDynamicEnergy + t.tileReadDynamicEnergy,
      leakage := t.tileLeakage,
      bufferLatency := max t.tilebufferLatency s.bufferLatency,
      bufferDynamicEnergy := s.bufferDynamicEnergy + t.tilebufferDynamicEnergy,
      icLatency := max t.tileicLatency s.icLatency,
      icDynamicEnergy := s.icDynamicEnergy + t.tileicDynamicEnergy,
      coreLatencyADC := max t.tileLatencyADC s.coreLatencyADC,
      coreLatencyAccum := max t.tileLatencyAccum s.coreLatencyAccum,
      coreLatencyOther := max t.tileLatencyOther s.coreLatencyOther,
      coreEnergyADC := s.coreEnergyADC + t.tileEnergyADC,
      coreEnergyAccum := s.coreEnergyAccum + t.tileEnergyAccum,
      coreEnergyOther := s.coreEnergyOther + t.tileEnergyOther }
  -- Chip.cpp 577-593
  let s : Performance :=
    if p.chipActivation then
      let a := if p.reLu then m.GreLu i j else m.Gsigmoid i j
      { s with readLatency := s.readLatency + a.readLatency,
               readDynamicEnergy := s.readDynamicEnergy + a.readDynamicEnergy,
               coreLatencyOther := s.coreLatencyOther + a.readLatency,
               coreEnergyOther := s.coreEnergyOther + a.readDynamicEnergy }
    else s
  -- Chip.cpp 595-602
  let s : Performance :=
    if numTileRowL > 1 then
      let a := m.Gaccumulation i j
      { s with readLatency := s.readLatency + a.readLatency,
               readDynamicEnergy := s.readDynamicEnergy + a.readDynamicEnergy,
               coreLatencyAccum := s.coreLatencyAccum + a.readLatency,
               coreEnergyAccum := s.coreEnergyAccum + a.readDynamicEnergy }
    else s
  -- Chip.cpp 605-612
  if followedByMaxPool then
    let a := m.maxPool i j
    { s with readLatency := s.readLatency + a.readLatency,
             readDynamicEnergy := s.readDynamicEnergy + a.readDynamicEnergy,
             coreLatencyOther := s.coreLatencyOther + a.readLatency,
             coreEnergyOther := s.coreEnergyOther + a.readDynamicEnergy }
  else s

/-- The two nested tile loops (Chip.cpp 531-615 and 637-723).  The loop variables are
`int`s compared with the `double` tile counts, so the loops run `ceil` of the counts
many times (never for a count `≤ 0`). -/
def perfTileLoops (p : ChipParam) (followedByMaxPool : Bool) (numTileRowL numTileColL : ℚ)
    (m : PerfModels) : Performance :=
  (List.range ⌈numTileRowL⌉₊).foldl
    (fun s i => (List.range ⌈numTileColL⌉₊).foldl
      (perfTileBody p followedByMaxPool numTileRowL m i) s)
    Performance.init

/-- The whole-layer costs of a conventional layer (Chip.cpp 616-634). -/
def perfFinishCM (m : PerfModels) (s : Performance) : Performance :=
  let b := m.globalBuffer
  let t := m.GhTree
  { s with
    bufferLatency := s.bufferLatency + (b.readLatency + b.writeLatency),
    bufferDynamicEnergy := s.bufferDynamicEnergy + (b.readDynamicEnergy + b.writeDynamicEnergy),
    icLatency := s.icLatency + t.readLatency,
    icDynamicEnergy := s.icDynamicEnergy + t.readDynamicEnergy,
    readLatency := s.readLatency + (b.readLatency + b.writeLatency + t.readLatency),
    readDynamicEnergy := s.readDynamicEnergy
      + (b.readDynamicEnergy + b.writeDynamicEnergy + t.readDynamicEnergy),
    coreLatencyOther := s.coreLatencyOther + (b.readLatency + b.writeLatency + t.readLatency),
    coreEnergyOther := s.coreEnergyOther
      + (b.readDynamicEnergy + b.writeDynamicEnergy + t.readDynamicEnergy) }

/-- The whole-layer costs of a novel layer (Chip.cpp 724-750); `kernelRow` is
`netStructure[l][3]`. -/
def perfFinishNM (m : PerfModels) (kernelRow : ℚ) (s : Performance) : Performance :=
  let b := m.globalBuffer
  let t := m.GhTree
  -- Chip.cpp 724-726
  let coreLatencyOther := s.coreLatencyOther - s.bufferLatency
  let coreLatencyOther := coreLatencyOther - s.icLatency
  let readLatency := s.readLatency - (s.bufferLatency + s.icLatency)
  -- Chip.cpp 738-744
  let bufferLatency := s.bufferLatency + (b.readLatency + b.writeLatency)
  let bufferDynamicEnergy := s.bufferDynamicEnergy + (b.readDynamicEnergy + b.writeDynamicEnergy)
  let icLatency := s.icLatency + t.readLatency
  let icDynamicEnergy := s.icDynamicEnergy + t.readDynamicEnergy
  let bufferLatency := bufferLatency / kernelRow
  let icLatency := icLatency / kernelRow
  -- Chip.cpp 746-750
  { s with
    bufferLatency := bufferLatency,
    bufferDynamicEnergy := bufferDynamicEnergy,
    icLatency := icLatency,
    icDynamicEnergy := icDynamicEnergy,
    readLatency := readLatency + (bufferLatency + icLatency),
    readDynamicEnergy := s.readDynamicEnergy
      + (b.readDynamicEnergy + b.writeDynamicEnergy + t.readDynamicEnergy),
    coreLatencyOther := coreLatencyOther + (bufferLatency + icLatency),
    coreEnergyOther := s.coreEnergyOther
      + (b.readDynamicEnergy + b.writeDynamicEnergy + t.readDynamicEnergy) }

/-- The function `ChipCalculatePerformance` for layer `l`: the accumulation of the
latencies and energies that the device models report.  The loading and slicing of the
weight and input data only feed the device models and are not part of this function of
the model. -/
def ChipCalculatePerformance (p : ChipParam) (l : ℕ) (followedByMaxPool : Bool)
    (netStructure : List Layer) (markNM : List ℤ) (numTileEachLayer : List (List ℚ))
    (m : PerfModels) : Performance :=
  let s := perfTileLoops p followedByMaxPool (at2 numTileEachLayer 0 l)
    (at2 numTileEachLayer 1 l) m
  if markAt markNM l = 0 then perfFinishCM m s
  else perfFinishNM m (layerAt netStructure l).kernelRow s

/-- The maximum, started at `0`, of `f i j` over the tiles `i < nR`, `j < nC`, taken in
the order of the tile loops. -/
def maxOverTiles (nR nC : ℕ) (f : ℕ → ℕ → ℚ) : ℚ :=
  (List.range nR).foldl (fun a i => (List.range nC).foldl (fun a j => max (f i j) a) a) 0

/-- The sum of `f i j` over the tiles `i < nR`, `j < nC`, taken in the order of the tile
loops. -/
def sumOverTiles (nR nC : ℕ) (f : ℕ → ℕ → ℚ) : ℚ :=
  (List.range nR).foldl (fun a i => (List.range nC).foldl (fun a j => a + f i j) a) 0

/-- Parameters of a conventional-only run with tile-level activation and 8-bit synapses
in 8-bit cells. -/
def paramPerf : ChipParam :=
  { toParam := paramCM, chipActivation := false, reLu := true, synapseBit := 8, cellBit := 8 }

/-- Parameters of a run with novel mapping, tile-level activation and 8-bit synapses in
8-bit cells. -/
def paramPerfNM : ChipParam :=
  { toParam := paramNM, chipActivation := false, reLu := true, synapseBit := 8, cellBit := 8 }

/-- A tile that reports read latency `lat`, read energy `en`, buffer latency `buf` and
zero everywhere else. -/
def simpleTile (lat en buf : ℚ) : TileResult :=
  { tileReadLatency := lat, tileReadDynamicEnergy := en, tileLeakage := 0,
    tilebufferLatency := buf, tilebufferDynamicEnergy := 0, tileicLatency := 0,
    tileicDynamicEnergy := 0, tileLatencyADC := 0, tileLatencyAccum := 0, tileLatencyOther := 0,
    tileEnergyADC := 0, tileEnergyAccum := 0, tileEnergyOther := 0 }

/-- Device models of the aggregation scenario: tile `(0, 0)` reports latency 3 and energy
2, every other tile latency 5 and energy 2, and all shared modules report zero. -/
def twoTileModels : PerfModels :=
  { tile := fun _ j => if j = 0 then simpleTile 3 2 0 else simpleTile 5 2 0,
    GreLu := fun _ _ => ⟨0, 0⟩, Gsigmoid := fun _ _ => ⟨0, 0⟩,
    Gaccumulation := fun _ _ => ⟨0, 0⟩, maxPool := fun _ _ => ⟨0, 0⟩,
    GhTree := ⟨0, 0⟩, globalBuffer := ⟨0, 0, 0, 0⟩ }

/-- Device models with one relevant tile: every tile reports read latency 3, energy 0
and buffer latency 3, and the global buffer reports read latency 3. -/
def bufferModels : PerfModels :=
  { tile := fun _ _ => simpleTile 3 0 3,
    GreLu := fun _ _ => ⟨0, 0⟩, Gsigmoid := fun _ _ => ⟨0, 0⟩,
    Gaccumulation := fun _ _ => ⟨0, 0⟩, maxPool := fun _ _ => ⟨0, 0⟩,
    GhTree := ⟨0, 0⟩, globalBuffer := ⟨3, 0, 0, 0⟩ }

/-! ## `LoadInWeightData` (Chip.cpp 958-1038) -/

/-- Rounding of a rational number to the nearest integer, a tie going to the even
neighbour. -/
def roundHalfEven (t : ℚ) : ℤ :=
  if t - ⌊t⌋ < 1 / 2 then ⌊t⌋
  else if 1 / 2 < t - ⌊t⌋ then ⌊t⌋ + 1
  else if ⌊t⌋ % 2 = 0 then ⌊t⌋ else ⌊t⌋ + 1

/-- The result of an arithmetic operation on `double` values whose exact value is `x`:
`x` rounded to 53 significant bits, to nearest, ties to even (the default rounding of
IEEE 754 binary64).  With `2^e ≤ |x| < 2^(e+1)` the result is the multiple of
`2^(e-52)` nearest to `x`.  The exponent is not bounded: overflow and subnormal numbers
are outside the model. -/
def roundDouble (x : ℚ) : ℚ :=
  if x = 0 then 0
  else roundHalfEven (x / (2 : ℚ) ^ (Int.log 2 |x| - 52)) * (2 : ℚ) ^ (Int.log 2 |x| - 52)

/-- The rational number `b` is a `double` with 53 significant bits: an integer of
absolute value below `2^53` times a power of two. -/
def Representable (b : ℚ) : Prop := ∃ n j : ℤ, |n| < 2 ^ 53 ∧ b = (n : ℚ) * (2 : ℚ) ^ j

/-- The local variable `NormalizedMax = pow(2, param->synapseBit) - 1`. -/
def NormalizedMax (p : ChipParam) : ℚ := roundDouble ((2 : ℚ) ^ p.synapseBit - 1)

/-- The value of `newdata` after the rescaling and the rounding offset
(Chip.cpp 1008-1013) for the weight value `f`, a `double`.  Every arithmetic operation of
the source is on `double` values and rounds its result (`roundDouble`), in the order of
evaluation of the expression. -/
def newdata (p : ChipParam) (f : ℚ) : ℚ :=
  let NormalizedMin : ℚ := 0
  let RealMax : ℚ := 1
  let RealMin : ℚ := -1
  let newdata := roundDouble
    (roundDouble
        (roundDouble (roundDouble (NormalizedMax p - NormalizedMin)
            / roundDouble (RealMax - RealMin))
          * roundDouble (f - RealMax))
      + NormalizedMax p)
  if newdata ≥ 0 then roundDouble (newdata + 1 / 2) else roundDouble (newdata - 1 / 2)

/-- The integer codeword `int value = newdata` of the weight value `f` (Chip.cpp 1017):
the truncation of `newdata` to a 32-bit `int` (`toInt32`). -/
def codeword (p : ChipParam) (f : ℚ) : ℤ := toInt32 (newdata p f)

/-- The local variable `int cellrange = pow(2, param->cellBit)`; an `int` holds it for
`cellBit ≤ 30`. -/
def cellrange (p : ChipParam) : ℤ := toInt ((2 : ℚ) ^ p.cellBit)

/-- The local variables `value`, `remainder`, `synapsevector` of the digit loop. -/
structure DigitState where
  value : ℤ
  remainder : ℤ
  synapsevector : List ℚ
  deriving DecidableEq, Repr

/-- Body of the digit loop (Chip.cpp 1019-1023): `%` and `/` are the truncating `int`
operations of C, and `insert(begin(), remainder)` puts the digit in front. -/
def digitBody (cellrange : ℤ) (s : DigitState) (_z : ℕ) : DigitState :=
  let remainder : ℤ := ⌈((Int.tmod s.value cellrange : ℤ) : ℚ)⌉
  let value : ℤ := ⌈((Int.tdiv s.value cellrange : ℤ) : ℚ)⌉
  { value := value, remainder := remainder,
    synapsevector := (remainder : ℚ) :: s.synapsevector }

/-- The vector `synapsevector` after the digit loop for the codeword `value`.  The source
creates it with `numColPerSynapse` zero entries and inserts the digits in front of
them. -/
def synapseVector (cellrange numColPerSynapse value : ℤ) : List ℚ :=
  ((List.range numColPerSynapse.toNat).foldl (digitBody cellrange)
    ⟨value, 0, List.replicate numColPerSynapse.toNat 0⟩).synapsevector

/-- The conductances pushed to `weightrow` for the codeword `value` (Chip.cpp 1024-1028):
entry `u` is computed from `synapsevector[u]`. -/
def conductances (cellrange numColPerSynapse : ℤ) (maxConductance minConductance : ℚ)
    (value : ℤ) : List ℚ :=
  (List.range numColPerSynapse.toNat).map (fun u =>
    vecAt (synapseVector cellrange numColPerSynapse value) u / ((cellrange - 1 : ℤ) : ℚ)
      * (maxConductance - minConductance) + minConductance)

/-- The inverse map of the round-trip property, following the words of the
specification: each conductance `g_u` gives the digit
`(g_u - minConductance)/(maxConductance - minConductance) * (2^cellBit - 1)`, and the
digits are summed with the weights `(2^cellBit)^(numColPerSynapse-1-u)`. -/
def decodeConductances (p : ChipParam) (numColPerSynapse : ℤ)
    (maxConductance minConductance : ℚ) (g : List ℚ) : ℚ :=
  ∑ u in Finset.range numColPerSynapse.toNat,
    ((vecAt g u - minConductance) / (maxConductance - minConductance)
        * ((2 : ℚ) ^ p.cellBit - 1))
      * ((2 : ℚ) ^ p.cellBit) ^ (numColPerSynapse.toNat - 1 - u)

/-- Parameters with 4-bit synapses stored in 2-bit cells, i.e. two cells per synapse. -/
def paramBits : ChipParam :=
  { toParam := { novelMapping := false, numRowSubArray := 128, numColSubArray := 128,
                 numRowPerSynapse := 1, numColPerSynapse := 2 },
    chipActivation := false, reLu := true, synapseBit := 4, cellBit := 2 }

/-! ## `ChipInitialize` (Chip.cpp 301-394) -/

/-- The fields of the global `param` object read by the sizing loop of `ChipInitialize`,
on top of those of `ChipParam`. -/
structure InitParam extends ChipParam where
  numColMuxed : ℤ
  maxGlobalBusWidth : ℚ
  deriving DecidableEq, Repr

/-- The local variables `maxLayerInput`, `globalBusWidth` and `maxTileAdded` of
`ChipInitialize` (Chip.cpp 311-315). -/
structure InitState where
  maxLayerInput : ℚ
  globalBusWidth : ℚ
  maxTileAdded : ℚ
  deriving DecidableEq, Repr

/-- Body of the loop over the layers (Chip.cpp 317-332).  The bus width is accumulated
in `double` arithmetic, every operation rounding its result (`roundDouble`); the other
two variables only compare and copy values.  For `numColMuxed = 0` the source divides
by zero and its width is infinite, which the model does not represent. -/
def initBody (p : InitParam) (netStructure : List Layer) (markNM : List ℤ)
    (numTileEachLayer : List (List ℚ)) (numPENM desiredPESizeNM desiredTileSizeCM : ℚ)
    (s : InitState) (i : ℕ) : InitState :=
  let l := layerAt netStructure i
  let input := l.inputRow * l.inputCol * l.inputDepth
  { maxLayerInput := if input > s.maxLayerInput then input else s.maxLayerInput,
    globalBusWidth :=
      if markAt markNM i = 0 then
        roundDouble (s.globalBusWidth
          + roundDouble (desiredTileSizeCM
              + roundDouble (desiredTileSizeCM / (p.numColMuxed : ℚ))))
      else
        roundDouble (s.globalBusWidth
          + roundDouble (roundDouble (desiredPESizeNM * (ceilSqrt numPENM : ℚ))
              + roundDouble (roundDouble (desiredPESizeNM * (ceilSqrt numPENM : ℚ))
                  / (p.numColMuxed : ℚ)))),
    maxTileAdded :=
      if at2 numTileEachLayer 0 i > s.maxTileAdded then at2 numTileEachLayer 0 i
      else s.maxTileAdded }

/-- The loop `while (globalBusWidth > param->maxGlobalBusWidth) globalBusWidth /= 2`
(Chip.cpp 334-336): `none` when the fuel is used up before the loop condition fails. -/
def limitBusWidth (maxGlobalBusWidth : ℚ) : ℕ → ℚ → Option ℚ
  | 0, _ => none
  | fuel + 1, globalBusWidth =>
    if globalBusWidth > maxGlobalBusWidth then
      limitBusWidth maxGlobalBusWidth fuel (roundDouble (globalBusWidth / 2))
    else some globalBusWidth

/-- The sizing part of `ChipInitialize` (Chip.cpp 310-340): the values of
`maxLayerInput`, `globalBusWidth` and `maxTileAdded` with which the shared modules are
initialised; `globalBusWidth` is the width handed to `GhTree->Initialize`.  The
`Initialize` calls themselves belong to device models outside this source file. -/
def ChipInitialize (p : InitParam) (fuel : ℕ) (netStructure : List Layer) (markNM : List ℤ)
    (numTileEachLayer : List (List ℚ)) (numPENM desiredPESizeNM desiredTileSizeCM : ℚ) :
    Option InitState :=
  let s := (List.range netStructure.length).foldl
    (initBody p netStructure markNM numTileEachLayer numPENM desiredPESizeNM desiredTileSizeCM)
    ⟨0, 0, 0⟩
  (limitBusWidth p.maxGlobalBusWidth fuel s.globalBusWidth).map
    (fun w => { s with globalBusWidth := w })

/-- The width that layer `i` adds to the global bus (Chip.cpp 323-327), as the source
computes it in `double` arithmetic. -/
def layerBusWidth (p : InitParam) (markNM : List ℤ)
    (numPENM desiredPESizeNM desiredTileSizeCM : ℚ) (i : ℕ) : ℚ :=
  if markAt markNM i = 0 then
    roundDouble (desiredTileSizeCM + roundDouble (desiredTileSizeCM / (p.numColMuxed : ℚ)))
  else
    roundDouble (roundDouble (desiredPESizeNM * (ceilSqrt numPENM : ℚ))
      + roundDouble (roundDouble (desiredPESizeNM * (ceilSqrt numPENM : ℚ))
          / (p.numColMuxed : ℚ)))

/-- The widths of the first `n` layers summed as the loop of the source sums them: in
the order of the layers, each addition rounding its result. -/
def summedBusWidth (p : InitParam) (markNM : List ℤ)
    (numPENM desiredPESizeNM desiredTileSizeCM : ℚ) (n : ℕ) : ℚ :=
  (List.range n).foldl
    (fun w i => roundDouble (w + layerBusWidth p markNM numPENM desiredPESizeNM
      desiredTileSizeCM i)) 0

/-- A value of moderate magnitude: `0`, or of absolute value between `2^-500` and
`2^500`.  Sums, products and quotients of a few such values by `int` values stay far from
the overflow and underflow thresholds of a `double`, where `roundDouble` is the rounding
of the source. -/
def ModerateDouble (x : ℚ) : Prop := x = 0 ∨ (1 / 2 ^ 500 ≤ |x| ∧ |x| ≤ 2 ^ 500)

/-- Parameters of a conventional-only run with 8 multiplexed columns and a bus of at
most 1024 wires. -/
def paramInit : InitParam :=
  { toChipParam := paramPerf, numColMuxed := 8, maxGlobalBusWidth := 1024 }

/-! ## Slicing of the weight matrix (Chip.cpp 503-504, 549-554, 1042-1077) -/

/-- The read `orginal[r][c]` of a matrix: `none` when an index is out of range. -/
def readAt (orginal : List (List ℚ)) (r c : ℤ) : Option ℚ :=
  if 0 ≤ r ∧ 0 ≤ c then (orginal[r.toNat]?).bind (fun row => row[c.toNat]?) else none

/-- The results of a sequence of reads: `none` when one of them is out of range. -/
def allReads {α : Type} : List (Option α) → Option (List α)
  | [] => some []
  | none :: _ => none
  | some a :: xs => (allReads xs).map (fun as => a :: as)

/-- The function `CopyArray` (Chip.cpp 1042-1056). -/
def CopyArray (orginal : List (List ℚ)) (positionRow positionCol numRow numCol : ℤ) :
    Option (List (List ℚ)) :=
  allReads ((List.range numRow.toNat).map (fun (i : ℕ) =>
    allReads ((List.range numCol.toNat).map (fun (j : ℕ) =>
      readAt orginal (positionRow + (i : ℤ)) (positionCol + (j : ℤ))))))

/-- The function `ReshapeArray` (Chip.cpp 1060-1077). -/
def ReshapeArray (orginal : List (List ℚ))
    (positionRow positionCol numRow numCol numPE weightMatrixRow : ℤ) :
    Option (List (List ℚ)) :=
  allReads (((List.range numPE.toNat).map (fun (k : ℕ) =>
    (List.range numRow.toNat).map (fun (i : ℕ) =>
      allReads ((List.range numCol.toNat).map (fun (j : ℕ) =>
        readAt orginal (positionRow + (k : ℤ) * weightMatrixRow + (i : ℤ))
          (positionCol + (j : ℤ))))))).flatten)

/-- The `int` variable `weightMatrixRow` of `ChipCalculatePerformance` (Chip.cpp 503). -/
def weightMatrixRow (p : Param) (l : Layer) : ℤ := toInt (weightRows l p.numRowPerSynapse)

/-- The `int` variable `weightMatrixCol` of `ChipCalculatePerformance` (Chip.cpp 504). -/
def weightMatrixCol (p : Param) (l : Layer) : ℤ := toInt (weightCols l p.numColPerSynapse)

/-- The `int` variable `numRowMatrix` of tile row `i` (Chip.cpp 549). -/
def numRowMatrix (desiredTileSizeCM : ℚ) (weightMatrixRow : ℤ) (i : ℕ) : ℤ :=
  toInt (min desiredTileSizeCM ((weightMatrixRow : ℚ) - (i : ℚ) * desiredTileSizeCM))

/-- The `int` variable `numColMatrix` of tile column `j` (Chip.cpp 550). -/
def numColMatrix (desiredTileSizeCM : ℚ) (weightMatrixCol : ℤ) (j : ℕ) : ℤ :=
  toInt (min desiredTileSizeCM ((weightMatrixCol : ℚ) - (j : ℚ) * desiredTileSizeCM))

/-- The block `tileMemory` that the conventional tile loop cuts out of the weight matrix
for tile `(i, j)` (Chip.cpp 549-554). -/
def tileMemoryCM (p : Param) (l : Layer) (desiredTileSizeCM : ℚ) (newMemory : List (List ℚ))
    (i j : ℕ) : Option (List (List ℚ)) :=
  CopyArray newMemory (toInt ((i : ℚ) * desiredTileSizeCM)) (toInt ((j : ℚ) * desiredTileSizeCM))
    (numRowMatrix desiredTileSizeCM (weightMatrixRow p l) i)
    (numColMatrix desiredTileSizeCM (weightMatrixCol p l) j)

/-- The matrix with `rows` rows and `cols` columns whose entry `(r, c)` is `f r c`. -/
def matrixOf (rows cols : ℕ) (f : ℕ → ℕ → ℚ) : List (List ℚ) :=
  (List.range rows).map (fun r => (List.range cols).map (fun c => f r c))

/-! ## Further concrete inputs and auxiliary predicates -/

/-- A network of a 3 × 3 convolution layer (128 → 256 channels) followed by a fully
connected layer (1024 → 1024). -/
def netMixed : List Layer :=
  [⟨16, 16, 128, 3, 3, 256, 0⟩, ⟨1, 1, 1024, 1, 1, 1024, 0⟩]

/-- The parameters `paramCM` with `numColPerSynapse` cells per synapse. -/
def paramCols (numColPerSynapse : ℤ) : Param :=
  { paramCM with numColPerSynapse := numColPerSynapse }

/-- Parameters of a conventional-only run with chip-level ReLU activation. -/
def paramAct : ChipParam :=
  { toParam := paramCM, chipActivation := true, reLu := true, synapseBit := 8, cellBit := 8 }

/-- Device models of the activation scenario: every tile reports read latency 3 and
energy 0, every call of the chip-level ReLU unit latency 1 and energy 7, and all other
shared modules report zero. -/
def activationModels : PerfModels :=
  { tile := fun _ _ => simpleTile 3 0 0,
    GreLu := fun _ _ => ⟨1, 7⟩, Gsigmoid := fun _ _ => ⟨0, 0⟩,
    Gaccumulation := fun _ _ => ⟨0, 0⟩, maxPool := fun _ _ => ⟨0, 0⟩,
    GhTree := ⟨0, 0⟩, globalBuffer := ⟨0, 0, 0, 0⟩ }

/-- A tile area model whose total area `10` is the sum of its interconnect, ADC,
accumulation and other areas `1 + 2 + 3 + 4`. -/
def tileAreaModel : ℚ → ℚ → TileAreaResult := fun _ _ => ⟨[10, 1, 2, 3, 4], 1, 1⟩

/-- Shared modules of which only the interconnect tree has an area, `1`. -/
def treeAreas : ModuleAreas :=
  { globalBuffer := 0, GhTree := 1, maxPool := 0, Gaccumulation := 0, GreLu := 0, Gsigmoid := 0 }

/-- The dimensions that enter the weight matrices are positive: the cells per synapse and
the input depth, kernel size and output depth of every layer. -/
def PositiveDims (netStructure : List Layer) (numRowPerSynapse numColPerSynapse : ℤ) : Prop :=
  0 < numRowPerSynapse ∧ 0 < numColPerSynapse ∧
    ∀ l ∈ netStructure, 0 < l.inputDepth ∧ 0 < l.kernelRow ∧ 0 < l.kernelCol ∧ 0 < l.outputDepth

/-- A network of three fully connected layers with 512 inputs and 512 outputs. -/
def netFC3 : List Layer :=
  [⟨1, 1, 512, 1, 1, 512, 0⟩, ⟨1, 1, 512, 1, 1, 512, 0⟩, ⟨1, 1, 512, 1, 1, 512, 0⟩]

/-! ## The precision setup of `main` (main.cpp 66-74) -/

/-- The precision setup of `main` (main.cpp 66-74): `synapseBit` comes from the command
line, a `cellBit` above it is lowered to it, and the cells per synapse are derived. -/
def precisionSetup (p : ChipParam) (synapseBit : ℤ) : ChipParam :=
  let cellBit := if p.cellBit > synapseBit then synapseBit else p.cellBit
  { p with synapseBit := synapseBit, cellBit := cellBit,
           numColPerSynapse := ⌈(synapseBit : ℚ) / (cellBit : ℚ)⌉, numRowPerSynapse := 1 }

/-! ## Lookups and slicing of `ChipCalculatePerformance` with checked indexing -/

/-- The checked lookup `v[r][c]` in a table: `none` when an index is out of range. -/
def at2? (v : List (List ℚ)) (r c : ℕ) : Option ℚ := (v[r]?).bind (fun row => row[c]?)

/-- The lookups by layer index in the body of the tile loop of `ChipCalculatePerformance`
(Chip.cpp 557-612 and, with the same indices, 665-721), with checked indexing: the
speed-up of layer `l` for the tile model (557), the tile counts of layer `l + 1` for the
chip-level activation (579-587), the tile counts of the layers `l` and `l + 1` for the
accumulation when layer `l` has more than one tile row (595-597), and the input size of
layer `l + 1` for the max-pool unit (605-607).  The value is the list of the numbers
read, `none` when a lookup is out of range. -/
def tileBodyLookups (p : ChipParam) (followedByMaxPool : Bool) (netStructure : List Layer)
    (numTileEachLayer speedUpEachLayer : List (List ℚ)) (l : ℕ) : Option (List ℚ) := do
  let s0 ← at2? speedUpEachLayer 0 l
  let s1 ← at2? speedUpEachLayer 1 l
  let activation ←
    if p.chipActivation then do
      let a ← at2? numTileEachLayer 0 (l + 1)
      let b ← at2? numTileEachLayer 1 (l + 1)
      pure [a, b]
    else pure []
  let numTileRowL ← at2? numTileEachLayer 0 l
  let accumulation ←
    if numTileRowL > 1 then do
      let c ← at2? numTileEachLayer 1 l
      let a ← at2? numTileEachLayer 0 (l + 1)
      let b ← at2? numTileEachLayer 1 (l + 1)
      pure [c, a, b]
    else pure []
  let pool ←
    if followedByMaxPool then do
      let n ← netStructure[l + 1]?
      pure [n.inputRow, n.inputCol]
    else pure []
  pure ([s0, s1] ++ activation ++ accumulation ++ pool)

/-- The lookups by layer index of `ChipCalculatePerformance` for layer `l`, with checked
indexing: the layer itself (Chip.cpp 503-504), its mark (530), its tile counts (531-532),
the lookups of the loop body for every tile, and the tile location of the layer
(616, 728).  The value is `none` when a lookup is out of range. -/
def perfLookups (p : ChipParam) (l : ℕ) (followedByMaxPool : Bool) (netStructure : List Layer)
    (markNM : List ℤ) (numTileEachLayer speedUpEachLayer tileLocaEachLayer : List (List ℚ)) :
    Option (List (List ℚ)) := do
  let _ ← netStructure[l]?
  let _ ← markNM[l]?
  let numTileRowL ← at2? numTileEachLayer 0 l
  let numTileColL ← at2? numTileEachLayer 1 l
  let tiles ← allReads ((List.range (⌈numTileRowL⌉₊ * ⌈numTileColL⌉₊)).map (fun _ =>
    tileBodyLookups p followedByMaxPool netStructure numTileEachLayer speedUpEachLayer l))
  let r ← at2? tileLocaEachLayer 0 l
  let c ← at2? tileLocaEachLayer 1 l
  pure (tiles ++ [[r, c]])

/-- The block `tileMemory` that the novel tile loop gathers for tile `(i, j)` of a layer
with `numTileRowL × numTileColL` tiles (Chip.cpp 658-659); the arguments of
`ReshapeArray` are `int`s.  The source divides `netStructure[l][5]*numRowPerSynapse` by
the tile count for the number of columns. -/
def tileMemoryNM (p : Param) (l : Layer) (numTileRowL numTileColL desiredPESizeNM numPENM : ℚ)
    (newMemory : List (List ℚ)) (i j : ℕ) : Option (List (List ℚ)) :=
  ReshapeArray newMemory (toInt ((i : ℚ) * desiredPESizeNM)) (toInt ((j : ℚ) * desiredPESizeNM))
    (toInt (((toInt l.inputDepth * p.numRowPerSynapse : ℤ) : ℚ) / numTileRowL))
    (toInt (((toInt l.outputDepth * p.numRowPerSynapse : ℤ) : ℚ) / numTileColL))
    (toInt numPENM) (toInt l.inputDepth * p.numRowPerSynapse)

/-- A network of a 3 × 3 convolution layer with 384 input and 256 output channels
followed by a fully connected layer (1024 → 1024). -/
def net384 : List Layer :=
  [⟨16, 16, 384, 3, 3, 256, 0⟩, ⟨1, 1, 1024, 1, 1, 1024, 0⟩]

/-! ## The quantities compared by the tile-size search -/

/-- The utilization that `TileDesignCM` reports for the tile size `t` (entry 2 of its
result), as the search of `ChipFloorPlan` reads it. -/
def tileUtilization (p : Param) (netStructure : List Layer) (markNM : List ℤ) (t : ℚ) : ℚ :=
  vecAt (TileDesignCM t markNM netStructure p.numRowPerSynapse p.numColPerSynapse) 2

/-- The tile count that `TileDesignCM` reports for the tile size `t` (entry 0 of its
result). -/
def tileCount (p : Param) (netStructure : List Layer) (markNM : List ℤ) (t : ℚ) : ℚ :=
  vecAt (TileDesignCM t markNM netStructure p.numRowPerSynapse p.numColPerSynapse) 0

/-! ## The tile-location loop of `ChipFloorPlan` with checked indexing -/

/-- Body of the tile-location loop (Chip.cpp 271-280) with checked indexing and checked
`int` division: `none` where the source reads outside `numTileEachLayer` (Chip.cpp 276)
or divides by `numTileRow = 0` (Chip.cpp 277-278), which aborts a run of the source.
Wherever it returns, the step is that of `locaBody`. -/
def locaBodyChecked (numTileEachLayer : List (List ℚ)) (numTileRow : ℤ) (s : LocaState)
    (i : ℕ) : Option LocaState :=
  if i = 0 then
    some { s with tileLocaEachLayerRow := s.tileLocaEachLayerRow ++ [0],
                  tileLocaEachLayerCol := s.tileLocaEachLayerCol ++ [0] }
  else do
    let a ← at2? numTileEachLayer 0 i
    let b ← at2? numTileEachLayer 1 i
    let thisTileTotal := s.thisTileTotal + a * b
    if numTileRow = 0 then none
    else
      some { thisTileTotal := thisTileTotal,
             tileLocaEachLayerRow :=
               s.tileLocaEachLayerRow ++ [((Int.tdiv (toInt thisTileTotal) numTileRow : ℤ) : ℚ)],
             tileLocaEachLayerCol :=
               s.tileLocaEachLayerCol
                 ++ [((Int.tmod (toInt thisTileTotal) numTileRow - 1 : ℤ) : ℚ)] }

/-- The tile-location loop over `n` layers (Chip.cpp 270-280) with checked steps: `none`
as soon as one step is aborted. -/
def tileLocationsChecked (numTileEachLayer : List (List ℚ)) (numTileRow : ℤ)
    (thisTileTotal0 : ℚ) (n : ℕ) : Option LocaState :=
  (List.range n).foldl
    (fun acc i => acc.bind (fun s => locaBodyChecked numTileEachLayer numTileRow s i))
    (some ⟨thisTileTotal0, [], []⟩)

/-- The function `ChipFloorPlan` with the tile-location loop checked: the result of
`ChipFloorPlan` where the source runs to its `return`, and `none` also where the
location loop of the source reads outside `numTileEachLayer` or divides by
`numTileRow = 0`.  (With `numTileRow = 0` the source converts the quotient of Chip.cpp
265, which is not a number, to `int`; no statement is made about `numTileCol` there.) -/
def ChipFloorPlanChecked (p : Param) (fuel : ℕ) (findNumTile findUtilization findSpeedUp : Bool)
    (netStructure : List Layer) (markNM : List ℤ) (maxPESizeNM maxTileSizeCM numPENM : ℚ)
    (thisTileTotal0 : ℚ) : Option (List (List ℚ) × FloorPlan) := do
  let s ← floorPlanSearch p fuel netStructure markNM maxPESizeNM maxTileSizeCM numPENM
  let numTileRow := ceilSqrt (s.desiredNumTileCM + s.desiredNumTileNM)
  let numTileCol : ℤ := ⌈(s.desiredNumTileCM + s.desiredNumTileNM) / (numTileRow : ℚ)⌉
  let loca ← tileLocationsChecked s.numTileEachLayer numTileRow thisTileTotal0
    netStructure.length
  let s := { s with numTileRow := numTileRow, numTileCol := numTileCol,
                    tileLocaEachLayer := [loca.tileLocaEachLayerRow, loca.tileLocaEachLayerCol] }
  if findNumTile then some (s.numTileEachLayer, s)
  else if findUtilization then some (s.utilizationEachLayer, s)
  else if findSpeedUp then some (s.speedUpEachLayer, s)
  else some (s.tileLocaEachLayer, s)

/-! ## The halving loop -/

theorem forHalving_zero {σ : Type} (bound : ℚ) (body : ℚ → σ → σ) (x : ℚ) (s : σ) :
    forHalving bound body 0 x s = none := rfl

theorem forHalving_succ {σ : Type} (bound : ℚ) (body : ℚ → σ → σ) (fuel : ℕ) (x : ℚ) (s : σ) :
    forHalving bound body (fuel + 1) x s =
      if bound ≤ x then forHalving bound body fuel (x / 2) (body x s) else some s := rfl

/-- Invariant rule for the halving loop: an invariant of the pair (loop variable,
state) that the body preserves holds on exit, where the loop variable is below the
bound. -/
theorem forHalving_inv {σ : Type} (bound : ℚ) (body : ℚ → σ → σ) (I : ℚ → σ → Prop)
    (hstep : ∀ x s, I x s → bound ≤ x → I (x / 2) (body x s)) :
    ∀ (fuel : ℕ) (x : ℚ) (s s' : σ), I x s → forHalving bound body fuel x s = some s' →
      ∃ x', x' < bound ∧ I x' s' := by
  intro fuel
  induction fuel with
  | zero => intro x s s' _ h; simp [forHalving_zero] at h
  | succ fuel ih =>
    intro x s s' hI h
    rw [forHalving_succ] at h
    by_cases hx : bound ≤ x
    · rw [if_pos hx] at h
      exact ih _ _ _ (hstep x s hI hx) h
    · rw [if_neg hx] at h
      simp only [Option.some.injEq] at h
      subst h
      exact ⟨x, not_le.mp hx, hI⟩

theorem planTables_sizes (p : Param) (netStructure : List Layer) (markNM : List ℤ)
    (numPENM peNM : ℚ) (s : FloorPlan) :
    (planTables p netStructure markNM numPENM peNM s).desiredNumTileNM = s.desiredNumTileNM ∧
    (planTables p netStructure markNM numPENM peNM s).desiredPESizeNM = s.desiredPESizeNM ∧
    (planTables p netStructure markNM numPENM peNM s).desiredNumTileCM = s.desiredNumTileCM ∧
    (planTables p netStructure markNM numPENM peNM s).desiredTileSizeCM = s.desiredTileSizeCM ∧
    (planTables p netStructure markNM numPENM peNM s).desiredPESizeCM = s.desiredPESizeCM :=
  ⟨rfl, rfl, rfl, rfl, rfl⟩

/-- Every result of `ChipFloorPlan` comes from a result of the size search, whose five
sizes it returns unchanged, with `numTileRow` computed from the two tile counts. -/
theorem ChipFloorPlan_some (p : Param) (fuel : ℕ) (findNumTile findUtilization findSpeedUp : Bool)
    (netStructure : List Layer) (markNM : List ℤ) (maxPESizeNM maxTileSizeCM numPENM : ℚ)
    (thisTileTotal0 : ℚ) (r : List (List ℚ) × FloorPlan)
    (h : ChipFloorPlan p fuel findNumTile findUtilization findSpeedUp netStructure markNM
      maxPESizeNM maxTileSizeCM numPENM thisTileTotal0 = some r) :
    ∃ s, floorPlanSearch p fuel netStructure markNM maxPESizeNM maxTileSizeCM numPENM = some s ∧
      r.2.desiredNumTileNM = s.desiredNumTileNM ∧ r.2.desiredPESizeNM = s.desiredPESizeNM ∧
      r.2.desiredNumTileCM = s.desiredNumTileCM ∧ r.2.desiredTileSizeCM = s.desiredTileSizeCM ∧
      r.2.desiredPESizeCM = s.desiredPESizeCM ∧
      r.2.numTileRow = ceilSqrt (s.desiredNumTileCM + s.desiredNumTileNM) ∧
      r.2.numTileEachLayer = s.numTileEachLayer ∧
      r.2.utilizationEachLayer = s.utilizationEachLayer := by
  unfold ChipFloorPlan at h
  simp only [Option.bind_eq_bind, Option.bind_eq_some] at h
  obtain ⟨s, hs, h⟩ := h
  refine ⟨s, hs, ?_⟩
  split_ifs at h <;> obtain rfl := Option.some.inj h <;> exact ⟨rfl, rfl, rfl, rfl, rfl, rfl, rfl, rfl⟩

/-- `ChipFloorPlan` returns whenever the size search does. -/
theorem ChipFloorPlan_isSome (p : Param) (fuel : ℕ) (findNumTile findUtilization findSpeedUp : Bool)
    (netStructure : List Layer) (markNM : List ℤ) (maxPESizeNM maxTileSizeCM numPENM : ℚ)
    (thisTileTotal0 : ℚ) (s : FloorPlan)
    (h : floorPlanSearch p fuel netStructure markNM maxPESizeNM maxTileSizeCM numPENM = some s) :
    ∃ r, ChipFloorPlan p fuel findNumTile findUtilization findSpeedUp netStructure markNM
      maxPESizeNM maxTileSizeCM numPENM thisTileTotal0 = some r := by
  unfold ChipFloorPlan
  rw [h]
  simp only [Option.bind_eq_bind, Option.some_bind]
  split_ifs <;> exact ⟨_, rfl⟩

theorem ceilSqrt_zero : ceilSqrt 0 = 0 := by
  simp [ceilSqrt]

/-! ## `ChipDesignInitialize`: the marks -/

theorem markAt_map_range (f : ℕ → ℤ) (n i : ℕ) (h : i < n) :
    markAt ((List.range n).map f) i = f i := by
  simp [markAt, List.getElem?_range h]

theorem foldl_range_succ {σ : Type} (f : σ → ℕ → σ) (s : σ) (n : ℕ) :
    (List.range (n + 1)).foldl f s = f ((List.range n).foldl f s) n := by
  rw [List.range_succ, List.foldl_append]
  rfl

/-- The marking loop with novel mapping appends one mark per index and keeps `numPENM`. -/
theorem markBodyNM_fold (p : Param) (netStructure : List Layer) (s : ChipDesign) (n : ℕ) :
    ((List.range n).foldl (markBodyNM p netStructure) s).numPENM = s.numPENM ∧
    ((List.range n).foldl (markBodyNM p netStructure) s).markNM =
      s.markNM ++ (List.range n).map (fun i =>
        if (layerAt netStructure i).kernelRow * (layerAt netStructure i).kernelCol = s.numPENM ∧
            (layerAt netStructure i).inputDepth * (layerAt netStructure i).kernelRow *
              (layerAt netStructure i).kernelCol * (p.numRowPerSynapse : ℚ)
              ≥ (p.numRowSubArray : ℚ)
        then (1 : ℤ) else 0) := by
  induction n with
  | zero => simp
  | succ n ih =>
    obtain ⟨ih1, ih2⟩ := ih
    rw [foldl_range_succ, List.range_succ, List.map_append, ← List.append_assoc, ← ih2]
    generalize (List.range n).foldl (markBodyNM p netStructure) s = r at ih1 ih2 ⊢
    unfold markBodyNM
    dsimp only
    rw [ih1]
    by_cases hc : (layerAt netStructure n).kernelRow * (layerAt netStructure n).kernelCol
        = s.numPENM ∧
      (layerAt netStructure n).inputDepth * (layerAt netStructure n).kernelRow *
        (layerAt netStructure n).kernelCol * (p.numRowPerSynapse : ℚ) ≥ (p.numRowSubArray : ℚ)
    · simp only [List.map_cons, List.map_nil, if_pos hc, and_self]
    · simp only [List.map_cons, List.map_nil, if_neg hc, and_self]

/-- The marking loop without novel mapping appends one `0` per index and keeps
`maxPESizeNM` and `numPENM`. -/
theorem markBodyCM_fold (p : Param) (netStructure : List Layer) (s : ChipDesign) (n : ℕ) :
    ((List.range n).foldl (markBodyCM p netStructure) s).numPENM = s.numPENM ∧
    ((List.range n).foldl (markBodyCM p netStructure) s).maxPESizeNM = s.maxPESizeNM ∧
    ((List.range n).foldl (markBodyCM p netStructure) s).markNM =
      s.markNM ++ (List.range n).map (fun _ => (0 : ℤ)) := by
  induction n with
  | zero => simp
  | succ n ih =>
    obtain ⟨ih1, ih2, ih3⟩ := ih
    rw [foldl_range_succ, List.range_succ, List.map_append, ← List.append_assoc, ← ih3]
    exact ⟨ih1, ih2, rfl⟩

/-- The marks of `ChipDesignInitialize` with novel mapping: one per layer, each `0` or
`1`, and `1` exactly for the layers that pass the novel test. -/
theorem marks_novel (p : Param) (netStructure : List Layer)
    (hnov : p.novelMapping = true) :
    (ChipDesignInitialize p netStructure).markNM.length = netStructure.length ∧
    (∀ m ∈ (ChipDesignInitialize p netStructure).markNM, m = 0 ∨ m = 1) ∧
    ∀ i, i < netStructure.length →
      (markAt (ChipDesignInitialize p netStructure).markNM i = 1 ↔
        ((layerAt netStructure i).kernelRow * (layerAt netStructure i).kernelCol
            = (ChipDesignInitialize p netStructure).numPENM ∧
          (layerAt netStructure i).inputDepth * (layerAt netStructure i).kernelRow *
            (layerAt netStructure i).kernelCol * (p.numRowPerSynapse : ℚ)
            ≥ (p.numRowSubArray : ℚ))) ∧
      (markAt (ChipDesignInitialize p netStructure).markNM i ≠ 1 →
        markAt (ChipDesignInitialize p netStructure).markNM i = 0) := by
  unfold ChipDesignInitialize
  rw [if_pos hnov]
  obtain ⟨h1, h2⟩ := markBodyNM_fold p netStructure
    ⟨[], 0, 0, ((mostCommonKernel netStructure).numPE : ℚ)⟩ netStructure.length
  dsimp only at h1 h2 ⊢
  rw [h1, h2, List.nil_append]
  refine ⟨by simp, ?_, ?_⟩
  · intro m hm
    rw [List.mem_map] at hm
    obtain ⟨i, -, rfl⟩ := hm
    split_ifs
    · exact Or.inr rfl
    · exact Or.inl rfl
  · intro i hi
    rw [markAt_map_range _ _ _ hi]
    constructor
    · split_ifs with hc
      · exact ⟨fun _ => hc, fun _ => rfl⟩
      · exact ⟨fun h => absurd h (by norm_num), fun h => absurd h hc⟩
    · split_ifs with hc
      · intro h; exact absurd rfl h
      · intro _; rfl

/-- The marks of `ChipDesignInitialize` without novel mapping: one `0` per layer, and
the two novel outputs stay `0`. -/
theorem marks_conventional (p : Param) (netStructure : List Layer)
    (hnov : p.novelMapping = false) :
    (ChipDesignInitialize p netStructure).markNM.length = netStructure.length ∧
    (∀ m ∈ (ChipDesignInitialize p netStructure).markNM, m = 0) ∧
    (∀ i, i < netStructure.length → markAt (ChipDesignInitialize p netStructure).markNM i = 0) ∧
    (ChipDesignInitialize p netStructure).maxPESizeNM = 0 ∧
    (ChipDesignInitialize p netStructure).numPENM = 0 := by
  unfold ChipDesignInitialize
  rw [if_neg (by simp [hnov])]
  obtain ⟨h1, h2, h3⟩ := markBodyCM_fold p netStructure ⟨[], 0, 0, 0⟩ netStructure.length
  dsimp only at h1 h2 h3 ⊢
  rw [h1, h2, h3, List.nil_append]
  refine ⟨by simp, ?_, ?_, rfl, rfl⟩
  · intro m hm
    rw [List.mem_map] at hm
    obtain ⟨i, -, rfl⟩ := hm
    rfl
  · intro i hi
    rw [markAt_map_range _ _ _ hi]

/-! ## `ChipDesignInitialize`: the maximal sizes -/

theorem minCube_nonneg (x : ℚ) : 0 ≤ minCube x := by
  unfold minCube
  split_ifs
  · exact le_of_lt (zpow_pos (by norm_num) _)
  · exact le_refl 0

theorem minCube_of_pos {x : ℚ} (hx : 0 < x) : minCube x = (2 : ℚ) ^ (Int.clog 2 x) := by
  unfold minCube
  rw [if_pos hx]

theorem le_minCube {x : ℚ} (hx : 0 < x) : x ≤ minCube x := by
  rw [minCube_of_pos hx]
  exact_mod_cast Int.self_le_zpow_clog (R := ℚ) (b := 2) (by norm_num) x

theorem minCube_le_zpow {x : ℚ} (hx : 0 < x) (j : ℤ) (h : x ≤ (2 : ℚ) ^ j) :
    minCube x ≤ (2 : ℚ) ^ j := by
  rw [minCube_of_pos hx]
  have hk : Int.clog 2 x ≤ j := by
    have := (Int.le_zpow_iff_clog_le (R := ℚ) (b := 2) (by norm_num) (x := j) hx).mp
      (by exact_mod_cast h)
    exact this
  exact zpow_le_zpow_right₀ (by norm_num) hk

theorem RunningMax.zero (sel : ℕ → Prop) (c : ℕ → ℚ) : RunningMax sel c 0 0 :=
  ⟨fun i hi => absurd hi (Nat.not_lt_zero i), Or.inl ⟨rfl, fun i hi => absurd hi (Nat.not_lt_zero i)⟩⟩

theorem RunningMax.congr {sel sel' : ℕ → Prop} {c : ℕ → ℚ} {n : ℕ} {m : ℚ}
    (h : RunningMax sel c n m) (hs : ∀ i, i < n → (sel i ↔ sel' i)) : RunningMax sel' c n m := by
  obtain ⟨h1, h2⟩ := h
  refine ⟨fun i hi hsi => h1 i hi ((hs i hi).mpr hsi), ?_⟩
  rcases h2 with ⟨hm, hall⟩ | ⟨i, hi, hsi, hm⟩
  · exact Or.inl ⟨hm, fun i hi hsi => hall i hi ((hs i hi).mpr hsi)⟩
  · exact Or.inr ⟨i, hi, (hs i hi).mp hsi, hm⟩

theorem countBody_count (netStructure : List Layer) (temp : ℤ) (r : MostState) (n : ℕ) :
    (countBody netStructure temp r n).count = r.count +
      (([n].countP (fun j => decide ((temp : ℚ) =
        (layerAt netStructure j).kernelRow * (layerAt netStructure j).kernelCol)) : ℕ) : ℤ) := by
  have h : (countBody netStructure temp r n).count =
      if (temp : ℚ) = (layerAt netStructure n).kernelRow * (layerAt netStructure n).kernelCol
      then r.count + 1 else r.count := by
    unfold countBody
    dsimp only
    split_ifs <;> rfl
  rw [h]
  by_cases hm : (temp : ℚ) =
      (layerAt netStructure n).kernelRow * (layerAt netStructure n).kernelCol
  · simp [hm]
  · simp [hm]

theorem countBody_most (netStructure : List Layer) (temp : ℤ) (r : MostState) (n : ℕ) :
    (countBody netStructure temp r n).most =
      (if r.most < (countBody netStructure temp r n).count
       then (countBody netStructure temp r n).count else r.most) ∧
    (countBody netStructure temp r n).numPE =
      (if r.most < (countBody netStructure temp r n).count then temp else r.numPE) := by
  unfold countBody
  dsimp only
  split_ifs <;> exact ⟨rfl, rfl⟩

/-- The inner counting loop: `count` grows by the number of matching layers, and after at
least one iteration `most` and `numPE` are updated exactly when the final `count`
exceeds the initial `most`. -/
theorem countBody_fold (netStructure : List Layer) (temp : ℤ) (s : MostState) (n : ℕ) :
    ((List.range n).foldl (countBody netStructure temp) s).count =
      s.count + ((List.range n).countP (fun j => decide ((temp : ℚ) =
        (layerAt netStructure j).kernelRow * (layerAt netStructure j).kernelCol)) : ℕ) ∧
    (0 < n →
      ((List.range n).foldl (countBody netStructure temp) s).most =
        (if s.most < ((List.range n).foldl (countBody netStructure temp) s).count
         then ((List.range n).foldl (countBody netStructure temp) s).count else s.most) ∧
      ((List.range n).foldl (countBody netStructure temp) s).numPE =
        (if s.most < ((List.range n).foldl (countBody netStructure temp) s).count
         then temp else s.numPE)) := by
  induction n with
  | zero => simp
  | succ n ih =>
    obtain ⟨ih1, ih2⟩ := ih
    rw [foldl_range_succ, List.range_succ, List.countP_append]
    refine ⟨by rw [countBody_count, ih1]; push_cast; ring, fun _ => ?_⟩
    rcases Nat.eq_zero_or_pos n with hn | hn
    · subst hn
      simp only [List.range_zero, List.foldl_nil]
      exact countBody_most netStructure temp s 0
    · obtain ⟨im, ip⟩ := ih2 hn
      have hge : ((List.range n).foldl (countBody netStructure temp) s).count ≤
          (countBody netStructure temp
            ((List.range n).foldl (countBody netStructure temp) s) n).count := by
        rw [countBody_count]; omega
      obtain ⟨hmost, hpe⟩ := countBody_most netStructure temp
        ((List.range n).foldl (countBody netStructure temp) s) n
      generalize (List.range n).foldl (countBody netStructure temp) s = r at *
      generalize countBody netStructure temp r n = r' at *
      rw [hmost, hpe, im, ip]
      constructor
      · split_ifs <;> omega
      · split_ifs <;> first | rfl | omega

/-- One round of the outer loop on a non-empty network: `most` and `numPE` are replaced
exactly when the final count of layer `i` exceeds `most`. -/
theorem mostBody_spec (netStructure : List Layer) (hne : 0 < netStructure.length)
    (s : MostState) (i : ℕ) :
    (mostBody netStructure s i).most =
      (if s.most < finalCount netStructure (kernelTemp netStructure i)
       then finalCount netStructure (kernelTemp netStructure i) else s.most) ∧
    (mostBody netStructure s i).numPE =
      (if s.most < finalCount netStructure (kernelTemp netStructure i)
       then kernelTemp netStructure i else s.numPE) := by
  obtain ⟨h1, h2⟩ := countBody_fold netStructure (kernelTemp netStructure i)
    ⟨1, s.most, s.numPE⟩ netStructure.length
  obtain ⟨h3, h4⟩ := h2 hne
  have e : mostBody netStructure s i = (List.range netStructure.length).foldl
      (countBody netStructure (kernelTemp netStructure i)) ⟨1, s.most, s.numPE⟩ := rfl
  rw [e, h3, h4, h1]
  exact ⟨rfl, rfl⟩

theorem finalCount_pos (netStructure : List Layer) (temp : ℤ) :
    0 < finalCount netStructure temp := by
  unfold finalCount
  omega

/-- After the outer loop over the first `n` layers of a non-empty network, `numPE` is the
truncated kernel product of the first layer whose final count is maximal among them, and
`most` is that count. -/
theorem mostBody_fold (netStructure : List Layer) (hne : 0 < netStructure.length) (n : ℕ) :
    (n = 0 ∧ ((List.range n).foldl (mostBody netStructure) ⟨0, 0, 0⟩).most = 0) ∨
    ∃ i, i < n ∧
      ((List.range n).foldl (mostBody netStructure) ⟨0, 0, 0⟩).numPE = kernelTemp netStructure i ∧
      ((List.range n).foldl (mostBody netStructure) ⟨0, 0, 0⟩).most
        = finalCount netStructure (kernelTemp netStructure i) ∧
      (∀ j, j < n → finalCount netStructure (kernelTemp netStructure j)
        ≤ finalCount netStructure (kernelTemp netStructure i)) ∧
      (∀ j, j < i → finalCount netStructure (kernelTemp netStructure j)
        < finalCount netStructure (kernelTemp netStructure i)) := by
  induction n with
  | zero => exact Or.inl ⟨rfl, rfl⟩
  | succ n ih =>
    right
    rw [foldl_range_succ]
    obtain ⟨hm, hp⟩ := mostBody_spec netStructure hne
      ((List.range n).foldl (mostBody netStructure) ⟨0, 0, 0⟩) n
    generalize (List.range n).foldl (mostBody netStructure) ⟨0, 0, 0⟩ = r at ih hm hp ⊢
    have hpos := finalCount_pos netStructure (kernelTemp netStructure n)
    rcases ih with ⟨hn, hz⟩ | ⟨i, hi, hpe, hmost, hall, hfirst⟩
    · subst hn
      rw [hz, if_pos hpos] at hm hp
      exact ⟨0, Nat.zero_lt_one, hp, hm, fun j hj => by
        obtain rfl : j = 0 := by omega
        exact le_refl _, fun j hj => absurd hj (Nat.not_lt_zero j)⟩
    · by_cases hlt : r.most < finalCount netStructure (kernelTemp netStructure n)
      · rw [if_pos hlt] at hm hp
        refine ⟨n, Nat.lt_succ_self n, hp, hm, fun j hj => ?_, fun j hj => ?_⟩
        · rcases Nat.lt_succ_iff_lt_or_eq.mp hj with h | rfl
          · have := hall j h
            omega
          · exact le_refl _
        · have := hall j hj
          omega
      · rw [if_neg hlt] at hm hp
        refine ⟨i, Nat.lt_succ_of_lt hi, by rw [hp, hpe], by rw [hm, hmost], fun j hj => ?_, hfirst⟩
        rcases Nat.lt_succ_iff_lt_or_eq.mp hj with h | rfl
        · exact hall j h
        · omega

theorem map_layerAt_range (netStructure : List Layer) :
    (List.range netStructure.length).map (layerAt netStructure) = netStructure := by
  apply List.ext_getElem
  · simp
  · intro i h1 h2
    simp [layerAt, List.getD_eq_getElem?_getD, List.getElem?_eq_getElem h2]

/-- For an integer `temp` the final count is one plus the number of layers of the network
whose kernel product is `temp`. -/
theorem finalCount_eq (netStructure : List Layer) (temp : ℤ) :
    finalCount netStructure temp =
      1 + ((netStructure.countP (fun l => decide (l.kernelRow * l.kernelCol = (temp : ℚ))) : ℕ) : ℤ) := by
  unfold finalCount
  conv_rhs => rw [← map_layerAt_range netStructure, List.countP_map]
  congr 2
  apply List.countP_congr
  intro j _
  simp [eq_comm]

theorem toInt_intCast (z : ℤ) : toInt (z : ℚ) = z := by
  unfold toInt
  split_ifs <;> simp

theorem toInt32_of_fits (x : ℚ) (h : FitsInt (toInt x)) : toInt32 x = toInt x := by
  unfold toInt32
  exact if_pos h

theorem toInt32_intCast (z : ℤ) (h : FitsInt z) : toInt32 (z : ℚ) = z := by
  rw [toInt32_of_fits _ (by rw [toInt_intCast]; exact h), toInt_intCast]

theorem layerAt_mem (netStructure : List Layer) (i : ℕ) (h : i < netStructure.length) :
    layerAt netStructure i ∈ netStructure := by
  unfold layerAt
  rw [List.getD_eq_getElem _ _ h]
  exact List.getElem_mem h

theorem mem_layerAt (netStructure : List Layer) (l : Layer) (h : l ∈ netStructure) :
    ∃ i, i < netStructure.length ∧ layerAt netStructure i = l := by
  obtain ⟨i, hi, rfl⟩ := List.getElem_of_mem h
  exact ⟨i, hi, by unfold layerAt; rw [List.getD_eq_getElem _ _ hi]⟩

/-- The kernel product chosen by the counting loops of a non-empty network whose kernel
products are integers in the range of `int`: it is the product of some layer, at least
as frequent as the product of every layer, and strictly more frequent than the product
of every earlier layer. -/
theorem mostCommonKernel_spec (netStructure : List Layer) (hne : netStructure ≠ [])
    (hint : ∀ l ∈ netStructure, ∃ z : ℤ, FitsInt z ∧ l.kernelRow * l.kernelCol = (z : ℚ)) :
    ∃ i, i < netStructure.length ∧
      ((mostCommonKernel netStructure).numPE : ℚ) =
        (layerAt netStructure i).kernelRow * (layerAt netStructure i).kernelCol ∧
      (∀ l' ∈ netStructure,
        netStructure.countP (fun x => decide (x.kernelRow * x.kernelCol
            = l'.kernelRow * l'.kernelCol))
          ≤ netStructure.countP (fun x => decide (x.kernelRow * x.kernelCol
            = (layerAt netStructure i).kernelRow * (layerAt netStructure i).kernelCol))) ∧
      (∀ j, j < i →
        netStructure.countP (fun x => decide (x.kernelRow * x.kernelCol
            = (layerAt netStructure j).kernelRow * (layerAt netStructure j).kernelCol))
          < netStructure.countP (fun x => decide (x.kernelRow * x.kernelCol
            = (layerAt netStructure i).kernelRow * (layerAt netStructure i).kernelCol))) := by
  have hlen : 0 < netStructure.length := List.length_pos.mpr hne
  have htemp : ∀ j, j < netStructure.length →
      ((kernelTemp netStructure j : ℤ) : ℚ) =
        (layerAt netStructure j).kernelRow * (layerAt netStructure j).kernelCol := by
    intro j hj
    obtain ⟨z, hfit, hz⟩ := hint _ (layerAt_mem netStructure j hj)
    unfold kernelTemp
    rw [hz, toInt32_intCast z hfit]
  rcases mostBody_fold netStructure hlen netStructure.length with ⟨h0, -⟩ | ⟨i, hi, hpe, -, hall, hfirst⟩
  · omega
  · refine ⟨i, hi, ?_, ?_, ?_⟩
    · unfold mostCommonKernel
      rw [hpe, htemp i hi]
    · intro l' hl'
      obtain ⟨j, hj, rfl⟩ := mem_layerAt netStructure l' hl'
      have := hall j hj
      rw [finalCount_eq, finalCount_eq, htemp i hi, htemp j hj] at this
      omega
    · intro j hj
      have := hfirst j hj
      rw [finalCount_eq, finalCount_eq, htemp i hi, htemp j (lt_trans hj hi)] at this
      omega

/-- C7. With novel mapping enabled and a non-empty network, the `numPENM` returned by
`ChipDesignInitialize` is the `kernelRows*kernelCols` product of some layer, and the
number of layers having that product is at least the number of layers having the product
of any other layer.  The kernel products are integers in the range of the `int` in which
the source holds them (Chip.cpp 101), and the layer count plus one fits the `int`
counters. -/
theorem chipDesignInitialize_numPENM_mostFrequent (p : Param) (netStructure : List Layer)
    (hnov : p.novelMapping = true) (hne : netStructure ≠ [])
    (hint : ∀ l ∈ netStructure, ∃ z : ℤ, FitsInt z ∧ l.kernelRow * l.kernelCol = (z : ℚ))
    (_hlen : FitsInt ((netStructure.length : ℤ) + 1)) :
    ∃ l ∈ netStructure,
      (ChipDesignInitialize p netStructure).numPENM = l.kernelRow * l.kernelCol ∧
      ∀ l' ∈ netStructure,
        netStructure.countP (fun x => decide (x.kernelRow * x.kernelCol
            = l'.kernelRow * l'.kernelCol))
          ≤ netStructure.countP (fun x => decide (x.kernelRow * x.kernelCol
            = l.kernelRow * l.kernelCol)) := by
  obtain ⟨i, hi, hnum, hall, -⟩ := mostCommonKernel_spec netStructure hne hint
  refine ⟨layerAt netStructure i, layerAt_mem netStructure i hi, ?_, hall⟩
  unfold ChipDesignInitialize
  rw [if_pos hnov, (markBodyNM_fold p netStructure _ netStructure.length).1]
  exact hnum

/-! ## `ChipDesignInitialize`: the claims -/

/-- C6. With novel mapping enabled, `ChipDesignInitialize` returns one mark per layer,
each `0` or `1`, and layer `i` is marked `1` (Novel) if and only if
`kernelRows_i * kernelCols_i` equals the returned `numPENM` and
`inputDepth_i * kernelRows_i * kernelCols_i * numRowPerSynapse ≥ numRowSubArray`; every
other layer is marked `0` (Conventional). -/
theorem chipDesignInitialize_marks (p : Param) (netStructure : List Layer)
    (hnov : p.novelMapping = true) :
    (ChipDesignInitialize p netStructure).markNM.length = netStructure.length ∧
    (∀ m ∈ (ChipDesignInitialize p netStructure).markNM, m = 0 ∨ m = 1) ∧
    ∀ i, i < netStructure.length →
      (markAt (ChipDesignInitialize p netStructure).markNM i = 1 ↔
        ((layerAt netStructure i).kernelRow * (layerAt netStructure i).kernelCol
            = (ChipDesignInitialize p netStructure).numPENM ∧
          (layerAt netStructure i).inputDepth * (layerAt netStructure i).kernelRow *
            (layerAt netStructure i).kernelCol * (p.numRowPerSynapse : ℚ)
            ≥ (p.numRowSubArray : ℚ))) ∧
      (markAt (ChipDesignInitialize p netStructure).markNM i ≠ 1 →
        markAt (ChipDesignInitialize p netStructure).markNM i = 0) :=
  marks_novel p netStructure hnov

/-- Witness of C6 at the two-layer network `netTwo` with novel mapping. -/
theorem chipDesignInitialize_marks_witness :
    (ChipDesignInitialize paramNM netTwo).markNM.length = netTwo.length ∧
    (∀ m ∈ (ChipDesignInitialize paramNM netTwo).markNM, m = 0 ∨ m = 1) ∧
    ∀ i, i < netTwo.length →
      (markAt (ChipDesignInitialize paramNM netTwo).markNM i = 1 ↔
        ((layerAt netTwo i).kernelRow * (layerAt netTwo i).kernelCol
            = (ChipDesignInitialize paramNM netTwo).numPENM ∧
          (layerAt netTwo i).inputDepth * (layerAt netTwo i).kernelRow *
            (layerAt netTwo i).kernelCol * (paramNM.numRowPerSynapse : ℚ)
            ≥ (paramNM.numRowSubArray : ℚ))) ∧
      (markAt (ChipDesignInitialize paramNM netTwo).markNM i ≠ 1 →
        markAt (ChipDesignInitialize paramNM netTwo).markNM i = 0) :=
  chipDesignInitialize_marks paramNM netTwo rfl

/-- Witness of C7 at the two-layer network `netTwo`, whose kernel products are both `9`. -/
theorem chipDesignInitialize_numPENM_mostFrequent_witness :
    ∃ l ∈ netTwo,
      (ChipDesignInitialize paramNM netTwo).numPENM = l.kernelRow * l.kernelCol ∧
      ∀ l' ∈ netTwo,
        netTwo.countP (fun x => decide (x.kernelRow * x.kernelCol
            = l'.kernelRow * l'.kernelCol))
          ≤ netTwo.countP (fun x => decide (x.kernelRow * x.kernelCol
            = l.kernelRow * l.kernelCol)) :=
  chipDesignInitialize_numPENM_mostFrequent paramNM netTwo rfl (by simp [netTwo])
    (by
      intro l hl
      simp only [netTwo, List.mem_cons, List.mem_singleton, List.not_mem_nil, or_false] at hl
      rcases hl with rfl | rfl <;> exact ⟨9, by norm_num [FitsInt], by norm_num⟩)
    (by norm_num [FitsInt, netTwo])

/-- C8. With novel mapping disabled, `ChipDesignInitialize` returns one mark per layer,
all of them `0` (Conventional), and sets `maxPESizeNM = 0` and `numPENM = 0`. -/
theorem chipDesignInitialize_conventional (p : Param) (netStructure : List Layer)
    (hnov : p.novelMapping = false) :
    (ChipDesignInitialize p netStructure).markNM.length = netStructure.length ∧
    (∀ m ∈ (ChipDesignInitialize p netStructure).markNM, m = 0) ∧
    (∀ i, i < netStructure.length → markAt (ChipDesignInitialize p netStructure).markNM i = 0) ∧
    (ChipDesignInitialize p netStructure).maxPESizeNM = 0 ∧
    (ChipDesignInitialize p netStructure).numPENM = 0 :=
  marks_conventional p netStructure hnov

/-- Witness of C8 at the two-layer network `netTwo` without novel mapping. -/
theorem chipDesignInitialize_conventional_witness :
    (ChipDesignInitialize paramCM netTwo).markNM.length = netTwo.length ∧
    (∀ m ∈ (ChipDesignInitialize paramCM netTwo).markNM, m = 0) ∧
    (∀ i, i < netTwo.length → markAt (ChipDesignInitialize paramCM netTwo).markNM i = 0) ∧
    (ChipDesignInitialize paramCM netTwo).maxPESizeNM = 0 ∧
    (ChipDesignInitialize paramCM netTwo).numPENM = 0 :=
  chipDesignInitialize_conventional paramCM netTwo rfl

/-- The loop of `PEDesign` appends the duplication factors of one layer per index. -/
theorem peBody_fold (peSize desiredTileSize : ℚ) (markNM : List ℤ) (netStructure : List Layer)
    (numRowPerSynapse numColPerSynapse : ℤ) (s : PEState) (n : ℕ) :
    ((List.range n).foldl (peBody peSize desiredTileSize markNM netStructure numRowPerSynapse
        numColPerSynapse) s).peDupRow =
      s.peDupRow ++ (List.range n).map (fun i => ((peDupOf peSize desiredTileSize markNM
        netStructure numRowPerSynapse numColPerSynapse i).1 : ℚ)) ∧
    ((List.range n).foldl (peBody peSize desiredTileSize markNM netStructure numRowPerSynapse
        numColPerSynapse) s).peDupCol =
      s.peDupCol ++ (List.range n).map (fun i => ((peDupOf peSize desiredTileSize markNM
        netStructure numRowPerSynapse numColPerSynapse i).2 : ℚ)) := by
  induction n with
  | zero => simp
  | succ n ih =>
    obtain ⟨ih1, ih2⟩ := ih
    rw [foldl_range_succ, List.range_succ, List.map_append, List.map_append,
      ← List.append_assoc, ← List.append_assoc, ← ih1, ← ih2]
    exact ⟨rfl, rfl⟩

theorem at2_map_range (f g : ℕ → ℚ) (n i : ℕ) (h : i < n) :
    at2 [(List.range n).map f, (List.range n).map g] 0 i = f i ∧
    at2 [(List.range n).map f, (List.range n).map g] 1 i = g i := by
  simp [at2, List.getElem?_range h]

/-- The table returned by `PEDesign(false, ...)` holds at `[0][i]` and `[1][i]` the two
duplication factors computed for layer `i`. -/
theorem PEDesign_dup (peSize desiredTileSize numTileTotal : ℚ) (markNM : List ℤ)
    (netStructure : List Layer) (numRowPerSynapse numColPerSynapse : ℤ) (i : ℕ)
    (hi : i < netStructure.length) :
    at2 (PEDesign false peSize desiredTileSize numTileTotal markNM netStructure numRowPerSynapse
        numColPerSynapse) 0 i =
      ((peDupOf peSize desiredTileSize markNM netStructure numRowPerSynapse
        numColPerSynapse i).1 : ℚ) ∧
    at2 (PEDesign false peSize desiredTileSize numTileTotal markNM netStructure numRowPerSynapse
        numColPerSynapse) 1 i =
      ((peDupOf peSize desiredTileSize markNM netStructure numRowPerSynapse
        numColPerSynapse i).2 : ℚ) := by
  obtain ⟨h1, h2⟩ := peBody_fold peSize desiredTileSize markNM netStructure numRowPerSynapse
    numColPerSynapse ⟨0, [], []⟩ netStructure.length
  unfold PEDesign
  dsimp only at h1 h2 ⊢
  rw [if_neg (by simp), h1, h2, List.nil_append, List.nil_append]
  exact at2_map_range _ _ _ i hi

/-- C10. For a Conventional-marked layer `i` with `R = inputDepth*kernelRows*kernelCols*
numRowPerSynapse` and `C = outputDepth*numColPerSynapse`, when `R ≤ tileSize` or
`C ≤ tileSize`, `PEDesign` returns the PE duplication factors
`dupRow = ceil(ceil(tileSize/peSize) / ceil(R/peSize))` and
`dupCol = ceil(ceil(tileSize/peSize) / ceil(C/peSize))`; for a layer marked otherwise
(Novel) both factors are `1`. -/
theorem peDesign_duplication (peSize desiredTileSize numTileTotal : ℚ) (markNM : List ℤ)
    (netStructure : List Layer) (numRowPerSynapse numColPerSynapse : ℤ) (i : ℕ)
    (hi : i < netStructure.length) :
    (markAt markNM i = 0 →
      (weightRows (layerAt netStructure i) numRowPerSynapse ≤ desiredTileSize ∨
        weightCols (layerAt netStructure i) numColPerSynapse ≤ desiredTileSize) →
      at2 (PEDesign false peSize desiredTileSize numTileTotal markNM netStructure
          numRowPerSynapse numColPerSynapse) 0 i =
        ((⌈((⌈desiredTileSize / peSize⌉ : ℤ) : ℚ) /
          ((⌈weightRows (layerAt netStructure i) numRowPerSynapse / peSize⌉ : ℤ) : ℚ)⌉ : ℤ) : ℚ) ∧
      at2 (PEDesign false peSize desiredTileSize numTileTotal markNM netStructure
          numRowPerSynapse numColPerSynapse) 1 i =
        ((⌈((⌈desiredTileSize / peSize⌉ : ℤ) : ℚ) /
          ((⌈weightCols (layerAt netStructure i) numColPerSynapse / peSize⌉ : ℤ) : ℚ)⌉ : ℤ) : ℚ)) ∧
    (markAt markNM i ≠ 0 →
      at2 (PEDesign false peSize desiredTileSize numTileTotal markNM netStructure
          numRowPerSynapse numColPerSynapse) 0 i = 1 ∧
      at2 (PEDesign false peSize desiredTileSize numTileTotal markNM netStructure
          numRowPerSynapse numColPerSynapse) 1 i = 1) := by
  obtain ⟨h0, h1⟩ := PEDesign_dup peSize desiredTileSize numTileTotal markNM netStructure
    numRowPerSynapse numColPerSynapse i hi
  rw [h0, h1]
  unfold peDupOf weightRows weightCols
  dsimp only
  constructor
  · intro hm hc
    rw [if_pos hm, if_pos hc]
    exact ⟨rfl, rfl⟩
  · intro hm
    rw [if_neg hm]
    exact ⟨by norm_num, by norm_num⟩

/-- Witness of C10 at the layer of `netConv` (576 rows, 1024 columns, marked `0`) with
tile size 1024 and PE size 256. -/
theorem peDesign_duplication_witness :
    at2 (PEDesign false 256 1024 1 [0] netConv 1 1) 0 0 =
        ((⌈((⌈(1024 : ℚ) / 256⌉ : ℤ) : ℚ) /
          ((⌈weightRows (layerAt netConv 0) 1 / 256⌉ : ℤ) : ℚ)⌉ : ℤ) : ℚ) ∧
      at2 (PEDesign false 256 1024 1 [0] netConv 1 1) 1 0 =
        ((⌈((⌈(1024 : ℚ) / 256⌉ : ℤ) : ℚ) /
          ((⌈weightCols (layerAt netConv 0) 1 / 256⌉ : ℤ) : ℚ)⌉ : ℤ) : ℚ) :=
  (peDesign_duplication 256 1024 1 [0] netConv 1 1 0 (by decide)).1 (by decide)
    (Or.inl (by norm_num [weightRows, layerAt, netConv]))

/-! ## Evaluations of the floor planning on concrete networks -/

theorem minCube_zpow (k : ℤ) : minCube ((2 : ℚ) ^ k) = (2 : ℚ) ^ k := by
  rw [minCube_of_pos (zpow_pos (by norm_num) k)]
  have h := Int.clog_zpow (R := ℚ) (b := 2) (by norm_num) k
  rw [Nat.cast_ofNat] at h
  rw [h]

/-- `ChipDesignInitialize` on the one-layer network `netWide`: the layer is Conventional
and `maxTileSizeCM = 2048`. -/
theorem chipDesignInitialize_netWide :
    ChipDesignInitialize paramCM netWide = ⟨[0], 0, 2048, 0⟩ := by
  have h : minCube 2048 = 2048 := by
    have := minCube_zpow 11
    norm_num at this
    exact this
  simp [ChipDesignInitialize, paramCM, netWide, markBodyCM, layerAt, h, List.range_succ]

/-- `ChipDesignInitialize` on the one-layer network `netConv`: the layer is Conventional
and `maxTileSizeCM = 1024`. -/
theorem chipDesignInitialize_netConv :
    ChipDesignInitialize paramCM netConv = ⟨[0], 0, 1024, 0⟩ := by
  have h : minCube 1024 = 1024 := by
    have := minCube_zpow 10
    norm_num at this
    exact this
  simp [ChipDesignInitialize, paramCM, netConv, markBodyCM, layerAt, h, List.range_succ]

/-- C1. On the one-layer network `netWide` (weight matrix 1024 × 2048, 128-row
sub-arrays, novel mapping off, all dimensions positive, feasible since
`maxTileSizeCM = 2048 ≥ 4*128`) the tile-size search of `ChipFloorPlan`, fed with the
outputs of `ChipDesignInitialize`, ends with `desiredTileSizeCM = 2048`, whose
`TileDesignCM` utilization is `1/2`, although the candidate `2048/2^1 = 1024 ≥ 4*128`
has utilization `1`. -/
theorem tileSearch_not_maximal :
    (ChipFloorPlan paramCM 8 true false false netWide
        (ChipDesignInitialize paramCM netWide).markNM
        (ChipDesignInitialize paramCM netWide).maxPESizeNM
        (ChipDesignInitialize paramCM netWide).maxTileSizeCM
        (ChipDesignInitialize paramCM netWide).numPENM 0).map
        (fun r => r.2.desiredTileSizeCM) = some 2048 ∧
      (ChipDesignInitialize paramCM netWide).maxTileSizeCM = 2048 ∧
      vecAt (TileDesignCM 2048 [0] netWide 1 1) 2 = 1 / 2 ∧
      vecAt (TileDesignCM (2048 / 2 ^ 1) [0] netWide 1 1) 2 = 1 ∧
      4 * (paramCM.numRowSubArray : ℚ) ≤ 2048 / 2 ^ 1 := by
  rw [chipDesignInitialize_netWide]
  decide!

/-- C4. On the one-layer network `netWide` (feasible, novel mapping off) the per-layer
tile counts returned by `ChipFloorPlan(findNumTile)` sum to `totalNumTile = 1`, while
`desiredNumTileCM + desiredNumTileNM = 2`. -/
theorem tileCount_mismatch :
    (ChipFloorPlan paramCM 8 true false false netWide
        (ChipDesignInitialize paramCM netWide).markNM
        (ChipDesignInitialize paramCM netWide).maxPESizeNM
        (ChipDesignInitialize paramCM netWide).maxTileSizeCM
        (ChipDesignInitialize paramCM netWide).numPENM 0).map
        (fun r => (totalNumTile netWide r.1, r.2.desiredNumTileCM + r.2.desiredNumTileNM))
      = some (1, 2) := by
  rw [chipDesignInitialize_netWide]
  decide!

/-- C5. On the one-layer network `netConv` (weight matrix 576 × 1024, positive integer
dimensions, 128-row sub-arrays, novel mapping off, feasible since
`maxTileSizeCM = 1024 ≥ 4*128`) the utilization table returned by
`ChipFloorPlan(findUtilization)` holds `9/8`, which exceeds `1`; the chosen sizes are
tile size 1024 and PE size 256, with PE duplication 2 along the rows. -/
theorem utilization_above_one :
    (ChipFloorPlan paramCM 8 false true false netConv
        (ChipDesignInitialize paramCM netConv).markNM
        (ChipDesignInitialize paramCM netConv).maxPESizeNM
        (ChipDesignInitialize paramCM netConv).maxTileSizeCM
        (ChipDesignInitialize paramCM netConv).numPENM 0).map
        (fun r => (r.1, r.2.desiredTileSizeCM, r.2.desiredPESizeCM, r.2.peDup))
      = some ([[9 / 8]], 1024, 256, [[2], [1]]) ∧ (1 : ℚ) < 9 / 8 := by
  rw [chipDesignInitialize_netConv]
  decide!

/-! ## The model of `pow(2, ceil(log2(x)))` -/

theorem clog_two_ratCast {x : ℚ} (hx : 0 < x) : Int.clog 2 ((x : ℚ) : ℝ) = Int.clog 2 x := by
  have hxr : (0 : ℝ) < (x : ℝ) := by exact_mod_cast hx
  apply le_antisymm
  · rw [← Int.le_zpow_iff_clog_le (b := 2) (by norm_num) hxr]
    have h := Int.self_le_zpow_clog (R := ℚ) (b := 2) (by norm_num) x
    have h' : ((x : ℚ) : ℝ) ≤ (((((2 : ℕ) : ℚ)) ^ Int.clog 2 x : ℚ) : ℝ) := by exact_mod_cast h
    simpa using h'
  · rw [← Int.le_zpow_iff_clog_le (b := 2) (by norm_num) hx]
    have h := Int.self_le_zpow_clog (R := ℝ) (b := 2) (by norm_num) (x : ℝ)
    have h' : ((x : ℚ) : ℝ) ≤ (((((2 : ℕ) : ℚ)) ^ Int.clog 2 (x : ℝ) : ℚ) : ℝ) := by
      simpa using h
    exact_mod_cast h'

/-- On positive arguments `minCube` is the real number `2 ^ ceil(log2 x)` that the source
expression `pow(2, ceil(log2(x)))` denotes. -/
theorem minCube_eq_real {x : ℚ} (hx : 0 < x) :
    ((minCube x : ℚ) : ℝ) = (2 : ℝ) ^ ⌈Real.logb 2 (x : ℝ)⌉ := by
  have hxr : (0 : ℝ) ≤ (x : ℝ) := by exact_mod_cast le_of_lt hx
  have h := Real.ceil_logb_natCast (b := 2) hxr
  rw [Nat.cast_ofNat] at h
  rw [h, clog_two_ratCast hx, minCube_of_pos hx]
  simp

/-! ## The model of `ceil(sqrt(x))` -/

/-- On non-negative arguments `ceilSqrt` is the integer `ceil(sqrt x)` that the source
expression `ceil((double)sqrt(x))` denotes. -/
theorem ceilSqrt_eq_real {x : ℚ} (hx : 0 ≤ x) : ceilSqrt x = ⌈Real.sqrt (x : ℝ)⌉ := by
  have hxr : (0 : ℝ) ≤ (x : ℝ) := by exact_mod_cast hx
  have h1 : (x : ℝ) ≤ ((⌈x⌉₊ : ℕ) : ℝ) := by exact_mod_cast Nat.le_ceil x
  have h2 : ((⌈x⌉₊ : ℕ) : ℝ) < (x : ℝ) + 1 := by exact_mod_cast Nat.ceil_lt_add_one hx
  have h3 : ((Nat.sqrt ⌈x⌉₊ * Nat.sqrt ⌈x⌉₊ : ℕ) : ℝ) ≤ ((⌈x⌉₊ : ℕ) : ℝ) := by
    exact_mod_cast Nat.sqrt_le ⌈x⌉₊
  have h4 : ((⌈x⌉₊ : ℕ) : ℝ) < (((Nat.sqrt ⌈x⌉₊ + 1) * (Nat.sqrt ⌈x⌉₊ + 1) : ℕ) : ℝ) := by
    exact_mod_cast Nat.lt_succ_sqrt ⌈x⌉₊
  have hs : (0 : ℝ) ≤ (Nat.sqrt ⌈x⌉₊ : ℝ) := Nat.cast_nonneg _
  symm
  unfold ceilSqrt
  dsimp only
  generalize Nat.sqrt ⌈x⌉₊ = s at h3 h4 hs ⊢
  generalize ⌈x⌉₊ = n at h1 h2 h3 h4 ⊢
  push_cast at h3 h4
  split_ifs with he
  · have he' : (s : ℝ) * s = n := by exact_mod_cast he
    rw [Int.ceil_eq_iff]
    push_cast
    constructor
    · rcases Nat.eq_zero_or_pos s with h0 | h0
      · subst h0
        have := Real.sqrt_nonneg (x : ℝ)
        norm_num
        linarith
      · have h1s : (1 : ℝ) ≤ s := by exact_mod_cast h0
        rw [Real.lt_sqrt (by linarith)]
        nlinarith
    · rw [Real.sqrt_le_left (by linarith)]
      nlinarith
  · have hlt : s * s + 1 ≤ n := by
      have : s * s ≤ n := by exact_mod_cast h3
      omega
    have hlt' : (s : ℝ) * s + 1 ≤ n := by exact_mod_cast hlt
    rw [Int.ceil_eq_iff]
    push_cast
    constructor
    · rw [add_sub_cancel_right, Real.lt_sqrt hs]
      nlinarith
    · rw [Real.sqrt_le_left (by linarith)]
      nlinarith

/-! ## Duplication of a layer that fills the hardware -/

/-- The ceiling of a quotient of two integers `1 ≤ a ≤ b` is `1`. -/
theorem ceil_div_eq_one {a b : ℤ} (ha : 1 ≤ a) (hab : a ≤ b) :
    ⌈(a : ℚ) / (b : ℚ)⌉ = 1 := by
  have hb : (0 : ℚ) < (b : ℚ) := by exact_mod_cast (by omega : (0 : ℤ) < b)
  have ha' : (0 : ℚ) < (a : ℚ) := by exact_mod_cast (by omega : (0 : ℤ) < a)
  have hab' : (a : ℚ) ≤ (b : ℚ) := by exact_mod_cast hab
  rw [Int.ceil_eq_iff]
  constructor
  · simpa using div_pos ha' hb
  · rw [Int.cast_one, div_le_one hb]
    exact hab'

/-- With a positive unit, the number of units needed for a positive size is at least one
and grows with the size. -/
theorem one_le_ceil_div {x u : ℚ} (hx : 0 < x) (hu : 0 < u) : 1 ≤ ⌈x / u⌉ :=
  Int.one_le_ceil_iff.mpr (div_pos hx hu)

theorem ceil_div_mono {x y u : ℚ} (hxy : x ≤ y) (hu : 0 < u) : ⌈x / u⌉ ≤ ⌈y / u⌉ :=
  Int.ceil_le_ceil (div_le_div_of_nonneg_right hxy (le_of_lt hu))

/-- The table returned by `SubArrayDup` holds at `[0][i]` and `[1][i]` the two
duplication factors computed for layer `i`. -/
theorem SubArrayDup_dup (p : Param) (desiredPESizeCM desiredPESizeNM : ℚ) (markNM : List ℤ)
    (netStructure : List Layer) (numRowPerSynapse numColPerSynapse : ℤ) (i : ℕ)
    (hi : i < netStructure.length) :
    at2 (SubArrayDup p desiredPESizeCM desiredPESizeNM markNM netStructure numRowPerSynapse
        numColPerSynapse) 0 i =
      ((subArrayDupOf p desiredPESizeCM desiredPESizeNM markNM netStructure numRowPerSynapse
        numColPerSynapse i).1 : ℚ) ∧
    at2 (SubArrayDup p desiredPESizeCM desiredPESizeNM markNM netStructure numRowPerSynapse
        numColPerSynapse) 1 i =
      ((subArrayDupOf p desiredPESizeCM desiredPESizeNM markNM netStructure numRowPerSynapse
        numColPerSynapse i).2 : ℚ) := by
  unfold SubArrayDup
  exact at2_map_range _ _ _ i hi

/-- The PE duplication of a Conventional layer that is at least as large as the tile in
both dimensions is `(1, 1)`. -/
theorem peDupOf_filled (peSize desiredTileSize : ℚ) (markNM : List ℤ) (netStructure : List Layer)
    (numRowPerSynapse numColPerSynapse : ℤ) (i : ℕ) (hpe : 0 < peSize) (hT : 0 < desiredTileSize)
    (hR : desiredTileSize ≤ weightRows (layerAt netStructure i) numRowPerSynapse)
    (hC : desiredTileSize ≤ weightCols (layerAt netStructure i) numColPerSynapse) :
    peDupOf peSize desiredTileSize markNM netStructure numRowPerSynapse numColPerSynapse i
      = (1, 1) := by
  unfold weightRows at hR
  unfold weightCols at hC
  unfold peDupOf
  dsimp only
  split_ifs
  · rw [ceil_div_eq_one (one_le_ceil_div hT hpe) (ceil_div_mono hR hpe),
      ceil_div_eq_one (one_le_ceil_div hT hpe) (ceil_div_mono hC hpe)]
  · rfl
  · rfl

/-- The sub-array duplication of a Conventional layer that is at least as large as the PE
in both dimensions is `(1, 1)`. -/
theorem subArrayDupOf_filled (p : Param) (desiredPESizeCM desiredPESizeNM : ℚ) (markNM : List ℤ)
    (netStructure : List Layer) (numRowPerSynapse numColPerSynapse : ℤ) (i : ℕ)
    (hm : markAt markNM i = 0) (hpe : 0 < desiredPESizeCM)
    (hr : 0 < p.numRowSubArray) (hc : 0 < p.numColSubArray)
    (hR : desiredPESizeCM ≤ weightRows (layerAt netStructure i) numRowPerSynapse)
    (hC : desiredPESizeCM ≤ weightCols (layerAt netStructure i) numColPerSynapse) :
    subArrayDupOf p desiredPESizeCM desiredPESizeNM markNM netStructure numRowPerSynapse
      numColPerSynapse i = (1, 1) := by
  have hr' : (0 : ℚ) < (p.numRowSubArray : ℚ) := by exact_mod_cast hr
  have hc' : (0 : ℚ) < (p.numColSubArray : ℚ) := by exact_mod_cast hc
  unfold weightRows at hR
  unfold weightCols at hC
  unfold subArrayDupOf
  dsimp only
  rw [if_pos hm]
  split_ifs
  · rw [ceil_div_eq_one (one_le_ceil_div hpe hr') (ceil_div_mono hR hr'),
      ceil_div_eq_one (one_le_ceil_div hpe hc') (ceil_div_mono hC hc')]
  · rfl

/-- C11. For a Conventional-marked layer `i` with `R = inputDepth*kernelRows*kernelCols*
numRowPerSynapse` rows and `C = outputDepth*numColPerSynapse` columns and positive sizes:
if `R ≥ tileSize` and `C ≥ tileSize` then `PEDesign` gives `dupRow = dupCol = 1`, and if
`R ≥ desiredPESizeCM` and `C ≥ desiredPESizeCM` then `SubArrayDup` gives
`dupRow = dupCol = 1`. -/
theorem duplication_one_when_filled (p : Param) (peSize desiredTileSize numTileTotal : ℚ)
    (desiredPESizeCM desiredPESizeNM : ℚ) (markNM : List ℤ) (netStructure : List Layer)
    (numRowPerSynapse numColPerSynapse : ℤ) (i : ℕ) (hi : i < netStructure.length)
    (hm : markAt markNM i = 0) (hpe : 0 < peSize) (hT : 0 < desiredTileSize)
    (hPE : 0 < desiredPESizeCM) (hr : 0 < p.numRowSubArray) (hc : 0 < p.numColSubArray) :
    (desiredTileSize ≤ weightRows (layerAt netStructure i) numRowPerSynapse →
      desiredTileSize ≤ weightCols (layerAt netStructure i) numColPerSynapse →
      at2 (PEDesign false peSize desiredTileSize numTileTotal markNM netStructure
          numRowPerSynapse numColPerSynapse) 0 i = 1 ∧
      at2 (PEDesign false peSize desiredTileSize numTileTotal markNM netStructure
          numRowPerSynapse numColPerSynapse) 1 i = 1) ∧
    (desiredPESizeCM ≤ weightRows (layerAt netStructure i) numRowPerSynapse →
      desiredPESizeCM ≤ weightCols (layerAt netStructure i) numColPerSynapse →
      at2 (SubArrayDup p desiredPESizeCM desiredPESizeNM markNM netStructure numRowPerSynapse
          numColPerSynapse) 0 i = 1 ∧
      at2 (SubArrayDup p desiredPESizeCM desiredPESizeNM markNM netStructure numRowPerSynapse
          numColPerSynapse) 1 i = 1) := by
  constructor
  · intro hR hC
    obtain ⟨h0, h1⟩ := PEDesign_dup peSize desiredTileSize numTileTotal markNM netStructure
      numRowPerSynapse numColPerSynapse i hi
    rw [h0, h1, peDupOf_filled peSize desiredTileSize markNM netStructure numRowPerSynapse
      numColPerSynapse i hpe hT hR hC]
    exact ⟨by norm_num, by norm_num⟩
  · intro hR hC
    obtain ⟨h0, h1⟩ := SubArrayDup_dup p desiredPESizeCM desiredPESizeNM markNM netStructure
      numRowPerSynapse numColPerSynapse i hi
    rw [h0, h1, subArrayDupOf_filled p desiredPESizeCM desiredPESizeNM markNM netStructure
      numRowPerSynapse numColPerSynapse i hm hPE hr hc hR hC]
    exact ⟨by norm_num, by norm_num⟩

/-- Witness of C11 at the layer of `netWide` (1024 rows, 2048 columns) with tile size
1024, PE sizes 512 and 128-row sub-arrays. -/
theorem duplication_one_when_filled_witness :
    (at2 (PEDesign false 512 1024 2 [0] netWide 1 1) 0 0 = 1 ∧
      at2 (PEDesign false 512 1024 2 [0] netWide 1 1) 1 0 = 1) ∧
    (at2 (SubArrayDup paramCM 512 0 [0] netWide 1 1) 0 0 = 1 ∧
      at2 (SubArrayDup paramCM 512 0 [0] netWide 1 1) 1 0 = 1) :=
  have h := duplication_one_when_filled paramCM 512 1024 2 512 0 [0] netWide 1 1 0
    (by decide) (by decide) (by norm_num) (by norm_num) (by norm_num) (by decide) (by decide)
  ⟨h.1 (by norm_num [weightRows, layerAt, netWide]) (by norm_num [weightCols, layerAt, netWide]),
   h.2 (by norm_num [weightRows, layerAt, netWide]) (by norm_num [weightCols, layerAt, netWide])⟩

/-! ## The tile grid of `ChipFloorPlan` -/

/-- The two grid dimensions that `ChipFloorPlan` returns (Chip.cpp 264-265). -/
theorem ChipFloorPlan_numTile (p : Param) (fuel : ℕ) (findNumTile findUtilization findSpeedUp : Bool)
    (netStructure : List Layer) (markNM : List ℤ) (maxPESizeNM maxTileSizeCM numPENM : ℚ)
    (thisTileTotal0 : ℚ) (r : List (List ℚ) × FloorPlan)
    (h : ChipFloorPlan p fuel findNumTile findUtilization findSpeedUp netStructure markNM
      maxPESizeNM maxTileSizeCM numPENM thisTileTotal0 = some r) :
    r.2.numTileRow = ceilSqrt (r.2.desiredNumTileCM + r.2.desiredNumTileNM) ∧
    r.2.numTileCol = ⌈(r.2.desiredNumTileCM + r.2.desiredNumTileNM) /
      ((ceilSqrt (r.2.desiredNumTileCM + r.2.desiredNumTileNM) : ℤ) : ℚ)⌉ := by
  unfold ChipFloorPlan at h
  simp only [Option.bind_eq_bind, Option.bind_eq_some] at h
  obtain ⟨s, -, h⟩ := h
  split_ifs at h <;> obtain rfl := Option.some.inj h <;> exact ⟨rfl, rfl⟩

/-- For a positive argument `ceilSqrt` is at least `1` and its square is at least the
argument. -/
theorem ceilSqrt_spec {x : ℚ} (hx : 0 < x) :
    1 ≤ ceilSqrt x ∧ x ≤ ((ceilSqrt x : ℤ) : ℚ) * ((ceilSqrt x : ℤ) : ℚ) := by
  have h1 : x ≤ ((⌈x⌉₊ : ℕ) : ℚ) := Nat.le_ceil x
  have hn : 0 < ⌈x⌉₊ := Nat.ceil_pos.mpr hx
  have h3 := Nat.sqrt_le ⌈x⌉₊
  have h4 := Nat.lt_succ_sqrt ⌈x⌉₊
  have hs : 0 < Nat.sqrt ⌈x⌉₊ := Nat.sqrt_pos.mpr hn
  unfold ceilSqrt
  dsimp only
  generalize Nat.sqrt ⌈x⌉₊ = s at h3 h4 hs ⊢
  generalize ⌈x⌉₊ = n at h1 hn h3 h4 ⊢
  split_ifs with he
  · refine ⟨by omega, ?_⟩
    have : ((s * s : ℕ) : ℚ) = (n : ℚ) := by exact_mod_cast he
    push_cast at this ⊢
    linarith
  · refine ⟨by omega, ?_⟩
    have : (n : ℚ) ≤ (((s + 1) * (s + 1) : ℕ) : ℚ) := by exact_mod_cast le_of_lt h4
    push_cast at this ⊢
    linarith

/-- The grid `numTileRow = ceilSqrt N`, `numTileCol = ceil(N / numTileRow)` of a positive
tile count `N`: it holds `N` tiles, its last row is not empty, and it has at most as many
columns as rows. -/
theorem grid_spec {N : ℚ} (hN : 0 < N) :
    N ≤ ((ceilSqrt N : ℤ) : ℚ) * ((⌈N / ((ceilSqrt N : ℤ) : ℚ)⌉ : ℤ) : ℚ) ∧
    (((⌈N / ((ceilSqrt N : ℤ) : ℚ)⌉ : ℤ) : ℚ) - 1) * ((ceilSqrt N : ℤ) : ℚ) < N ∧
    ⌈N / ((ceilSqrt N : ℤ) : ℚ)⌉ ≤ ceilSqrt N := by
  obtain ⟨h1, h2⟩ := ceilSqrt_spec hN
  have hr : (0 : ℚ) < ((ceilSqrt N : ℤ) : ℚ) := by exact_mod_cast (by omega : 0 < ceilSqrt N)
  generalize ceilSqrt N = r at h1 h2 hr ⊢
  have hc1 := Int.le_ceil (N / (r : ℚ))
  have hc2 := Int.ceil_lt_add_one (N / (r : ℚ))
  refine ⟨?_, ?_, ?_⟩
  · have := (div_le_iff₀ hr).mp hc1
    linarith
  · have : ((⌈N / (r : ℚ)⌉ : ℤ) : ℚ) - 1 < N / (r : ℚ) := by linarith
    exact (lt_div_iff₀ hr).mp this
  · rw [Int.ceil_le, div_le_iff₀ hr]
    exact h2

/-- C12. For a total tile count `N = desiredNumTileCM + desiredNumTileNM ≥ 1`,
`ChipFloorPlan` sets `numTileRow = ceil(sqrt(N))` and `numTileCol = ceil(N / numTileRow)`,
so the grid has capacity `numTileRow * numTileCol ≥ N`, has fewer than `numTileRow` unused
slots (`(numTileCol - 1) * numTileRow < N`), and `numTileCol ≤ numTileRow`. -/
theorem chipFloorPlan_grid (p : Param) (fuel : ℕ) (findNumTile findUtilization findSpeedUp : Bool)
    (netStructure : List Layer) (markNM : List ℤ) (maxPESizeNM maxTileSizeCM numPENM : ℚ)
    (thisTileTotal0 : ℚ) (r : List (List ℚ) × FloorPlan)
    (h : ChipFloorPlan p fuel findNumTile findUtilization findSpeedUp netStructure markNM
      maxPESizeNM maxTileSizeCM numPENM thisTileTotal0 = some r)
    (hN : 1 ≤ r.2.desiredNumTileCM + r.2.desiredNumTileNM) :
    r.2.numTileRow = ⌈Real.sqrt ((r.2.desiredNumTileCM + r.2.desiredNumTileNM : ℚ) : ℝ)⌉ ∧
    r.2.numTileCol = ⌈(r.2.desiredNumTileCM + r.2.desiredNumTileNM) / (r.2.numTileRow : ℚ)⌉ ∧
    r.2.desiredNumTileCM + r.2.desiredNumTileNM ≤ (r.2.numTileRow : ℚ) * (r.2.numTileCol : ℚ) ∧
    ((r.2.numTileCol : ℚ) - 1) * (r.2.numTileRow : ℚ)
      < r.2.desiredNumTileCM + r.2.desiredNumTileNM ∧
    r.2.numTileCol ≤ r.2.numTileRow := by
  obtain ⟨hr, hc⟩ := ChipFloorPlan_numTile p fuel findNumTile findUtilization findSpeedUp
    netStructure markNM maxPESizeNM maxTileSizeCM numPENM thisTileTotal0 r h
  have hpos : 0 < r.2.desiredNumTileCM + r.2.desiredNumTileNM := by linarith
  obtain ⟨g1, g2, g3⟩ := grid_spec hpos
  rw [hc, hr]
  exact ⟨ceilSqrt_eq_real (le_of_lt hpos), rfl, g1, g2, g3⟩

/-- Witness of C12: the plan of the one-layer network `netWide` has tile count `2`, hence
a grid of 2 rows and 1 column. -/
theorem chipFloorPlan_grid_witness :
    ∃ r, ChipFloorPlan paramCM 8 true false false netWide [0] 0 2048 0 0 = some r ∧
      r.2.desiredNumTileCM + r.2.desiredNumTileNM = 2 ∧
      r.2.numTileRow = ⌈Real.sqrt ((r.2.desiredNumTileCM + r.2.desiredNumTileNM : ℚ) : ℝ)⌉ ∧
      r.2.numTileCol = ⌈(r.2.desiredNumTileCM + r.2.desiredNumTileNM) / (r.2.numTileRow : ℚ)⌉ ∧
      r.2.desiredNumTileCM + r.2.desiredNumTileNM ≤ (r.2.numTileRow : ℚ) * (r.2.numTileCol : ℚ) ∧
      ((r.2.numTileCol : ℚ) - 1) * (r.2.numTileRow : ℚ)
        < r.2.desiredNumTileCM + r.2.desiredNumTileNM ∧
      r.2.numTileCol ≤ r.2.numTileRow := by
  have hv : (ChipFloorPlan paramCM 8 true false false netWide [0] 0 2048 0 0).map
      (fun r => r.2.desiredNumTileCM + r.2.desiredNumTileNM) = some 2 := by decide!
  rcases h : ChipFloorPlan paramCM 8 true false false netWide [0] 0 2048 0 0 with _ | r
  · rw [h] at hv
    simp at hv
  · rw [h] at hv
    simp only [Option.map_some', Option.some.injEq] at hv
    exact ⟨r, rfl, hv, chipFloorPlan_grid paramCM 8 true false false netWide [0] 0 2048 0 0 r h
      (by rw [hv]; norm_num)⟩

/-! ## Evaluations of the PE-size search and of the tile locations -/

/-- `ChipDesignInitialize` on the one-layer network `netConvWide`: the layer is
Conventional and `maxTileSizeCM = 2048`. -/
theorem chipDesignInitialize_netConvWide :
    ChipDesignInitialize paramCM netConvWide = ⟨[0], 0, 2048, 0⟩ := by
  have h : minCube 2048 = 2048 := by
    have := minCube_zpow 11
    norm_num at this
    exact this
  simp [ChipDesignInitialize, paramCM, netConvWide, markBodyCM, layerAt, h, List.range_succ]

/-- `ChipDesignInitialize` on the two-layer network `netFC2`: both layers are
Conventional and `maxTileSizeCM = 1024`. -/
theorem chipDesignInitialize_netFC2 :
    ChipDesignInitialize paramCM netFC2 = ⟨[0, 0], 0, 1024, 0⟩ := by
  have h1 : minCube 1024 = 1024 := by
    have := minCube_zpow 10
    norm_num at this
    exact this
  have h2 : minCube 512 = 512 := by
    have := minCube_zpow 9
    norm_num at this
    exact this
  simp [ChipDesignInitialize, paramCM, netFC2, markBodyCM, layerAt, h1, h2, List.range_succ]
  norm_num

/-- C13. On the one-layer network `netConvWide` (weight matrix 576 × 2048, 128-row
sub-arrays, novel mapping off, feasible since `maxTileSizeCM = 2048 ≥ 4*128`)
`ChipFloorPlan` ends with `desiredTileSizeCM = 2048`, `desiredNumTileCM = 2` and
`desiredPESizeCM = 1024`, whose `PEDesign` utilization is `9/32`, although the PE
candidate `2048/2^3 = 256 ≥ 2*128` has utilization `27/64`. -/
theorem peSearch_not_maximal :
    (ChipFloorPlan paramCM 8 true false false netConvWide
        (ChipDesignInitialize paramCM netConvWide).markNM
        (ChipDesignInitialize paramCM netConvWide).maxPESizeNM
        (ChipDesignInitialize paramCM netConvWide).maxTileSizeCM
        (ChipDesignInitialize paramCM netConvWide).numPENM 0).map
        (fun r => (r.2.desiredTileSizeCM, r.2.desiredNumTileCM, r.2.desiredPESizeCM))
      = some (2048, 2, 1024) ∧
    at2 (PEDesign true 1024 2048 2 [0] netConvWide 1 1) 1 0 = 9 / 32 ∧
    at2 (PEDesign true (2048 / 2 ^ 3) 2048 2 [0] netConvWide 1 1) 1 0 = 27 / 64 ∧
    2 * (paramCM.numRowSubArray : ℚ) ≤ 2048 / 2 ^ 3 := by
  rw [chipDesignInitialize_netConvWide]
  decide!

/-- C14. On the two-layer network `netFC2` (novel mapping off, 128-row sub-arrays,
running tile total started at `0`) `ChipFloorPlan` chooses a 2 × 2 grid, layer 0 uses
`1*2 = 2` tiles and layer 1 uses `2*1 = 2` tiles, and the tile-location table is
`[[0, 1], [0, -1]]`: layer 1 is placed at row `1`, column `-1`, while the slot index
`2` of the preceding layer's tiles lies at row `1`, column `0`. -/
theorem tileLocation_outside_grid :
    (ChipFloorPlan paramCM 8 false false false netFC2
        (ChipDesignInitialize paramCM netFC2).markNM
        (ChipDesignInitialize paramCM netFC2).maxPESizeNM
        (ChipDesignInitialize paramCM netFC2).maxTileSizeCM
        (ChipDesignInitialize paramCM netFC2).numPENM 0).map
        (fun r => (r.1, r.2.numTileEachLayer, r.2.numTileRow, r.2.numTileCol))
      = some ([[0, 1], [0, -1]], [[1, 2], [2, 1]], 2, 2) := by
  rw [chipDesignInitialize_netFC2]
  decide!

/-! ## `ChipCalculateArea`: the total area -/

/-- C20. With the device-model areas as arbitrary inputs, the total chip area returned by
`ChipCalculateArea` (entry 0) equals `CMTileArea*desiredNumTileCM` plus
`NMTileArea*desiredNumTileNM` if novel mapping is enabled, plus the areas of the global
buffer, the interconnect tree, the max-pool unit and the accumulation tree, plus, if
`chipActivation` is enabled, the area of the ReLU unit or of the Sigmoid unit according
to `reLu`. -/
theorem chipCalculateArea_total (p : ChipParam) (TileCalculateArea : ℚ → ℚ → TileAreaResult)
    (m : ModuleAreas) (desiredNumTileNM numPENM desiredPESizeNM desiredNumTileCM
      desiredTileSizeCM desiredPESizeCM : ℚ) :
    vecAt (ChipCalculateArea p TileCalculateArea m desiredNumTileNM numPENM desiredPESizeNM
        desiredNumTileCM desiredTileSizeCM desiredPESizeCM).areaResults 0 =
      vecAt (TileCalculateArea (ceilD (desiredTileSizeCM / desiredPESizeCM) ^ 2)
          desiredPESizeCM).areas 0 * desiredNumTileCM
        + (if p.novelMapping then
            vecAt (TileCalculateArea numPENM desiredPESizeNM).areas 0 * desiredNumTileNM
           else 0)
        + m.globalBuffer + m.GhTree + m.maxPool + m.Gaccumulation
        + (if p.chipActivation then (if p.reLu then m.GreLu else m.Gsigmoid) else 0) := by
  unfold ChipCalculateArea
  simp only [vecAt, List.getD_cons_zero]
  split_ifs <;> ring

/-! ## `ChipCalculatePerformance`: aggregation over the tiles -/

/-- A projection of a fold that the loop body updates on its own is the fold of the
projected update. -/
theorem foldl_proj {σ α β : Type} (body : σ → α → σ) (g : σ → β) (h : β → α → β)
    (hstep : ∀ s x, g (body s x) = h (g s) x) (xs : List α) (s : σ) :
    g (xs.foldl body s) = xs.foldl h (g s) := by
  induction xs generalizing s with
  | nil => rfl
  | cons x xs ih => rw [List.foldl_cons, List.foldl_cons, ih, hstep]

theorem perfTileBody_buffer (p : ChipParam) (followedByMaxPool : Bool) (numTileRowL : ℚ)
    (m : PerfModels) (i : ℕ) (s : Performance) (j : ℕ) :
    (perfTileBody p followedByMaxPool numTileRowL m i s j).bufferLatency
      = max (m.tile i j).tilebufferLatency s.bufferLatency ∧
    (perfTileBody p followedByMaxPool numTileRowL m i s j).icLatency
      = max (m.tile i j).tileicLatency s.icLatency := by
  unfold perfTileBody
  dsimp only
  split_ifs <;> exact ⟨rfl, rfl⟩

theorem perfTileBody_read (p : ChipParam) (followedByMaxPool : Bool) (numTileRowL : ℚ)
    (m : PerfModels) (i : ℕ) (s : Performance) (j : ℕ)
    (hact : p.chipActivation = false) (hpool : followedByMaxPool = false)
    (hrow : ¬ numTileRowL > 1) :
    (perfTileBody p followedByMaxPool numTileRowL m i s j).readLatency
      = max (m.tile i j).tileReadLatency s.readLatency ∧
    (perfTileBody p followedByMaxPool numTileRowL m i s j).readDynamicEnergy
      = s.readDynamicEnergy + (m.tile i j).tileReadDynamicEnergy := by
  unfold perfTileBody
  dsimp only
  rw [if_neg (show ¬ (p.chipActivation = true) by simp [hact]), if_neg hrow,
    if_neg (show ¬ (followedByMaxPool = true) by simp [hpool])]
  exact ⟨rfl, rfl⟩

/-- After the tile loops `bufferLatency` and `icLatency` are the maxima over the tiles of
the tile values. -/
theorem perfTileLoops_buffer (p : ChipParam) (followedByMaxPool : Bool)
    (numTileRowL numTileColL : ℚ) (m : PerfModels) :
    (perfTileLoops p followedByMaxPool numTileRowL numTileColL m).bufferLatency
      = maxOverTiles ⌈numTileRowL⌉₊ ⌈numTileColL⌉₊ (fun i j => (m.tile i j).tilebufferLatency) ∧
    (perfTileLoops p followedByMaxPool numTileRowL numTileColL m).icLatency
      = maxOverTiles ⌈numTileRowL⌉₊ ⌈numTileColL⌉₊ (fun i j => (m.tile i j).tileicLatency) := by
  unfold perfTileLoops maxOverTiles
  constructor
  · exact foldl_proj
      (fun s i => (List.range ⌈numTileColL⌉₊).foldl
        (perfTileBody p followedByMaxPool numTileRowL m i) s)
      (fun s => s.bufferLatency)
      (fun a i => (List.range ⌈numTileColL⌉₊).foldl
        (fun a j => max (m.tile i j).tilebufferLatency a) a)
      (fun s i => foldl_proj (perfTileBody p followedByMaxPool numTileRowL m i)
        (fun s => s.bufferLatency) (fun a j => max (m.tile i j).tilebufferLatency a)
        (fun s j => (perfTileBody_buffer p followedByMaxPool numTileRowL m i s j).1) _ s)
      (List.range ⌈numTileRowL⌉₊) Performance.init
  · exact foldl_proj
      (fun s i => (List.range ⌈numTileColL⌉₊).foldl
        (perfTileBody p followedByMaxPool numTileRowL m i) s)
      (fun s => s.icLatency)
      (fun a i => (List.range ⌈numTileColL⌉₊).foldl
        (fun a j => max (m.tile i j).tileicLatency a) a)
      (fun s i => foldl_proj (perfTileBody p followedByMaxPool numTileRowL m i)
        (fun s => s.icLatency) (fun a j => max (m.tile i j).tileicLatency a)
        (fun s j => (perfTileBody_buffer p followedByMaxPool numTileRowL m i s j).2) _ s)
      (List.range ⌈numTileRowL⌉₊) Performance.init

/-- Without chip-level activation, accumulation and max-pool, after the tile loops
`readLatency` is the maximum and `readDynamicEnergy` the sum over the tiles of the tile
values. -/
theorem perfTileLoops_read (p : ChipParam) (followedByMaxPool : Bool)
    (numTileRowL numTileColL : ℚ) (m : PerfModels)
    (hact : p.chipActivation = false) (hpool : followedByMaxPool = false)
    (hrow : ¬ numTileRowL > 1) :
    (perfTileLoops p followedByMaxPool numTileRowL numTileColL m).readLatency
      = maxOverTiles ⌈numTileRowL⌉₊ ⌈numTileColL⌉₊ (fun i j => (m.tile i j).tileReadLatency) ∧
    (perfTileLoops p followedByMaxPool numTileRowL numTileColL m).readDynamicEnergy
      = sumOverTiles ⌈numTileRowL⌉₊ ⌈numTileColL⌉₊
          (fun i j => (m.tile i j).tileReadDynamicEnergy) := by
  unfold perfTileLoops maxOverTiles sumOverTiles
  constructor
  · exact foldl_proj
      (fun s i => (List.range ⌈numTileColL⌉₊).foldl
        (perfTileBody p followedByMaxPool numTileRowL m i) s)
      (fun s => s.readLatency)
      (fun a i => (List.range ⌈numTileColL⌉₊).foldl
        (fun a j => max (m.tile i j).tileReadLatency a) a)
      (fun s i => foldl_proj (perfTileBody p followedByMaxPool numTileRowL m i)
        (fun s => s.readLatency) (fun a j => max (m.tile i j).tileReadLatency a)
        (fun s j => (perfTileBody_read p followedByMaxPool numTileRowL m i s j
          hact hpool hrow).1) _ s)
      (List.range ⌈numTileRowL⌉₊) Performance.init
  · exact foldl_proj
      (fun s i => (List.range ⌈numTileColL⌉₊).foldl
        (perfTileBody p followedByMaxPool numTileRowL m i) s)
      (fun s => s.readDynamicEnergy)
      (fun a i => (List.range ⌈numTileColL⌉₊).foldl
        (fun a j => a + (m.tile i j).tileReadDynamicEnergy) a)
      (fun s i => foldl_proj (perfTileBody p followedByMaxPool numTileRowL m i)
        (fun s => s.readDynamicEnergy) (fun a j => a + (m.tile i j).tileReadDynamicEnergy)
        (fun s j => (perfTileBody_read p followedByMaxPool numTileRowL m i s j
          hact hpool hrow).2) _ s)
      (List.range ⌈numTileRowL⌉₊) Performance.init

/-- A running maximum over `j < n`: it is at least the start value and every `c j`, and
it is the start value or one of the `c j`. -/
theorem foldl_max_spec (c : ℕ → ℚ) (a : ℚ) (n : ℕ) :
    a ≤ (List.range n).foldl (fun a j => max (c j) a) a ∧
    (∀ j, j < n → c j ≤ (List.range n).foldl (fun a j => max (c j) a) a) ∧
    ((List.range n).foldl (fun a j => max (c j) a) a = a ∨
      ∃ j, j < n ∧ (List.range n).foldl (fun a j => max (c j) a) a = c j) := by
  induction n with
  | zero => exact ⟨le_refl a, fun j hj => absurd hj (Nat.not_lt_zero j), Or.inl rfl⟩
  | succ n ih =>
    obtain ⟨h1, h2, h3⟩ := ih
    rw [foldl_range_succ]
    generalize (List.range n).foldl (fun a j => max (c j) a) a = r at h1 h2 h3 ⊢
    refine ⟨le_trans h1 (le_max_right _ _), fun j hj => ?_, ?_⟩
    · rcases Nat.lt_succ_iff_lt_or_eq.mp hj with h | rfl
      · exact le_trans (h2 j h) (le_max_right _ _)
      · exact le_max_left _ _
    · rcases le_total r (c n) with hle | hle
      · exact Or.inr ⟨n, Nat.lt_succ_self n, max_eq_left hle⟩
      · rw [max_eq_right hle]
        rcases h3 with h | ⟨j, hj, h⟩
        · exact Or.inl h
        · exact Or.inr ⟨j, Nat.lt_succ_of_lt hj, h⟩

/-- For non-negative values `maxOverTiles` is their maximum over the tiles: it bounds
every tile value and, when there is a tile, it is the value of one. -/
theorem maxOverTiles_spec (nR nC : ℕ) (f : ℕ → ℕ → ℚ) (hf : ∀ i j, 0 ≤ f i j) :
    (∀ i j, i < nR → j < nC → f i j ≤ maxOverTiles nR nC f) ∧
    (0 < nR → 0 < nC → ∃ i j, i < nR ∧ j < nC ∧ maxOverTiles nR nC f = f i j) := by
  have key : ∀ n, 0 ≤ maxOverTiles n nC f ∧
      (∀ i j, i < n → j < nC → f i j ≤ maxOverTiles n nC f) ∧
      (maxOverTiles n nC f = 0 ∨ ∃ i j, i < n ∧ j < nC ∧ maxOverTiles n nC f = f i j) := by
    intro n
    induction n with
    | zero =>
      exact ⟨le_refl 0, fun i j hi => absurd hi (Nat.not_lt_zero i), Or.inl rfl⟩
    | succ n ih =>
      obtain ⟨h0, h1, h2⟩ := ih
      have e : maxOverTiles (n + 1) nC f =
          (List.range nC).foldl (fun a j => max (f n j) a) (maxOverTiles n nC f) := by
        unfold maxOverTiles
        rw [foldl_range_succ]
      obtain ⟨g1, g2, g3⟩ := foldl_max_spec (f n) (maxOverTiles n nC f) nC
      rw [← e] at g1 g2 g3
      refine ⟨le_trans h0 g1, fun i j hi hj => ?_, ?_⟩
      · rcases Nat.lt_succ_iff_lt_or_eq.mp hi with h | rfl
        · exact le_trans (h1 i j h hj) g1
        · exact g2 j hj
      · rcases g3 with h | ⟨j, hj, h⟩
        · rw [h]
          rcases h2 with h | ⟨i, j, hi, hj, h⟩
          · exact Or.inl h
          · exact Or.inr ⟨i, j, Nat.lt_succ_of_lt hi, hj, h⟩
        · exact Or.inr ⟨n, j, Nat.lt_succ_self n, hj, h⟩
  obtain ⟨-, h1, h2⟩ := key nR
  refine ⟨h1, fun hR hC => ?_⟩
  rcases h2 with h | h
  · exact ⟨0, 0, hR, hC, by rw [h]; exact le_antisymm (hf 0 0) (by rw [← h]; exact h1 0 0 hR hC)⟩
  · exact h

theorem foldl_add_spec (c : ℕ → ℚ) (a : ℚ) (n : ℕ) :
    (List.range n).foldl (fun a j => a + c j) a = a + ∑ j in Finset.range n, c j := by
  induction n with
  | zero => simp
  | succ n ih => rw [foldl_range_succ, ih, Finset.sum_range_succ]; ring

/-- The fold `sumOverTiles` is the double sum over the tiles. -/
theorem sumOverTiles_spec (nR nC : ℕ) (f : ℕ → ℕ → ℚ) :
    sumOverTiles nR nC f = ∑ i in Finset.range nR, ∑ j in Finset.range nC, f i j := by
  induction nR with
  | zero => simp [sumOverTiles]
  | succ n ih =>
    have e : sumOverTiles (n + 1) nC f =
        (List.range nC).foldl (fun a j => a + f n j) (sumOverTiles n nC f) := by
      unfold sumOverTiles
      rw [foldl_range_succ]
    rw [e, foldl_add_spec, ih, Finset.sum_range_succ]

/-! ## `ChipCalculatePerformance`: the claims -/

/-- C15. In `ChipCalculatePerformance` for a Conventional layer with chip-level activation
disabled, no max-pool and a single tile row (so no chip-level accumulation), with
non-negative tile latencies: the layer `readLatency` equals the maximum over all tiles of
the tile `readLatency` plus the global-buffer read and write latency plus the interconnect
latency, and the layer `readDynamicEnergy` equals the sum over all tiles of the tile
`readDynamicEnergy` plus the global-buffer read and write energy plus the interconnect
energy. -/
theorem chipCalculatePerformance_singleRow (p : ChipParam) (l : ℕ) (followedByMaxPool : Bool)
    (netStructure : List Layer) (markNM : List ℤ) (numTileEachLayer : List (List ℚ))
    (m : PerfModels) (hm : markAt markNM l = 0) (hact : p.chipActivation = false)
    (hpool : followedByMaxPool = false) (hrow : at2 numTileEachLayer 0 l = 1)
    (hnn : ∀ i j, 0 ≤ (m.tile i j).tileReadLatency) :
    (ChipCalculatePerformance p l followedByMaxPool netStructure markNM numTileEachLayer
        m).readLatency
      = maxOverTiles 1 ⌈at2 numTileEachLayer 1 l⌉₊ (fun i j => (m.tile i j).tileReadLatency)
        + (m.globalBuffer.readLatency + m.globalBuffer.writeLatency) + m.GhTree.readLatency ∧
    (∀ j, j < ⌈at2 numTileEachLayer 1 l⌉₊ → (m.tile 0 j).tileReadLatency
      ≤ maxOverTiles 1 ⌈at2 numTileEachLayer 1 l⌉₊ (fun i j => (m.tile i j).tileReadLatency)) ∧
    (0 < ⌈at2 numTileEachLayer 1 l⌉₊ → ∃ j, j < ⌈at2 numTileEachLayer 1 l⌉₊ ∧
      maxOverTiles 1 ⌈at2 numTileEachLayer 1 l⌉₊ (fun i j => (m.tile i j).tileReadLatency)
        = (m.tile 0 j).tileReadLatency) ∧
    (ChipCalculatePerformance p l followedByMaxPool netStructure markNM numTileEachLayer
        m).readDynamicEnergy
      = (∑ j in Finset.range ⌈at2 numTileEachLayer 1 l⌉₊, (m.tile 0 j).tileReadDynamicEnergy)
        + (m.globalBuffer.readDynamicEnergy + m.globalBuffer.writeDynamicEnergy)
        + m.GhTree.readDynamicEnergy := by
  obtain ⟨h1, h2⟩ := perfTileLoops_read p followedByMaxPool (at2 numTileEachLayer 0 l)
    (at2 numTileEachLayer 1 l) m hact hpool (by rw [hrow]; norm_num)
  have hc : ⌈at2 numTileEachLayer 0 l⌉₊ = 1 := by rw [hrow, Nat.ceil_one]
  rw [hc] at h1 h2
  obtain ⟨g1, g2⟩ := maxOverTiles_spec 1 ⌈at2 numTileEachLayer 1 l⌉₊
    (fun i j => (m.tile i j).tileReadLatency) hnn
  have e : ChipCalculatePerformance p l followedByMaxPool netStructure markNM
      numTileEachLayer m = perfFinishCM m (perfTileLoops p followedByMaxPool
        (at2 numTileEachLayer 0 l) (at2 numTileEachLayer 1 l) m) := by
    unfold ChipCalculatePerformance
    rw [if_pos hm]
  rw [e]
  refine ⟨?_, fun j hj => g1 0 j Nat.zero_lt_one hj, ?_, ?_⟩
  · show _ + _ = _
    rw [h1]
    ring
  · intro hC
    obtain ⟨i, j, hi, hj, h⟩ := g2 Nat.zero_lt_one hC
    obtain rfl : i = 0 := by omega
    exact ⟨j, hj, h⟩
  · show _ + _ = _
    rw [h2, sumOverTiles_spec, Finset.sum_range_one]
    ring

/-- Witness of C15: two tiles in one tile row with latencies 3 and 5 and energies 2 and
2, with zero whole-layer costs, give layer latency 5 and layer energy 4. -/
theorem chipCalculatePerformance_singleRow_witness :
    (ChipCalculatePerformance paramPerf 0 false netWide [0] [[1], [2]] twoTileModels).readLatency
      = 5 ∧
    (ChipCalculatePerformance paramPerf 0 false netWide [0] [[1], [2]]
      twoTileModels).readDynamicEnergy = 4 :=
  have h := chipCalculatePerformance_singleRow paramPerf 0 false netWide [0] [[1], [2]]
    twoTileModels (by decide) rfl rfl (by decide!) (by
      intro i j
      unfold twoTileModels simpleTile
      dsimp only
      split_ifs <;> norm_num)
  ⟨h.1.trans (by decide!), h.2.2.2.trans (by decide!)⟩

/-- C16 (as amended). In `ChipCalculatePerformance` for a Novel layer the tile maxima and
the whole-layer costs are divided together by `kernelRows`: the final `bufferLatency`
equals (maximum over tiles of the tile buffer latency + global-buffer read and write
latency) / kernelRows, and the final `icLatency` equals (maximum over tiles of the tile
interconnect latency + interconnect-tree latency) / kernelRows; for a Conventional layer
the same totals are formed with no division. -/
theorem chipCalculatePerformance_buffer_ic (p : ChipParam) (l : ℕ) (followedByMaxPool : Bool)
    (netStructure : List Layer) (markNM : List ℤ) (numTileEachLayer : List (List ℚ))
    (m : PerfModels) :
    (markAt markNM l ≠ 0 →
      (ChipCalculatePerformance p l followedByMaxPool netStructure markNM numTileEachLayer
          m).bufferLatency
        = (maxOverTiles ⌈at2 numTileEachLayer 0 l⌉₊ ⌈at2 numTileEachLayer 1 l⌉₊
              (fun i j => (m.tile i j).tilebufferLatency)
            + (m.globalBuffer.readLatency + m.globalBuffer.writeLatency))
          / (layerAt netStructure l).kernelRow ∧
      (ChipCalculatePerformance p l followedByMaxPool netStructure markNM numTileEachLayer
          m).icLatency
        = (maxOverTiles ⌈at2 numTileEachLayer 0 l⌉₊ ⌈at2 numTileEachLayer 1 l⌉₊
              (fun i j => (m.tile i j).tileicLatency)
            + m.GhTree.readLatency)
          / (layerAt netStructure l).kernelRow) ∧
    (markAt markNM l = 0 →
      (ChipCalculatePerformance p l followedByMaxPool netStructure markNM numTileEachLayer
          m).bufferLatency
        = maxOverTiles ⌈at2 numTileEachLayer 0 l⌉₊ ⌈at2 numTileEachLayer 1 l⌉₊
              (fun i j => (m.tile i j).tilebufferLatency)
            + (m.globalBuffer.readLatency + m.globalBuffer.writeLatency) ∧
      (ChipCalculatePerformance p l followedByMaxPool netStructure markNM numTileEachLayer
          m).icLatency
        = maxOverTiles ⌈at2 numTileEachLayer 0 l⌉₊ ⌈at2 numTileEachLayer 1 l⌉₊
              (fun i j => (m.tile i j).tileicLatency)
            + m.GhTree.readLatency) := by
  obtain ⟨h1, h2⟩ := perfTileLoops_buffer p followedByMaxPool (at2 numTileEachLayer 0 l)
    (at2 numTileEachLayer 1 l) m
  unfold ChipCalculatePerformance
  dsimp only
  constructor
  · intro hm
    rw [if_neg hm, ← h1, ← h2]
    exact ⟨rfl, rfl⟩
  · intro hm
    rw [if_pos hm, ← h1, ← h2]
    exact ⟨rfl, rfl⟩

/-- Witness of C16 (as amended) at a Novel layer with 3 kernel rows, one tile with buffer
latency 3 and a global-buffer latency of 3. -/
theorem chipCalculatePerformance_buffer_ic_witness :
    (ChipCalculatePerformance paramPerfNM 0 false netConv [1] [[1], [1]] bufferModels).bufferLatency
        = (maxOverTiles ⌈at2 [[1], [1]] 0 0⌉₊ ⌈at2 [[1], [1]] 1 0⌉₊
              (fun i j => (bufferModels.tile i j).tilebufferLatency)
            + (bufferModels.globalBuffer.readLatency + bufferModels.globalBuffer.writeLatency))
          / (layerAt netConv 0).kernelRow ∧
      (ChipCalculatePerformance paramPerfNM 0 false netConv [1] [[1], [1]] bufferModels).icLatency
        = (maxOverTiles ⌈at2 [[1], [1]] 0 0⌉₊ ⌈at2 [[1], [1]] 1 0⌉₊
              (fun i j => (bufferModels.tile i j).tileicLatency)
            + bufferModels.GhTree.readLatency)
          / (layerAt netConv 0).kernelRow :=
  (chipCalculatePerformance_buffer_ic paramPerfNM 0 false netConv [1] [[1], [1]]
    bufferModels).1 (by decide)

/-- Counterexample to C16 as stated: for a Novel layer with 3 kernel rows, one tile with
buffer latency 3 and a global-buffer latency of 3, the final `bufferLatency` is
`(3 + 3) / 3 = 2`, not `3 + 3 / 3 = 4`. -/
theorem chipCalculatePerformance_buffer_counterexample :
    (ChipCalculatePerformance paramPerfNM 0 false netConv [1] [[1], [1]] bufferModels).bufferLatency
        = 2 ∧
      maxOverTiles 1 1 (fun i j => (bufferModels.tile i j).tilebufferLatency)
          + (bufferModels.globalBuffer.readLatency + bufferModels.globalBuffer.writeLatency)
            / (layerAt netConv 0).kernelRow = 4 ∧
      (ChipCalculatePerformance paramPerfNM 0 false netConv [1] [[1], [1]]
          bufferModels).bufferLatency
        ≠ maxOverTiles 1 1 (fun i j => (bufferModels.tile i j).tilebufferLatency)
          + (bufferModels.globalBuffer.readLatency + bufferModels.globalBuffer.writeLatency)
            / (layerAt netConv 0).kernelRow := by
  decide!

/-! ## `LoadInWeightData`: the codeword -/

theorem one_le_two_pow_int (n : ℕ) : (1 : ℤ) ≤ 2 ^ n := one_le_pow₀ (by norm_num)

/-! ### Rounding of `double` values -/

theorem roundHalfEven_le (t : ℚ) (N : ℤ) (h : t ≤ (N : ℚ)) : roundHalfEven t ≤ N := by
  unfold roundHalfEven
  rcases eq_or_lt_of_le h with heq | hlt
  · subst heq
    simp
  · have h1 : ⌊t⌋ < N := Int.floor_lt.mpr hlt
    split_ifs <;> omega

theorem le_roundHalfEven (t : ℚ) (N : ℤ) (h : (N : ℚ) ≤ t) : N ≤ roundHalfEven t := by
  have h1 : N ≤ ⌊t⌋ := Int.le_floor.mpr h
  unfold roundHalfEven
  split_ifs <;> omega

theorem roundHalfEven_near (t : ℚ) : |(roundHalfEven t : ℚ) - t| ≤ 1 / 2 := by
  have h1 := Int.floor_le t
  have h2 := Int.lt_floor_add_one t
  unfold roundHalfEven
  rw [abs_le]
  split_ifs with ha hb hc
  · constructor <;> linarith
  · push_cast
    constructor <;> linarith
  · constructor <;> linarith
  · push_cast
    push_neg at ha hb
    constructor <;> linarith

theorem roundDouble_zero : roundDouble 0 = 0 := by
  simp [roundDouble]

/-- The unit in the last place of a non-zero `x`, with the binade of `x`. -/
theorem ulp_spec (x : ℚ) (hx : x ≠ 0) :
    (0 : ℚ) < (2 : ℚ) ^ (Int.log 2 |x| - 52) ∧
    (2 : ℚ) ^ (Int.log 2 |x|) = 2 ^ 52 * (2 : ℚ) ^ (Int.log 2 |x| - 52) ∧
    (2 : ℚ) ^ (Int.log 2 |x|) ≤ |x| := by
  refine ⟨zpow_pos (by norm_num) _, ?_, ?_⟩
  · rw [zpow_sub₀ (by norm_num : (2 : ℚ) ≠ 0)]
    have : (2 : ℚ) ^ (52 : ℤ) = 2 ^ 52 := by norm_cast
    rw [this]
    field_simp
  · have := Int.zpow_log_le_self (b := 2) (r := |x|) (by norm_num) (abs_pos.mpr hx)
    exact_mod_cast this

/-- A `double` whose absolute value is at least the lower end of the binade of `x` is a
multiple of the unit in the last place of `x`. -/
theorem representable_multiple (x b : ℚ) (hb : Representable b)
    (h : (2 : ℚ) ^ (Int.log 2 |x|) ≤ |b|) :
    ∃ N : ℤ, b = (N : ℚ) * (2 : ℚ) ^ (Int.log 2 |x| - 52) := by
  obtain ⟨n, j, hn, rfl⟩ := hb
  have h2 : (0 : ℚ) < (2 : ℚ) ^ j := zpow_pos (by norm_num) _
  have hnq : |(n : ℚ)| < 2 ^ 53 := by exact_mod_cast hn
  have hlt : (2 : ℚ) ^ (Int.log 2 |x|) < (2 : ℚ) ^ (j + 53) := by
    calc (2 : ℚ) ^ (Int.log 2 |x|) ≤ |(n : ℚ) * (2 : ℚ) ^ j| := h
      _ = |(n : ℚ)| * (2 : ℚ) ^ j := by rw [abs_mul, abs_of_pos h2]
      _ < 2 ^ 53 * (2 : ℚ) ^ j := mul_lt_mul_of_pos_right hnq h2
      _ = (2 : ℚ) ^ (j + 53) := by
        rw [zpow_add₀ (by norm_num : (2 : ℚ) ≠ 0)]
        have : (2 : ℚ) ^ (53 : ℤ) = 2 ^ 53 := by norm_cast
        rw [this]
        ring
  have he : Int.log 2 |x| < j + 53 := (zpow_lt_zpow_iff_right₀ (by norm_num : (1 : ℚ) < 2)).mp hlt
  obtain ⟨d, hd⟩ := Int.eq_ofNat_of_zero_le (by omega : 0 ≤ j - (Int.log 2 |x| - 52))
  refine ⟨n * 2 ^ d, ?_⟩
  have hj : j = (Int.log 2 |x| - 52) + (d : ℤ) := by omega
  rw [hj, zpow_add₀ (by norm_num : (2 : ℚ) ≠ 0)]
  push_cast
  rw [zpow_natCast]
  ring

/-- Rounding does not cross a `double`: an upper bound of `x` that is a `double` is an
upper bound of the rounded `x`. -/
theorem roundDouble_le (x b : ℚ) (hb : Representable b) (h : x ≤ b) : roundDouble x ≤ b := by
  by_cases hx : x = 0
  · rw [hx, roundDouble_zero]
    rw [hx] at h
    exact h
  · obtain ⟨hu, hE, hlow⟩ := ulp_spec x hx
    unfold roundDouble
    rw [if_neg hx]
    by_cases hbig : (2 : ℚ) ^ (Int.log 2 |x|) ≤ |b|
    · obtain ⟨N, hN⟩ := representable_multiple x b hb hbig
      have : roundHalfEven (x / (2 : ℚ) ^ (Int.log 2 |x| - 52)) ≤ N := by
        apply roundHalfEven_le
        rw [div_le_iff₀ hu, ← hN]
        exact h
      have hq : (roundHalfEven (x / (2 : ℚ) ^ (Int.log 2 |x| - 52)) : ℚ) ≤ (N : ℚ) := by
        exact_mod_cast this
      rw [hN]
      exact mul_le_mul_of_nonneg_right hq hu.le
    · push_neg at hbig
      have hxneg : x < 0 := by
        by_contra hnn
        push_neg at hnn
        have habs : |x| = x := abs_of_nonneg hnn
        have := le_abs_self b
        linarith
      have habs : |x| = -x := abs_of_neg hxneg
      have : roundHalfEven (x / (2 : ℚ) ^ (Int.log 2 |x| - 52)) ≤ -(2 ^ 52) := by
        apply roundHalfEven_le
        rw [div_le_iff₀ hu]
        push_cast
        linarith
      have hq : (roundHalfEven (x / (2 : ℚ) ^ (Int.log 2 |x| - 52)) : ℚ) ≤ -(2 ^ 52) := by
        exact_mod_cast this
      have h1 := mul_le_mul_of_nonneg_right hq hu.le
      have h2 := neg_abs_le b
      linarith

/-- Rounding does not cross a `double`: a lower bound of `x` that is a `double` is a
lower bound of the rounded `x`. -/
theorem le_roundDouble (x b : ℚ) (hb : Representable b) (h : b ≤ x) : b ≤ roundDouble x := by
  by_cases hx : x = 0
  · rw [hx, roundDouble_zero]
    rw [hx] at h
    exact h
  · obtain ⟨hu, hE, hlow⟩ := ulp_spec x hx
    unfold roundDouble
    rw [if_neg hx]
    by_cases hbig : (2 : ℚ) ^ (Int.log 2 |x|) ≤ |b|
    · obtain ⟨N, hN⟩ := representable_multiple x b hb hbig
      have : N ≤ roundHalfEven (x / (2 : ℚ) ^ (Int.log 2 |x| - 52)) := by
        apply le_roundHalfEven
        rw [le_div_iff₀ hu, ← hN]
        exact h
      have hq : (N : ℚ) ≤ (roundHalfEven (x / (2 : ℚ) ^ (Int.log 2 |x| - 52)) : ℚ) := by
        exact_mod_cast this
      rw [hN]
      exact mul_le_mul_of_nonneg_right hq hu.le
    · push_neg at hbig
      have hxpos : 0 < x := by
        by_contra hnn
        push_neg at hnn
        have habs : |x| = -x := abs_of_nonpos hnn
        have := neg_abs_le b
        linarith
      have habs : |x| = x := abs_of_pos hxpos
      have : (2 ^ 52 : ℤ) ≤ roundHalfEven (x / (2 : ℚ) ^ (Int.log 2 |x| - 52)) := by
        apply le_roundHalfEven
        rw [le_div_iff₀ hu]
        push_cast
        linarith
      have hq : ((2 ^ 52 : ℤ) : ℚ) ≤ (roundHalfEven (x / (2 : ℚ) ^ (Int.log 2 |x| - 52)) : ℚ) := by
        exact_mod_cast this
      have h1 := mul_le_mul_of_nonneg_right hq hu.le
      have h2 := le_abs_self b
      push_cast at h1
      linarith

/-- A `double` is not changed by rounding. -/
theorem roundDouble_eq (b : ℚ) (hb : Representable b) : roundDouble b = b :=
  le_antisymm (roundDouble_le b b hb (le_refl b)) (le_roundDouble b b hb (le_refl b))

/-- The relative error of one rounding is at most `2^-53`. -/
theorem roundDouble_error (x : ℚ) : |roundDouble x - x| ≤ |x| / 2 ^ 53 := by
  by_cases hx : x = 0
  · rw [hx, roundDouble_zero]
    simp
  · obtain ⟨hu, hE, hlow⟩ := ulp_spec x hx
    unfold roundDouble
    rw [if_neg hx]
    have hn := roundHalfEven_near (x / (2 : ℚ) ^ (Int.log 2 |x| - 52))
    have e : (roundHalfEven (x / (2 : ℚ) ^ (Int.log 2 |x| - 52)) : ℚ)
          * (2 : ℚ) ^ (Int.log 2 |x| - 52) - x
        = ((roundHalfEven (x / (2 : ℚ) ^ (Int.log 2 |x| - 52)) : ℚ)
            - x / (2 : ℚ) ^ (Int.log 2 |x| - 52)) * (2 : ℚ) ^ (Int.log 2 |x| - 52) := by
      field_simp
    rw [e, abs_mul, abs_of_pos hu]
    have h1 := mul_le_mul_of_nonneg_right hn hu.le
    rw [le_div_iff₀ (by norm_num)]
    nlinarith

theorem representable_int (n : ℤ) (h : |n| < 2 ^ 53) : Representable (n : ℚ) :=
  ⟨n, 0, h, by simp⟩

theorem representable_half (n : ℤ) (h : |n| < 2 ^ 53) : Representable ((n : ℚ) / 2) :=
  ⟨n, -1, h, by rw [zpow_neg_one]; ring⟩

/-! ### The rescaling of a weight -/

/-- The four roundings of the rescaling for an integer `NormalizedMax = M` below `2^51`
and a weight `f` in `[-1, 1]`: the results stay in the ranges of the exact values, and
the last one is within `4*(M+1)/2^53` of the exact value. -/
theorem rescale_rounded (M : ℤ) (hM0 : 0 ≤ M) (hM : M < 2 ^ 51) (f : ℚ) (h1 : -1 ≤ f)
    (h2 : f ≤ 1) :
    0 ≤ roundDouble (roundDouble ((M : ℚ) / 2 * roundDouble (f - 1)) + M) ∧
    1 / 2 ≤ roundDouble (roundDouble (roundDouble ((M : ℚ) / 2 * roundDouble (f - 1)) + M)
      + 1 / 2) ∧
    roundDouble (roundDouble (roundDouble ((M : ℚ) / 2 * roundDouble (f - 1)) + M) + 1 / 2)
      ≤ (M : ℚ) + 1 / 2 ∧
    |roundDouble (roundDouble (roundDouble ((M : ℚ) / 2 * roundDouble (f - 1)) + M) + 1 / 2)
        - ((M : ℚ) * (f + 1) / 2 + 1 / 2)| ≤ 4 * ((M : ℚ) + 1) / 2 ^ 53 := by
  have hMq0 : (0 : ℚ) ≤ (M : ℚ) := by exact_mod_cast hM0
  have hMq : (M : ℚ) < 2 ^ 51 := by exact_mod_cast hM
  have r0 : Representable 0 := by
    have := representable_int 0 (by norm_num)
    simpa using this
  have rm2 : Representable (-2) := by
    have := representable_int (-2) (by norm_num)
    simpa using this
  have rM : Representable (M : ℚ) := representable_int M (by rw [abs_of_nonneg hM0]; omega)
  have rmM : Representable (-(M : ℚ)) := by
    have := representable_int (-M) (by rw [abs_neg, abs_of_nonneg hM0]; omega)
    simpa using this
  have rh : Representable (1 / 2) := by
    have := representable_half 1 (by norm_num)
    simpa using this
  have rMh : Representable ((M : ℚ) + 1 / 2) := by
    have := representable_half (2 * M + 1) (by rw [abs_of_nonneg (by omega)]; omega)
    have e : (((2 * M + 1 : ℤ)) : ℚ) / 2 = (M : ℚ) + 1 / 2 := by
      push_cast
      ring
    rw [e] at this
    exact this
  -- B
  generalize hB : roundDouble (f - 1) = B
  have hB1 : -2 ≤ B := by
    rw [← hB]
    exact le_roundDouble _ _ rm2 (by linarith)
  have hB2 : B ≤ 0 := by
    rw [← hB]
    exact roundDouble_le _ _ r0 (by linarith)
  have eB : |B - (f - 1)| ≤ 2 / 2 ^ 53 := by
    rw [← hB]
    refine le_trans (roundDouble_error (f - 1)) ?_
    have : |f - 1| ≤ 2 := by
      rw [abs_le]
      constructor <;> linarith
    exact div_le_div_of_nonneg_right this (by norm_num)
  -- C
  have hprod1 : -(M : ℚ) ≤ (M : ℚ) / 2 * B := by nlinarith
  have hprod2 : (M : ℚ) / 2 * B ≤ 0 := by nlinarith
  generalize hC : roundDouble ((M : ℚ) / 2 * B) = C
  have hC1 : -(M : ℚ) ≤ C := by
    rw [← hC]
    exact le_roundDouble _ _ rmM hprod1
  have hC2 : C ≤ 0 := by
    rw [← hC]
    exact roundDouble_le _ _ r0 hprod2
  have eC : |C - (M : ℚ) / 2 * B| ≤ (M : ℚ) / 2 ^ 53 := by
    rw [← hC]
    refine le_trans (roundDouble_error _) ?_
    have : |(M : ℚ) / 2 * B| ≤ (M : ℚ) := by
      rw [abs_le]
      constructor <;> linarith
    exact div_le_div_of_nonneg_right this (by norm_num)
  -- D
  generalize hD : roundDouble (C + M) = D
  have hD1 : 0 ≤ D := by
    rw [← hD]
    exact le_roundDouble _ _ r0 (by linarith)
  have hD2 : D ≤ (M : ℚ) := by
    rw [← hD]
    exact roundDouble_le _ _ rM (by linarith)
  have eD : |D - (C + M)| ≤ (M : ℚ) / 2 ^ 53 := by
    rw [← hD]
    refine le_trans (roundDouble_error _) ?_
    have : |C + (M : ℚ)| ≤ (M : ℚ) := by
      rw [abs_le]
      constructor <;> linarith
    exact div_le_div_of_nonneg_right this (by norm_num)
  -- N
  generalize hN : roundDouble (D + 1 / 2) = N
  have hN1 : 1 / 2 ≤ N := by
    rw [← hN]
    exact le_roundDouble _ _ rh (by linarith)
  have hN2 : N ≤ (M : ℚ) + 1 / 2 := by
    rw [← hN]
    exact roundDouble_le _ _ rMh (by linarith)
  have eN : |N - (D + 1 / 2)| ≤ ((M : ℚ) + 1 / 2) / 2 ^ 53 := by
    rw [← hN]
    refine le_trans (roundDouble_error _) ?_
    have : |D + 1 / 2| ≤ (M : ℚ) + 1 / 2 := by
      rw [abs_le]
      constructor <;> linarith
    exact div_le_div_of_nonneg_right this (by norm_num)
  refine ⟨hD1, hN1, hN2, ?_⟩
  rw [abs_le] at eB eC eD eN ⊢
  have hmB1 := mul_le_mul_of_nonneg_left eB.1 (by linarith : (0 : ℚ) ≤ (M : ℚ) / 2)
  have hmB2 := mul_le_mul_of_nonneg_left eB.2 (by linarith : (0 : ℚ) ≤ (M : ℚ) / 2)
  constructor <;> linarith

/-- The rescaling is exact for a weight `f = m / 2^k` with few enough fractional bits:
every intermediate value is a `double`. -/
theorem rescale_exact (M : ℤ) (hM0 : 0 ≤ M) (k : ℕ) (m : ℤ)
    (hk : (M + 1) * 2 ^ k ≤ 2 ^ 51) (f : ℚ) (hf : f = (m : ℚ) / 2 ^ k) (h1 : -1 ≤ f)
    (h2 : f ≤ 1) :
    roundDouble (roundDouble (roundDouble ((M : ℚ) / 2 * roundDouble (f - 1)) + M) + 1 / 2)
      = (M : ℚ) * (f + 1) / 2 + 1 / 2 := by
  have hP : (1 : ℤ) ≤ 2 ^ k := one_le_two_pow_int k
  have hPq : (0 : ℚ) < 2 ^ k := by positivity
  have hm1 : -(2 ^ k : ℤ) ≤ m := by
    have : -(2 ^ k : ℚ) ≤ (m : ℚ) := by
      rw [hf, le_div_iff₀ hPq] at h1
      linarith
    exact_mod_cast this
  have hm2 : m ≤ (2 ^ k : ℤ) := by
    have : (m : ℚ) ≤ (2 ^ k : ℚ) := by
      rw [hf, div_le_iff₀ hPq] at h2
      linarith
    exact_mod_cast this
  generalize hPdef : (2 ^ k : ℤ) = P at hP hm1 hm2 hk
  have hPc : (2 : ℚ) ^ k = (P : ℚ) := by
    rw [← hPdef]
    push_cast
    rfl
  have hPq' : (0 : ℚ) < (P : ℚ) := by exact_mod_cast (by omega : (0 : ℤ) < P)
  have q1 : 0 ≤ M * (P - m) := mul_nonneg hM0 (by omega)
  have q2 : 0 ≤ M * (m + P) := mul_nonneg hM0 (by omega)
  have q3 : 0 ≤ M * P := mul_nonneg hM0 (by omega)
  have hz1 : (2 : ℚ) ^ (-(k : ℤ)) = 1 / (P : ℚ) := by
    rw [zpow_neg, zpow_natCast, hPc, one_div]
  have hz2 : (2 : ℚ) ^ (-((k : ℤ) + 1)) = 1 / (2 * (P : ℚ)) := by
    rw [zpow_neg, zpow_add₀ (by norm_num : (2 : ℚ) ≠ 0), zpow_natCast, hPc, zpow_one, one_div,
      mul_comm]
  have hfP : f = (m : ℚ) / (P : ℚ) := by rw [hf, hPc]
  have eB : roundDouble (f - 1) = f - 1 := by
    apply roundDouble_eq
    refine ⟨m - P, -(k : ℤ), ?_, ?_⟩
    · rw [abs_lt]
      constructor <;> nlinarith
    · rw [hz1, hfP]
      push_cast
      field_simp
  rw [eB]
  have eC : roundDouble ((M : ℚ) / 2 * (f - 1)) = (M : ℚ) / 2 * (f - 1) := by
    apply roundDouble_eq
    refine ⟨M * (m - P), -((k : ℤ) + 1), ?_, ?_⟩
    · rw [abs_lt]
      constructor <;> nlinarith
    · rw [hz2, hfP]
      push_cast
      field_simp
  rw [eC]
  have eD : roundDouble ((M : ℚ) / 2 * (f - 1) + M) = (M : ℚ) / 2 * (f - 1) + M := by
    apply roundDouble_eq
    refine ⟨M * (m + P), -((k : ℤ) + 1), ?_, ?_⟩
    · rw [abs_lt]
      constructor <;> nlinarith
    · rw [hz2, hfP]
      push_cast
      field_simp
      ring
  rw [eD]
  have eN : roundDouble ((M : ℚ) / 2 * (f - 1) + M + 1 / 2)
      = (M : ℚ) / 2 * (f - 1) + M + 1 / 2 := by
    apply roundDouble_eq
    refine ⟨M * (m + P) + P, -((k : ℤ) + 1), ?_, ?_⟩
    · rw [abs_lt]
      constructor <;> nlinarith
    · rw [hz2, hfP]
      push_cast
      field_simp
      ring
  rw [eN]
  ring

theorem NormalizedMax_eq (p : ChipParam) (hs : 0 ≤ p.synapseBit) (hs51 : p.synapseBit ≤ 51) :
    NormalizedMax p = (((2 : ℤ) ^ p.synapseBit.toNat - 1 : ℤ) : ℚ) ∧
    (0 : ℤ) ≤ 2 ^ p.synapseBit.toNat - 1 ∧ (2 : ℤ) ^ p.synapseBit.toNat ≤ 2 ^ 51 := by
  have h1 := one_le_two_pow_int p.synapseBit.toNat
  have h2 : (2 : ℤ) ^ p.synapseBit.toNat ≤ 2 ^ 51 :=
    pow_le_pow_right₀ (by norm_num) (by omega)
  refine ⟨?_, by omega, h2⟩
  unfold NormalizedMax
  have e : (2 : ℚ) ^ p.synapseBit - 1 = (((2 : ℤ) ^ p.synapseBit.toNat - 1 : ℤ) : ℚ) := by
    obtain ⟨n, hn⟩ := Int.eq_ofNat_of_zero_le hs
    rw [hn]
    simp
  rw [e]
  exact roundDouble_eq _ (representable_int _ (by rw [abs_of_nonneg (by omega)]; omega))

theorem floor_add_half (z : ℤ) : ⌊(z : ℚ) + 1 / 2⌋ = z := by
  rw [Int.floor_eq_iff]
  constructor <;> norm_num

/-- For `0 ≤ synapseBit ≤ 51` and a weight in `[-1, 1]`, `newdata` is the result of four
roundings, and the branch of the non-negative value is taken. -/
theorem newdata_eq (p : ChipParam) (hs : 0 ≤ p.synapseBit) (hs51 : p.synapseBit ≤ 51)
    (f : ℚ) (h1 : -1 ≤ f) (h2 : f ≤ 1) :
    newdata p f = roundDouble (roundDouble (roundDouble
      ((((2 : ℤ) ^ p.synapseBit.toNat - 1 : ℤ) : ℚ) / 2 * roundDouble (f - 1))
        + (((2 : ℤ) ^ p.synapseBit.toNat - 1 : ℤ) : ℚ)) + 1 / 2) := by
  obtain ⟨hNM, hM0, hM51⟩ := NormalizedMax_eq p hs hs51
  generalize hMdef : ((2 : ℤ) ^ p.synapseBit.toNat - 1 : ℤ) = M at hNM hM0 ⊢
  have hM : M < 2 ^ 51 := by omega
  have rM : Representable (M : ℚ) := representable_int M (by rw [abs_of_nonneg hM0]; omega)
  have r2 : roundDouble (1 - -1) = 2 := by
    have : Representable (2 : ℚ) := by
      have := representable_int 2 (by norm_num)
      simpa using this
    rw [show (1 : ℚ) - -1 = 2 by norm_num]
    exact roundDouble_eq 2 this
  have rh : roundDouble ((M : ℚ) / 2) = (M : ℚ) / 2 :=
    roundDouble_eq _ (representable_half M (by rw [abs_of_nonneg hM0]; omega))
  unfold newdata
  simp only [hNM, sub_zero, roundDouble_eq _ rM, r2, rh]
  rw [if_pos (rescale_rounded M hM0 hM f h1 h2).1]

/-- C18. For `0 ≤ synapseBit ≤ 31` and every weight value `f` in `[-1, 1]` that is a
`double`, the integer codeword computed by `LoadInWeightData` lies in
`[0, 2^synapseBit - 1]`, equals `0` at `f = -1` and `2^synapseBit - 1` at `f = 1`, and is
the floor of the value `newdata` that the source computes in `double` arithmetic for
`x = (2^synapseBit - 1) * (f + 1) / 2 + 1/2`, which lies within `2^synapseBit / 2^51` of
`x`.  Hence the codeword is `floor(x)` whenever `x` keeps that distance from the integers
around it, and whenever `f` is a multiple of `2^-k` with `k + synapseBit ≤ 51`, where
every operation is exact.  Next to an integer value of `x` the rounding of the operations
can move the codeword to the other side. -/
theorem codeword_spec (p : ChipParam) (hs : 0 ≤ p.synapseBit) (hs31 : p.synapseBit ≤ 31)
    (f : ℚ) (_hf : roundDouble f = f) (h1 : -1 ≤ f) (h2 : f ≤ 1) :
    0 ≤ codeword p f ∧ codeword p f ≤ 2 ^ p.synapseBit.toNat - 1 ∧
    codeword p (-1) = 0 ∧ codeword p 1 = 2 ^ p.synapseBit.toNat - 1 ∧
    codeword p f = ⌊newdata p f⌋ ∧
    |newdata p f - (((2 : ℚ) ^ p.synapseBit - 1) * (f + 1) / 2 + 1 / 2)|
      ≤ 2 ^ p.synapseBit.toNat / 2 ^ 51 ∧
    (∀ n : ℤ,
      (n : ℚ) + 2 ^ p.synapseBit.toNat / 2 ^ 51
        ≤ ((2 : ℚ) ^ p.synapseBit - 1) * (f + 1) / 2 + 1 / 2 →
      ((2 : ℚ) ^ p.synapseBit - 1) * (f + 1) / 2 + 1 / 2 + 2 ^ p.synapseBit.toNat / 2 ^ 51
        < (n : ℚ) + 1 →
      codeword p f = ⌊((2 : ℚ) ^ p.synapseBit - 1) * (f + 1) / 2 + 1 / 2⌋) ∧
    (∀ (k : ℕ) (m : ℤ), (k : ℤ) + p.synapseBit ≤ 51 → f = (m : ℚ) / 2 ^ k →
      codeword p f = ⌊((2 : ℚ) ^ p.synapseBit - 1) * (f + 1) / 2 + 1 / 2⌋) := by
  obtain ⟨-, hM0, -⟩ := NormalizedMax_eq p hs (by omega)
  have hM31 : (2 : ℤ) ^ p.synapseBit.toNat ≤ 2 ^ 31 :=
    pow_le_pow_right₀ (by norm_num) (by omega)
  have hpow : (2 : ℚ) ^ p.synapseBit - 1 = (((2 : ℤ) ^ p.synapseBit.toNat - 1 : ℤ) : ℚ) := by
    obtain ⟨n, hn⟩ := Int.eq_ofNat_of_zero_le hs
    rw [hn]
    simp
  have hnd : ∀ g : ℚ, -1 ≤ g → g ≤ 1 → newdata p g = roundDouble (roundDouble (roundDouble
      ((((2 : ℤ) ^ p.synapseBit.toNat - 1 : ℤ) : ℚ) / 2 * roundDouble (g - 1))
        + (((2 : ℤ) ^ p.synapseBit.toNat - 1 : ℤ) : ℚ)) + 1 / 2) :=
    fun g hg1 hg2 => newdata_eq p hs (by omega) g hg1 hg2
  have hexact : ∀ (g : ℚ) (k : ℕ) (m : ℤ), -1 ≤ g → g ≤ 1 → (k : ℤ) + p.synapseBit ≤ 51 →
      g = (m : ℚ) / 2 ^ k →
      newdata p g = ((2 : ℚ) ^ p.synapseBit - 1) * (g + 1) / 2 + 1 / 2 := by
    intro g k m hg1 hg2 hk hg
    rw [hnd g hg1 hg2, hpow]
    apply rescale_exact _ hM0 k m _ g hg hg1 hg2
    have e : ((2 : ℤ) ^ p.synapseBit.toNat - 1 + 1) * 2 ^ k = 2 ^ (p.synapseBit.toNat + k) := by
      rw [sub_add_cancel, pow_add]
    rw [e]
    exact pow_le_pow_right₀ (by norm_num) (by omega)
  have hfloorhalf : ∀ z : ℤ, ⌊(z : ℚ) + 1 / 2⌋ = z := floor_add_half
  generalize hMdef : ((2 : ℤ) ^ p.synapseBit.toNat - 1 : ℤ) = M at hM0 hpow hnd
  have hM : M < 2 ^ 51 := by omega
  obtain ⟨-, hN1, hN2, hNe⟩ := rescale_rounded M hM0 hM f h1 h2
  rw [← hnd f h1 h2] at hN1 hN2 hNe
  have hfit : ∀ x : ℚ, 0 ≤ x → x ≤ (M : ℚ) + 1 / 2 → toInt32 x = ⌊x⌋ := by
    intro x hx0 hxM
    have e : toInt x = ⌊x⌋ := by
      unfold toInt
      rw [if_pos hx0]
    have hle : ⌊x⌋ ≤ ⌊(M : ℚ) + 1 / 2⌋ := Int.floor_le_floor hxM
    rw [hfloorhalf] at hle
    have h0 : 0 ≤ ⌊x⌋ := Int.floor_nonneg.mpr hx0
    rw [toInt32_of_fits x (by rw [e]; constructor <;> omega), e]
  have hcw : codeword p f = ⌊newdata p f⌋ := by
    unfold codeword
    exact hfit _ (by linarith) hN2
  have hbound : |newdata p f - (((2 : ℚ) ^ p.synapseBit - 1) * (f + 1) / 2 + 1 / 2)|
      ≤ 2 ^ p.synapseBit.toNat / 2 ^ 51 := by
    rw [hpow]
    refine le_trans hNe (le_of_eq ?_)
    have : (M : ℚ) + 1 = 2 ^ p.synapseBit.toNat := by
      rw [← hMdef]
      push_cast
      ring
    rw [this]
    norm_num
    ring
  have hend : ∀ (g : ℚ) (m : ℤ), -1 ≤ g → g ≤ 1 → g = (m : ℚ) / 2 ^ 0 →
      codeword p g = ⌊((2 : ℚ) ^ p.synapseBit - 1) * (g + 1) / 2 + 1 / 2⌋ := by
    intro g m hg1 hg2 hg
    have := hexact g 0 m hg1 hg2 (by push_cast; omega) hg
    have hMq : (0 : ℚ) ≤ (M : ℚ) := by exact_mod_cast hM0
    have hnn : (0 : ℚ) ≤ (M : ℚ) * (g + 1) / 2 := by
      apply div_nonneg (mul_nonneg hMq (by linarith)) (by norm_num)
    have hle : (M : ℚ) * (g + 1) / 2 ≤ (M : ℚ) := by nlinarith
    unfold codeword
    rw [this, hpow]
    exact hfit _ (by linarith) (by linarith)
  refine ⟨?_, ?_, ?_, ?_, hcw, hbound, ?_, ?_⟩
  · rw [hcw]
    exact Int.floor_nonneg.mpr (by linarith)
  · rw [hcw]
    have : ⌊newdata p f⌋ ≤ ⌊(M : ℚ) + 1 / 2⌋ := Int.floor_le_floor hN2
    rw [hfloorhalf] at this
    exact this
  · rw [hend (-1) (-1) (le_refl _) (by norm_num) (by norm_num)]
    norm_num
  · rw [hend 1 1 (by norm_num) (le_refl _) (by norm_num), hpow]
    have e : (M : ℚ) * (1 + 1) / 2 + 1 / 2 = (M : ℚ) + 1 / 2 := by ring
    rw [e, hfloorhalf]
  · intro n hlo hhi
    rw [abs_le] at hbound
    have e1 : ⌊newdata p f⌋ = n := by
      rw [Int.floor_eq_iff]
      constructor <;> linarith [hbound.1, hbound.2]
    have hpos : (0 : ℚ) < 2 ^ p.synapseBit.toNat / 2 ^ 51 := by positivity
    have e2 : ⌊((2 : ℚ) ^ p.synapseBit - 1) * (f + 1) / 2 + 1 / 2⌋ = n := by
      rw [Int.floor_eq_iff]
      constructor <;> linarith
    rw [hcw, e1, e2]
  · intro k m hk hfm
    rw [hcw, hexact f k m h1 h2 hk hfm]

/-- From `synapseBit = 32` on the largest codeword does not fit the `int` of the source:
for the weight `1` the value `newdata = 2^synapseBit - 1 + 1/2` is computed exactly, and
its conversion leaves the range of `int`. -/
theorem codeword_overflow (p : ChipParam) (hs32 : 32 ≤ p.synapseBit)
    (hs51 : p.synapseBit ≤ 51) :
    newdata p 1 = (2 : ℚ) ^ p.synapseBit - 1 + 1 / 2 ∧ codeword p 1 = -2147483648 := by
  have hs : 0 ≤ p.synapseBit := by omega
  obtain ⟨-, hM0, hM51⟩ := NormalizedMax_eq p hs hs51
  have hpow : (2 : ℚ) ^ p.synapseBit - 1 = (((2 : ℤ) ^ p.synapseBit.toNat - 1 : ℤ) : ℚ) := by
    obtain ⟨n, hn⟩ := Int.eq_ofNat_of_zero_le hs
    rw [hn]
    simp
  have hbig : (2 : ℤ) ^ 32 ≤ 2 ^ p.synapseBit.toNat :=
    pow_le_pow_right₀ (by norm_num) (by omega)
  have hnd : newdata p 1 = (((2 : ℤ) ^ p.synapseBit.toNat - 1 : ℤ) : ℚ) + 1 / 2 := by
    rw [newdata_eq p hs hs51 1 (by norm_num) (le_refl _),
      rescale_exact _ hM0 0 1 (by rw [sub_add_cancel, pow_zero, mul_one]; exact hM51) 1
        (by norm_num) (by norm_num) (le_refl _)]
    ring
  refine ⟨by rw [hnd, hpow], ?_⟩
  have hq : (0 : ℚ) ≤ (((2 : ℤ) ^ p.synapseBit.toNat - 1 : ℤ) : ℚ) := by exact_mod_cast hM0
  have ht : toInt ((((2 : ℤ) ^ p.synapseBit.toNat - 1 : ℤ) : ℚ) + 1 / 2)
      = 2 ^ p.synapseBit.toNat - 1 := by
    unfold toInt
    rw [if_pos (by linarith), floor_add_half]
  unfold codeword toInt32
  rw [hnd, ht]
  exact if_neg (by
    intro h
    omega)

/-- Counterexample to the claim C18 as stated for every weight and every `synapseBit`:
for 4-bit synapses and the `double` `f = -0.6666666666666667` (the `double` next below
`-2/3`) the exact value `15*(f+1)/2 + 1/2` lies just below `3`, with floor `2`, but the
product `7.5*(f-1)` rounds to `-12.5`, so the source computes `newdata = 3` and the
codeword `3`; and for 32-bit synapses the weight `1` gets the codeword `-2^31`, outside
`[0, 2^32 - 1]`. -/
theorem codeword_rounding_counterexample :
    roundDouble (-6004799503160662 / 9007199254740992) = -6004799503160662 / 9007199254740992 ∧
    (-1 : ℚ) ≤ -6004799503160662 / 9007199254740992 ∧
    (-6004799503160662 / 9007199254740992 : ℚ) ≤ 1 ∧
    newdata paramBits (-6004799503160662 / 9007199254740992) = 3 ∧
    codeword paramBits (-6004799503160662 / 9007199254740992) = 3 ∧
    ⌊((2 : ℚ) ^ paramBits.synapseBit - 1) * (-6004799503160662 / 9007199254740992 + 1) / 2
      + 1 / 2⌋ = 2 ∧
    codeword { paramBits with synapseBit := 32 } 1 = -2147483648 :=
  ⟨by decide!, by decide!, by decide!, by decide!, by decide!, by decide!,
    (codeword_overflow { paramBits with synapseBit := 32 } (by decide) (by decide)).2⟩

/-- Witness of C18 for 4-bit synapses at the `double` next to `1/3`: the exact value
`15*(f+1)/2 + 1/2` lies just below `10.5`, far from the integers, and the codeword is its
floor `10`. -/
theorem codeword_spec_witness :
    roundDouble (6004799503160661 / 18014398509481984) = 6004799503160661 / 18014398509481984 ∧
    0 ≤ codeword paramBits (6004799503160661 / 18014398509481984) ∧
    codeword paramBits (6004799503160661 / 18014398509481984)
      ≤ 2 ^ paramBits.synapseBit.toNat - 1 ∧
    codeword paramBits (-1) = 0 ∧ codeword paramBits 1 = 2 ^ paramBits.synapseBit.toNat - 1 ∧
    codeword paramBits (6004799503160661 / 18014398509481984)
      = ⌊((2 : ℚ) ^ paramBits.synapseBit - 1) * (6004799503160661 / 18014398509481984 + 1) / 2
        + 1 / 2⌋ :=
  have hf : roundDouble (6004799503160661 / 18014398509481984)
      = 6004799503160661 / 18014398509481984 := by decide!
  have h := codeword_spec paramBits (by decide) (by decide)
    (6004799503160661 / 18014398509481984) hf (by norm_num) (by norm_num)
  ⟨hf, h.1, h.2.1, h.2.2.1, h.2.2.2.1,
    h.2.2.2.2.2.2.1 10 (by decide!) (by decide!)⟩

/-! ## `LoadInWeightData`: the digits -/

/-- One round of the digit loop on a non-negative value with a positive `cellrange`: the
digit is `value % cellrange` and the value becomes `value / cellrange`. -/
theorem digitBody_spec (c : ℤ) (hc : 0 < c) (s : DigitState) (hv : 0 ≤ s.value) (z : ℕ) :
    (digitBody c s z).value = s.value / c ∧
    (digitBody c s z).synapsevector = ((s.value % c : ℤ) : ℚ) :: s.synapsevector := by
  unfold digitBody
  dsimp only
  rw [Int.ceil_intCast, Int.ceil_intCast, Int.tdiv_eq_ediv hv (le_of_lt hc),
    Int.tmod_eq_emod hv (le_of_lt hc)]
  exact ⟨rfl, rfl⟩

theorem int_div_pow_div (v c : ℤ) (hv : 0 ≤ v) (hc : 0 ≤ c) (k : ℕ) :
    v / c ^ k / c = v / c ^ (k + 1) := by
  obtain ⟨m, rfl⟩ := Int.eq_ofNat_of_zero_le hv
  obtain ⟨b, rfl⟩ := Int.eq_ofNat_of_zero_le hc
  have h : m / b ^ k / b = m / b ^ (k + 1) := by
    rw [Nat.div_div_eq_div_mul, pow_succ]
  exact_mod_cast h

/-- After `k` rounds of the digit loop the value is `v / c^k` and the vector holds, in
front of its initial entries, the digits `(v / c^z) % c` for `z = k-1, ..., 0`. -/
theorem digitBody_fold (c : ℤ) (hc : 0 < c) (v : ℤ) (hv : 0 ≤ v) (r0 : ℤ) (sv0 : List ℚ)
    (k : ℕ) :
    ((List.range k).foldl (digitBody c) ⟨v, r0, sv0⟩).value = v / c ^ k ∧
    ((List.range k).foldl (digitBody c) ⟨v, r0, sv0⟩).synapsevector =
      (List.range k).map (fun u => (((v / c ^ (k - 1 - u)) % c : ℤ) : ℚ)) ++ sv0 := by
  induction k with
  | zero => simp
  | succ k ih =>
    obtain ⟨ih1, ih2⟩ := ih
    rw [foldl_range_succ]
    have hnn : 0 ≤ ((List.range k).foldl (digitBody c) ⟨v, r0, sv0⟩).value := by
      rw [ih1]
      exact Int.ediv_nonneg hv (le_of_lt (pow_pos hc k))
    obtain ⟨h1, h2⟩ := digitBody_spec c hc _ hnn k
    rw [h1, h2, ih1, ih2]
    constructor
    · exact int_div_pow_div v c hv (le_of_lt hc) k
    · rw [List.range_succ_eq_map, List.map_cons, List.map_map, List.cons_append]
      congr 1
      congr 1
      apply List.map_congr_left
      intro u _
      simp only [Function.comp_apply]
      congr 4
      omega

/-- The entry `synapsevector[u]` read by the conductance loop, for a non-negative codeword
`v`, a positive `cellrange` `c` and `u < numColPerSynapse`: the digit
`(v / c^(numColPerSynapse-1-u)) % c`. -/
theorem synapseVector_at (c : ℤ) (hc : 0 < c) (n : ℤ) (v : ℤ) (hv : 0 ≤ v) (u : ℕ)
    (hu : u < n.toNat) :
    vecAt (synapseVector c n v) u = (((v / c ^ (n.toNat - 1 - u)) % c : ℤ) : ℚ) := by
  unfold synapseVector vecAt
  rw [(digitBody_fold c hc v hv 0 _ n.toNat).2, List.getD_append _ _ _ _ (by simpa using hu)]
  simp [List.getElem?_range hu]

/-- The digits `(m / b^z) % b` for `z < n` are the base-`b` digits of `m % b^n`. -/
theorem digits_sum_nat (m b n : ℕ) :
    ∑ z in Finset.range n, (m / b ^ z % b) * b ^ z = m % b ^ n := by
  induction n with
  | zero => simp [Nat.mod_one]
  | succ n ih =>
    rw [Finset.sum_range_succ, ih, Nat.mod_pow_succ]
    ring

theorem digits_sum_int (v c : ℤ) (hv : 0 ≤ v) (hc : 0 ≤ c) (n : ℕ) :
    ∑ z in Finset.range n, (v / c ^ z % c) * c ^ z = v % c ^ n := by
  obtain ⟨m, rfl⟩ := Int.eq_ofNat_of_zero_le hv
  obtain ⟨b, rfl⟩ := Int.eq_ofNat_of_zero_le hc
  have := digits_sum_nat m b n
  exact_mod_cast this

/-- The digits read most significant first, weighted with `c^(n-1-u)`, sum to
`v % c^n`. -/
theorem digits_sum_reflect (v c : ℤ) (hv : 0 ≤ v) (hc : 0 ≤ c) (n : ℕ) :
    ∑ u in Finset.range n, (v / c ^ (n - 1 - u) % c) * c ^ (n - 1 - u) = v % c ^ n := by
  rw [← digits_sum_int v c hv hc n]
  exact Finset.sum_range_reflect (fun z => (v / c ^ z % c) * c ^ z) n

theorem cellrange_eq (p : ChipParam) (hb : 0 ≤ p.cellBit) :
    cellrange p = 2 ^ p.cellBit.toNat := by
  unfold cellrange
  obtain ⟨n, hn⟩ := Int.eq_ofNat_of_zero_le hb
  rw [hn]
  have : ((2 : ℚ) ^ ((n : ℤ))) = (((2 : ℤ) ^ n : ℤ) : ℚ) := by simp
  rw [this, toInt_intCast]
  simp

theorem conductances_at (c n : ℤ) (maxConductance minConductance : ℚ) (v : ℤ) (u : ℕ)
    (hu : u < n.toNat) :
    vecAt (conductances c n maxConductance minConductance v) u =
      vecAt (synapseVector c n v) u / ((c - 1 : ℤ) : ℚ) * (maxConductance - minConductance)
        + minConductance := by
  simp [conductances, vecAt, List.getElem?_range hu]

/-- C17. Round trip of the weight encoding of `LoadInWeightData`: for every integer
codeword `v` in `[0, 2^synapseBit - 1]`, with `cellBit ≥ 1`,
`numColPerSynapse*cellBit ≥ synapseBit` and `maxConductance ≠ minConductance`, mapping
`v` to its `numColPerSynapse` conductances and inverting (the digit of `g_u` is
`(g_u - minConductance)/(maxConductance - minConductance) * (2^cellBit - 1)`, the digits
are summed with the weights `(2^cellBit)^(numColPerSynapse-1-u)`) reproduces `v`, over
exact rational arithmetic.  The source holds the codeword and `cellrange = 2^cellBit` in
32-bit `int` variables (Chip.cpp 1015-1017), so the statement is for
`synapseBit ≤ 31` and `cellBit ≤ 30`, where every codeword of the range and `cellrange`
fit, and for a `numColPerSynapse` in the range of `int`. -/
theorem loadInWeightData_roundtrip (p : ChipParam) (numColPerSynapse : ℤ)
    (maxConductance minConductance : ℚ) (v : ℤ) (hs : 0 ≤ p.synapseBit)
    (_hs31 : p.synapseBit ≤ 31) (hv0 : 0 ≤ v)
    (hv : v ≤ 2 ^ p.synapseBit.toNat - 1) (hb : 1 ≤ p.cellBit) (_hb30 : p.cellBit ≤ 30)
    (_hnc : FitsInt numColPerSynapse)
    (hn : p.synapseBit ≤ numColPerSynapse * p.cellBit)
    (hg : maxConductance ≠ minConductance) :
    decodeConductances p numColPerSynapse maxConductance minConductance
      (conductances (cellrange p) numColPerSynapse maxConductance minConductance v) = (v : ℚ) := by
  have hb0 : 0 ≤ p.cellBit := by omega
  have hcr := cellrange_eq p hb0
  have hc : (0 : ℤ) < 2 ^ p.cellBit.toNat := pow_pos (by norm_num) _
  have hB : 1 ≤ p.cellBit.toNat := by omega
  have hc2 : (2 : ℤ) ≤ 2 ^ p.cellBit.toNat := by
    calc (2 : ℤ) = 2 ^ 1 := by norm_num
      _ ≤ 2 ^ p.cellBit.toNat := pow_le_pow_right₀ (by norm_num) hB
  have hn0 : 0 ≤ numColPerSynapse := by
    by_contra hneg
    have : numColPerSynapse * p.cellBit < 0 :=
      mul_neg_of_neg_of_pos (by omega) (by omega)
    omega
  have hSN : p.synapseBit.toNat ≤ p.cellBit.toNat * numColPerSynapse.toNat := by
    have h1 : (p.synapseBit.toNat : ℤ) = p.synapseBit := Int.toNat_of_nonneg hs
    have h2 : (p.cellBit.toNat : ℤ) = p.cellBit := Int.toNat_of_nonneg hb0
    have h3 : (numColPerSynapse.toNat : ℤ) = numColPerSynapse := Int.toNat_of_nonneg hn0
    have : (p.synapseBit.toNat : ℤ) ≤ (p.cellBit.toNat : ℤ) * (numColPerSynapse.toNat : ℤ) := by
      rw [h1, h2, h3, mul_comm]
      exact hn
    exact_mod_cast this
  have hlt : v < (2 ^ p.cellBit.toNat) ^ numColPerSynapse.toNat := by
    have : (2 : ℤ) ^ p.synapseBit.toNat ≤ (2 ^ p.cellBit.toNat) ^ numColPerSynapse.toNat := by
      rw [← pow_mul]
      exact pow_le_pow_right₀ (by norm_num) hSN
    omega
  have hpow : ((2 : ℚ) ^ p.cellBit) = (((2 : ℤ) ^ p.cellBit.toNat : ℤ) : ℚ) := by
    obtain ⟨b, hbb⟩ := Int.eq_ofNat_of_zero_le hb0
    rw [hbb]
    simp
  have hne : ((((2 : ℤ) ^ p.cellBit.toNat : ℤ) : ℚ) - 1) ≠ 0 := by
    have : (2 : ℚ) ≤ (((2 : ℤ) ^ p.cellBit.toNat : ℤ) : ℚ) := by exact_mod_cast hc2
    intro h
    linarith
  have hg' : maxConductance - minConductance ≠ 0 := sub_ne_zero.mpr hg
  have hsum : (v : ℚ) = ∑ u in Finset.range numColPerSynapse.toNat,
      (((v / (2 ^ p.cellBit.toNat) ^ (numColPerSynapse.toNat - 1 - u)
          % 2 ^ p.cellBit.toNat : ℤ)) : ℚ)
        * (((2 : ℤ) ^ p.cellBit.toNat : ℤ) : ℚ) ^ (numColPerSynapse.toNat - 1 - u) := by
    have h := digits_sum_reflect v _ hv0 (le_of_lt hc) numColPerSynapse.toNat
    rw [Int.emod_eq_of_lt hv0 hlt] at h
    exact_mod_cast h.symm
  unfold decodeConductances
  rw [hsum]
  apply Finset.sum_congr rfl
  intro u hu
  rw [conductances_at _ _ _ _ _ u (Finset.mem_range.mp hu), hcr,
    synapseVector_at _ hc numColPerSynapse v hv0 u (Finset.mem_range.mp hu), hpow]
  have hq : ((2 : ℚ) ^ p.cellBit.toNat - 1) ≠ 0 := by
    push_cast at hne
    exact hne
  push_cast
  field_simp
  ring

/-- Witness of C17 for 4-bit synapses in 2-bit cells, two cells per synapse, conductance
range `[1, 10]` and the codeword `13`. -/
theorem loadInWeightData_roundtrip_witness :
    decodeConductances paramBits 2 10 1 (conductances (cellrange paramBits) 2 10 1 13)
      = ((13 : ℤ) : ℚ) :=
  loadInWeightData_roundtrip paramBits 2 10 1 13 (by decide) (by decide) (by decide)
    (by decide) (by decide) (by decide) (by norm_num [FitsInt]) (by decide) (by norm_num)

/-! ## `ChipInitialize`: the width of the global bus -/

/-- The result of a rounding is a `double`. -/
theorem roundDouble_representable (x : ℚ) : Representable (roundDouble x) := by
  by_cases hx : x = 0
  · rw [hx, roundDouble_zero]
    exact ⟨0, 0, by norm_num, by simp⟩
  · obtain ⟨hu, hE, -⟩ := ulp_spec x hx
    have hup : |x| < (2 : ℚ) ^ (Int.log 2 |x| + 1) := by
      have := Int.lt_zpow_succ_log_self (b := 2) (by norm_num) (|x|)
      exact_mod_cast this
    have hE1 : (2 : ℚ) ^ (Int.log 2 |x| + 1) = 2 ^ 53 * (2 : ℚ) ^ (Int.log 2 |x| - 52) := by
      rw [zpow_add₀ (by norm_num : (2 : ℚ) ≠ 0), hE, zpow_one]
      ring
    have habs := abs_lt.mp hup
    have hR1 : roundHalfEven (x / (2 : ℚ) ^ (Int.log 2 |x| - 52)) ≤ 2 ^ 53 := by
      apply roundHalfEven_le
      rw [div_le_iff₀ hu]
      push_cast
      linarith
    have hR2 : -(2 ^ 53) ≤ roundHalfEven (x / (2 : ℚ) ^ (Int.log 2 |x| - 52)) := by
      apply le_roundHalfEven
      rw [le_div_iff₀ hu]
      push_cast
      linarith
    unfold roundDouble
    rw [if_neg hx]
    generalize roundHalfEven (x / (2 : ℚ) ^ (Int.log 2 |x| - 52)) = R at hR1 hR2
    rcases eq_or_lt_of_le hR1 with h1 | h1
    · refine ⟨1, Int.log 2 |x| + 1, by norm_num, ?_⟩
      rw [h1, hE1]
      push_cast
      ring
    · rcases eq_or_lt_of_le hR2 with h2 | h2
      · refine ⟨-1, Int.log 2 |x| + 1, by norm_num, ?_⟩
        rw [← h2, hE1]
        push_cast
        ring
      · exact ⟨R, Int.log 2 |x| - 52, abs_lt.mpr ⟨h2, h1⟩, rfl⟩

/-- Half of a `double` is a `double` (no underflow in the model). -/
theorem representable_div_two (b : ℚ) (hb : Representable b) : Representable (b / 2) := by
  obtain ⟨n, j, hn, rfl⟩ := hb
  refine ⟨n, j - 1, hn, ?_⟩
  rw [zpow_sub₀ (by norm_num : (2 : ℚ) ≠ 0), zpow_one]
  ring

theorem representable_div_pow (b : ℚ) (hb : Representable b) (k : ℕ) :
    Representable (b / 2 ^ k) := by
  induction k with
  | zero => simpa using hb
  | succ k ih =>
    have := representable_div_two _ ih
    rw [div_div, ← pow_succ] at this
    exact this

/-- After the loop over the layers, `globalBusWidth` is the start value with the widths
of the layers added in turn. -/
theorem initBody_fold (p : InitParam) (netStructure : List Layer) (markNM : List ℤ)
    (numTileEachLayer : List (List ℚ)) (numPENM desiredPESizeNM desiredTileSizeCM : ℚ)
    (s : InitState) (n : ℕ) :
    ((List.range n).foldl
      (initBody p netStructure markNM numTileEachLayer numPENM desiredPESizeNM desiredTileSizeCM)
      s).globalBusWidth
      = (List.range n).foldl
          (fun w i => roundDouble (w + layerBusWidth p markNM numPENM desiredPESizeNM
            desiredTileSizeCM i)) s.globalBusWidth := by
  induction n with
  | zero => rfl
  | succ n ih =>
    rw [foldl_range_succ, foldl_range_succ, ← ih]
    generalize (List.range n).foldl _ s = r
    unfold initBody layerBusWidth
    dsimp only
    split_ifs <;> rfl

theorem summedBusWidth_succ (p : InitParam) (markNM : List ℤ)
    (numPENM desiredPESizeNM desiredTileSizeCM : ℚ) (n : ℕ) :
    summedBusWidth p markNM numPENM desiredPESizeNM desiredTileSizeCM (n + 1)
      = roundDouble (summedBusWidth p markNM numPENM desiredPESizeNM desiredTileSizeCM n
          + layerBusWidth p markNM numPENM desiredPESizeNM desiredTileSizeCM n) := by
  unfold summedBusWidth
  rw [foldl_range_succ]

/-- The summed width is a `double`. -/
theorem summedBusWidth_representable (p : InitParam) (markNM : List ℤ)
    (numPENM desiredPESizeNM desiredTileSizeCM : ℚ) (n : ℕ) :
    Representable (summedBusWidth p markNM numPENM desiredPESizeNM desiredTileSizeCM n) := by
  cases n with
  | zero => exact ⟨0, 0, by norm_num, by simp [summedBusWidth]⟩
  | succ n =>
    rw [summedBusWidth_succ]
    exact roundDouble_representable _

/-- Where every partial sum of the widths is a `double`, the additions are exact and the
summed width is the sum of the widths. -/
theorem summedBusWidth_exact (p : InitParam) (markNM : List ℤ)
    (numPENM desiredPESizeNM desiredTileSizeCM : ℚ) (n : ℕ)
    (h : ∀ m, m ≤ n → Representable (∑ i in Finset.range m,
      layerBusWidth p markNM numPENM desiredPESizeNM desiredTileSizeCM i)) :
    summedBusWidth p markNM numPENM desiredPESizeNM desiredTileSizeCM n
      = ∑ i in Finset.range n,
          layerBusWidth p markNM numPENM desiredPESizeNM desiredTileSizeCM i := by
  induction n with
  | zero => simp [summedBusWidth]
  | succ n ih =>
    rw [summedBusWidth_succ, ih (fun m hm => h m (Nat.le_succ_of_le hm)),
      ← Finset.sum_range_succ]
    exact roundDouble_eq _ (h (n + 1) (le_refl _))

/-- The halving loop run from a `double` width `W` whose first `k` halvings are all
needed and whose `k`-th halving fits: the halvings are exact. -/
theorem limitBusWidth_run (maxGlobalBusWidth : ℚ) (k : ℕ) :
    ∀ (W : ℚ), Representable W → (∀ j, j < k → maxGlobalBusWidth < W / 2 ^ j) →
      W / 2 ^ k ≤ maxGlobalBusWidth →
      ∀ fuel, k < fuel → limitBusWidth maxGlobalBusWidth fuel W = some (W / 2 ^ k) := by
  induction k with
  | zero =>
    intro W _ _ hfit fuel hfuel
    obtain ⟨f, rfl⟩ : ∃ f, fuel = f + 1 := ⟨fuel - 1, by omega⟩
    simp only [pow_zero, div_one] at hfit ⊢
    rw [limitBusWidth, if_neg (not_lt.mpr hfit)]
  | succ k ih =>
    intro W hW hbig hfit fuel hfuel
    obtain ⟨f, rfl⟩ : ∃ f, fuel = f + 1 := ⟨fuel - 1, by omega⟩
    have h0 : maxGlobalBusWidth < W := by simpa using hbig 0 (Nat.succ_pos k)
    have hW2 := representable_div_two W hW
    rw [limitBusWidth, if_pos h0, roundDouble_eq _ hW2]
    have e : ∀ j : ℕ, W / 2 / 2 ^ j = W / 2 ^ (j + 1) := by
      intro j
      rw [div_div, pow_succ, mul_comm]
    rw [ih (W / 2) hW2 (fun j hj => by rw [e]; exact hbig (j + 1) (by omega))
      (by rw [e]; exact hfit) f (by omega), e]

/-- For a positive bound some halving of every `double` width fits, and the halving loop
stops at the first one. -/
theorem limitBusWidth_spec (maxGlobalBusWidth : ℚ) (hmax : 0 < maxGlobalBusWidth) (W : ℚ)
    (hW : Representable W) :
    ∃ k : ℕ, (∀ fuel, k < fuel → limitBusWidth maxGlobalBusWidth fuel W = some (W / 2 ^ k)) ∧
      W / 2 ^ k ≤ maxGlobalBusWidth ∧
      (∀ j : ℕ, W / 2 ^ j ≤ maxGlobalBusWidth → k ≤ j) ∧
      (W ≤ maxGlobalBusWidth → k = 0) ∧
      (0 < k → maxGlobalBusWidth / 2 < W / 2 ^ k) := by
  have hex : ∃ j : ℕ, W / 2 ^ j ≤ maxGlobalBusWidth := by
    by_cases hW0 : W ≤ 0
    · exact ⟨0, by simpa using le_trans hW0 hmax.le⟩
    · push_neg at hW0
      obtain ⟨j, hj⟩ := exists_nat_gt (W / maxGlobalBusWidth)
      refine ⟨j, ?_⟩
      have h2 : (j : ℚ) < 2 ^ j := by exact_mod_cast Nat.lt_two_pow j
      rw [div_le_iff₀ (by positivity)]
      rw [div_lt_iff₀ hmax] at hj
      nlinarith
  classical
  refine ⟨Nat.find hex, ?_, Nat.find_spec hex, ?_, ?_, ?_⟩
  · exact limitBusWidth_run maxGlobalBusWidth (Nat.find hex) W hW
      (fun j hj => not_le.mp (Nat.find_min hex hj)) (Nat.find_spec hex)
  · intro j hj
    exact Nat.find_min' hex hj
  · intro hW1
    exact Nat.le_zero.mp (Nat.find_min' hex (by simpa using hW1))
  · intro hk
    have hlt : Nat.find hex - 1 < Nat.find hex := by omega
    have := not_le.mp (Nat.find_min hex hlt)
    have e : W / 2 ^ (Nat.find hex) = W / 2 ^ (Nat.find hex - 1) / 2 := by
      rw [div_div, ← pow_succ]
      congr 2
      omega
    rw [e]
    linarith

/-- C21. In `ChipInitialize`, for `maxGlobalBusWidth > 0` the halving loop of the bus
width terminates, and the width handed to the interconnect tree is `W / 2^k`, where `W`
is the sum of the per-layer widths, as the source accumulates it in `double` arithmetic,
and `k` is the least natural number with `W / 2^k ≤ maxGlobalBusWidth`: the result is at
most `maxGlobalBusWidth`, it is `W` when `W` already fits, and it exceeds
`maxGlobalBusWidth / 2` whenever a halving occurred.  Where the partial sums of the
widths are `double` values, `W` is their exact sum.  The statement is for the runs in
which the values of the source are finite numbers and its loop reads inside the vectors:
`numColMuxed ≠ 0` (a division by `0` makes the width of the source infinite, and halving
never brings it below the bound), a `numPENM` that is an integer between `0` and the
largest `int` (it comes from an `int`, and the source takes its square root), sizes and
a bound of moderate magnitude and a layer count in the range of `int` (no overflow and no
underflow of a `double`), one mark per layer, and a tile count per layer in row `0` of
`numTileEachLayer`. -/
theorem chipInitialize_busWidth (p : InitParam) (netStructure : List Layer) (markNM : List ℤ)
    (numTileEachLayer : List (List ℚ)) (numPENM desiredPESizeNM desiredTileSizeCM : ℚ)
    (hmax : 0 < p.maxGlobalBusWidth) (_hmux : p.numColMuxed ≠ 0)
    (_hnum : ∃ z : ℤ, 0 ≤ z ∧ FitsInt z ∧ numPENM = (z : ℚ))
    (_hsize : ModerateDouble desiredTileSizeCM ∧ ModerateDouble desiredPESizeNM ∧
      1 / 2 ^ 500 ≤ p.maxGlobalBusWidth)
    (_hlen : FitsInt (netStructure.length : ℤ))
    (_hmark : netStructure.length ≤ markNM.length)
    (_htab : ∀ i, i < netStructure.length → (at2? numTileEachLayer 0 i).isSome = true) :
    ((∀ m, m ≤ netStructure.length → Representable (∑ i in Finset.range m,
        layerBusWidth p markNM numPENM desiredPESizeNM desiredTileSizeCM i)) →
      summedBusWidth p markNM numPENM desiredPESizeNM desiredTileSizeCM netStructure.length
        = ∑ i in Finset.range netStructure.length,
            layerBusWidth p markNM numPENM desiredPESizeNM desiredTileSizeCM i) ∧
    ∃ k : ℕ,
      (∀ fuel, k < fuel →
        (ChipInitialize p fuel netStructure markNM numTileEachLayer numPENM desiredPESizeNM
          desiredTileSizeCM).map (fun s => s.globalBusWidth)
        = some (summedBusWidth p markNM numPENM desiredPESizeNM desiredTileSizeCM
            netStructure.length / 2 ^ k)) ∧
      summedBusWidth p markNM numPENM desiredPESizeNM desiredTileSizeCM netStructure.length
          / 2 ^ k ≤ p.maxGlobalBusWidth ∧
      (∀ j : ℕ, summedBusWidth p markNM numPENM desiredPESizeNM desiredTileSizeCM
          netStructure.length / 2 ^ j ≤ p.maxGlobalBusWidth → k ≤ j) ∧
      (summedBusWidth p markNM numPENM desiredPESizeNM desiredTileSizeCM netStructure.length
        ≤ p.maxGlobalBusWidth → k = 0) ∧
      (0 < k → p.maxGlobalBusWidth / 2 <
        summedBusWidth p markNM numPENM desiredPESizeNM desiredTileSizeCM netStructure.length
          / 2 ^ k) := by
  refine ⟨summedBusWidth_exact p markNM numPENM desiredPESizeNM desiredTileSizeCM
    netStructure.length, ?_⟩
  obtain ⟨k, hrun, h1, h2, h3, h4⟩ := limitBusWidth_spec p.maxGlobalBusWidth hmax
    (summedBusWidth p markNM numPENM desiredPESizeNM desiredTileSizeCM netStructure.length)
    (summedBusWidth_representable p markNM numPENM desiredPESizeNM desiredTileSizeCM
      netStructure.length)
  refine ⟨k, ?_, h1, h2, h3, h4⟩
  intro fuel hfuel
  unfold ChipInitialize
  simp only [Option.map_map]
  rw [initBody_fold]
  have e : (List.range netStructure.length).foldl
      (fun w i => roundDouble (w + layerBusWidth p markNM numPENM desiredPESizeNM
        desiredTileSizeCM i)) (⟨0, 0, 0⟩ : InitState).globalBusWidth
      = summedBusWidth p markNM numPENM desiredPESizeNM desiredTileSizeCM
          netStructure.length := rfl
  rw [e, hrun fuel hfuel]
  rfl

theorem layerBusWidth_netFC2 (i : ℕ) :
    layerBusWidth paramInit [0, 0] 0 0 512 i = 576 := by
  have hm : markAt ([0, 0] : List ℤ) i = 0 := by
    unfold markAt
    rcases i with _ | _ | i <;> rfl
  have h64 : roundDouble ((512 : ℚ) / ((paramInit.numColMuxed : ℤ) : ℚ)) = 64 := by
    have e : (512 : ℚ) / ((paramInit.numColMuxed : ℤ) : ℚ) = ((64 : ℤ) : ℚ) := by
      norm_num [paramInit]
    rw [e]
    exact roundDouble_eq _ (representable_int 64 (by norm_num))
  have h576 : roundDouble ((512 : ℚ) + 64) = 576 := by
    have e : (512 : ℚ) + 64 = ((576 : ℤ) : ℚ) := by norm_num
    rw [e, roundDouble_eq _ (representable_int 576 (by norm_num))]
    norm_num
  unfold layerBusWidth
  rw [if_pos hm, h64, h576]

theorem summedBusWidth_netFC2 :
    summedBusWidth paramInit [0, 0] 0 0 512 netFC2.length = 1152 := by
  rw [summedBusWidth_exact]
  · simp only [layerBusWidth_netFC2, Finset.sum_const, Finset.card_range]
    norm_num [netFC2]
  · intro m _
    simp only [layerBusWidth_netFC2, Finset.sum_const, Finset.card_range, nsmul_eq_mul]
    have hm2 : m ≤ 2 := by simpa [netFC2] using ‹m ≤ netFC2.length›
    refine ⟨(m : ℤ) * 576, 0, ?_, by push_cast; simp⟩
    rw [abs_of_nonneg (by positivity)]
    have : (m : ℤ) ≤ 2 := by exact_mod_cast hm2
    omega

/-- Witness of C21: the two conventional layers of `netFC2` with 512-wide tiles and
8 multiplexed columns ask for `512 + 64 = 576` wires each, `W = 1152` in all, which a bus
of at most 1024 wires halves once, to 576. -/
theorem chipInitialize_busWidth_witness :
    summedBusWidth paramInit [0, 0] 0 0 512 netFC2.length = 1152 ∧
    (∀ fuel, 1 < fuel →
      (ChipInitialize paramInit fuel netFC2 [0, 0] [[1, 2], [2, 1]] 0 0 512).map
        (fun s => s.globalBusWidth) = some 576) ∧
    ∃ k : ℕ,
      (∀ fuel, k < fuel →
        (ChipInitialize paramInit fuel netFC2 [0, 0] [[1, 2], [2, 1]] 0 0 512).map
          (fun s => s.globalBusWidth)
        = some (summedBusWidth paramInit [0, 0] 0 0 512 netFC2.length / 2 ^ k)) ∧
      summedBusWidth paramInit [0, 0] 0 0 512 netFC2.length / 2 ^ k
        ≤ paramInit.maxGlobalBusWidth ∧
      (∀ j : ℕ, summedBusWidth paramInit [0, 0] 0 0 512 netFC2.length / 2 ^ j
        ≤ paramInit.maxGlobalBusWidth → k ≤ j) ∧
      (summedBusWidth paramInit [0, 0] 0 0 512 netFC2.length
        ≤ paramInit.maxGlobalBusWidth → k = 0) ∧
      (0 < k → paramInit.maxGlobalBusWidth / 2 <
        summedBusWidth paramInit [0, 0] 0 0 512 netFC2.length / 2 ^ k) :=
  have hW := summedBusWidth_netFC2
  have hmod : ModerateDouble (512 : ℚ) := Or.inr ⟨by norm_num, by norm_num⟩
  have hmaxlow : (1 : ℚ) / 2 ^ 500 ≤ paramInit.maxGlobalBusWidth := by norm_num [paramInit]
  have h := (chipInitialize_busWidth paramInit netFC2 [0, 0] [[1, 2], [2, 1]] 0 0 512
    (by norm_num [paramInit]) (by decide) ⟨0, le_refl 0, by norm_num [FitsInt], by norm_num⟩
    ⟨hmod, Or.inl rfl, hmaxlow⟩
    (by norm_num [FitsInt, netFC2]) (by decide) (by decide)).2
  ⟨hW,
    by
      obtain ⟨k, hrun, hfit, hmin, -, -⟩ := h
      rw [hW] at hrun hfit hmin
      have hk1 : k ≤ 1 := hmin 1 (by norm_num [paramInit])
      have hk0 : k ≠ 0 := by
        intro h0
        rw [h0] at hfit
        norm_num [paramInit] at hfit
      obtain rfl : k = 1 := by omega
      intro fuel hfuel
      rw [hrun fuel hfuel]
      norm_num,
    h⟩

/-! ## `ChipFloorPlan`: the selector flags -/

/-- C22. The sizes chosen by `ChipFloorPlan` do not depend on the selector flags
`findNumTile`, `findUtilization`, `findSpeedUp`: for the same network, marks, maxima and
parameters, two calls with arbitrary flags either both fail to return or both return,
with the same out-parameters and tables (the flags only select the returned table), and
the scalar outputs `desiredNumTileNM`, `desiredPESizeNM`, `desiredNumTileCM`,
`desiredTileSizeCM`, `desiredPESizeCM`, `numTileRow`, `numTileCol` do not depend on the
start value of the uninitialised `thisTileTotal` either; so the four successive calls of
`main` yield the same sizes. -/
theorem chipFloorPlan_flags_irrelevant (p : Param) (fuel : ℕ)
    (findNumTile findUtilization findSpeedUp findNumTile' findUtilization' findSpeedUp' : Bool)
    (netStructure : List Layer) (markNM : List ℤ) (maxPESizeNM maxTileSizeCM numPENM : ℚ)
    (thisTileTotal0 thisTileTotal0' : ℚ) :
    (ChipFloorPlan p fuel findNumTile findUtilization findSpeedUp netStructure markNM
        maxPESizeNM maxTileSizeCM numPENM thisTileTotal0).map Prod.snd
      = (ChipFloorPlan p fuel findNumTile' findUtilization' findSpeedUp' netStructure markNM
        maxPESizeNM maxTileSizeCM numPENM thisTileTotal0).map Prod.snd ∧
    (ChipFloorPlan p fuel findNumTile findUtilization findSpeedUp netStructure markNM
        maxPESizeNM maxTileSizeCM numPENM thisTileTotal0).map
        (fun r => (r.2.desiredNumTileNM, r.2.desiredPESizeNM, r.2.desiredNumTileCM,
          r.2.desiredTileSizeCM, r.2.desiredPESizeCM, r.2.numTileRow, r.2.numTileCol))
      = (ChipFloorPlan p fuel findNumTile' findUtilization' findSpeedUp' netStructure markNM
        maxPESizeNM maxTileSizeCM numPENM thisTileTotal0').map
        (fun r => (r.2.desiredNumTileNM, r.2.desiredPESizeNM, r.2.desiredNumTileCM,
          r.2.desiredTileSizeCM, r.2.desiredPESizeCM, r.2.numTileRow, r.2.numTileCol)) := by
  unfold ChipFloorPlan
  rcases floorPlanSearch p fuel netStructure markNM maxPESizeNM maxTileSizeCM numPENM with _ | s
  · exact ⟨rfl, rfl⟩
  · simp only [Option.bind_eq_bind, Option.some_bind]
    constructor <;> split_ifs <;> rfl

/-! ## `ChipDesignInitialize`: equal kernels and ties -/

/-- With novel mapping, `numPENM` is the `numPE` found by the counting loops. -/
theorem chipDesignInitialize_numPENM (p : Param) (netStructure : List Layer)
    (hnov : p.novelMapping = true) :
    (ChipDesignInitialize p netStructure).numPENM
      = ((mostCommonKernel netStructure).numPE : ℚ) := by
  unfold ChipDesignInitialize
  rw [if_pos hnov, (markBodyNM_fold p netStructure _ netStructure.length).1]

/-- C23. With novel mapping enabled, for every non-empty network all of whose layers have
the same product `k = kernelRows*kernelCols`, an integer in the range of the `int` in
which the source holds it (Chip.cpp 101), `ChipDesignInitialize` returns `numPENM = k`
and marks a layer Novel exactly when its
`inputDepth*kernelRows*kernelCols*numRowPerSynapse` is at least `numRowSubArray`; in
particular every such layer is marked Novel.  The input depths and kernel sizes are
integers of absolute value at most `2^15` and `numRowPerSynapse` is at most `2^7` in
absolute value, so that the products that the source forms in `double` arithmetic are
exact. -/
theorem chipDesignInitialize_sameKernel (p : Param) (netStructure : List Layer)
    (hnov : p.novelMapping = true) (hne : netStructure ≠ []) (k : ℤ) (hk : FitsInt k)
    (_hlen : FitsInt ((netStructure.length : ℤ) + 1))
    (_hdims : ∀ l ∈ netStructure, ∃ d r c : ℤ, |d| ≤ 2 ^ 15 ∧ |r| ≤ 2 ^ 15 ∧ |c| ≤ 2 ^ 15 ∧
      l.inputDepth = (d : ℚ) ∧ l.kernelRow = (r : ℚ) ∧ l.kernelCol = (c : ℚ))
    (_hnr : |p.numRowPerSynapse| ≤ 2 ^ 7)
    (hall : ∀ l ∈ netStructure, l.kernelRow * l.kernelCol = (k : ℚ)) :
    (ChipDesignInitialize p netStructure).numPENM = (k : ℚ) ∧
    ∀ i, i < netStructure.length →
      (markAt (ChipDesignInitialize p netStructure).markNM i = 1 ↔
        (layerAt netStructure i).inputDepth * (layerAt netStructure i).kernelRow *
            (layerAt netStructure i).kernelCol * (p.numRowPerSynapse : ℚ)
          ≥ (p.numRowSubArray : ℚ)) := by
  have hnum : (ChipDesignInitialize p netStructure).numPENM = (k : ℚ) := by
    obtain ⟨i, hi, hpe, -, -⟩ := mostCommonKernel_spec netStructure hne
      (fun l hl => ⟨k, hk, hall l hl⟩)
    rw [chipDesignInitialize_numPENM p netStructure hnov, hpe]
    exact hall _ (layerAt_mem netStructure i hi)
  refine ⟨hnum, ?_⟩
  intro i hi
  rw [((marks_novel p netStructure hnov).2.2 i hi).1, hnum]
  constructor
  · exact fun h => h.2
  · exact fun h => ⟨hall _ (layerAt_mem netStructure i hi), h⟩

/-- Witness of C23 at the two-layer network `netTwo`, whose kernels are both 3 × 3. -/
theorem chipDesignInitialize_sameKernel_witness :
    (ChipDesignInitialize paramNM netTwo).numPENM = ((9 : ℤ) : ℚ) ∧
    ∀ i, i < netTwo.length →
      (markAt (ChipDesignInitialize paramNM netTwo).markNM i = 1 ↔
        (layerAt netTwo i).inputDepth * (layerAt netTwo i).kernelRow *
            (layerAt netTwo i).kernelCol * (paramNM.numRowPerSynapse : ℚ)
          ≥ (paramNM.numRowSubArray : ℚ)) :=
  chipDesignInitialize_sameKernel paramNM netTwo rfl (by simp [netTwo]) 9
    (by norm_num [FitsInt]) (by norm_num [FitsInt, netTwo])
    (by
      intro l hl
      simp only [netTwo, List.mem_cons, List.mem_singleton, List.not_mem_nil, or_false] at hl
      rcases hl with rfl | rfl
      · exact ⟨64, 3, 3, by norm_num, by norm_num, by norm_num, by norm_num, by norm_num,
          by norm_num⟩
      · exact ⟨128, 3, 3, by norm_num, by norm_num, by norm_num, by norm_num, by norm_num,
          by norm_num⟩)
    (by norm_num [paramNM])
    (by
      intro l hl
      simp only [netTwo, List.mem_cons, List.mem_singleton, List.not_mem_nil, or_false] at hl
      rcases hl with rfl | rfl <;> norm_num)

/-- C27. Tie-break of the most common kernel product in `ChipDesignInitialize` (novel
mapping, non-empty network, kernel products that are integers in the range of the `int` in
which the source holds them, Chip.cpp 101): `numPENM` is the product of a layer `i` whose
product is shared by a maximal number of layers, and every layer before `i` has a product
shared by strictly fewer layers; so among several products with the same maximal count
the one of the lowest-indexed layer is chosen. -/
theorem chipDesignInitialize_tieBreak (p : Param) (netStructure : List Layer)
    (hnov : p.novelMapping = true) (hne : netStructure ≠ [])
    (hint : ∀ l ∈ netStructure, ∃ z : ℤ, FitsInt z ∧ l.kernelRow * l.kernelCol = (z : ℚ))
    (_hlen : FitsInt ((netStructure.length : ℤ) + 1)) :
    ∃ i, i < netStructure.length ∧
      (ChipDesignInitialize p netStructure).numPENM =
        (layerAt netStructure i).kernelRow * (layerAt netStructure i).kernelCol ∧
      (∀ j, j < netStructure.length →
        netStructure.countP (fun x => decide (x.kernelRow * x.kernelCol
            = (layerAt netStructure j).kernelRow * (layerAt netStructure j).kernelCol))
          ≤ netStructure.countP (fun x => decide (x.kernelRow * x.kernelCol
            = (layerAt netStructure i).kernelRow * (layerAt netStructure i).kernelCol))) ∧
      (∀ j, j < i →
        netStructure.countP (fun x => decide (x.kernelRow * x.kernelCol
            = (layerAt netStructure j).kernelRow * (layerAt netStructure j).kernelCol))
          < netStructure.countP (fun x => decide (x.kernelRow * x.kernelCol
            = (layerAt netStructure i).kernelRow * (layerAt netStructure i).kernelCol))) := by
  obtain ⟨i, hi, hpe, hmax, hfirst⟩ := mostCommonKernel_spec netStructure hne hint
  refine ⟨i, hi, ?_, fun j hj => hmax _ (layerAt_mem netStructure j hj), hfirst⟩
  rw [chipDesignInitialize_numPENM p netStructure hnov, hpe]

/-- Witness of C27 at the network `netMixed`, whose two layers have the kernel products
`9` and `1`, each once: the tie goes to the first layer, `numPENM = 9`. -/
theorem chipDesignInitialize_tieBreak_witness :
    (ChipDesignInitialize paramNM netMixed).numPENM = 9 ∧
    ∃ i, i < netMixed.length ∧
      (ChipDesignInitialize paramNM netMixed).numPENM =
        (layerAt netMixed i).kernelRow * (layerAt netMixed i).kernelCol ∧
      (∀ j, j < netMixed.length →
        netMixed.countP (fun x => decide (x.kernelRow * x.kernelCol
            = (layerAt netMixed j).kernelRow * (layerAt netMixed j).kernelCol))
          ≤ netMixed.countP (fun x => decide (x.kernelRow * x.kernelCol
            = (layerAt netMixed i).kernelRow * (layerAt netMixed i).kernelCol))) ∧
      (∀ j, j < i →
        netMixed.countP (fun x => decide (x.kernelRow * x.kernelCol
            = (layerAt netMixed j).kernelRow * (layerAt netMixed j).kernelCol))
          < netMixed.countP (fun x => decide (x.kernelRow * x.kernelCol
            = (layerAt netMixed i).kernelRow * (layerAt netMixed i).kernelCol))) :=
  ⟨by
      rw [chipDesignInitialize_numPENM paramNM netMixed rfl]
      have : (mostCommonKernel netMixed).numPE = 9 := by decide!
      rw [this]
      norm_num,
    chipDesignInitialize_tieBreak paramNM netMixed rfl (by simp [netMixed])
      (by
        intro l hl
        simp only [netMixed, List.mem_cons, List.mem_singleton, List.not_mem_nil, or_false] at hl
        rcases hl with rfl | rfl
        · exact ⟨9, by norm_num [FitsInt], by norm_num⟩
        · exact ⟨1, by norm_num [FitsInt], by norm_num⟩)
      (by norm_num [FitsInt, netMixed])⟩

/-! ## The scenario of the 5 × 5 convolution layer -/

theorem chipDesignInitialize_netSmall (nc : ℤ) :
    ChipDesignInitialize (paramCols nc) netSmall = ⟨[0], 0, minCube (8 * (nc : ℚ)), 0⟩ := by
  simp [ChipDesignInitialize, paramCols, paramCM, netSmall, markBodyCM, layerAt,
    List.range_succ, minCube_nonneg]

/-- The next power of two of a width between 257 and 512 is 512. -/
theorem minCube_eq_512 {x : ℚ} (h1 : 256 < x) (h2 : x ≤ 512) : minCube x = 512 := by
  have hx : 0 < x := by linarith
  apply le_antisymm
  · have := minCube_le_zpow hx 9 (by norm_num; exact h2)
    norm_num at this
    exact this
  · have hle := le_minCube hx
    rw [minCube_of_pos hx] at hle ⊢
    have h8 : (2 : ℚ) ^ (8 : ℤ) < 2 ^ Int.clog 2 x := by
      norm_num
      linarith
    have h9 : (8 : ℤ) < Int.clog 2 x := (zpow_lt_zpow_iff_right₀ (by norm_num)).mp h8
    have : (2 : ℚ) ^ (9 : ℤ) ≤ 2 ^ Int.clog 2 x :=
      zpow_le_zpow_right₀ (by norm_num) (by omega)
    norm_num at this
    exact this

/-- The next power of two of a positive width of at most 256 is at most 256. -/
theorem minCube_le_256 {x : ℚ} (h1 : 0 < x) (h2 : x ≤ 256) : minCube x ≤ 256 := by
  have := minCube_le_zpow h1 8 (by norm_num; exact h2)
  norm_num at this
  exact this

theorem tileDesignCM_netSmall (nc : ℤ) (h1 : 1 ≤ nc) (h64 : nc ≤ 64) :
    TileDesignCM 512 [0] netSmall 1 nc
      = [1, 200 * (nc : ℚ), 200 * (nc : ℚ) / (1 * 512 * 512)] := by
  have hq1 : (1 : ℚ) ≤ nc := by exact_mod_cast h1
  have hq2 : (nc : ℚ) ≤ 64 := by exact_mod_cast h64
  have c1 : ⌈(1 : ℚ) * 5 * 5 * ((1 : ℤ) : ℚ) / 512⌉ = 1 := by
    rw [Int.ceil_eq_iff]
    norm_num
  have c2 : ⌈(8 : ℚ) * (nc : ℚ) / 512⌉ = 1 := by
    rw [Int.ceil_eq_iff]
    constructor
    · norm_num
      linarith
    · norm_num
      linarith
  simp only [TileDesignCM, netSmall, List.length_singleton, List.range_succ, List.range_zero,
    List.nil_append, List.foldl_cons, List.foldl_nil, tileBodyCM, layerAt, markAt,
    List.getD_cons_zero, if_true, ceilD, c1, c2]
  norm_num

theorem searchBodyPE_tile (p : Param) (netStructure : List Layer) (markNM : List ℤ)
    (x : ℚ) (s : FloorPlan) :
    (searchBodyPE p netStructure markNM x s).desiredTileSizeCM = s.desiredTileSizeCM ∧
    (searchBodyPE p netStructure markNM x s).desiredNumTileCM = s.desiredNumTileCM := by
  unfold searchBodyPE
  dsimp only
  split_ifs <;> exact ⟨rfl, rfl⟩

/-- A halving loop whose start value is the only candidate runs its body once. -/
theorem forHalving_once {σ : Type} (bound : ℚ) (body : ℚ → σ → σ) (fuel : ℕ) (x : ℚ) (s : σ)
    (h1 : bound ≤ x) (h2 : x / 2 < bound) :
    forHalving bound body (fuel + 2) x s = some (body x s) := by
  rw [forHalving_succ, if_pos h1, forHalving_succ, if_neg (not_le.mpr h2)]

/-- The size search on the 5 × 5 convolution layer when the tile of 512 columns is the only
candidate. -/
theorem floorPlanSearch_netSmall (nc : ℤ) (h1 : 1 ≤ nc) (h64 : nc ≤ 64) (fuel : ℕ) :
    ∃ s, floorPlanSearch (paramCols nc) (fuel + 2) netSmall [0] 0 512 0 = some s ∧
      s.desiredTileSizeCM = 512 ∧ s.desiredNumTileCM = 1 := by
  have hq1 : (1 : ℚ) ≤ nc := by exact_mod_cast h1
  have hs1 : (searchBodyCM (paramCols nc) netSmall [0] 512 512 FloorPlan.init).desiredTileSizeCM
        = 512 ∧
      (searchBodyCM (paramCols nc) netSmall [0] 512 512 FloorPlan.init).desiredNumTileCM
        = 1 := by
    unfold searchBodyCM
    have hp : (paramCols nc).numRowPerSynapse = 1 ∧ (paramCols nc).numColPerSynapse = nc :=
      ⟨rfl, rfl⟩
    rw [hp.1, hp.2, tileDesignCM_netSmall nc h1 h64]
    have hu : vecAt [1, 200 * (nc : ℚ), 200 * (nc : ℚ) / (1 * 512 * 512)] 2
        > FloorPlan.init.maxUtilizationCM := by
      simp only [vecAt, FloorPlan.init]
      norm_num
      linarith
    dsimp only
    rw [if_pos hu]
    exact ⟨rfl, rfl⟩
  refine ⟨planTables (paramCols nc) netSmall [0] 0 0
    (searchBodyPE (paramCols nc) netSmall [0] (512 / 2)
      (searchBodyCM (paramCols nc) netSmall [0] 512 512 FloorPlan.init)), ?_, ?_⟩
  · unfold floorPlanSearch
    have hn : (paramCols nc).novelMapping = false := rfl
    have hr : ((paramCols nc).numRowSubArray : ℚ) = 128 := by
      simp [paramCols, paramCM]
    rw [hn, hr]
    simp only [Bool.false_eq_true, if_false]
    rw [if_neg (by norm_num)]
    rw [forHalving_once _ _ fuel 512 _ (by norm_num) (by norm_num)]
    simp only [Option.bind_eq_bind, Option.some_bind]
    rw [hs1.1, forHalving_once _ _ fuel (512 / 2) _ (by norm_num) (by norm_num)]
    simp only [Option.some_bind]
  · have h := searchBodyPE_tile (paramCols nc) netSmall [0] (512 / 2)
      (searchBodyCM (paramCols nc) netSmall [0] 512 512 FloorPlan.init)
    exact ⟨by rw [(planTables_sizes _ _ _ _ _ _).2.2.2.1, h.1, hs1.1],
      by rw [(planTables_sizes _ _ _ _ _ _).2.2.1, h.2, hs1.2]⟩

/-- Counterexample to C24 as stated: with one cell per synapse the widest layer has 8
columns, so `maxTileSizeCM = 8 < 4*128`; the plan is infeasible and `desiredTileSizeCM`
and `desiredNumTileCM` stay `0`, whereas the smallest power of two
`≥ max(4*128, minCube)` is `512`. -/
theorem chipFloorPlan_netSmall_counterexample :
    (ChipFloorPlan (paramCols 1) 8 true false false netSmall
        (ChipDesignInitialize (paramCols 1) netSmall).markNM
        (ChipDesignInitialize (paramCols 1) netSmall).maxPESizeNM
        (ChipDesignInitialize (paramCols 1) netSmall).maxTileSizeCM
        (ChipDesignInitialize (paramCols 1) netSmall).numPENM 0).map
        (fun r => (r.2.desiredTileSizeCM, r.2.desiredNumTileCM)) = some (0, 0) ∧
      (ChipDesignInitialize (paramCols 1) netSmall).maxTileSizeCM = 8 ∧
      minCube (max (4 * 128) (ChipDesignInitialize (paramCols 1) netSmall).maxTileSizeCM) = 512 := by
  have h8 : minCube ((8 : ℚ) * ((1 : ℤ) : ℚ)) = 8 := by
    have := minCube_zpow 3
    norm_num at this
    norm_num
    exact this
  have h512 : minCube 512 = 512 := by
    have := minCube_zpow 9
    norm_num at this
    exact this
  rw [chipDesignInitialize_netSmall, h8]
  refine ⟨by decide!, rfl, ?_⟩
  rw [max_eq_left (by norm_num)]
  norm_num
  exact h512

/-- C24 (amended). For the one-layer network `28,28,1,5,5,8,0` with novel mapping off,
128 × 128 sub-arrays, one row and `1 ≤ numColPerSynapse ≤ 64` columns per synapse,
`ChipDesignInitialize` gives `maxTileSizeCM = minCube`, the next power of two of
`8*numColPerSynapse`, and `ChipFloorPlan` returns: for `numColPerSynapse ≤ 32` the plan is
infeasible (`minCube < 4*128`) and `desiredTileSizeCM = desiredNumTileCM = 0`; for
`numColPerSynapse ≥ 33` it is feasible with `desiredTileSizeCM = 512`, the smallest
power of two `≥ max(4*128, minCube)`, and `desiredNumTileCM = 1`. -/
theorem chipFloorPlan_netSmall (nc : ℤ) (h1 : 1 ≤ nc) (h64 : nc ≤ 64) (fuel : ℕ)
    (findNumTile findUtilization findSpeedUp : Bool) (thisTileTotal0 : ℚ) :
    (ChipDesignInitialize (paramCols nc) netSmall).maxTileSizeCM = minCube (8 * (nc : ℚ)) ∧
    ∃ r, ChipFloorPlan (paramCols nc) (fuel + 2) findNumTile findUtilization findSpeedUp netSmall
        (ChipDesignInitialize (paramCols nc) netSmall).markNM
        (ChipDesignInitialize (paramCols nc) netSmall).maxPESizeNM
        (ChipDesignInitialize (paramCols nc) netSmall).maxTileSizeCM
        (ChipDesignInitialize (paramCols nc) netSmall).numPENM thisTileTotal0 = some r ∧
      (nc ≤ 32 → minCube (8 * (nc : ℚ)) < 4 * 128 ∧
        r.2.desiredTileSizeCM = 0 ∧ r.2.desiredNumTileCM = 0) ∧
      (33 ≤ nc → r.2.desiredTileSizeCM = 512 ∧
        minCube (max (4 * 128) (minCube (8 * (nc : ℚ)))) = 512 ∧
        r.2.desiredNumTileCM = 1) := by
  have hq1 : (1 : ℚ) ≤ nc := by exact_mod_cast h1
  have hq64 : (nc : ℚ) ≤ 64 := by exact_mod_cast h64
  rw [chipDesignInitialize_netSmall]
  refine ⟨rfl, ?_⟩
  dsimp only
  by_cases hc : nc ≤ 32
  · have hq : (nc : ℚ) ≤ 32 := by exact_mod_cast hc
    have hm : minCube (8 * (nc : ℚ)) < 4 * 128 := by
      have := minCube_le_256 (x := 8 * (nc : ℚ)) (by linarith) (by linarith)
      linarith
    have hs : floorPlanSearch (paramCols nc) (fuel + 2) netSmall [0] 0 (minCube (8 * (nc : ℚ))) 0
        = some FloorPlan.init := by
      unfold floorPlanSearch
      have hn : (paramCols nc).novelMapping = false := rfl
      have hr : ((paramCols nc).numRowSubArray : ℚ) = 128 := by simp [paramCols, paramCM]
      rw [hn, hr]
      simp only [Bool.false_eq_true, if_false]
      rw [if_pos hm]
    obtain ⟨r, hr⟩ := ChipFloorPlan_isSome (paramCols nc) (fuel + 2) findNumTile findUtilization
      findSpeedUp netSmall [0] 0 (minCube (8 * (nc : ℚ))) 0 thisTileTotal0 _ hs
    obtain ⟨s, hs', -, -, hN, hT, -⟩ := ChipFloorPlan_some _ _ _ _ _ _ _ _ _ _ _ r hr
    rw [hs] at hs'
    obtain rfl := Option.some.inj hs'
    exact ⟨r, hr, fun _ => ⟨hm, hT, hN⟩, fun h => by omega⟩
  · push_neg at hc
    have hq : (33 : ℚ) ≤ nc := by exact_mod_cast (show (33 : ℤ) ≤ nc by omega)
    have hm : minCube (8 * (nc : ℚ)) = 512 := minCube_eq_512 (by linarith) (by linarith)
    rw [hm]
    obtain ⟨s, hs, hT, hN⟩ := floorPlanSearch_netSmall nc h1 h64 fuel
    obtain ⟨r, hr⟩ := ChipFloorPlan_isSome (paramCols nc) (fuel + 2) findNumTile findUtilization
      findSpeedUp netSmall [0] 0 512 0 thisTileTotal0 _ hs
    obtain ⟨s', hs', -, -, hN', hT', -⟩ := ChipFloorPlan_some _ _ _ _ _ _ _ _ _ _ _ r hr
    rw [hs] at hs'
    obtain rfl := Option.some.inj hs'
    refine ⟨r, hr, fun h => by omega, fun _ => ⟨by rw [hT', hT], ?_, by rw [hN', hN]⟩⟩
    rw [max_eq_left (by norm_num)]
    norm_num
    exact minCube_eq_512 (by norm_num) (by norm_num)

/-- Witness of C24 (amended) at `numColPerSynapse = 64`, where the layer has 512 columns. -/
theorem chipFloorPlan_netSmall_witness :
    (ChipDesignInitialize (paramCols 64) netSmall).maxTileSizeCM
      = minCube (8 * ((64 : ℤ) : ℚ)) ∧
    ∃ r, ChipFloorPlan (paramCols 64) (6 + 2) true false false netSmall
        (ChipDesignInitialize (paramCols 64) netSmall).markNM
        (ChipDesignInitialize (paramCols 64) netSmall).maxPESizeNM
        (ChipDesignInitialize (paramCols 64) netSmall).maxTileSizeCM
        (ChipDesignInitialize (paramCols 64) netSmall).numPENM 0 = some r ∧
      ((64 : ℤ) ≤ 32 → minCube (8 * ((64 : ℤ) : ℚ)) < 4 * 128 ∧
        r.2.desiredTileSizeCM = 0 ∧ r.2.desiredNumTileCM = 0) ∧
      ((33 : ℤ) ≤ 64 → r.2.desiredTileSizeCM = 512 ∧
        minCube (max (4 * 128) (minCube (8 * ((64 : ℤ) : ℚ)))) = 512 ∧
        r.2.desiredNumTileCM = 1) :=
  chipFloorPlan_netSmall 64 (by norm_num) (by norm_num) 6 true false false 0

/-! ## `SubArrayDup` on a Novel layer -/

theorem chipDesignInitialize_netMixed :
    ChipDesignInitialize paramNM netMixed = ⟨[1, 0], 256, 1024, 9⟩ := by
  have h1 : minCube 1024 = 1024 := by
    have := minCube_zpow 10
    norm_num at this
    exact this
  have h2 : minCube 256 = 256 := by
    have := minCube_zpow 8
    norm_num at this
    exact this
  have h9 : (mostCommonKernel netMixed).numPE = 9 := by decide!
  unfold ChipDesignInitialize
  rw [if_pos (show paramNM.novelMapping = true from rfl)]
  dsimp only
  rw [h9]
  simp [paramNM, netMixed, markBodyNM, layerAt, h1, h2, List.range_succ]
  norm_num

/-- C26. On the network `netMixed` with novel mapping (128 × 128 sub-arrays) the first
layer is marked Novel and `ChipFloorPlan` chooses `desiredPESizeNM = 256` and
`desiredPESizeCM = 512`; the layer fits its PE (`inputDepth*numRowPerSynapse = 128 ≤ 256`),
and `SubArrayDup` returns the duplication `(4, 2)`, computed from the `512/128 = 4`
sub-arrays of a conventional PE, whereas the sub-arrays available in a Novel PE give
`dupRow = ceil(ceil(256/128)/ceil(128/128)) = 2` and
`dupCol = ceil(ceil(256/128)/ceil(256/128)) = 1`. -/
theorem subArrayDup_novel_uses_conventional_size :
    (ChipFloorPlan paramNM 10 false false false netMixed
        (ChipDesignInitialize paramNM netMixed).markNM
        (ChipDesignInitialize paramNM netMixed).maxPESizeNM
        (ChipDesignInitialize paramNM netMixed).maxTileSizeCM
        (ChipDesignInitialize paramNM netMixed).numPENM 0).map
        (fun r => (r.2.desiredPESizeNM, r.2.desiredPESizeCM, r.2.subArrayDup))
      = some (256, 512, [[4, 1], [2, 1]]) ∧
    SubArrayDup paramNM 512 256 [1, 0] netMixed 1 1 = [[4, 1], [2, 1]] ∧
    markAt (ChipDesignInitialize paramNM netMixed).markNM 0 = 1 ∧
    (layerAt netMixed 0).inputDepth * (paramNM.numRowPerSynapse : ℚ) ≤ 256 ∧
    ⌈((⌈(256 : ℚ) / (paramNM.numRowSubArray : ℚ)⌉ : ℤ) : ℚ)
        / ((⌈(layerAt netMixed 0).inputDepth * (paramNM.numRowPerSynapse : ℚ)
            / (paramNM.numRowSubArray : ℚ)⌉ : ℤ) : ℚ)⌉ = 2 ∧
    ⌈((⌈(256 : ℚ) / (paramNM.numColSubArray : ℚ)⌉ : ℤ) : ℚ)
        / ((⌈(layerAt netMixed 0).outputDepth * (paramNM.numColPerSynapse : ℚ)
            / (paramNM.numColSubArray : ℚ)⌉ : ℤ) : ℚ)⌉ = 1 := by
  rw [chipDesignInitialize_netMixed]
  decide!

/-! ## `ChipCalculatePerformance`: chip-level activation -/

/-- One tile with chip-level activation and neither accumulation nor max-pool: the
activation latency is added to the running maximum and the activation energy to the
running sum. -/
theorem perfTileBody_activation (p : ChipParam) (numTileRowL : ℚ) (m : PerfModels) (i : ℕ)
    (s : Performance) (j : ℕ) (hact : p.chipActivation = true) (hrow : ¬ numTileRowL > 1) :
    (perfTileBody p false numTileRowL m i s j).readLatency
      = max (m.tile i j).tileReadLatency s.readLatency
        + (if p.reLu then m.GreLu i j else m.Gsigmoid i j).readLatency ∧
    (perfTileBody p false numTileRowL m i s j).readDynamicEnergy
      = s.readDynamicEnergy + (m.tile i j).tileReadDynamicEnergy
        + (if p.reLu then m.GreLu i j else m.Gsigmoid i j).readDynamicEnergy := by
  unfold perfTileBody
  dsimp only
  rw [if_pos hact, if_neg hrow]
  exact ⟨rfl, rfl⟩

/-- The inner tile loop with chip-level activation, equal tile latencies `t` and equal
activation costs `a`, `e`: after `n` tiles the latency is `t + n*a` and the energy has
grown by the tile energies plus `n*e`. -/
theorem perfTileRow_activation (p : ChipParam) (numTileRowL : ℚ) (m : PerfModels) (i : ℕ)
    (t a e : ℚ) (hact : p.chipActivation = true) (hrow : ¬ numTileRowL > 1)
    (ht : 0 ≤ t) (ha : 0 ≤ a)
    (htile : ∀ j, (m.tile i j).tileReadLatency = t)
    (hlat : ∀ j, (if p.reLu then m.GreLu i j else m.Gsigmoid i j).readLatency = a)
    (hen : ∀ j, (if p.reLu then m.GreLu i j else m.Gsigmoid i j).readDynamicEnergy = e)
    (n : ℕ) :
    ((List.range n).foldl (perfTileBody p false numTileRowL m i) Performance.init).readLatency
      = (if n = 0 then 0 else t + (n : ℚ) * a) ∧
    ((List.range n).foldl (perfTileBody p false numTileRowL m i)
        Performance.init).readDynamicEnergy
      = (∑ j in Finset.range n, (m.tile i j).tileReadDynamicEnergy) + (n : ℚ) * e := by
  induction n with
  | zero => simp [Performance.init]
  | succ n ih =>
    rw [foldl_range_succ]
    obtain ⟨h1, h2⟩ := perfTileBody_activation p numTileRowL m i
      ((List.range n).foldl (perfTileBody p false numTileRowL m i) Performance.init) n hact hrow
    rw [h1, h2, ih.1, ih.2, htile, hlat, hen, Finset.sum_range_succ]
    refine ⟨?_, by push_cast; ring⟩
    rw [if_neg (Nat.succ_ne_zero n)]
    have hn : (0 : ℚ) ≤ (n : ℚ) * a := mul_nonneg (Nat.cast_nonneg n) ha
    by_cases h0 : n = 0
    · subst h0
      simp only [if_true, max_eq_left ht]
      push_cast
      ring
    · rw [if_neg h0, max_eq_right (by linarith)]
      push_cast
      ring

/-- Counterexample to C28 as stated: one tile row of two tiles with tile latency 3,
activation latency 1 and activation energy 7 gives, before the whole-layer costs,
`readLatency = 5` and an activation energy of `14`, not `3 + 1*1 = 4` and `1*7 = 7`. -/
theorem chipActivation_per_tile_counterexample :
    (perfTileLoops paramAct false (at2 [[1], [2]] 0 0) (at2 [[1], [2]] 1 0)
        activationModels).readLatency = 5 ∧
    (perfTileLoops paramAct false (at2 [[1], [2]] 0 0) (at2 [[1], [2]] 1 0)
        activationModels).readDynamicEnergy = 14 ∧
    (3 : ℚ) + at2 [[1], [2]] 0 0 * 1 = 4 ∧ at2 [[1], [2]] 0 0 * 7 = (7 : ℚ) ∧
    (ChipCalculatePerformance paramAct 0 false netWide [0] [[1], [2]]
        activationModels).readLatency = 5 := by
  decide!

/-- C28 (amended). In `ChipCalculatePerformance` with chip-level activation enabled, no
max-pool and a single tile row (`numTileEachLayer[0][l] = 1`, so no accumulation), if
every tile reports the same `readLatency` `t ≥ 0` and every call of the activation unit
reports latency `a ≥ 0` and energy `e`, the activation is charged once per tile, that is
once per iteration of the inner loop over the `numTilesCol` tiles of the row: the layer
`readLatency` before the whole-layer buffer and interconnect costs is
`t + numTilesCol * a` (for at least one tile), and the energy added on top of the tile
energies is `numTilesCol * e`. -/
theorem chipActivation_per_tile (p : ChipParam) (l : ℕ) (numTileEachLayer : List (List ℚ))
    (m : PerfModels) (t a e : ℚ) (hact : p.chipActivation = true)
    (hrow : at2 numTileEachLayer 0 l = 1) (ht : 0 ≤ t) (ha : 0 ≤ a)
    (htile : ∀ i j, (m.tile i j).tileReadLatency = t)
    (hlat : ∀ i j, (if p.reLu then m.GreLu i j else m.Gsigmoid i j).readLatency = a)
    (hen : ∀ i j, (if p.reLu then m.GreLu i j else m.Gsigmoid i j).readDynamicEnergy = e) :
    (0 < ⌈at2 numTileEachLayer 1 l⌉₊ →
      (perfTileLoops p false (at2 numTileEachLayer 0 l) (at2 numTileEachLayer 1 l)
          m).readLatency
        = t + (⌈at2 numTileEachLayer 1 l⌉₊ : ℚ) * a) ∧
    (perfTileLoops p false (at2 numTileEachLayer 0 l) (at2 numTileEachLayer 1 l)
        m).readDynamicEnergy
      = (∑ j in Finset.range ⌈at2 numTileEachLayer 1 l⌉₊, (m.tile 0 j).tileReadDynamicEnergy)
        + (⌈at2 numTileEachLayer 1 l⌉₊ : ℚ) * e := by
  obtain ⟨h1, h2⟩ := perfTileRow_activation p (at2 numTileEachLayer 0 l) m 0 t a e hact
    (by rw [hrow]; norm_num) ht ha (htile 0) (hlat 0) (hen 0) ⌈at2 numTileEachLayer 1 l⌉₊
  have e1 : perfTileLoops p false (at2 numTileEachLayer 0 l) (at2 numTileEachLayer 1 l) m
      = (List.range ⌈at2 numTileEachLayer 1 l⌉₊).foldl
          (perfTileBody p false (at2 numTileEachLayer 0 l) m 0) Performance.init := by
    unfold perfTileLoops
    rw [hrow, Nat.ceil_one]
    rfl
  rw [e1, h1, h2]
  exact ⟨fun h => by rw [if_neg (by omega)], rfl⟩

/-- Witness of C28 (amended): one tile row of two tiles with tile latency 3, activation
latency 1 and activation energy 7 gives latency `3 + 2*1 = 5` and energy `0 + 2*7 = 14`. -/
theorem chipActivation_per_tile_witness :
    (perfTileLoops paramAct false (at2 [[1], [2]] 0 0) (at2 [[1], [2]] 1 0)
        activationModels).readLatency = 3 + 2 * 1 ∧
    (perfTileLoops paramAct false (at2 [[1], [2]] 0 0) (at2 [[1], [2]] 1 0)
        activationModels).readDynamicEnergy = 0 + 2 * 7 :=
  have h := chipActivation_per_tile paramAct 0 [[1], [2]] activationModels 3 1 7 rfl
    (by decide!) (by norm_num) (by norm_num) (fun _ _ => rfl) (fun _ _ => rfl) (fun _ _ => rfl)
  have hc : ⌈at2 [[1], [2]] 1 0⌉₊ = 2 := by decide!
  ⟨(h.1 (by rw [hc]; norm_num)).trans (by rw [hc]; norm_num),
    h.2.trans (by rw [hc]; simp [activationModels, simpleTile, Finset.sum_range_succ])⟩

/-! ## `ChipCalculateArea`: the area buckets -/

/-- If the total area of each tile model is the sum of its four parts, the four buckets
returned by `ChipCalculateArea` add up to the returned total plus the area of the
interconnect tree (which is in the interconnect and in the other bucket) minus the area of
the chip-level activation unit (which is in no bucket). -/
theorem chipCalculateArea_buckets_sum (p : ChipParam)
    (TileCalculateArea : ℚ → ℚ → TileAreaResult)
    (m : ModuleAreas) (desiredNumTileNM numPENM desiredPESizeNM desiredNumTileCM
      desiredTileSizeCM desiredPESizeCM : ℚ)
    (hNM : vecAt (TileCalculateArea numPENM desiredPESizeNM).areas 0
      = vecAt (TileCalculateArea numPENM desiredPESizeNM).areas 1
        + vecAt (TileCalculateArea numPENM desiredPESizeNM).areas 2
        + vecAt (TileCalculateArea numPENM desiredPESizeNM).areas 3
        + vecAt (TileCalculateArea numPENM desiredPESizeNM).areas 4)
    (hCM : vecAt (TileCalculateArea (ceilD (desiredTileSizeCM / desiredPESizeCM) ^ 2)
          desiredPESizeCM).areas 0
      = vecAt (TileCalculateArea (ceilD (desiredTileSizeCM / desiredPESizeCM) ^ 2)
          desiredPESizeCM).areas 1
        + vecAt (TileCalculateArea (ceilD (desiredTileSizeCM / desiredPESizeCM) ^ 2)
          desiredPESizeCM).areas 2
        + vecAt (TileCalculateArea (ceilD (desiredTileSizeCM / desiredPESizeCM) ^ 2)
          desiredPESizeCM).areas 3
        + vecAt (TileCalculateArea (ceilD (desiredTileSizeCM / desiredPESizeCM) ^ 2)
          desiredPESizeCM).areas 4) :
    vecAt (ChipCalculateArea p TileCalculateArea m desiredNumTileNM numPENM desiredPESizeNM
        desiredNumTileCM desiredTileSizeCM desiredPESizeCM).areaResults 1
      + vecAt (ChipCalculateArea p TileCalculateArea m desiredNumTileNM numPENM desiredPESizeNM
        desiredNumTileCM desiredTileSizeCM desiredPESizeCM).areaResults 2
      + vecAt (ChipCalculateArea p TileCalculateArea m desiredNumTileNM numPENM desiredPESizeNM
        desiredNumTileCM desiredTileSizeCM desiredPESizeCM).areaResults 3
      + vecAt (ChipCalculateArea p TileCalculateArea m desiredNumTileNM numPENM desiredPESizeNM
        desiredNumTileCM desiredTileSizeCM desiredPESizeCM).areaResults 4
      = vecAt (ChipCalculateArea p TileCalculateArea m desiredNumTileNM numPENM desiredPESizeNM
        desiredNumTileCM desiredTileSizeCM desiredPESizeCM).areaResults 0
        + m.GhTree
        - (if p.chipActivation then (if p.reLu then m.GreLu else m.Gsigmoid) else 0) := by
  unfold ChipCalculateArea
  simp only [vecAt, List.getD_cons_zero, List.getD_cons_succ] at hNM hCM ⊢
  rw [hCM]
  split_ifs
  all_goals first
    | (rw [hNM]; ring)
    | ring

/-- C29. With conventional mapping only, chip-level activation off, one tile whose total
area `10` is the sum `1 + 2 + 3 + 4` of its interconnect, ADC, accumulation and other
areas, and an interconnect tree of area `1` as the only shared module with an area,
`ChipCalculateArea` returns the total `11` but the buckets `2`, `2`, `3`, `5`, which add
up to `12`: the area of the interconnect tree is in the interconnect bucket and again in
the other bucket. -/
theorem chipCalculateArea_buckets_exceed_total :
    (ChipCalculateArea paramPerf tileAreaModel treeAreas 0 0 0 1 512 256).areaResults
      = [11, 2, 2, 3, 5] ∧
    vecAt (tileAreaModel (ceilD (512 / 256) ^ 2) 256).areas 0
      = vecAt (tileAreaModel (ceilD (512 / 256) ^ 2) 256).areas 1
        + vecAt (tileAreaModel (ceilD (512 / 256) ^ 2) 256).areas 2
        + vecAt (tileAreaModel (ceilD (512 / 256) ^ 2) 256).areas 3
        + vecAt (tileAreaModel (ceilD (512 / 256) ^ 2) 256).areas 4 ∧
    vecAt (ChipCalculateArea paramPerf tileAreaModel treeAreas 0 0 0 1 512 256).areaResults 0
      ≠ vecAt (ChipCalculateArea paramPerf tileAreaModel treeAreas 0 0 0 1 512 256).areaResults 1
        + vecAt (ChipCalculateArea paramPerf tileAreaModel treeAreas 0 0 0 1 512 256).areaResults 2
        + vecAt (ChipCalculateArea paramPerf tileAreaModel treeAreas 0 0 0 1 512 256).areaResults 3
        + vecAt (ChipCalculateArea paramPerf tileAreaModel treeAreas 0 0 0 1 512 256).areaResults
          4 := by
  decide!

/-! ## `CopyArray` and `ReshapeArray` -/

theorem allReads_map_some {α : Type} (l : List α) : allReads (l.map some) = some l := by
  induction l with
  | nil => rfl
  | cons a l ih => simp [allReads, ih]

/-- A sequence of reads that are all in range returns their values. -/
theorem allReads_map {α β : Type} (l : List α) (f : α → Option β) (g : α → β)
    (h : ∀ x ∈ l, f x = some (g x)) : allReads (l.map f) = some (l.map g) := by
  have e : l.map f = (l.map g).map some := by
    rw [List.map_map]
    exact List.map_congr_left h
  rw [e, allReads_map_some]

/-- The rows pushed by two nested loops, in the order of the pushes. -/
theorem flatten_map_range {α : Type} (a b : ℕ) (f : ℕ → ℕ → α) :
    ((List.range a).map (fun k => (List.range b).map (fun i => f k i))).flatten
      = (List.range (a * b)).map (fun n => f (n / b) (n % b)) := by
  induction a with
  | zero => simp
  | succ a ih =>
    rw [List.range_succ, List.map_append, List.flatten_append, ih, Nat.succ_mul,
      List.range_add, List.map_append, List.map_map]
    congr 1
    simp only [List.map_cons, List.map_nil, List.flatten_cons, List.flatten_nil,
      List.append_nil]
    apply List.map_congr_left
    intro i hi
    have hi' : i < b := List.mem_range.mp hi
    have hb : 0 < b := by omega
    simp only [Function.comp]
    rw [Nat.mul_comm a b, Nat.mul_add_div hb, Nat.div_eq_of_lt hi', Nat.mul_add_mod,
      Nat.mod_eq_of_lt hi', Nat.add_zero]

/-- A read of a matrix given by its entries. -/
theorem readAt_map_range (rows cols : ℕ) (f : ℕ → ℕ → ℚ) (r c : ℕ) (hr : r < rows)
    (hc : c < cols) :
    readAt ((List.range rows).map (fun r => (List.range cols).map (fun c => f r c))) r c
      = some (f r c) := by
  unfold readAt
  rw [if_pos ⟨Int.natCast_nonneg r, Int.natCast_nonneg c⟩]
  simp [List.getElem?_map, List.getElem?_range, hr, hc]

/-- The value of a read that is in range. -/
theorem readAt_getD (orginal : List (List ℚ)) (r c : ℤ) (h : readAt orginal r c ≠ none) :
    readAt orginal r c = some ((readAt orginal r c).getD 0) := by
  rcases hv : readAt orginal r c with _ | v
  · exact absurd hv h
  · rfl

/-- A read is in range exactly when both indices are non-negative, the row exists and
the column lies inside the row. -/
theorem readAt_ne_none_iff (orginal : List (List ℚ)) (r c : ℤ) :
    readAt orginal r c ≠ none ↔
      0 ≤ r ∧ 0 ≤ c ∧ ∃ row, orginal[r.toNat]? = some row ∧ c.toNat < row.length := by
  unfold readAt
  by_cases h : 0 ≤ r ∧ 0 ≤ c
  · rw [if_pos h]
    rcases hrow : orginal[r.toNat]? with _ | row
    · simp
    · simp only [Option.some_bind, ne_eq, List.getElem?_eq_none_iff, not_le, h.1, h.2,
        true_and, Option.some.injEq, exists_eq_left']
  · rw [if_neg h]
    simp only [ne_eq, not_true_eq_false, false_iff]
    intro h'
    exact h ⟨h'.1, h'.2.1⟩

/-- The block returned by `CopyArray` when all its reads are in range. -/
theorem copyArray_spec (orginal : List (List ℚ)) (positionRow positionCol : ℤ)
    (numRow numCol : ℕ)
    (hin : ∀ i j : ℕ, i < numRow → j < numCol →
      readAt orginal (positionRow + i) (positionCol + j) ≠ none) :
    ∃ M, CopyArray orginal positionRow positionCol numRow numCol = some M ∧
      M.length = numRow ∧ (∀ row ∈ M, row.length = numCol) ∧
      ∀ i j : ℕ, i < numRow → j < numCol →
        readAt M i j = readAt orginal (positionRow + i) (positionCol + j) := by
  refine ⟨(List.range numRow).map (fun (i : ℕ) => (List.range numCol).map (fun (j : ℕ) =>
    (readAt orginal (positionRow + (i : ℤ)) (positionCol + (j : ℤ))).getD 0)), ?_, ?_, ?_, ?_⟩
  · unfold CopyArray
    simp only [Int.toNat_ofNat]
    apply allReads_map
    intro i hi
    apply allReads_map
    intro j hj
    exact readAt_getD _ _ _ (hin i j (List.mem_range.mp hi) (List.mem_range.mp hj))
  · simp
  · intro row hrow
    simp only [List.mem_map, List.mem_range] at hrow
    obtain ⟨i, -, rfl⟩ := hrow
    simp
  · intro i j hi hj
    rw [readAt_map_range numRow numCol _ i j hi hj]
    exact (readAt_getD _ _ _ (hin i j hi hj)).symm

/-- C30. `ReshapeArray(orig, posRow, posCol, numRow, numCol, numPE, stride)` returns,
provided all the indices it reads are in range, a matrix with `numPE*numRow` rows and
`numCol` columns whose entry at `(k*numRow + i, j)` is
`orig[posRow + k*stride + i][posCol + j]` for all `k < numPE`, `i < numRow`,
`j < numCol`: it gathers `numPE` blocks of `numRow` rows that start `stride` rows apart. -/
theorem reshapeArray_spec (orginal : List (List ℚ))
    (positionRow positionCol weightMatrixRow : ℤ) (numRow numCol numPE : ℕ)
    (hin : ∀ k i j : ℕ, k < numPE → i < numRow → j < numCol →
      readAt orginal (positionRow + k * weightMatrixRow + i) (positionCol + j) ≠ none) :
    ∃ M, ReshapeArray orginal positionRow positionCol numRow numCol numPE weightMatrixRow
        = some M ∧
      M.length = numPE * numRow ∧ (∀ row ∈ M, row.length = numCol) ∧
      ∀ k i j : ℕ, k < numPE → i < numRow → j < numCol →
        readAt M ((k * numRow + i : ℕ) : ℤ) j
          = readAt orginal (positionRow + k * weightMatrixRow + i) (positionCol + j) := by
  have hdiv : ∀ k i, i < numRow → (k * numRow + i) / numRow = k ∧ (k * numRow + i) % numRow = i := by
    intro k i hi
    have hb : 0 < numRow := by omega
    rw [Nat.mul_comm k numRow, Nat.mul_add_div hb, Nat.div_eq_of_lt hi, Nat.mul_add_mod,
      Nat.mod_eq_of_lt hi]
    exact ⟨rfl, rfl⟩
  refine ⟨(List.range (numPE * numRow)).map (fun (n : ℕ) => (List.range numCol).map (fun (j : ℕ) =>
    (readAt orginal (positionRow + ((n / numRow : ℕ) : ℤ) * weightMatrixRow
      + ((n % numRow : ℕ) : ℤ)) (positionCol + (j : ℤ))).getD 0)), ?_, ?_, ?_, ?_⟩
  · unfold ReshapeArray
    simp only [Int.toNat_ofNat]
    rw [flatten_map_range numPE numRow (fun (k i : ℕ) => allReads ((List.range numCol).map (fun (j : ℕ) =>
      readAt orginal (positionRow + (k : ℤ) * weightMatrixRow + (i : ℤ)) (positionCol + (j : ℤ)))))]
    apply allReads_map
    intro n hn
    apply allReads_map
    intro j hj
    have hn' : n < numPE * numRow := List.mem_range.mp hn
    have hb : 0 < numRow := by
      rcases Nat.eq_zero_or_pos numRow with h | h
      · rw [h] at hn'; omega
      · exact h
    exact readAt_getD _ _ _ (hin (n / numRow) (n % numRow) j
      ((Nat.div_lt_iff_lt_mul hb).mpr hn') (Nat.mod_lt n hb) (List.mem_range.mp hj))
  · simp
  · intro row hrow
    simp only [List.mem_map, List.mem_range] at hrow
    obtain ⟨n, -, rfl⟩ := hrow
    simp
  · intro k i j hk hi hj
    have hlt : k * numRow + i < numPE * numRow := by
      calc k * numRow + i < k * numRow + numRow := by omega
        _ = (k + 1) * numRow := by ring
        _ ≤ numPE * numRow := Nat.mul_le_mul_right numRow hk
    rw [readAt_map_range (numPE * numRow) numCol _ (k * numRow + i) j hlt hj,
      (hdiv k i hi).1, (hdiv k i hi).2]
    exact (readAt_getD _ _ _ (hin k i j hk hi hj)).symm

/-- Witness of C30: from the 4 × 2 matrix with entries `10*r + c`, two blocks of one row
that start two rows apart are the rows `0` and `2`. -/
theorem reshapeArray_spec_witness :
    ReshapeArray (matrixOf 4 2 (fun r c => 10 * r + c)) 0 0 1 2 2 2 = some [[0, 1], [20, 21]] ∧
    ∃ M, ReshapeArray (matrixOf 4 2 (fun r c => 10 * r + c)) 0 0 ((1 : ℕ) : ℤ) ((2 : ℕ) : ℤ)
        ((2 : ℕ) : ℤ) 2 = some M ∧
      M.length = 2 * 1 ∧ (∀ row ∈ M, row.length = 2) ∧
      ∀ k i j : ℕ, k < 2 → i < 1 → j < 2 →
        readAt M ((k * 1 + i : ℕ) : ℤ) j
          = readAt (matrixOf 4 2 (fun r c => 10 * r + c)) (0 + k * 2 + i) (0 + j) :=
  ⟨by decide!,
    reshapeArray_spec (matrixOf 4 2 (fun r c => 10 * r + c)) 0 0 2 1 2 2 (by
      intro k i j hk hi hj
      interval_cases k <;> interval_cases i <;> interval_cases j <;> decide!)⟩

/-! ## The slices of the conventional tile loop -/

/-- The tile counts of a Conventional layer in the table of `OverallEachLayer`. -/
theorem overallEachLayer_numTile (peDup subArrayDup : List (List ℚ))
    (desiredTileSizeCM desiredPESizeNM : ℚ) (markNM : List ℤ) (netStructure : List Layer)
    (numRowPerSynapse numColPerSynapse : ℤ) (numPENM : ℚ) (l : ℕ)
    (hl : l < netStructure.length) (hm : markAt markNM l = 0) :
    at2 (OverallEachLayer false false peDup subArrayDup desiredTileSizeCM desiredPESizeNM markNM
        netStructure numRowPerSynapse numColPerSynapse numPENM) 0 l
      = ceilD (weightRows (layerAt netStructure l) numRowPerSynapse / desiredTileSizeCM) ∧
    at2 (OverallEachLayer false false peDup subArrayDup desiredTileSizeCM desiredPESizeNM markNM
        netStructure numRowPerSynapse numColPerSynapse numPENM) 1 l
      = ceilD (weightCols (layerAt netStructure l) numColPerSynapse / desiredTileSizeCM) := by
  unfold OverallEachLayer
  simp only [Bool.false_eq_true, if_false]
  obtain ⟨h0, h1⟩ := at2_map_range
    (fun i => (overallOf peDup subArrayDup desiredTileSizeCM desiredPESizeNM markNM
      netStructure numRowPerSynapse numColPerSynapse numPENM i).1)
    (fun i => (overallOf peDup subArrayDup desiredTileSizeCM desiredPESizeNM markNM
      netStructure numRowPerSynapse numColPerSynapse numPENM i).2.1)
    netStructure.length l hl
  rw [h0, h1]
  unfold overallOf weightRows weightCols
  simp [hm]

/-- The loop `for (int i = 0; i < ceil(R/T); i++)` visits exactly the `i` with
`i*T < R`, and its `ceil(R/T)` blocks of `T` rows cover the `R` rows. -/
theorem tileLoop_range (T R : ℕ) (hT : 1 ≤ T) :
    (∀ i : ℕ, i < ⌈ceilD ((R : ℚ) / (T : ℚ))⌉₊ ↔ i * T < R) ∧
    R ≤ ⌈ceilD ((R : ℚ) / (T : ℚ))⌉₊ * T := by
  have hTq : (0 : ℚ) < (T : ℚ) := by exact_mod_cast hT
  have hiff : ∀ i : ℕ, i < ⌈ceilD ((R : ℚ) / (T : ℚ))⌉₊ ↔ i * T < R := by
    intro i
    unfold ceilD
    rw [Nat.lt_ceil]
    have e : ((i : ℕ) : ℚ) = (((i : ℕ) : ℤ) : ℚ) := by push_cast; rfl
    rw [e, Int.cast_lt, Int.lt_ceil, lt_div_iff₀ hTq]
    constructor
    · intro h
      exact_mod_cast h
    · intro h
      exact_mod_cast h
  refine ⟨hiff, ?_⟩
  by_contra hlt
  push_neg at hlt
  exact absurd ((hiff _).mpr hlt) (lt_irrefl _)

/-- The height of block `i` of the tile loop: `min(T, R - i*T)`, between `1` and `T`. -/
theorem numRowMatrix_spec (T R : ℕ) (hT : 1 ≤ T) (i : ℕ) (hi : i * T < R) :
    numRowMatrix (T : ℚ) (R : ℤ) i = min (T : ℤ) ((R : ℤ) - (i : ℤ) * (T : ℤ)) ∧
    1 ≤ numRowMatrix (T : ℚ) (R : ℤ) i ∧ numRowMatrix (T : ℚ) (R : ℤ) i ≤ (T : ℤ) := by
  have e : numRowMatrix (T : ℚ) (R : ℤ) i = min (T : ℤ) ((R : ℤ) - (i : ℤ) * (T : ℤ)) := by
    unfold numRowMatrix
    have : min (T : ℚ) ((((R : ℤ)) : ℚ) - (i : ℚ) * (T : ℚ))
        = ((min (T : ℤ) ((R : ℤ) - (i : ℤ) * (T : ℤ)) : ℤ) : ℚ) := by
      push_cast
      rfl
    rw [this, toInt_intCast]
  have hi' : ((i : ℤ) * (T : ℤ)) < (R : ℤ) := by exact_mod_cast hi
  have hT' : (1 : ℤ) ≤ (T : ℤ) := by exact_mod_cast hT
  rw [e]
  exact ⟨rfl, le_min hT' (by linarith), min_le_left _ _⟩

/-- The heights of the first `n` blocks add up to `n*T` as long as the blocks start
inside the matrix, and the heights of all `ceil(R/T)` blocks add up to `R`. -/
theorem numRowMatrix_sum (T R : ℕ) (hT : 1 ≤ T) :
    (∀ n : ℕ, n < ⌈ceilD ((R : ℚ) / (T : ℚ))⌉₊ →
      ∑ k in Finset.range n, numRowMatrix (T : ℚ) (R : ℤ) k = (n : ℤ) * (T : ℤ)) ∧
    ∑ k in Finset.range ⌈ceilD ((R : ℚ) / (T : ℚ))⌉₊, numRowMatrix (T : ℚ) (R : ℤ) k
      = (R : ℤ) := by
  obtain ⟨hiff, hcover⟩ := tileLoop_range T R hT
  have hmin : ∀ n : ℕ, n ≤ ⌈ceilD ((R : ℚ) / (T : ℚ))⌉₊ →
      ∑ k in Finset.range n, numRowMatrix (T : ℚ) (R : ℤ) k
        = min ((n : ℤ) * (T : ℤ)) (R : ℤ) := by
    intro n
    induction n with
    | zero =>
      intro _
      simp
    | succ n ih =>
      intro hn
      have hlt : n * T < R := (hiff n).mp (by omega)
      have hlt' : ((n : ℤ) * (T : ℤ)) < (R : ℤ) := by exact_mod_cast hlt
      rw [Finset.sum_range_succ, ih (by omega), (numRowMatrix_spec T R hT n hlt).1,
        min_eq_left hlt'.le]
      push_cast
      rcases le_total (T : ℤ) ((R : ℤ) - (n : ℤ) * (T : ℤ)) with h | h
      · rw [min_eq_left h, min_eq_left (by linarith)]
        ring
      · rw [min_eq_right h, min_eq_right (by linarith)]
        ring
  constructor
  · intro n hn
    have hlt : n * T < R := (hiff n).mp hn
    have hlt' : ((n : ℤ) * (T : ℤ)) < (R : ℤ) := by exact_mod_cast hlt
    rw [hmin n hn.le, min_eq_left hlt'.le]
  · rw [hmin _ le_rfl]
    have : (R : ℤ) ≤ ((⌈ceilD ((R : ℚ) / (T : ℚ))⌉₊ : ℕ) : ℤ) * (T : ℤ) := by exact_mod_cast hcover
    exact min_eq_right this

theorem toInt_natCast_mul (i T : ℕ) : toInt ((i : ℚ) * (T : ℚ)) = (i : ℤ) * (T : ℤ) := by
  have : (i : ℚ) * (T : ℚ) = (((i : ℤ) * (T : ℤ) : ℤ) : ℚ) := by push_cast; rfl
  rw [this, toInt_intCast]

theorem weightMatrixRow_eq (p : Param) (l : Layer) (R : ℕ)
    (hR : weightRows l p.numRowPerSynapse = (R : ℚ)) : weightMatrixRow p l = (R : ℤ) := by
  unfold weightMatrixRow
  have : (R : ℚ) = (((R : ℤ)) : ℚ) := by push_cast; rfl
  rw [hR, this, toInt_intCast]

theorem weightMatrixCol_eq (p : Param) (l : Layer) (C : ℕ)
    (hC : weightCols l p.numColPerSynapse = (C : ℚ)) : weightMatrixCol p l = (C : ℤ) := by
  unfold weightMatrixCol
  have : (C : ℚ) = (((C : ℤ)) : ℚ) := by push_cast; rfl
  rw [hC, this, toInt_intCast]

/-- The block that the tile loop cuts out for tile `(i, j)` of an `R × C` matrix: all
reads of `CopyArray` are inside the matrix. -/
theorem tileMemoryCM_spec (p : Param) (l : Layer) (R C T : ℕ) (hT : 1 ≤ T)
    (hR : weightRows l p.numRowPerSynapse = (R : ℚ))
    (hC : weightCols l p.numColPerSynapse = (C : ℚ))
    (newMemory : List (List ℚ)) (hlen : newMemory.length = R)
    (hrows : ∀ row ∈ newMemory, row.length = C) (i j : ℕ) (hi : i * T < R) (hj : j * T < C) :
    ∃ block, tileMemoryCM p l (T : ℚ) newMemory i j = some block ∧
      (block.length : ℤ) = numRowMatrix (T : ℚ) (weightMatrixRow p l) i ∧
      (∀ row ∈ block, (row.length : ℤ) = numColMatrix (T : ℚ) (weightMatrixCol p l) j) ∧
      ∀ a b : ℕ, (a : ℤ) < numRowMatrix (T : ℚ) (weightMatrixRow p l) i →
        (b : ℤ) < numColMatrix (T : ℚ) (weightMatrixCol p l) j →
        i * T + a < R ∧ j * T + b < C ∧
        readAt block a b = readAt newMemory ((i * T + a : ℕ) : ℤ) ((j * T + b : ℕ) : ℤ) := by
  rw [weightMatrixRow_eq p l R hR, weightMatrixCol_eq p l C hC]
  obtain ⟨eh, h1, -⟩ := numRowMatrix_spec T R hT i hi
  obtain ⟨ew, w1, -⟩ := numRowMatrix_spec T C hT j hj
  have ecol : numColMatrix (T : ℚ) (C : ℤ) j = numRowMatrix (T : ℚ) (C : ℤ) j := rfl
  rw [ecol]
  have hnat : ((numRowMatrix (T : ℚ) (R : ℤ) i).toNat : ℤ) = numRowMatrix (T : ℚ) (R : ℤ) i :=
    Int.toNat_of_nonneg (by omega)
  have wnat : ((numRowMatrix (T : ℚ) (C : ℤ) j).toNat : ℤ) = numRowMatrix (T : ℚ) (C : ℤ) j :=
    Int.toNat_of_nonneg (by omega)
  have hin : ∀ a b : ℕ, a < (numRowMatrix (T : ℚ) (R : ℤ) i).toNat →
      b < (numRowMatrix (T : ℚ) (C : ℤ) j).toNat → i * T + a < R ∧ j * T + b < C := by
    intro a b ha hb
    have ha' : (a : ℤ) < min (T : ℤ) ((R : ℤ) - (i : ℤ) * (T : ℤ)) := by rw [← eh]; omega
    have hb' : (b : ℤ) < min (T : ℤ) ((C : ℤ) - (j : ℤ) * (T : ℤ)) := by rw [← ew]; omega
    have ha2 := lt_of_lt_of_le ha' (min_le_right _ _)
    have hb2 := lt_of_lt_of_le hb' (min_le_right _ _)
    constructor
    · have : ((i * T + a : ℕ) : ℤ) < (R : ℤ) := by push_cast; linarith
      exact_mod_cast this
    · have : ((j * T + b : ℕ) : ℤ) < (C : ℤ) := by push_cast; linarith
      exact_mod_cast this
  have hread : ∀ a b : ℕ, a < (numRowMatrix (T : ℚ) (R : ℤ) i).toNat →
      b < (numRowMatrix (T : ℚ) (C : ℤ) j).toNat →
      readAt newMemory ((i : ℤ) * (T : ℤ) + (a : ℤ)) ((j : ℤ) * (T : ℤ) + (b : ℤ)) ≠ none := by
    intro a b ha hb
    obtain ⟨hr, hc⟩ := hin a b ha hb
    rw [readAt_ne_none_iff]
    have er : ((i : ℤ) * (T : ℤ) + (a : ℤ)) = ((i * T + a : ℕ) : ℤ) := by push_cast; rfl
    have ec : ((j : ℤ) * (T : ℤ) + (b : ℤ)) = ((j * T + b : ℕ) : ℤ) := by push_cast; rfl
    rw [er, ec]
    refine ⟨Int.natCast_nonneg _, Int.natCast_nonneg _, ?_⟩
    have hr' : i * T + a < newMemory.length := by rw [hlen]; exact hr
    refine ⟨newMemory[i * T + a], by rw [Int.toNat_ofNat]; exact List.getElem?_eq_getElem hr',
      ?_⟩
    rw [hrows _ (List.getElem_mem hr'), Int.toNat_ofNat]
    exact hc
  obtain ⟨M, hM, hMlen, hMrows, hMread⟩ := copyArray_spec newMemory
    ((i : ℤ) * (T : ℤ)) ((j : ℤ) * (T : ℤ))
    (numRowMatrix (T : ℚ) (R : ℤ) i).toNat (numRowMatrix (T : ℚ) (C : ℤ) j).toNat hread
  refine ⟨M, ?_, ?_, ?_, ?_⟩
  · unfold tileMemoryCM
    rw [weightMatrixRow_eq p l R hR, weightMatrixCol_eq p l C hC, toInt_natCast_mul,
      toInt_natCast_mul, ecol]
    rw [hnat, wnat] at hM
    exact hM
  · rw [hMlen, hnat]
  · intro row hrow
    rw [hMrows row hrow, wnat]
  · intro a b ha hb
    have ha' : a < (numRowMatrix (T : ℚ) (R : ℤ) i).toNat := by omega
    have hb' : b < (numRowMatrix (T : ℚ) (C : ℤ) j).toNat := by omega
    obtain ⟨hr, hc⟩ := hin a b ha' hb'
    refine ⟨hr, hc, ?_⟩
    rw [hMread a b ha' hb']
    push_cast
    rfl

/-- C25. For a Conventional layer whose weight matrix has `R` rows and `C` columns
(`R = inputDepth*kernelRows*kernelCols*numRowPerSynapse`, `C = outputDepth*numColPerSynapse`)
and an integer tile size `T = desiredTileSizeCM ≥ 1`, the tile loop of
`ChipCalculatePerformance`, which runs over `i < nR`, `j < nC` with the tile counts
`ceil(R/T)`, `ceil(C/T)` of `OverallEachLayer`, cuts the matrix into contiguous blocks
that partition it: block row `i` starts at row `i*T`, which is the sum of the heights of
the block rows before it, its height `numRowMatrix = min(T, R - i*T)` lies in `[1, T]`,
and the heights add up to `R`; the same holds for the widths and `C`; and on every
`R × C` matrix `CopyArray` returns the block of that height and width, all of whose
reads are inside the matrix. -/
theorem tileLoop_partition (p : Param) (netStructure : List Layer) (markNM : List ℤ)
    (peDup subArrayDup : List (List ℚ)) (desiredPESizeNM numPENM : ℚ) (l : ℕ) (R C T : ℕ)
    (nR nC : ℕ) (hl : l < netStructure.length) (hm : markAt markNM l = 0) (hT : 1 ≤ T)
    (hR : weightRows (layerAt netStructure l) p.numRowPerSynapse = (R : ℚ))
    (hC : weightCols (layerAt netStructure l) p.numColPerSynapse = (C : ℚ))
    (hnR : nR = ⌈at2 (OverallEachLayer false false peDup subArrayDup (T : ℚ) desiredPESizeNM
      markNM netStructure p.numRowPerSynapse p.numColPerSynapse numPENM) 0 l⌉₊)
    (hnC : nC = ⌈at2 (OverallEachLayer false false peDup subArrayDup (T : ℚ) desiredPESizeNM
      markNM netStructure p.numRowPerSynapse p.numColPerSynapse numPENM) 1 l⌉₊) :
    (∀ i, i < nR →
      1 ≤ numRowMatrix (T : ℚ) (weightMatrixRow p (layerAt netStructure l)) i ∧
      numRowMatrix (T : ℚ) (weightMatrixRow p (layerAt netStructure l)) i ≤ (T : ℤ) ∧
      numRowMatrix (T : ℚ) (weightMatrixRow p (layerAt netStructure l)) i
        = min (T : ℤ) ((R : ℤ) - (i : ℤ) * (T : ℤ)) ∧
      ∑ k in Finset.range i, numRowMatrix (T : ℚ) (weightMatrixRow p (layerAt netStructure l)) k
        = (i : ℤ) * (T : ℤ)) ∧
    ∑ i in Finset.range nR, numRowMatrix (T : ℚ) (weightMatrixRow p (layerAt netStructure l)) i
      = (R : ℤ) ∧
    (∀ j, j < nC →
      1 ≤ numColMatrix (T : ℚ) (weightMatrixCol p (layerAt netStructure l)) j ∧
      numColMatrix (T : ℚ) (weightMatrixCol p (layerAt netStructure l)) j ≤ (T : ℤ) ∧
      numColMatrix (T : ℚ) (weightMatrixCol p (layerAt netStructure l)) j
        = min (T : ℤ) ((C : ℤ) - (j : ℤ) * (T : ℤ)) ∧
      ∑ k in Finset.range j, numColMatrix (T : ℚ) (weightMatrixCol p (layerAt netStructure l)) k
        = (j : ℤ) * (T : ℤ)) ∧
    ∑ j in Finset.range nC, numColMatrix (T : ℚ) (weightMatrixCol p (layerAt netStructure l)) j
      = (C : ℤ) ∧
    ∀ newMemory : List (List ℚ), newMemory.length = R → (∀ row ∈ newMemory, row.length = C) →
      ∀ i j, i < nR → j < nC →
        ∃ block, tileMemoryCM p (layerAt netStructure l) (T : ℚ) newMemory i j = some block ∧
          (block.length : ℤ)
            = numRowMatrix (T : ℚ) (weightMatrixRow p (layerAt netStructure l)) i ∧
          (∀ row ∈ block, (row.length : ℤ)
            = numColMatrix (T : ℚ) (weightMatrixCol p (layerAt netStructure l)) j) ∧
          ∀ a b : ℕ,
            (a : ℤ) < numRowMatrix (T : ℚ) (weightMatrixRow p (layerAt netStructure l)) i →
            (b : ℤ) < numColMatrix (T : ℚ) (weightMatrixCol p (layerAt netStructure l)) j →
            i * T + a < R ∧ j * T + b < C ∧
            readAt block a b
              = readAt newMemory ((i * T + a : ℕ) : ℤ) ((j * T + b : ℕ) : ℤ) := by
  obtain ⟨e0, e1⟩ := overallEachLayer_numTile peDup subArrayDup (T : ℚ) desiredPESizeNM markNM
    netStructure p.numRowPerSynapse p.numColPerSynapse numPENM l hl hm
  rw [e0, hR] at hnR
  rw [e1, hC] at hnC
  subst hnR hnC
  have ecol : ∀ k, numColMatrix (T : ℚ) (C : ℤ) k = numRowMatrix (T : ℚ) (C : ℤ) k :=
    fun _ => rfl
  have hwr := weightMatrixRow_eq p (layerAt netStructure l) R hR
  have hwc := weightMatrixCol_eq p (layerAt netStructure l) C hC
  obtain ⟨hRiff, -⟩ := tileLoop_range T R hT
  obtain ⟨hCiff, -⟩ := tileLoop_range T C hT
  refine ⟨?_, ?_, ?_, ?_, ?_⟩
  · intro i hi
    rw [hwr]
    obtain ⟨h1, h2, h3⟩ := numRowMatrix_spec T R hT i ((hRiff i).mp hi)
    exact ⟨h2, h3, h1, (numRowMatrix_sum T R hT).1 i hi⟩
  · rw [hwr]
    exact (numRowMatrix_sum T R hT).2
  · intro j hj
    rw [hwc]
    simp only [ecol]
    obtain ⟨h1, h2, h3⟩ := numRowMatrix_spec T C hT j ((hCiff j).mp hj)
    exact ⟨h2, h3, h1, (numRowMatrix_sum T C hT).1 j hj⟩
  · rw [hwc]
    simp only [ecol]
    exact (numRowMatrix_sum T C hT).2
  · intro newMemory hlen hrows i j hi hj
    exact tileMemoryCM_spec p (layerAt netStructure l) R C T hT hR hC newMemory hlen hrows i j
      ((hRiff i).mp hi) ((hCiff j).mp hj)

/-- Witness of C25: the 25 × 8 weight matrix of `netSmall` cut with tile size 16 gives
two block rows, of heights 16 and 9, and one block column of width 8; on the matrix with
entries `10*r + c` the block of tile `(1, 0)` starts with the entries of row 16. -/
theorem tileLoop_partition_witness :
    (∑ i in Finset.range 2, numRowMatrix ((16 : ℕ) : ℚ)
        (weightMatrixRow paramCM (layerAt netSmall 0)) i = ((25 : ℕ) : ℤ)) ∧
    (∑ j in Finset.range 1, numColMatrix ((16 : ℕ) : ℚ)
        (weightMatrixCol paramCM (layerAt netSmall 0)) j = ((8 : ℕ) : ℤ)) ∧
    numRowMatrix ((16 : ℕ) : ℚ) (weightMatrixRow paramCM (layerAt netSmall 0)) 1 = 9 ∧
    (tileMemoryCM paramCM (layerAt netSmall 0) 16 (matrixOf 25 8 (fun r c => 10 * r + c))
        1 0).map (fun block => (block.length, block.head?))
      = some (9, some [160, 161, 162, 163, 164, 165, 166, 167]) :=
  have h := tileLoop_partition paramCM netSmall [0] [] [] 0 0 0 25 8 16 2 1 (by decide)
    (by decide) (by norm_num)
    (by norm_num [weightRows, layerAt, netSmall, paramCM])
    (by norm_num [weightCols, layerAt, netSmall, paramCM])
    (by decide!) (by decide!)
  ⟨h.2.1, h.2.2.2.1, by decide!, by decide!⟩

/-! ## `TileDesignCM`: bounds and monotonicity of the utilization -/

/-- The loop of `TileDesignCM` adds, over the Conventional layers, the tile counts and the
matrix sizes. -/
theorem tileBodyCM_fold (tileSize : ℚ) (markNM : List ℤ) (netStructure : List Layer)
    (numRowPerSynapse numColPerSynapse : ℤ) (acc : ℚ × ℚ) (n : ℕ) :
    (List.range n).foldl
        (tileBodyCM tileSize markNM netStructure numRowPerSynapse numColPerSynapse) acc
      = (acc.1 + ∑ i in Finset.range n, (if markAt markNM i = 0 then
            ceilD (weightRows (layerAt netStructure i) numRowPerSynapse / tileSize)
              * ceilD (weightCols (layerAt netStructure i) numColPerSynapse / tileSize)
          else 0),
         acc.2 + ∑ i in Finset.range n, (if markAt markNM i = 0 then
            weightRows (layerAt netStructure i) numRowPerSynapse
              * weightCols (layerAt netStructure i) numColPerSynapse
          else 0)) := by
  induction n with
  | zero => simp
  | succ n ih =>
    rw [foldl_range_succ, ih, Finset.sum_range_succ, Finset.sum_range_succ]
    unfold tileBodyCM weightRows weightCols
    dsimp only
    split_ifs
    · ext
      · simp only; ring
      · simp only; ring
    · ext
      · simp only; ring
      · simp only; ring

/-- The three entries of `TileDesignCM` as sums over the Conventional layers. -/
theorem TileDesignCM_eq (tileSize : ℚ) (markNM : List ℤ) (netStructure : List Layer)
    (numRowPerSynapse numColPerSynapse : ℤ) :
    TileDesignCM tileSize markNM netStructure numRowPerSynapse numColPerSynapse
      = [∑ i in Finset.range netStructure.length, (if markAt markNM i = 0 then
            ceilD (weightRows (layerAt netStructure i) numRowPerSynapse / tileSize)
              * ceilD (weightCols (layerAt netStructure i) numColPerSynapse / tileSize)
          else 0),
         ∑ i in Finset.range netStructure.length, (if markAt markNM i = 0 then
            weightRows (layerAt netStructure i) numRowPerSynapse
              * weightCols (layerAt netStructure i) numColPerSynapse
          else 0),
         (∑ i in Finset.range netStructure.length, (if markAt markNM i = 0 then
            weightRows (layerAt netStructure i) numRowPerSynapse
              * weightCols (layerAt netStructure i) numColPerSynapse
          else 0))
          / ((∑ i in Finset.range netStructure.length, (if markAt markNM i = 0 then
            ceilD (weightRows (layerAt netStructure i) numRowPerSynapse / tileSize)
              * ceilD (weightCols (layerAt netStructure i) numColPerSynapse / tileSize)
          else 0)) * tileSize * tileSize)] := by
  unfold TileDesignCM
  rw [tileBodyCM_fold]
  simp only [zero_add]

/-- The weight matrix of a layer with positive dimensions has positive size. -/
theorem weight_pos (netStructure : List Layer) (numRowPerSynapse numColPerSynapse : ℤ)
    (hpos : PositiveDims netStructure numRowPerSynapse numColPerSynapse) (i : ℕ)
    (hi : i < netStructure.length) :
    0 < weightRows (layerAt netStructure i) numRowPerSynapse ∧
    0 < weightCols (layerAt netStructure i) numColPerSynapse := by
  obtain ⟨hr, hc, hl⟩ := hpos
  obtain ⟨h1, h2, h3, h4⟩ := hl _ (layerAt_mem netStructure i hi)
  have hr' : (0 : ℚ) < (numRowPerSynapse : ℚ) := by exact_mod_cast hr
  have hc' : (0 : ℚ) < (numColPerSynapse : ℚ) := by exact_mod_cast hc
  unfold weightRows weightCols
  exact ⟨by positivity, by positivity⟩

/-- A positive length `x` needs at least one and at most `x/t + 1` pieces of size `t`. -/
theorem ceilD_bounds {x t : ℚ} (hx : 0 < x) (ht : 0 < t) :
    1 ≤ ceilD (x / t) ∧ x ≤ ceilD (x / t) * t := by
  unfold ceilD
  constructor
  · exact_mod_cast one_le_ceil_div hx ht
  · have := Int.le_ceil (x / t)
    rw [div_le_iff₀ ht] at this
    exact this

/-- Halving the piece size at most doubles the number of pieces: `ceil(2y) ≤ 2*ceil(y)`. -/
theorem ceilD_half (x t : ℚ) : ceilD (x / (t / 2)) ≤ 2 * ceilD (x / t) := by
  unfold ceilD
  have e : x / (t / 2) = 2 * (x / t) := by
    rw [div_div_eq_mul_div]
    ring
  rw [e]
  have h : ⌈2 * (x / t)⌉ ≤ 2 * ⌈x / t⌉ := by
    rw [Int.ceil_le]
    push_cast
    have := Int.le_ceil (x / t)
    linarith
  exact_mod_cast h

/-- The bounds on tile count, matrix size and utilization of `TileDesignCM` for a network
with positive dimensions and at least one Conventional layer. -/
theorem TileDesignCM_bounds (t : ℚ) (markNM : List ℤ) (netStructure : List Layer)
    (numRowPerSynapse numColPerSynapse : ℤ)
    (hpos : PositiveDims netStructure numRowPerSynapse numColPerSynapse)
    (hconv : ∃ i, i < netStructure.length ∧ markAt markNM i = 0) (ht : 0 < t) :
    1 ≤ vecAt (TileDesignCM t markNM netStructure numRowPerSynapse numColPerSynapse) 0 ∧
    0 < vecAt (TileDesignCM t markNM netStructure numRowPerSynapse numColPerSynapse) 1 ∧
    vecAt (TileDesignCM t markNM netStructure numRowPerSynapse numColPerSynapse) 1
      ≤ vecAt (TileDesignCM t markNM netStructure numRowPerSynapse numColPerSynapse) 0 * t * t ∧
    0 < vecAt (TileDesignCM t markNM netStructure numRowPerSynapse numColPerSynapse) 2 ∧
    vecAt (TileDesignCM t markNM netStructure numRowPerSynapse numColPerSynapse) 2 ≤ 1 := by
  rw [TileDesignCM_eq]
  simp only [vecAt, List.getD_cons_zero, List.getD_cons_succ]
  obtain ⟨i0, hi0, hm0⟩ := hconv
  have hterm : ∀ i ∈ Finset.range netStructure.length,
      (0 : ℚ) ≤ (if markAt markNM i = 0 then
            ceilD (weightRows (layerAt netStructure i) numRowPerSynapse / t)
              * ceilD (weightCols (layerAt netStructure i) numColPerSynapse / t)
          else 0) := by
    intro i hi
    obtain ⟨hr, hc⟩ := weight_pos netStructure numRowPerSynapse numColPerSynapse hpos i
      (Finset.mem_range.mp hi)
    split_ifs
    · have := (ceilD_bounds hr ht).1
      have := (ceilD_bounds hc ht).1
      positivity
    · exact le_refl _
  have hN : (1 : ℚ) ≤ ∑ i in Finset.range netStructure.length, (if markAt markNM i = 0 then
            ceilD (weightRows (layerAt netStructure i) numRowPerSynapse / t)
              * ceilD (weightCols (layerAt netStructure i) numColPerSynapse / t)
          else 0) := by
    obtain ⟨hr, hc⟩ := weight_pos netStructure numRowPerSynapse numColPerSynapse hpos i0 hi0
    have h1 := (ceilD_bounds hr ht).1
    have h2 := (ceilD_bounds hc ht).1
    refine le_trans ?_ (Finset.single_le_sum hterm (Finset.mem_range.mpr hi0))
    rw [if_pos hm0]
    nlinarith
  have hMterm : ∀ i ∈ Finset.range netStructure.length,
      (0 : ℚ) ≤ (if markAt markNM i = 0 then
            weightRows (layerAt netStructure i) numRowPerSynapse
              * weightCols (layerAt netStructure i) numColPerSynapse
          else 0) := by
    intro i hi
    obtain ⟨hr, hc⟩ := weight_pos netStructure numRowPerSynapse numColPerSynapse hpos i
      (Finset.mem_range.mp hi)
    split_ifs
    · positivity
    · exact le_refl _
  have hM : (0 : ℚ) < ∑ i in Finset.range netStructure.length, (if markAt markNM i = 0 then
            weightRows (layerAt netStructure i) numRowPerSynapse
              * weightCols (layerAt netStructure i) numColPerSynapse
          else 0) := by
    obtain ⟨hr, hc⟩ := weight_pos netStructure numRowPerSynapse numColPerSynapse hpos i0 hi0
    refine lt_of_lt_of_le ?_ (Finset.single_le_sum hMterm (Finset.mem_range.mpr hi0))
    rw [if_pos hm0]
    positivity
  have hle : (∑ i in Finset.range netStructure.length, (if markAt markNM i = 0 then
            weightRows (layerAt netStructure i) numRowPerSynapse
              * weightCols (layerAt netStructure i) numColPerSynapse
          else 0))
      ≤ (∑ i in Finset.range netStructure.length, (if markAt markNM i = 0 then
            ceilD (weightRows (layerAt netStructure i) numRowPerSynapse / t)
              * ceilD (weightCols (layerAt netStructure i) numColPerSynapse / t)
          else 0)) * t * t := by
    rw [Finset.sum_mul, Finset.sum_mul]
    apply Finset.sum_le_sum
    intro i hi
    obtain ⟨hr, hc⟩ := weight_pos netStructure numRowPerSynapse numColPerSynapse hpos i
      (Finset.mem_range.mp hi)
    split_ifs
    · obtain ⟨a1, a2⟩ := ceilD_bounds hr ht
      obtain ⟨b1, b2⟩ := ceilD_bounds hc ht
      calc weightRows (layerAt netStructure i) numRowPerSynapse
            * weightCols (layerAt netStructure i) numColPerSynapse
          ≤ (ceilD (weightRows (layerAt netStructure i) numRowPerSynapse / t) * t)
            * (ceilD (weightCols (layerAt netStructure i) numColPerSynapse / t) * t) :=
            mul_le_mul a2 b2 hc.le (by positivity)
        _ = _ := by ring
    · simp
  have hden : (0 : ℚ) < (∑ i in Finset.range netStructure.length, (if markAt markNM i = 0 then
            ceilD (weightRows (layerAt netStructure i) numRowPerSynapse / t)
              * ceilD (weightCols (layerAt netStructure i) numColPerSynapse / t)
          else 0)) * t * t := by positivity
  exact ⟨hN, hM, hle, div_pos hM hden, (div_le_one hden).mpr hle⟩

/-- C33. For every network with positive dimensions and at least one layer marked
Conventional, and every tile size `t > 0`, `TileDesignCM` returns a tile count (entry 0)
of at least `1` and a utilization (entry 2, the total size of the Conventional matrices
divided by `numTileTotal * t^2`) that is greater than `0` and at most `1`. -/
theorem tileDesignCM_utilization_bounds (t : ℚ) (markNM : List ℤ) (netStructure : List Layer)
    (numRowPerSynapse numColPerSynapse : ℤ)
    (hpos : PositiveDims netStructure numRowPerSynapse numColPerSynapse)
    (hconv : ∃ i, i < netStructure.length ∧ markAt markNM i = 0) (ht : 0 < t) :
    1 ≤ vecAt (TileDesignCM t markNM netStructure numRowPerSynapse numColPerSynapse) 0 ∧
    0 < vecAt (TileDesignCM t markNM netStructure numRowPerSynapse numColPerSynapse) 2 ∧
    vecAt (TileDesignCM t markNM netStructure numRowPerSynapse numColPerSynapse) 2 ≤ 1 ∧
    vecAt (TileDesignCM t markNM netStructure numRowPerSynapse numColPerSynapse) 2
      = vecAt (TileDesignCM t markNM netStructure numRowPerSynapse numColPerSynapse) 1
        / (vecAt (TileDesignCM t markNM netStructure numRowPerSynapse numColPerSynapse) 0
          * t * t) := by
  obtain ⟨h0, -, -, h2, h3⟩ := TileDesignCM_bounds t markNM netStructure numRowPerSynapse
    numColPerSynapse hpos hconv ht
  exact ⟨h0, h2, h3, rfl⟩

theorem positiveDims_netConv : PositiveDims netConv 1 1 := by
  refine ⟨by norm_num, by norm_num, ?_⟩
  intro l hl
  simp only [netConv, List.mem_singleton] at hl
  subst hl
  norm_num

/-- Witness of C33 at the network `netConv` (weight matrix 576 × 1024) with tile size
1024: one tile, utilization `9/16`. -/
theorem tileDesignCM_utilization_bounds_witness :
    TileDesignCM 1024 [0] netConv 1 1 = [1, 589824, 9 / 16] ∧
    1 ≤ vecAt (TileDesignCM 1024 [0] netConv 1 1) 0 ∧
    0 < vecAt (TileDesignCM 1024 [0] netConv 1 1) 2 ∧
    vecAt (TileDesignCM 1024 [0] netConv 1 1) 2 ≤ 1 ∧
    vecAt (TileDesignCM 1024 [0] netConv 1 1) 2
      = vecAt (TileDesignCM 1024 [0] netConv 1 1) 1
        / (vecAt (TileDesignCM 1024 [0] netConv 1 1) 0 * 1024 * 1024) :=
  ⟨by decide!,
    tileDesignCM_utilization_bounds 1024 [0] netConv 1 1 positiveDims_netConv
      ⟨0, by decide, by decide⟩ (by norm_num)⟩

/-- Halving the tile size does not lower the utilization of `TileDesignCM`. -/
theorem TileDesignCM_half (t : ℚ) (markNM : List ℤ) (netStructure : List Layer)
    (numRowPerSynapse numColPerSynapse : ℤ)
    (hpos : PositiveDims netStructure numRowPerSynapse numColPerSynapse)
    (hconv : ∃ i, i < netStructure.length ∧ markAt markNM i = 0) (ht : 0 < t) :
    vecAt (TileDesignCM (t / 2) markNM netStructure numRowPerSynapse numColPerSynapse) 0
        * (t / 2) * (t / 2)
      ≤ vecAt (TileDesignCM t markNM netStructure numRowPerSynapse numColPerSynapse) 0 * t * t ∧
    vecAt (TileDesignCM t markNM netStructure numRowPerSynapse numColPerSynapse) 2
      ≤ vecAt (TileDesignCM (t / 2) markNM netStructure numRowPerSynapse numColPerSynapse) 2 := by
  have ht2 : 0 < t / 2 := by positivity
  obtain ⟨a0, a1, -, -, -⟩ := TileDesignCM_bounds t markNM netStructure numRowPerSynapse
    numColPerSynapse hpos hconv ht
  obtain ⟨b0, -, -, -, -⟩ := TileDesignCM_bounds (t / 2) markNM netStructure numRowPerSynapse
    numColPerSynapse hpos hconv ht2
  have hN : vecAt (TileDesignCM (t / 2) markNM netStructure numRowPerSynapse numColPerSynapse) 0
      ≤ 4 * vecAt (TileDesignCM t markNM netStructure numRowPerSynapse numColPerSynapse) 0 := by
    rw [TileDesignCM_eq, TileDesignCM_eq]
    simp only [vecAt, List.getD_cons_zero]
    rw [Finset.mul_sum]
    apply Finset.sum_le_sum
    intro i hi
    obtain ⟨hr, hc⟩ := weight_pos netStructure numRowPerSynapse numColPerSynapse hpos i
      (Finset.mem_range.mp hi)
    split_ifs
    · have h1 := ceilD_half (weightRows (layerAt netStructure i) numRowPerSynapse) t
      have h2 := ceilD_half (weightCols (layerAt netStructure i) numColPerSynapse) t
      have p1 := (ceilD_bounds hr ht2).1
      have p2 := (ceilD_bounds hc ht).1
      calc ceilD (weightRows (layerAt netStructure i) numRowPerSynapse / (t / 2))
            * ceilD (weightCols (layerAt netStructure i) numColPerSynapse / (t / 2))
          ≤ (2 * ceilD (weightRows (layerAt netStructure i) numRowPerSynapse / t))
            * (2 * ceilD (weightCols (layerAt netStructure i) numColPerSynapse / t)) :=
            mul_le_mul h1 h2 (by linarith [(ceilD_bounds hc ht2).1]) (by linarith [(ceilD_bounds hr ht).1])
        _ = _ := by ring
    · simp
  have harea : vecAt (TileDesignCM (t / 2) markNM netStructure numRowPerSynapse
        numColPerSynapse) 0 * (t / 2) * (t / 2)
      ≤ vecAt (TileDesignCM t markNM netStructure numRowPerSynapse numColPerSynapse) 0 * t * t := by
    have : (0 : ℚ) ≤ t * t := by positivity
    nlinarith
  refine ⟨harea, ?_⟩
  have e1 : vecAt (TileDesignCM t markNM netStructure numRowPerSynapse numColPerSynapse) 2
      = vecAt (TileDesignCM t markNM netStructure numRowPerSynapse numColPerSynapse) 1
        / (vecAt (TileDesignCM t markNM netStructure numRowPerSynapse numColPerSynapse) 0
          * t * t) := rfl
  have e2 : vecAt (TileDesignCM (t / 2) markNM netStructure numRowPerSynapse numColPerSynapse) 2
      = vecAt (TileDesignCM (t / 2) markNM netStructure numRowPerSynapse numColPerSynapse) 1
        / (vecAt (TileDesignCM (t / 2) markNM netStructure numRowPerSynapse numColPerSynapse) 0
          * (t / 2) * (t / 2)) := rfl
  have eM : vecAt (TileDesignCM (t / 2) markNM netStructure numRowPerSynapse numColPerSynapse) 1
      = vecAt (TileDesignCM t markNM netStructure numRowPerSynapse numColPerSynapse) 1 := by
    rw [TileDesignCM_eq, TileDesignCM_eq]
    rfl
  rw [e1, e2, eM]
  exact div_le_div_of_nonneg_left a1.le (by positivity) harea

/-- C32. The utilization of `TileDesignCM` is monotone under halving: for every network
with positive dimensions and at least one layer marked Conventional, and every tile size
`t > 0`, the allocated area `numTileTotal * t^2` does not grow when `t` is halved and
`utilization(TileDesignCM(t/2)) ≥ utilization(TileDesignCM(t))`; so the utilization is
non-decreasing along the candidates `t, t/2, t/4, ...` of the search. -/
theorem tileDesignCM_utilization_monotone (t : ℚ) (markNM : List ℤ)
    (netStructure : List Layer) (numRowPerSynapse numColPerSynapse : ℤ)
    (hpos : PositiveDims netStructure numRowPerSynapse numColPerSynapse)
    (hconv : ∃ i, i < netStructure.length ∧ markAt markNM i = 0) (ht : 0 < t) :
    vecAt (TileDesignCM (t / 2) markNM netStructure numRowPerSynapse numColPerSynapse) 0
        * (t / 2) * (t / 2)
      ≤ vecAt (TileDesignCM t markNM netStructure numRowPerSynapse numColPerSynapse) 0 * t * t ∧
    vecAt (TileDesignCM t markNM netStructure numRowPerSynapse numColPerSynapse) 2
      ≤ vecAt (TileDesignCM (t / 2) markNM netStructure numRowPerSynapse numColPerSynapse) 2 ∧
    ∀ j k : ℕ, j ≤ k →
      vecAt (TileDesignCM (t / 2 ^ j) markNM netStructure numRowPerSynapse numColPerSynapse) 2
        ≤ vecAt (TileDesignCM (t / 2 ^ k) markNM netStructure numRowPerSynapse
          numColPerSynapse) 2 := by
  obtain ⟨h1, h2⟩ := TileDesignCM_half t markNM netStructure numRowPerSynapse numColPerSynapse
    hpos hconv ht
  refine ⟨h1, h2, ?_⟩
  intro j k hjk
  induction k with
  | zero =>
    obtain rfl : j = 0 := by omega
    exact le_refl _
  | succ k ih =>
    rcases Nat.lt_or_ge j (k + 1) with h | h
    · refine le_trans (ih (by omega)) ?_
      have e : t / 2 ^ (k + 1) = t / 2 ^ k / 2 := by
        rw [div_div, pow_succ]
      rw [e]
      exact (TileDesignCM_half (t / 2 ^ k) markNM netStructure numRowPerSynapse
        numColPerSynapse hpos hconv (by positivity)).2
    · obtain rfl : j = k + 1 := by omega
      exact le_refl _

/-- Witness of C32 at the network `netConv` (weight matrix 576 × 1024): the utilization
is `9/16` with tile size 1024 and `9/16` again with tile size 512 (four tiles). -/
theorem tileDesignCM_utilization_monotone_witness :
    vecAt (TileDesignCM 1024 [0] netConv 1 1) 2 = 9 / 16 ∧
    vecAt (TileDesignCM (1024 / 2) [0] netConv 1 1) 2 = 9 / 16 ∧
    vecAt (TileDesignCM 1024 [0] netConv 1 1) 2
      ≤ vecAt (TileDesignCM (1024 / 2) [0] netConv 1 1) 2 :=
  ⟨by decide!, by decide!,
    (tileDesignCM_utilization_monotone 1024 [0] netConv 1 1 positiveDims_netConv
      ⟨0, by decide, by decide⟩ (by norm_num)).2.1⟩

/-! ## Duplication and speed-up factors are at least one -/

/-- The number of copies `ceil(ceil(x/u) / ceil(y/v))` is at least one for positive
sizes. -/
theorem one_le_ceil_ceil_div {x u y v : ℚ} (hx : 0 < x) (hu : 0 < u) (hy : 0 < y)
    (hv : 0 < v) : 1 ≤ ⌈((⌈x / u⌉ : ℤ) : ℚ) / ((⌈y / v⌉ : ℤ) : ℚ)⌉ := by
  have h1 : (0 : ℚ) < ((⌈x / u⌉ : ℤ) : ℚ) := by
    exact_mod_cast lt_of_lt_of_le zero_lt_one (one_le_ceil_div hx hu)
  have h2 : (0 : ℚ) < ((⌈y / v⌉ : ℤ) : ℚ) := by
    exact_mod_cast lt_of_lt_of_le zero_lt_one (one_le_ceil_div hy hv)
  exact one_le_ceil_div h1 h2

/-- Both PE duplication factors of a layer are at least one. -/
theorem peDupOf_pos (peSize desiredTileSize : ℚ) (markNM : List ℤ) (netStructure : List Layer)
    (numRowPerSynapse numColPerSynapse : ℤ)
    (hpos : PositiveDims netStructure numRowPerSynapse numColPerSynapse)
    (hpe : 0 < peSize) (hT : 0 < desiredTileSize) (i : ℕ) (hi : i < netStructure.length) :
    1 ≤ (peDupOf peSize desiredTileSize markNM netStructure numRowPerSynapse
      numColPerSynapse i).1 ∧
    1 ≤ (peDupOf peSize desiredTileSize markNM netStructure numRowPerSynapse
      numColPerSynapse i).2 := by
  obtain ⟨hr, hc⟩ := weight_pos netStructure numRowPerSynapse numColPerSynapse hpos i hi
  unfold weightRows at hr
  unfold weightCols at hc
  unfold peDupOf
  dsimp only
  split_ifs
  · exact ⟨one_le_ceil_ceil_div hT hpe hr hpe, one_le_ceil_ceil_div hT hpe hc hpe⟩
  · exact ⟨le_refl _, le_refl _⟩
  · exact ⟨le_refl _, le_refl _⟩

/-- Both sub-array duplication factors of a layer are at least one. -/
theorem subArrayDupOf_pos (p : Param) (desiredPESizeCM desiredPESizeNM : ℚ) (markNM : List ℤ)
    (netStructure : List Layer) (numRowPerSynapse numColPerSynapse : ℤ)
    (hpos : PositiveDims netStructure numRowPerSynapse numColPerSynapse)
    (hcm : 0 < desiredPESizeCM) (hrs : 0 < p.numRowSubArray) (hcs : 0 < p.numColSubArray)
    (i : ℕ) (hi : i < netStructure.length) :
    1 ≤ (subArrayDupOf p desiredPESizeCM desiredPESizeNM markNM netStructure numRowPerSynapse
      numColPerSynapse i).1 ∧
    1 ≤ (subArrayDupOf p desiredPESizeCM desiredPESizeNM markNM netStructure numRowPerSynapse
      numColPerSynapse i).2 := by
  obtain ⟨hr, hc⟩ := weight_pos netStructure numRowPerSynapse numColPerSynapse hpos i hi
  unfold weightRows at hr
  unfold weightCols at hc
  obtain ⟨hnr, -, hl⟩ := hpos
  obtain ⟨hd, -, -, -⟩ := hl _ (layerAt_mem netStructure i hi)
  have hnr' : (0 : ℚ) < (numRowPerSynapse : ℚ) := by exact_mod_cast hnr
  have hrs' : (0 : ℚ) < (p.numRowSubArray : ℚ) := by exact_mod_cast hrs
  have hcs' : (0 : ℚ) < (p.numColSubArray : ℚ) := by exact_mod_cast hcs
  have hdn : 0 < (layerAt netStructure i).inputDepth * (numRowPerSynapse : ℚ) := by positivity
  unfold subArrayDupOf
  dsimp only
  split_ifs
  · exact ⟨one_le_ceil_ceil_div hcm hrs' hr hrs', one_le_ceil_ceil_div hcm hcs' hc hcs'⟩
  · exact ⟨le_refl _, le_refl _⟩
  · exact ⟨one_le_ceil_ceil_div hcm hrs' hdn hrs', one_le_ceil_ceil_div hcm hcs' hc hcs'⟩
  · exact ⟨le_refl _, le_refl _⟩

/-- C38. For positive tile, PE and sub-array sizes and positive layer dimensions, the PE
duplication factors of `PEDesign` and the sub-array duplication factors of `SubArrayDup`
of every layer are integers `≥ 1`, and the speed-up factors of `OverallEachLayer`, which
are the products `peDupRow*subArrayDupRow` and `peDupCol*subArrayDupCol`, are integers
`≥ 1`. -/
theorem duplication_at_least_one (p : Param)
    (peSize desiredTileSize numTileTotal desiredPESizeCM desiredPESizeNM numPENM : ℚ)
    (markNM : List ℤ) (netStructure : List Layer) (numRowPerSynapse numColPerSynapse : ℤ)
    (hpos : PositiveDims netStructure numRowPerSynapse numColPerSynapse)
    (hpe : 0 < peSize) (hT : 0 < desiredTileSize) (hcm : 0 < desiredPESizeCM)
    (hrs : 0 < p.numRowSubArray) (hcs : 0 < p.numColSubArray)
    (i : ℕ) (hi : i < netStructure.length) :
    ∃ a b c d : ℤ, 1 ≤ a ∧ 1 ≤ b ∧ 1 ≤ c ∧ 1 ≤ d ∧
      at2 (PEDesign false peSize desiredTileSize numTileTotal markNM netStructure
        numRowPerSynapse numColPerSynapse) 0 i = (a : ℚ) ∧
      at2 (PEDesign false peSize desiredTileSize numTileTotal markNM netStructure
        numRowPerSynapse numColPerSynapse) 1 i = (b : ℚ) ∧
      at2 (SubArrayDup p desiredPESizeCM desiredPESizeNM markNM netStructure numRowPerSynapse
        numColPerSynapse) 0 i = (c : ℚ) ∧
      at2 (SubArrayDup p desiredPESizeCM desiredPESizeNM markNM netStructure numRowPerSynapse
        numColPerSynapse) 1 i = (d : ℚ) ∧
      at2 (OverallEachLayer false true
          (PEDesign false peSize desiredTileSize numTileTotal markNM netStructure
            numRowPerSynapse numColPerSynapse)
          (SubArrayDup p desiredPESizeCM desiredPESizeNM markNM netStructure numRowPerSynapse
            numColPerSynapse)
          desiredTileSize desiredPESizeNM markNM netStructure numRowPerSynapse numColPerSynapse
          numPENM) 0 i = ((a * c : ℤ) : ℚ) ∧
      at2 (OverallEachLayer false true
          (PEDesign false peSize desiredTileSize numTileTotal markNM netStructure
            numRowPerSynapse numColPerSynapse)
          (SubArrayDup p desiredPESizeCM desiredPESizeNM markNM netStructure numRowPerSynapse
            numColPerSynapse)
          desiredTileSize desiredPESizeNM markNM netStructure numRowPerSynapse numColPerSynapse
          numPENM) 1 i = ((b * d : ℤ) : ℚ) ∧
      1 ≤ a * c ∧ 1 ≤ b * d := by
  obtain ⟨ha, hb⟩ := peDupOf_pos peSize desiredTileSize markNM netStructure numRowPerSynapse
    numColPerSynapse hpos hpe hT i hi
  obtain ⟨hc, hd⟩ := subArrayDupOf_pos p desiredPESizeCM desiredPESizeNM markNM netStructure
    numRowPerSynapse numColPerSynapse hpos hcm hrs hcs i hi
  obtain ⟨e1, e2⟩ := PEDesign_dup peSize desiredTileSize numTileTotal markNM netStructure
    numRowPerSynapse numColPerSynapse i hi
  obtain ⟨e3, e4⟩ := SubArrayDup_dup p desiredPESizeCM desiredPESizeNM markNM netStructure
    numRowPerSynapse numColPerSynapse i hi
  refine ⟨_, _, _, _, ha, hb, hc, hd, e1, e2, e3, e4, ?_, ?_, ?_, ?_⟩
  · unfold OverallEachLayer
    simp only [Bool.false_eq_true, if_false, if_true]
    rw [(at2_map_range _ _ netStructure.length i hi).1, e1, e3]
    push_cast
    rfl
  · unfold OverallEachLayer
    simp only [Bool.false_eq_true, if_false, if_true]
    rw [(at2_map_range _ _ netStructure.length i hi).2, e2, e4]
    push_cast
    rfl
  · nlinarith
  · nlinarith

/-- Witness of C38 at the network `netConv` with tile size 1024, PE size 256 and
128 × 128 sub-arrays, where the PE duplication along the rows is 2. -/
theorem duplication_at_least_one_witness :
    at2 (PEDesign false 256 1024 1 [0] netConv 1 1) 0 0 = 2 ∧
    ∃ a b c d : ℤ, 1 ≤ a ∧ 1 ≤ b ∧ 1 ≤ c ∧ 1 ≤ d ∧
      at2 (PEDesign false 256 1024 1 [0] netConv 1 1) 0 0 = (a : ℚ) ∧
      at2 (PEDesign false 256 1024 1 [0] netConv 1 1) 1 0 = (b : ℚ) ∧
      at2 (SubArrayDup paramCM 256 0 [0] netConv 1 1) 0 0 = (c : ℚ) ∧
      at2 (SubArrayDup paramCM 256 0 [0] netConv 1 1) 1 0 = (d : ℚ) ∧
      at2 (OverallEachLayer false true (PEDesign false 256 1024 1 [0] netConv 1 1)
          (SubArrayDup paramCM 256 0 [0] netConv 1 1) 1024 0 [0] netConv 1 1 0) 0 0
        = ((a * c : ℤ) : ℚ) ∧
      at2 (OverallEachLayer false true (PEDesign false 256 1024 1 [0] netConv 1 1)
          (SubArrayDup paramCM 256 0 [0] netConv 1 1) 1024 0 [0] netConv 1 1 0) 1 0
        = ((b * d : ℤ) : ℚ) ∧
      1 ≤ a * c ∧ 1 ≤ b * d :=
  ⟨by decide!,
    duplication_at_least_one paramCM 256 1024 1 256 0 0 [0] netConv 1 1 positiveDims_netConv
      (by norm_num) (by norm_num) (by norm_num) (by decide) (by decide) 0 (by decide)⟩

/-! ## Tile locations and the tile grid -/

theorem chipDesignInitialize_netFC3 :
    ChipDesignInitialize paramCM netFC3 = ⟨[0, 0, 0], 0, 512, 0⟩ := by
  have h2 : minCube 512 = 512 := by
    have := minCube_zpow 9
    norm_num at this
    exact this
  simp [ChipDesignInitialize, paramCM, netFC3, markBodyCM, layerAt, h2, List.range_succ]

/-- C37. On the network `netFC3` of three fully connected 512 × 512 layers (novel mapping
off, 128 × 128 sub-arrays, feasible since `maxTileSizeCM = 512 ≥ 4*128`), with the running
tile total started at `0`, `ChipFloorPlan` chooses a 2 × 2 tile grid for the three tiles
and stores the locations `(0, 0)`, `(0, 0)` and `(1, -1)`: the column coordinate of the
last layer is negative, so its location is not a cell of the grid. -/
theorem tileLocation_negative_column :
    (ChipFloorPlan paramCM 8 false false false netFC3
        (ChipDesignInitialize paramCM netFC3).markNM
        (ChipDesignInitialize paramCM netFC3).maxPESizeNM
        (ChipDesignInitialize paramCM netFC3).maxTileSizeCM
        (ChipDesignInitialize paramCM netFC3).numPENM 0).map
        (fun r => (r.1, r.2.numTileRow, r.2.numTileCol))
      = some ([[0, 0, 1], [0, 0, -1]], 2, 2) ∧
    ¬ ((0 : ℚ) ≤ at2 [[0, 0, 1], [0, 0, -1]] 1 2) ∧
    4 * (paramCM.numRowSubArray : ℚ) ≤ (ChipDesignInitialize paramCM netFC3).maxTileSizeCM := by
  rw [chipDesignInitialize_netFC3]
  decide!

/-! ## The precision setup of `main` -/

/-- C39. After the precision setup of `main`, for `synapseBit ≥ 1` and a configured
`cellBit ≥ 1`: the effective `cellBit` is `min(cellBit, synapseBit)`,
`numRowPerSynapse = 1`, and `numColPerSynapse = ceil(synapseBit/cellBit)` satisfies
`numColPerSynapse*cellBit ≥ synapseBit > (numColPerSynapse - 1)*cellBit`; so every
codeword `v` in `[0, 2^synapseBit - 1]` is below `(2^cellBit)^numColPerSynapse`, and the
digits that `LoadInWeightData` emits for it represent it: weighted with the powers of
`2^cellBit`, most significant first, they sum to `v`.  The source holds the codeword and
`cellrange = 2^cellBit` in 32-bit `int` variables (Chip.cpp 1015-1017), so the statement
is for `synapseBit ≤ 31` and an effective `cellBit ≤ 30`, where every codeword of the
range and `cellrange` fit. -/
theorem precisionSetup_spec (p : ChipParam) (synapseBit : ℤ) (hs : 1 ≤ synapseBit)
    (_hs31 : synapseBit ≤ 31) (hc : 1 ≤ p.cellBit) (_hc30 : min p.cellBit synapseBit ≤ 30) :
    (precisionSetup p synapseBit).synapseBit = synapseBit ∧
    (precisionSetup p synapseBit).cellBit = min p.cellBit synapseBit ∧
    (precisionSetup p synapseBit).numRowPerSynapse = 1 ∧
    (precisionSetup p synapseBit).numColPerSynapse
      = ⌈(synapseBit : ℚ) / ((precisionSetup p synapseBit).cellBit : ℚ)⌉ ∧
    (precisionSetup p synapseBit).numColPerSynapse * (precisionSetup p synapseBit).cellBit
      ≥ synapseBit ∧
    synapseBit > ((precisionSetup p synapseBit).numColPerSynapse - 1)
      * (precisionSetup p synapseBit).cellBit ∧
    ∀ v : ℤ, 0 ≤ v → v ≤ 2 ^ synapseBit.toNat - 1 →
      v < (cellrange (precisionSetup p synapseBit))
        ^ (precisionSetup p synapseBit).numColPerSynapse.toNat ∧
      ∑ u in Finset.range (precisionSetup p synapseBit).numColPerSynapse.toNat,
          vecAt (synapseVector (cellrange (precisionSetup p synapseBit))
            (precisionSetup p synapseBit).numColPerSynapse v) u
            * ((cellrange (precisionSetup p synapseBit) : ℤ) : ℚ)
              ^ ((precisionSetup p synapseBit).numColPerSynapse.toNat - 1 - u)
        = (v : ℚ) := by
  have e1 : (precisionSetup p synapseBit).synapseBit = synapseBit := rfl
  have e2 : (precisionSetup p synapseBit).cellBit = min p.cellBit synapseBit := by
    show (if p.cellBit > synapseBit then synapseBit else p.cellBit) = _
    split_ifs with h
    · exact (min_eq_right (le_of_lt h)).symm
    · exact (min_eq_left (not_lt.mp h)).symm
  have e3 : (precisionSetup p synapseBit).numRowPerSynapse = 1 := rfl
  have e4 : (precisionSetup p synapseBit).numColPerSynapse
      = ⌈(synapseBit : ℚ) / ((precisionSetup p synapseBit).cellBit : ℚ)⌉ := rfl
  generalize hcb : (precisionSetup p synapseBit).cellBit = c at e2 e4 ⊢
  generalize hnc : (precisionSetup p synapseBit).numColPerSynapse = n at e4 ⊢
  have hc1 : 1 ≤ c := by rw [e2]; exact le_min hc hs
  have hcs : c ≤ synapseBit := by rw [e2]; exact min_le_right _ _
  have hcq : (0 : ℚ) < (c : ℚ) := by exact_mod_cast (by omega : (0 : ℤ) < c)
  have hge : n * c ≥ synapseBit := by
    have := Int.le_ceil ((synapseBit : ℚ) / (c : ℚ))
    rw [← e4, div_le_iff₀ hcq] at this
    exact_mod_cast this
  have hlt : synapseBit > (n - 1) * c := by
    have := Int.ceil_lt_add_one ((synapseBit : ℚ) / (c : ℚ))
    rw [← e4, ← sub_lt_iff_lt_add, lt_div_iff₀ hcq] at this
    exact_mod_cast this
  have hn1 : 1 ≤ n := by
    by_contra h
    push_neg at h
    have : n * c ≤ 0 := mul_nonpos_of_nonpos_of_nonneg (by omega) (by omega)
    omega
  refine ⟨e1, e2, e3, e4, hge, hlt, ?_⟩
  intro v hv hvmax
  have hcr : cellrange (precisionSetup p synapseBit) = 2 ^ c.toNat := by
    rw [cellrange_eq _ (by rw [hcb]; omega), hcb]
  have hbase : (0 : ℤ) < 2 ^ c.toNat := pow_pos (by norm_num) _
  have hexp : synapseBit.toNat ≤ c.toNat * n.toNat := by
    have h1 : ((c.toNat * n.toNat : ℕ) : ℤ) = c * n := by
      push_cast
      rw [Int.toNat_of_nonneg (by omega), Int.toNat_of_nonneg (by omega)]
    have h2 : (synapseBit.toNat : ℤ) = synapseBit := Int.toNat_of_nonneg (by omega)
    have : (synapseBit.toNat : ℤ) ≤ ((c.toNat * n.toNat : ℕ) : ℤ) := by
      rw [h1, h2, mul_comm]
      exact hge
    exact_mod_cast this
  have hbound : v < (2 ^ c.toNat : ℤ) ^ n.toNat := by
    rw [← pow_mul]
    have : (2 : ℤ) ^ synapseBit.toNat ≤ 2 ^ (c.toNat * n.toNat) :=
      pow_le_pow_right₀ (by norm_num) hexp
    omega
  rw [hcr]
  refine ⟨hbound, ?_⟩
  have hsum := digits_sum_reflect v (2 ^ c.toNat) hv (le_of_lt hbase) n.toNat
  rw [Int.emod_eq_of_lt hv hbound] at hsum
  have : ((∑ u in Finset.range n.toNat,
      (v / (2 ^ c.toNat) ^ (n.toNat - 1 - u) % 2 ^ c.toNat) * (2 ^ c.toNat) ^ (n.toNat - 1 - u) : ℤ) : ℚ)
      = (v : ℚ) := by rw [hsum]
  rw [← this]
  push_cast
  apply Finset.sum_congr rfl
  intro u hu
  rw [synapseVector_at _ hbase n v hv u (Finset.mem_range.mp hu)]

/-- Witness of C39: 8-bit synapses in cells configured with 3 bits need
`ceil(8/3) = 3` cells per synapse, with `3*3 ≥ 8 > 2*3`, and the digits emitted for the
codeword `200` represent it. -/
theorem precisionSetup_spec_witness :
    (precisionSetup { paramBits with cellBit := 3 } 8).numColPerSynapse = 3 ∧
    (precisionSetup { paramBits with cellBit := 3 } 8).cellBit = min 3 8 ∧
    (precisionSetup { paramBits with cellBit := 3 } 8).numColPerSynapse
        * (precisionSetup { paramBits with cellBit := 3 } 8).cellBit ≥ 8 ∧
    ∑ u in Finset.range (precisionSetup { paramBits with cellBit := 3 } 8).numColPerSynapse.toNat,
        vecAt (synapseVector (cellrange (precisionSetup { paramBits with cellBit := 3 } 8))
          (precisionSetup { paramBits with cellBit := 3 } 8).numColPerSynapse 200) u
          * ((cellrange (precisionSetup { paramBits with cellBit := 3 } 8) : ℤ) : ℚ)
            ^ ((precisionSetup { paramBits with cellBit := 3 } 8).numColPerSynapse.toNat - 1 - u)
      = ((200 : ℤ) : ℚ) :=
  have h := precisionSetup_spec { paramBits with cellBit := 3 } 8 (by norm_num) (by norm_num)
    (by decide) (by decide)
  ⟨by decide!, h.2.1, h.2.2.2.2.1, (h.2.2.2.2.2.2 200 (by norm_num) (by decide)).2⟩

/-! ## Lookups by layer index in `ChipCalculatePerformance` -/

/-- C35. On the two-layer network `netFC2` (novel mapping off, chip-level activation off,
no max-pool), whose tables from `ChipFloorPlan` have one column per layer, the last layer
`l = 1` has `numTileEachLayer[0][1] = 2 > 1` tile rows, so the accumulation call reads
`numTileEachLayer[0][l+1]`, the column `2` of a table with the columns `0` and `1`: with
checked indexing the lookups of `ChipCalculatePerformance` end in the out-of-range
branch.  The same happens on the one-layer network `netWide` for `l = 0` as soon as
chip-level activation is enabled.  For the first layer of `netFC2` all lookups are in
range. -/
theorem chipCalculatePerformance_reads_next_layer :
    (ChipFloorPlan paramCM 8 true false false netFC2 [0, 0] 0 1024 0 0).map (fun r => r.1)
      = some [[1, 2], [2, 1]] ∧
    (ChipFloorPlan paramCM 8 false false true netFC2 [0, 0] 0 1024 0 0).map (fun r => r.1)
      = some [[1, 1], [1, 1]] ∧
    (ChipFloorPlan paramCM 8 false false false netFC2 [0, 0] 0 1024 0 0).map (fun r => r.1)
      = some [[0, 1], [0, -1]] ∧
    perfLookups paramPerf 1 false netFC2 [0, 0] [[1, 2], [2, 1]] [[1, 1], [1, 1]]
      [[0, 1], [0, -1]] = none ∧
    at2? [[1, 2], [2, 1]] 0 (1 + 1) = none ∧
    perfLookups paramAct 0 false netWide [0] [[1], [2]] [[1], [1]] [[0], [0]] = none ∧
    perfLookups paramPerf 0 false netFC2 [0, 0] [[1, 2], [2, 1]] [[1, 1], [1, 1]]
      [[0, 1], [0, -1]] = some [[1, 1], [1, 1], [0, 0]] := by
  decide!

/-! ## The rows gathered for a Novel tile -/

theorem chipDesignInitialize_net384 :
    ChipDesignInitialize paramNM net384 = ⟨[1, 0], 256, 1024, 9⟩ := by
  have h1 : minCube 1024 = 1024 := by
    have := minCube_zpow 10
    norm_num at this
    exact this
  have h2 : minCube 256 = 256 := by
    have := minCube_zpow 8
    norm_num at this
    exact this
  have h9 : (mostCommonKernel net384).numPE = 9 := by decide!
  unfold ChipDesignInitialize
  rw [if_pos (show paramNM.novelMapping = true from rfl)]
  dsimp only
  rw [h9]
  simp [paramNM, net384, markBodyNM, layerAt, h1, h2, List.range_succ]
  norm_num

/-- A sequence of reads one of which is out of range returns nothing. -/
theorem allReads_none {α : Type} (l : List (Option α)) (h : none ∈ l) : allReads l = none := by
  induction l with
  | nil => simp at h
  | cons x xs ih =>
    rcases x with _ | a
    · rfl
    · have hx : none ∈ xs := by
        rcases List.mem_cons.mp h with h | h
        · exact absurd h (by simp)
        · exact h
      simp [allReads, ih hx]

/-- A read below the last row of a matrix is out of range. -/
theorem readAt_matrixOf_none (rows cols : ℕ) (f : ℕ → ℕ → ℚ) (r : ℕ) (c : ℤ)
    (hr : rows ≤ r) : readAt (matrixOf rows cols f) (r : ℤ) c = none := by
  unfold readAt matrixOf
  split_ifs
  · rw [Int.toNat_ofNat, List.getElem?_eq_none (by simpa using hr)]
    rfl
  · rfl

/-- `ReshapeArray` returns nothing when the read of column `0` of row `i` of block `k` is
out of range. -/
theorem reshapeArray_none (orginal : List (List ℚ))
    (positionRow positionCol weightMatrixRow : ℤ) (numRow numCol numPE : ℕ) (k i : ℕ)
    (hk : k < numPE) (hi : i < numRow) (hc : 0 < numCol)
    (h : readAt orginal (positionRow + (k : ℤ) * weightMatrixRow + (i : ℤ))
      (positionCol + ((0 : ℕ) : ℤ)) = none) :
    ReshapeArray orginal positionRow positionCol numRow numCol numPE weightMatrixRow = none := by
  unfold ReshapeArray
  apply allReads_none
  simp only [Int.toNat_ofNat, List.mem_flatten, List.mem_map, List.mem_range]
  refine ⟨_, ⟨k, hk, rfl⟩, List.mem_map.mpr ⟨i, List.mem_range.mpr hi, ?_⟩⟩
  apply allReads_none
  exact List.mem_map.mpr ⟨0, List.mem_range.mpr hc, h⟩

/-- C36. On the network `net384` with novel mapping (128 × 128 sub-arrays) the first layer
is Novel with `kernelRows*kernelCols = numPENM = 9`, its weight matrix has
`384*3*3 = 3456` rows and 256 columns, and `ChipFloorPlan` chooses `desiredPESizeNM = 256`
and the tile counts `ceil(384/256) = 2` and `ceil(256/256) = 1`.  For tile `(1, 0)` the
tile loop calls `ReshapeArray(newMemory, 256, 0, 192, 256, 9, 384)`, whose block `k = 8`
reads the rows `256 + 8*384 + i`, `i < 192`, that is up to row `3519`: on every matrix
with 3456 rows the read of row `3456` is out of range, while tile `(0, 0)` stays inside
the matrix. -/
theorem reshapeArray_reads_outside (f : ℕ → ℕ → ℚ) :
    (ChipFloorPlan paramNM 10 true false false net384
        (ChipDesignInitialize paramNM net384).markNM
        (ChipDesignInitialize paramNM net384).maxPESizeNM
        (ChipDesignInitialize paramNM net384).maxTileSizeCM
        (ChipDesignInitialize paramNM net384).numPENM 0).map
        (fun r => (r.1, r.2.desiredPESizeNM))
      = some ([[2, 1], [1, 1]], 256) ∧
    (ChipDesignInitialize paramNM net384).numPENM = 9 ∧
    markAt (ChipDesignInitialize paramNM net384).markNM 0 = 1 ∧
    weightRows (layerAt net384 0) paramNM.numRowPerSynapse = 3456 ∧
    weightCols (layerAt net384 0) paramNM.numColPerSynapse = 256 ∧
    (matrixOf 3456 256 f).length = 3456 ∧
    tileMemoryNM paramNM (layerAt net384 0) 2 1 256 9 (matrixOf 3456 256 f) 1 0
      = ReshapeArray (matrixOf 3456 256 f) 256 0 192 256 9 384 ∧
    readAt (matrixOf 3456 256 f) (256 + 8 * 384 + 128) 0 = none ∧
    tileMemoryNM paramNM (layerAt net384 0) 2 1 256 9 (matrixOf 3456 256 f) 1 0 = none := by
  have hargs : tileMemoryNM paramNM (layerAt net384 0) 2 1 256 9 (matrixOf 3456 256 f) 1 0
      = ReshapeArray (matrixOf 3456 256 f) 256 0 192 256 9 384 := by
    have a1 : toInt (((1 : ℕ) : ℚ) * 256) = 256 := by decide!
    have a2 : toInt (((0 : ℕ) : ℚ) * 256) = 0 := by decide!
    have a3 : toInt (((toInt (layerAt net384 0).inputDepth * paramNM.numRowPerSynapse : ℤ) : ℚ)
        / 2) = 192 := by decide!
    have a4 : toInt (((toInt (layerAt net384 0).outputDepth * paramNM.numRowPerSynapse : ℤ) : ℚ)
        / 1) = 256 := by decide!
    have a5 : toInt (9 : ℚ) = 9 := by decide!
    have a6 : toInt (layerAt net384 0).inputDepth * paramNM.numRowPerSynapse = 384 := by decide!
    unfold tileMemoryNM
    rw [a1, a2, a3, a4, a5, a6]
  have hread : readAt (matrixOf 3456 256 f) (256 + 8 * 384 + 128) 0 = none :=
    readAt_matrixOf_none 3456 256 f 3456 0 (le_refl _)
  refine ⟨?_, ?_, ?_, by decide!, by decide!, by simp [matrixOf], hargs, hread, ?_⟩
  · rw [chipDesignInitialize_net384]
    decide!
  · rw [chipDesignInitialize_net384]
  · rw [chipDesignInitialize_net384]
    rfl
  · rw [hargs]
    exact reshapeArray_none (matrixOf 3456 256 f) 256 0 384 192 256 9 8 128 (by norm_num)
      (by norm_num) (by norm_num) hread

/-! ## The conventional tile-size search: its final value -/

theorem foldl_range_shift {σ : Type} (g : σ → ℕ → σ) (s : σ) (k : ℕ) :
    (List.range (k + 1)).foldl g s = (List.range k).foldl (fun s j => g s (j + 1)) (g s 0) := by
  rw [List.range_succ_eq_map, List.foldl_cons, List.foldl_map]

/-- A halving loop that returns has run its body on the candidates `x, x/2, ...,
x/2^(k-1)`, where `k` is the number of candidates at or above the bound. -/
theorem forHalving_eq_foldl {σ : Type} (bound : ℚ) (body : ℚ → σ → σ) (k : ℕ) :
    ∀ (fuel : ℕ) (x : ℚ) (s s' : σ), (∀ j, j < k → bound ≤ x / 2 ^ j) → x / 2 ^ k < bound →
      forHalving bound body fuel x s = some s' →
      s' = (List.range k).foldl (fun s j => body (x / 2 ^ j) s) s := by
  induction k with
  | zero =>
    intro fuel x s s' _ hlt h
    rcases fuel with _ | fuel
    · simp [forHalving_zero] at h
    · rw [forHalving_succ, if_neg (not_le.mpr (by simpa using hlt))] at h
      exact (Option.some.inj h).symm
  | succ k ih =>
    intro fuel x s s' hge hlt h
    rcases fuel with _ | fuel
    · simp [forHalving_zero] at h
    · have h0 : bound ≤ x := by simpa using hge 0 (Nat.succ_pos k)
      have e : ∀ j : ℕ, x / 2 / 2 ^ j = x / 2 ^ (j + 1) := by
        intro j
        rw [div_div, pow_succ, mul_comm]
      rw [forHalving_succ, if_pos h0] at h
      have := ih fuel (x / 2) (body x s) s'
        (fun j hj => by rw [e]; exact hge (j + 1) (by omega)) (by rw [e]; exact hlt) h
      rw [this, foldl_range_shift]
      simp only [pow_zero, div_one, e]

/-- One step of the conventional tile-size search. -/
theorem searchBodyCM_step (p : Param) (netStructure : List Layer) (markNM : List ℤ)
    (maxTileSizeCM t : ℚ) (s : FloorPlan) :
    (tileUtilization p netStructure markNM t > s.maxUtilizationCM →
      (searchBodyCM p netStructure markNM maxTileSizeCM t s).desiredTileSizeCM = t ∧
      (searchBodyCM p netStructure markNM maxTileSizeCM t s).desiredNumTileCM
        = tileCount p netStructure markNM t ∧
      (searchBodyCM p netStructure markNM maxTileSizeCM t s).maxUtilizationCM
        = tileUtilization p netStructure markNM t) ∧
    (¬ tileUtilization p netStructure markNM t > s.maxUtilizationCM →
      (searchBodyCM p netStructure markNM maxTileSizeCM t s).desiredTileSizeCM = maxTileSizeCM ∧
      (searchBodyCM p netStructure markNM maxTileSizeCM t s).desiredNumTileCM
        = s.desiredNumTileCM ∧
      (searchBodyCM p netStructure markNM maxTileSizeCM t s).maxUtilizationCM
        = s.maxUtilizationCM) := by
  unfold searchBodyCM tileUtilization tileCount
  dsimp only
  constructor
  · intro h
    rw [if_pos h]
    exact ⟨rfl, rfl, rfl⟩
  · intro h
    rw [if_neg h]
    exact ⟨rfl, rfl, rfl⟩

/-- The state of the conventional tile-size search after the candidates `c 0, ...,
c (k-1)`: `maxUtilizationCM` is the running maximum of the utilizations (started at its
value in `s`), and `desiredNumTileCM` is the tile count of the first candidate attaining
it, or its value in `s` if no candidate exceeded the start value. -/
theorem searchBodyCM_fold (p : Param) (netStructure : List Layer) (markNM : List ℤ)
    (maxTileSizeCM : ℚ) (c : ℕ → ℚ) (s : FloorPlan) (k : ℕ) :
    (∀ j, j < k → tileUtilization p netStructure markNM (c j)
      ≤ ((List.range k).foldl
          (fun s j => searchBodyCM p netStructure markNM maxTileSizeCM (c j) s)
          s).maxUtilizationCM) ∧
    ((((List.range k).foldl (fun s j => searchBodyCM p netStructure markNM maxTileSizeCM (c j) s)
          s).maxUtilizationCM = s.maxUtilizationCM ∧
        ((List.range k).foldl (fun s j => searchBodyCM p netStructure markNM maxTileSizeCM (c j) s)
          s).desiredNumTileCM = s.desiredNumTileCM) ∨
      ∃ j, j < k ∧
        ((List.range k).foldl (fun s j => searchBodyCM p netStructure markNM maxTileSizeCM (c j) s)
          s).maxUtilizationCM = tileUtilization p netStructure markNM (c j) ∧
        s.maxUtilizationCM < tileUtilization p netStructure markNM (c j) ∧
        (∀ i, i < j → tileUtilization p netStructure markNM (c i)
          < tileUtilization p netStructure markNM (c j)) ∧
        ((List.range k).foldl (fun s j => searchBodyCM p netStructure markNM maxTileSizeCM (c j) s)
          s).desiredNumTileCM = tileCount p netStructure markNM (c j)) := by
  induction k with
  | zero =>
    exact ⟨fun j hj => absurd hj (Nat.not_lt_zero j), Or.inl ⟨rfl, rfl⟩⟩
  | succ k ih =>
    rw [foldl_range_succ]
    generalize (List.range k).foldl
      (fun s j => searchBodyCM p netStructure markNM maxTileSizeCM (c j) s) s = r at ih ⊢
    obtain ⟨hle, hcase⟩ := ih
    obtain ⟨hyes, hno⟩ := searchBodyCM_step p netStructure markNM maxTileSizeCM (c k) r
    by_cases hgt : tileUtilization p netStructure markNM (c k) > r.maxUtilizationCM
    · obtain ⟨-, hN, hU⟩ := hyes hgt
      constructor
      · intro j hj
        rw [hU]
        rcases Nat.lt_succ_iff_lt_or_eq.mp hj with h | h
        · exact le_trans (hle j h) (le_of_lt hgt)
        · rw [h]
      · right
        refine ⟨k, Nat.lt_succ_self k, hU, ?_, ?_, hN⟩
        · rcases hcase with ⟨h1, -⟩ | ⟨j, -, h1, h2, -, -⟩
          · rw [← h1]; exact hgt
          · exact lt_trans h2 (by rw [← h1]; exact hgt)
        · intro i hi
          exact lt_of_le_of_lt (hle i hi) hgt
    · obtain ⟨-, hN, hU⟩ := hno hgt
      constructor
      · intro j hj
        rw [hU]
        rcases Nat.lt_succ_iff_lt_or_eq.mp hj with h | h
        · exact hle j h
        · rw [h]; exact not_lt.mp hgt
      · rcases hcase with ⟨h1, h2⟩ | ⟨j, hj, h1, h2, h3, h4⟩
        · exact Or.inl ⟨by rw [hU, h1], by rw [hN, h2]⟩
        · exact Or.inr ⟨j, Nat.lt_succ_of_lt hj, by rw [hU, h1], h2, h3, by rw [hN, h4]⟩

/-- The final tile size and tile count of the conventional tile-size search over the
candidates `c 0, ..., c K`, started with `maxUtilizationCM = 0` and
`desiredNumTileCM = 0`. -/
theorem searchBodyCM_final (p : Param) (netStructure : List Layer) (markNM : List ℤ)
    (maxTileSizeCM : ℚ) (c : ℕ → ℚ) (s : FloorPlan) (K : ℕ)
    (hU : s.maxUtilizationCM = 0) (hN : s.desiredNumTileCM = 0) :
    ((0 < tileUtilization p netStructure markNM (c K) ∧
        ∀ j, j < K → tileUtilization p netStructure markNM (c j)
          < tileUtilization p netStructure markNM (c K)) →
      ((List.range (K + 1)).foldl
        (fun s j => searchBodyCM p netStructure markNM maxTileSizeCM (c j) s)
        s).desiredTileSizeCM = c K) ∧
    (¬ (0 < tileUtilization p netStructure markNM (c K) ∧
        ∀ j, j < K → tileUtilization p netStructure markNM (c j)
          < tileUtilization p netStructure markNM (c K)) →
      ((List.range (K + 1)).foldl
        (fun s j => searchBodyCM p netStructure markNM maxTileSizeCM (c j) s)
        s).desiredTileSizeCM = maxTileSizeCM) ∧
    ((∀ j, j ≤ K → tileUtilization p netStructure markNM (c j) ≤ 0) →
      ((List.range (K + 1)).foldl
        (fun s j => searchBodyCM p netStructure markNM maxTileSizeCM (c j) s)
        s).desiredNumTileCM = 0) ∧
    ((∃ j, j ≤ K ∧ 0 < tileUtilization p netStructure markNM (c j)) →
      ∃ j, j ≤ K ∧
        (∀ i, i ≤ K → tileUtilization p netStructure markNM (c i)
          ≤ tileUtilization p netStructure markNM (c j)) ∧
        (∀ i, i < j → tileUtilization p netStructure markNM (c i)
          < tileUtilization p netStructure markNM (c j)) ∧
        ((List.range (K + 1)).foldl
          (fun s j => searchBodyCM p netStructure markNM maxTileSizeCM (c j) s)
          s).desiredNumTileCM = tileCount p netStructure markNM (c j)) := by
  obtain ⟨hleK, hcaseK⟩ := searchBodyCM_fold p netStructure markNM maxTileSizeCM c s K
  obtain ⟨hle, hcase⟩ := searchBodyCM_fold p netStructure markNM maxTileSizeCM c s (K + 1)
  have hiff : (tileUtilization p netStructure markNM (c K)
        > ((List.range K).foldl
          (fun s j => searchBodyCM p netStructure markNM maxTileSizeCM (c j) s)
          s).maxUtilizationCM) ↔
      (0 < tileUtilization p netStructure markNM (c K) ∧
        ∀ j, j < K → tileUtilization p netStructure markNM (c j)
          < tileUtilization p netStructure markNM (c K)) := by
    constructor
    · intro h
      constructor
      · rcases hcaseK with ⟨h1, -⟩ | ⟨j, -, h1, h2, -, -⟩
        · rw [h1, hU] at h; exact h
        · rw [hU] at h2
          exact lt_trans h2 (by rw [← h1]; exact h)
      · intro j hj
        exact lt_of_le_of_lt (hleK j hj) h
    · rintro ⟨h0, hall⟩
      rcases hcaseK with ⟨h1, -⟩ | ⟨j, hj, h1, -, -, -⟩
      · rw [h1, hU]; exact h0
      · rw [h1]; exact hall j hj
  obtain ⟨hyes, hno⟩ := searchBodyCM_step p netStructure markNM maxTileSizeCM (c K)
    ((List.range K).foldl
      (fun s j => searchBodyCM p netStructure markNM maxTileSizeCM (c j) s) s)
  refine ⟨?_, ?_, ?_, ?_⟩
  · intro h
    rw [foldl_range_succ]
    exact (hyes (hiff.mpr h)).1
  · intro h
    rw [foldl_range_succ]
    exact (hno (fun hc => h (hiff.mp hc))).1
  · intro hall
    rcases hcase with ⟨-, h2⟩ | ⟨j, hj, -, h2, -, -⟩
    · rw [h2, hN]
    · rw [hU] at h2
      exact absurd (hall j (Nat.lt_succ_iff.mp hj)) (not_le.mpr h2)
  · rintro ⟨j0, hj0, hpos⟩
    rcases hcase with ⟨h1, -⟩ | ⟨j, hj, h1, -, h3, h4⟩
    · have := hle j0 (Nat.lt_succ_iff.mpr hj0)
      rw [h1, hU] at this
      exact absurd hpos (not_lt.mpr this)
    · refine ⟨j, Nat.lt_succ_iff.mp hj, ?_, h3, h4⟩
      intro i hi
      rw [← h1]
      exact hle i (Nat.lt_succ_iff.mpr hi)

/-- The novel PE-size search touches neither `maxUtilizationCM` nor `desiredNumTileCM`. -/
theorem searchNM_keeps_CM (p : Param) (netStructure : List Layer) (markNM : List ℤ)
    (maxPESizeNM numPENM bound : ℚ) (fuel : ℕ) (x : ℚ) (s s' : FloorPlan)
    (h : forHalving bound (searchBodyNM p netStructure markNM maxPESizeNM numPENM) fuel x s
      = some s') :
    s'.maxUtilizationCM = s.maxUtilizationCM ∧ s'.desiredNumTileCM = s.desiredNumTileCM := by
  obtain ⟨-, -, hI⟩ := forHalving_inv bound
    (searchBodyNM p netStructure markNM maxPESizeNM numPENM)
    (fun _ t => t.maxUtilizationCM = s.maxUtilizationCM ∧
      t.desiredNumTileCM = s.desiredNumTileCM)
    (by
      intro y t ht _
      unfold searchBodyNM
      dsimp only
      split_ifs <;> exact ht)
    fuel x s s' ⟨rfl, rfl⟩ h
  exact hI

/-- The conventional PE-size search touches neither the tile size nor the tile count. -/
theorem searchPE_keeps_tile (p : Param) (netStructure : List Layer) (markNM : List ℤ)
    (bound : ℚ) (fuel : ℕ) (x : ℚ) (s s' : FloorPlan)
    (h : forHalving bound (searchBodyPE p netStructure markNM) fuel x s = some s') :
    s'.desiredTileSizeCM = s.desiredTileSizeCM ∧ s'.desiredNumTileCM = s.desiredNumTileCM := by
  obtain ⟨-, -, hI⟩ := forHalving_inv bound (searchBodyPE p netStructure markNM)
    (fun _ t => t.desiredTileSizeCM = s.desiredTileSizeCM ∧
      t.desiredNumTileCM = s.desiredNumTileCM)
    (by
      intro y t ht _
      obtain ⟨h1, h2⟩ := searchBodyPE_tile p netStructure markNM y t
      exact ⟨h1.trans ht.1, h2.trans ht.2⟩)
    fuel x s s' ⟨rfl, rfl⟩ h
  exact hI

/-- In the feasible branch the tile size and tile count returned by the size search are
those left by the conventional tile-size search, which starts with
`maxUtilizationCM = 0` and `desiredNumTileCM = 0`. -/
theorem floorPlanSearch_tile (p : Param) (fuel : ℕ) (netStructure : List Layer)
    (markNM : List ℤ) (maxPESizeNM maxTileSizeCM numPENM : ℚ) (s : FloorPlan)
    (hT : 4 * (p.numRowSubArray : ℚ) ≤ maxTileSizeCM)
    (hP : p.novelMapping = true → 2 * (p.numRowSubArray : ℚ) ≤ maxPESizeNM)
    (h : floorPlanSearch p fuel netStructure markNM maxPESizeNM maxTileSizeCM numPENM = some s) :
    ∃ s1 s2, s1.maxUtilizationCM = 0 ∧ s1.desiredNumTileCM = 0 ∧
      forHalving (4 * (p.numRowSubArray : ℚ))
        (searchBodyCM p netStructure markNM maxTileSizeCM) fuel maxTileSizeCM s1 = some s2 ∧
      s.desiredTileSizeCM = s2.desiredTileSizeCM ∧ s.desiredNumTileCM = s2.desiredNumTileCM := by
  unfold floorPlanSearch at h
  by_cases hnov : p.novelMapping = true
  · have hP' := hP hnov
    rw [if_pos hnov, if_neg (by rw [not_or]; exact ⟨not_lt.mpr hP', not_lt.mpr hT⟩)] at h
    simp only [Option.bind_eq_bind, Option.bind_eq_some] at h
    obtain ⟨s1, h1, s2, h2, s3, h3, h4⟩ := h
    obtain rfl := Option.some.inj h4
    obtain ⟨a1, a2⟩ := searchNM_keeps_CM p netStructure markNM maxPESizeNM numPENM _ fuel _ _ _ h1
    obtain ⟨b1, b2⟩ := searchPE_keeps_tile p netStructure markNM _ fuel _ _ _ h3
    refine ⟨s1, s2, a1, a2, h2, ?_, ?_⟩
    · rw [(planTables_sizes p netStructure markNM numPENM s3.desiredPESizeNM s3).2.2.2.1, b1]
    · rw [(planTables_sizes p netStructure markNM numPENM s3.desiredPESizeNM s3).2.2.1, b2]
  · rw [if_neg hnov, if_neg (not_lt.mpr hT)] at h
    simp only [Option.bind_eq_bind, Option.bind_eq_some] at h
    obtain ⟨s2, h2, s3, h3, h4⟩ := h
    obtain rfl := Option.some.inj h4
    obtain ⟨b1, b2⟩ := searchPE_keeps_tile p netStructure markNM _ fuel _ _ _ h3
    refine ⟨FloorPlan.init, s2, rfl, rfl, h2, ?_, ?_⟩
    · rw [(planTables_sizes p netStructure markNM numPENM 0 s3).2.2.2.1, b1]
    · rw [(planTables_sizes p netStructure markNM numPENM 0 s3).2.2.1, b2]

/-- The candidates of a halving search whose last candidate is `x / 2^K`. -/
theorem candidates_of_last (bound x : ℚ) (K : ℕ) (h1 : bound ≤ x / 2 ^ K)
    (h2 : x / 2 ^ (K + 1) < bound) :
    0 < x ∧ ∀ j, j < K + 1 → bound ≤ x / 2 ^ j := by
  have e : x / 2 ^ (K + 1) = x / 2 ^ K / 2 := by rw [div_div, pow_succ]
  rw [e] at h2
  have hy : 0 < x / 2 ^ K := by linarith
  have hx : 0 < x := by
    have h2K : (0 : ℚ) < 2 ^ K := by positivity
    have := mul_pos hy h2K
    rwa [div_mul_cancel₀ _ (ne_of_gt h2K)] at this
  refine ⟨hx, fun j hj => le_trans h1 ?_⟩
  apply div_le_div_of_nonneg_left hx.le (by positivity)
  exact pow_le_pow_right₀ (by norm_num) (by omega)

/-- The final tile size and tile count of `ChipFloorPlan` in the feasible branch, for the
tile-size candidates `maxTileSizeCM / 2^j`, `j ≤ K`: the tile size is the last candidate
if its utilization is positive and exceeds that of every larger candidate, and
`maxTileSizeCM` otherwise; the tile count is that of the first candidate attaining the
maximal utilization, or `0` if no candidate has a positive utilization. -/
theorem ChipFloorPlan_tileSearch (p : Param) (fuel : ℕ)
    (findNumTile findUtilization findSpeedUp : Bool)
    (netStructure : List Layer) (markNM : List ℤ) (maxPESizeNM maxTileSizeCM numPENM : ℚ)
    (thisTileTotal0 : ℚ) (K : ℕ) (r : List (List ℚ) × FloorPlan)
    (hK1 : 4 * (p.numRowSubArray : ℚ) ≤ maxTileSizeCM / 2 ^ K)
    (hK2 : maxTileSizeCM / 2 ^ (K + 1) < 4 * (p.numRowSubArray : ℚ))
    (hP : p.novelMapping = true → 2 * (p.numRowSubArray : ℚ) ≤ maxPESizeNM)
    (hr : ChipFloorPlan p fuel findNumTile findUtilization findSpeedUp netStructure markNM
      maxPESizeNM maxTileSizeCM numPENM thisTileTotal0 = some r) :
    ((0 < tileUtilization p netStructure markNM (maxTileSizeCM / 2 ^ K) ∧
        ∀ j, j < K → tileUtilization p netStructure markNM (maxTileSizeCM / 2 ^ j)
          < tileUtilization p netStructure markNM (maxTileSizeCM / 2 ^ K)) →
      r.2.desiredTileSizeCM = maxTileSizeCM / 2 ^ K) ∧
    (¬ (0 < tileUtilization p netStructure markNM (maxTileSizeCM / 2 ^ K) ∧
        ∀ j, j < K → tileUtilization p netStructure markNM (maxTileSizeCM / 2 ^ j)
          < tileUtilization p netStructure markNM (maxTileSizeCM / 2 ^ K)) →
      r.2.desiredTileSizeCM = maxTileSizeCM) ∧
    ((∀ j, j ≤ K → tileUtilization p netStructure markNM (maxTileSizeCM / 2 ^ j) ≤ 0) →
      r.2.desiredNumTileCM = 0) ∧
    ((∃ j, j ≤ K ∧ 0 < tileUtilization p netStructure markNM (maxTileSizeCM / 2 ^ j)) →
      ∃ j, j ≤ K ∧
        (∀ i, i ≤ K → tileUtilization p netStructure markNM (maxTileSizeCM / 2 ^ i)
          ≤ tileUtilization p netStructure markNM (maxTileSizeCM / 2 ^ j)) ∧
        (∀ i, i < j → tileUtilization p netStructure markNM (maxTileSizeCM / 2 ^ i)
          < tileUtilization p netStructure markNM (maxTileSizeCM / 2 ^ j)) ∧
        r.2.desiredNumTileCM = tileCount p netStructure markNM (maxTileSizeCM / 2 ^ j)) := by
  obtain ⟨hX, hcand⟩ := candidates_of_last _ _ K hK1 hK2
  have hT : 4 * (p.numRowSubArray : ℚ) ≤ maxTileSizeCM := by simpa using hcand 0 (Nat.succ_pos K)
  obtain ⟨s, hs, -, -, hN, hTs, -⟩ := ChipFloorPlan_some _ _ _ _ _ _ _ _ _ _ _ r hr
  obtain ⟨s1, s2, hU1, hN1, h2, eT, eN⟩ := floorPlanSearch_tile p fuel netStructure markNM
    maxPESizeNM maxTileSizeCM numPENM s hT hP hs
  have hfold := forHalving_eq_foldl _ _ (K + 1) fuel maxTileSizeCM s1 s2 hcand hK2 h2
  have hfin := searchBodyCM_final p netStructure markNM maxTileSizeCM
    (fun j => maxTileSizeCM / 2 ^ j) s1 K hU1 hN1
  rw [hTs, hN, eT, eN, hfold]
  exact hfin

/-- C31. The conventional tile-size search of `ChipFloorPlan` resets `desiredTileSizeCM`
to `maxTileSizeCM` in every iteration, so for a network with positive dimensions and a
Conventional layer, in the feasible branch with the candidates `maxTileSizeCM / 2^j`,
`j ≤ K` (`K` the index of the last candidate `≥ 4*numRowSubArray`), the final
`desiredTileSizeCM` is one of two values: the last candidate `maxTileSizeCM / 2^K` when
its `TileDesignCM` utilization strictly exceeds that of every larger candidate, and
`maxTileSizeCM` otherwise; and `desiredNumTileCM` is the tile count of the first
candidate attaining the maximal utilization. -/
theorem tileSearch_final_value (p : Param) (fuel : ℕ)
    (findNumTile findUtilization findSpeedUp : Bool)
    (netStructure : List Layer) (markNM : List ℤ) (maxPESizeNM maxTileSizeCM numPENM : ℚ)
    (thisTileTotal0 : ℚ) (K : ℕ) (r : List (List ℚ) × FloorPlan)
    (hpos : PositiveDims netStructure p.numRowPerSynapse p.numColPerSynapse)
    (hconv : ∃ i, i < netStructure.length ∧ markAt markNM i = 0)
    (hK1 : 4 * (p.numRowSubArray : ℚ) ≤ maxTileSizeCM / 2 ^ K)
    (hK2 : maxTileSizeCM / 2 ^ (K + 1) < 4 * (p.numRowSubArray : ℚ))
    (hP : p.novelMapping = true → 2 * (p.numRowSubArray : ℚ) ≤ maxPESizeNM)
    (hr : ChipFloorPlan p fuel findNumTile findUtilization findSpeedUp netStructure markNM
      maxPESizeNM maxTileSizeCM numPENM thisTileTotal0 = some r) :
    ((∀ j, j < K → tileUtilization p netStructure markNM (maxTileSizeCM / 2 ^ j)
          < tileUtilization p netStructure markNM (maxTileSizeCM / 2 ^ K)) →
      r.2.desiredTileSizeCM = maxTileSizeCM / 2 ^ K) ∧
    (¬ (∀ j, j < K → tileUtilization p netStructure markNM (maxTileSizeCM / 2 ^ j)
          < tileUtilization p netStructure markNM (maxTileSizeCM / 2 ^ K)) →
      r.2.desiredTileSizeCM = maxTileSizeCM) ∧
    ∃ j, j ≤ K ∧
      (∀ i, i ≤ K → tileUtilization p netStructure markNM (maxTileSizeCM / 2 ^ i)
        ≤ tileUtilization p netStructure markNM (maxTileSizeCM / 2 ^ j)) ∧
      (∀ i, i < j → tileUtilization p netStructure markNM (maxTileSizeCM / 2 ^ i)
        < tileUtilization p netStructure markNM (maxTileSizeCM / 2 ^ j)) ∧
      r.2.desiredNumTileCM = tileCount p netStructure markNM (maxTileSizeCM / 2 ^ j) := by
  obtain ⟨hX, -⟩ := candidates_of_last _ _ K hK1 hK2
  have hu : ∀ j : ℕ, 0 < tileUtilization p netStructure markNM (maxTileSizeCM / 2 ^ j) :=
    fun j => (TileDesignCM_bounds (maxTileSizeCM / 2 ^ j) markNM netStructure
      p.numRowPerSynapse p.numColPerSynapse hpos hconv (by positivity)).2.2.2.1
  obtain ⟨h1, h2, -, h4⟩ := ChipFloorPlan_tileSearch p fuel findNumTile findUtilization
    findSpeedUp netStructure markNM maxPESizeNM maxTileSizeCM numPENM thisTileTotal0 K r
    hK1 hK2 hP hr
  exact ⟨fun h => h1 ⟨hu K, h⟩, fun h => h2 (fun hc => h hc.2), h4 ⟨0, Nat.zero_le K, hu 0⟩⟩

/-- Witness of C31 at the network `netConv` (`maxTileSizeCM = 1024`, candidates 1024 and
512, both with utilization `9/16`): the last candidate does not strictly exceed the
first, so `desiredTileSizeCM = 1024`, and `desiredNumTileCM = 1` is the tile count of the
first candidate. -/
theorem tileSearch_final_value_witness :
    tileUtilization paramCM netConv [0] (1024 / 2 ^ 0) = 9 / 16 ∧
    tileUtilization paramCM netConv [0] (1024 / 2 ^ 1) = 9 / 16 ∧
    tileCount paramCM netConv [0] (1024 / 2 ^ 0) = 1 ∧
    ∃ r, ChipFloorPlan paramCM 8 true false false netConv [0] 0 1024 0 0 = some r ∧
      r.2.desiredTileSizeCM = 1024 ∧ r.2.desiredNumTileCM = 1 ∧
      ∃ j, j ≤ 1 ∧
        (∀ i, i ≤ 1 → tileUtilization paramCM netConv [0] (1024 / 2 ^ i)
          ≤ tileUtilization paramCM netConv [0] (1024 / 2 ^ j)) ∧
        (∀ i, i < j → tileUtilization paramCM netConv [0] (1024 / 2 ^ i)
          < tileUtilization paramCM netConv [0] (1024 / 2 ^ j)) ∧
        r.2.desiredNumTileCM = tileCount paramCM netConv [0] (1024 / 2 ^ j) := by
  have hv : (ChipFloorPlan paramCM 8 true false false netConv [0] 0 1024 0 0).map
      (fun r => (r.2.desiredTileSizeCM, r.2.desiredNumTileCM)) = some (1024, 1) := by decide!
  have u0 : tileUtilization paramCM netConv [0] (1024 / 2 ^ 0) = 9 / 16 := by decide!
  have u1 : tileUtilization paramCM netConv [0] (1024 / 2 ^ 1) = 9 / 16 := by decide!
  rcases h : ChipFloorPlan paramCM 8 true false false netConv [0] 0 1024 0 0 with _ | r
  · rw [h] at hv; simp at hv
  · rw [h] at hv
    simp only [Option.map_some', Option.some.injEq, Prod.mk.injEq] at hv
    have hthm := tileSearch_final_value paramCM 8 true false false netConv [0] 0 1024 0 0 1 r
      positiveDims_netConv ⟨0, by decide, by decide⟩ (by norm_num [paramCM])
      (by norm_num [paramCM]) (fun hc => absurd hc (by decide)) h
    exact ⟨u0, u1, by decide!, r, rfl, hv.1, hv.2, hthm.2.2⟩

/-! ## `ChipFloorPlan`: the infeasible branch and the tile-location loop -/

theorem at2?_some (v : List (List ℚ)) (r c : ℕ) (a : ℚ) (h : at2? v r c = some a) :
    at2 v r c = a := by
  unfold at2? at h
  unfold at2
  cases hr : v[r]? with
  | none => rw [hr] at h; simp at h
  | some row =>
    rw [hr] at h
    simp only [Option.some_bind] at h
    simp [List.getD_eq_getElem?_getD, hr, h]

/-- A checked step of the location loop that returns is the step of `locaBody`. -/
theorem locaBodyChecked_some (t : List (List ℚ)) (r : ℤ) (s s' : LocaState) (i : ℕ)
    (h : locaBodyChecked t r s i = some s') : locaBody t r s i = s' := by
  unfold locaBodyChecked at h
  unfold locaBody
  by_cases h0 : i = 0
  · rw [if_pos h0] at h ⊢
    exact Option.some.inj h
  · rw [if_neg h0] at h ⊢
    simp only [Option.bind_eq_bind, Option.bind_eq_some] at h
    obtain ⟨a, ha, b, hb, h⟩ := h
    by_cases hr : r = 0
    · rw [if_pos hr] at h
      exact absurd h (by simp)
    · rw [if_neg hr] at h
      rw [at2?_some t 0 i a ha, at2?_some t 1 i b hb]
      exact Option.some.inj h

theorem tileLocationsChecked_succ (t : List (List ℚ)) (r : ℤ) (t0 : ℚ) (n : ℕ) :
    tileLocationsChecked t r t0 (n + 1)
      = (tileLocationsChecked t r t0 n).bind (fun s => locaBodyChecked t r s n) := by
  unfold tileLocationsChecked
  rw [foldl_range_succ]

/-- Where the checked location loop returns, its result is that of the loop of
`ChipFloorPlan`. -/
theorem tileLocationsChecked_some (t : List (List ℚ)) (r : ℤ) (t0 : ℚ) (n : ℕ) :
    ∀ s, tileLocationsChecked t r t0 n = some s →
      (List.range n).foldl (locaBody t r) ⟨t0, [], []⟩ = s := by
  induction n with
  | zero =>
    intro s h
    exact Option.some.inj h
  | succ n ih =>
    intro s h
    rw [tileLocationsChecked_succ] at h
    simp only [Option.bind_eq_some] at h
    obtain ⟨s1, h1, h2⟩ := h
    rw [foldl_range_succ, ih s1 h1]
    exact locaBodyChecked_some t r s1 s n h2

/-- Once a step of the checked location loop is aborted, the loop is. -/
theorem tileLocationsChecked_none (t : List (List ℚ)) (r : ℤ) (t0 : ℚ) (n m : ℕ)
    (h : tileLocationsChecked t r t0 n = none) (hnm : n ≤ m) :
    tileLocationsChecked t r t0 m = none := by
  induction m with
  | zero =>
    obtain rfl : n = 0 := by omega
    exact h
  | succ m ih =>
    rcases Nat.lt_succ_iff_lt_or_eq.mp (Nat.lt_succ_of_le hnm) with hlt | rfl
    · rw [tileLocationsChecked_succ, ih (by omega)]
      rfl
    · exact h

/-- The step of the location loop for a layer `i ≥ 1` is aborted when the table has no
entry for the layer or when `numTileRow = 0`. -/
theorem locaBodyChecked_none (t : List (List ℚ)) (r : ℤ) (s : LocaState) (i : ℕ) (hi : i ≠ 0)
    (h : at2? t 0 i = none ∨ at2? t 1 i = none ∨ r = 0) : locaBodyChecked t r s i = none := by
  unfold locaBodyChecked
  rw [if_neg hi]
  rcases h with h | h | h
  · rw [h]
    rfl
  · rw [h]
    cases at2? t 0 i <;> rfl
  · subst h
    cases at2? t 0 i <;> cases at2? t 1 i <;> rfl

/-- For two or more layers the checked location loop is aborted at layer `1` when the
table has no entry for it or when `numTileRow = 0`. -/
theorem tileLocationsChecked_abort (t : List (List ℚ)) (r : ℤ) (t0 : ℚ) (n : ℕ) (hn : 2 ≤ n)
    (h : at2? t 0 1 = none ∨ at2? t 1 1 = none ∨ r = 0) :
    tileLocationsChecked t r t0 n = none := by
  apply tileLocationsChecked_none t r t0 2 n _ hn
  rw [tileLocationsChecked_succ, tileLocationsChecked_succ]
  cases h0 : (tileLocationsChecked t r t0 0).bind (fun s => locaBodyChecked t r s 0) with
  | none => rfl
  | some s => exact locaBodyChecked_none t r s 1 (by norm_num) h

/-- For at most one layer the checked location loop returns: layer `0` is placed at
`(0, 0)` without any read of the table. -/
theorem tileLocationsChecked_short (t : List (List ℚ)) (r : ℤ) (t0 : ℚ) (n : ℕ) (hn : n ≤ 1) :
    ∃ s, tileLocationsChecked t r t0 n = some s := by
  interval_cases n
  · exact ⟨_, rfl⟩
  · exact ⟨_, rfl⟩

/-- Where `ChipFloorPlanChecked` returns, `ChipFloorPlan` returns the same. -/
theorem ChipFloorPlanChecked_some (p : Param) (fuel : ℕ)
    (findNumTile findUtilization findSpeedUp : Bool)
    (netStructure : List Layer) (markNM : List ℤ) (maxPESizeNM maxTileSizeCM numPENM : ℚ)
    (thisTileTotal0 : ℚ) (r : List (List ℚ) × FloorPlan)
    (h : ChipFloorPlanChecked p fuel findNumTile findUtilization findSpeedUp netStructure markNM
      maxPESizeNM maxTileSizeCM numPENM thisTileTotal0 = some r) :
    ChipFloorPlan p fuel findNumTile findUtilization findSpeedUp netStructure markNM
      maxPESizeNM maxTileSizeCM numPENM thisTileTotal0 = some r := by
  unfold ChipFloorPlanChecked at h
  unfold ChipFloorPlan
  simp only [Option.bind_eq_bind, Option.bind_eq_some] at h
  obtain ⟨s, hs, loca, hl, h⟩ := h
  rw [hs]
  simp only [Option.bind_eq_bind, Option.some_bind]
  rw [tileLocationsChecked_some _ _ _ _ loca hl]
  exact h

/-- Where the table has the entries of the layer and `numTileRow ≠ 0`, the checked step
of the location loop is the step of `locaBody`. -/
theorem locaBodyChecked_eq (t : List (List ℚ)) (r : ℤ) (s : LocaState) (i : ℕ)
    (h0 : (at2? t 0 i).isSome = true) (h1 : (at2? t 1 i).isSome = true) (hr : r ≠ 0) :
    locaBodyChecked t r s i = some (locaBody t r s i) := by
  obtain ⟨a, ha⟩ := Option.isSome_iff_exists.mp h0
  obtain ⟨b, hb⟩ := Option.isSome_iff_exists.mp h1
  unfold locaBodyChecked locaBody
  by_cases hi : i = 0
  · rw [if_pos hi, if_pos hi]
  · rw [if_neg hi, if_neg hi, ha, hb, at2?_some t 0 i a ha, at2?_some t 1 i b hb]
    simp only [Option.bind_eq_bind, Option.some_bind]
    rw [if_neg hr]

/-- Where the table has an entry for every layer and `numTileRow ≠ 0`, the checked
location loop returns the result of the loop of `ChipFloorPlan`. -/
theorem tileLocationsChecked_eq (t : List (List ℚ)) (r : ℤ) (t0 : ℚ) (n : ℕ)
    (ht : ∀ i, i < n → (at2? t 0 i).isSome = true ∧ (at2? t 1 i).isSome = true)
    (hr : r ≠ 0) :
    tileLocationsChecked t r t0 n
      = some ((List.range n).foldl (locaBody t r) ⟨t0, [], []⟩) := by
  induction n with
  | zero => rfl
  | succ n ih =>
    rw [tileLocationsChecked_succ, ih (fun i hi => ht i (Nat.lt_succ_of_lt hi)),
      foldl_range_succ]
    simp only [Option.some_bind]
    exact locaBodyChecked_eq t r _ n (ht n (Nat.lt_succ_self n)).1
      (ht n (Nat.lt_succ_self n)).2 hr

theorem planTables_table (p : Param) (netStructure : List Layer) (markNM : List ℤ)
    (numPENM peNM : ℚ) (s : FloorPlan) (i : ℕ) (hi : i < netStructure.length) :
    (at2? (planTables p netStructure markNM numPENM peNM s).numTileEachLayer 0 i).isSome = true ∧
    (at2? (planTables p netStructure markNM numPENM peNM s).numTileEachLayer 1 i).isSome
      = true := by
  simp [planTables, OverallEachLayer, at2?, hi]

/-- On the feasible branch the table `numTileEachLayer` has an entry for every layer. -/
theorem floorPlanSearch_table (p : Param) (fuel : ℕ) (netStructure : List Layer)
    (markNM : List ℤ) (maxPESizeNM maxTileSizeCM numPENM : ℚ) (s : FloorPlan)
    (hT : 4 * (p.numRowSubArray : ℚ) ≤ maxTileSizeCM)
    (hP : p.novelMapping = true → 2 * (p.numRowSubArray : ℚ) ≤ maxPESizeNM)
    (h : floorPlanSearch p fuel netStructure markNM maxPESizeNM maxTileSizeCM numPENM = some s)
    (i : ℕ) (hi : i < netStructure.length) :
    (at2? s.numTileEachLayer 0 i).isSome = true ∧ (at2? s.numTileEachLayer 1 i).isSome = true := by
  unfold floorPlanSearch at h
  by_cases hnov : p.novelMapping = true
  · have hP' := hP hnov
    rw [if_pos hnov, if_neg (by rw [not_or]; exact ⟨not_lt.mpr hP', not_lt.mpr hT⟩)] at h
    simp only [Option.bind_eq_bind, Option.bind_eq_some] at h
    obtain ⟨s1, -, s2, -, s3, -, h⟩ := h
    obtain rfl := Option.some.inj h
    exact planTables_table p netStructure markNM numPENM _ s3 i hi
  · rw [if_neg hnov, if_neg (not_lt.mpr hT)] at h
    simp only [Option.bind_eq_bind, Option.bind_eq_some] at h
    obtain ⟨s1, -, s2, -, h⟩ := h
    obtain rfl := Option.some.inj h
    exact planTables_table p netStructure markNM numPENM _ s2 i hi

/-- On a feasible plan whose tile grid has a row (`numTileRow ≠ 0`) the reads of the
tile-location loop are inside the table and its divisor is not `0`: the checked function
returns what `ChipFloorPlan` returns. -/
theorem ChipFloorPlanChecked_feasible (p : Param) (fuel : ℕ)
    (findNumTile findUtilization findSpeedUp : Bool)
    (netStructure : List Layer) (markNM : List ℤ) (maxPESizeNM maxTileSizeCM numPENM : ℚ)
    (thisTileTotal0 : ℚ)
    (hT : 4 * (p.numRowSubArray : ℚ) ≤ maxTileSizeCM)
    (hP : p.novelMapping = true → 2 * (p.numRowSubArray : ℚ) ≤ maxPESizeNM)
    (r : List (List ℚ) × FloorPlan)
    (h : ChipFloorPlan p fuel findNumTile findUtilization findSpeedUp netStructure markNM
      maxPESizeNM maxTileSizeCM numPENM thisTileTotal0 = some r)
    (hrow : r.2.numTileRow ≠ 0) :
    ChipFloorPlanChecked p fuel findNumTile findUtilization findSpeedUp netStructure markNM
      maxPESizeNM maxTileSizeCM numPENM thisTileTotal0 = some r := by
  obtain ⟨s, hs, -, -, -, -, -, h6, -⟩ := ChipFloorPlan_some _ _ _ _ _ _ _ _ _ _ _ r h
  rw [h6] at hrow
  unfold ChipFloorPlan at h
  unfold ChipFloorPlanChecked
  rw [hs] at h ⊢
  simp only [Option.bind_eq_bind, Option.some_bind] at h ⊢
  rw [tileLocationsChecked_eq _ _ _ _
    (floorPlanSearch_table p fuel netStructure markNM maxPESizeNM maxTileSizeCM numPENM s hT hP hs)
    hrow]
  exact h

/-- On an infeasible plan the size search returns the initial state at once. -/
theorem floorPlanSearch_infeasible (p : Param) (fuel : ℕ)
    (netStructure : List Layer) (markNM : List ℤ) (maxPESizeNM maxTileSizeCM numPENM : ℚ)
    (h : (p.novelMapping = true ∧ (maxPESizeNM < 2 * (p.numRowSubArray : ℚ) ∨
            maxTileSizeCM < 4 * (p.numRowSubArray : ℚ))) ∨
         (p.novelMapping = false ∧ maxTileSizeCM < 4 * (p.numRowSubArray : ℚ))) :
    floorPlanSearch p fuel netStructure markNM maxPESizeNM maxTileSizeCM numPENM
      = some FloorPlan.init := by
  unfold floorPlanSearch
  rcases h with ⟨hn, hc⟩ | ⟨hn, hc⟩
  · rw [if_pos hn, if_pos hc]
  · rw [if_neg (by simp [hn]), if_pos hc]

/-- On an infeasible plan for at most one layer `ChipFloorPlanChecked` returns, with every
size and `numTileRow` at `0`. -/
theorem ChipFloorPlanChecked_infeasible_short (p : Param) (fuel : ℕ)
    (findNumTile findUtilization findSpeedUp : Bool)
    (netStructure : List Layer) (markNM : List ℤ) (maxPESizeNM maxTileSizeCM numPENM : ℚ)
    (thisTileTotal0 : ℚ)
    (h : (p.novelMapping = true ∧ (maxPESizeNM < 2 * (p.numRowSubArray : ℚ) ∨
            maxTileSizeCM < 4 * (p.numRowSubArray : ℚ))) ∨
         (p.novelMapping = false ∧ maxTileSizeCM < 4 * (p.numRowSubArray : ℚ)))
    (hlen : netStructure.length ≤ 1) :
    ∃ r, ChipFloorPlanChecked p fuel findNumTile findUtilization findSpeedUp netStructure markNM
        maxPESizeNM maxTileSizeCM numPENM thisTileTotal0 = some r ∧
      r.2.desiredNumTileNM = 0 ∧ r.2.desiredPESizeNM = 0 ∧ r.2.desiredNumTileCM = 0 ∧
      r.2.desiredTileSizeCM = 0 ∧ r.2.desiredPESizeCM = 0 ∧ r.2.numTileRow = 0 ∧
      r.2.maxUtilizationCM = 0 ∧ r.2.maxUtilizationNM = 0 := by
  have hs := floorPlanSearch_infeasible p fuel netStructure markNM maxPESizeNM maxTileSizeCM
    numPENM h
  have hz : FloorPlan.init.desiredNumTileCM + FloorPlan.init.desiredNumTileNM = 0 := by
    simp [FloorPlan.init]
  obtain ⟨loca, hl⟩ := tileLocationsChecked_short FloorPlan.init.numTileEachLayer
    (ceilSqrt (FloorPlan.init.desiredNumTileCM + FloorPlan.init.desiredNumTileNM))
    thisTileTotal0 netStructure.length hlen
  unfold ChipFloorPlanChecked
  rw [hs]
  simp only [Option.bind_eq_bind, Option.some_bind]
  rw [hl]
  simp only [Option.some_bind]
  split_ifs <;>
    exact ⟨_, rfl, rfl, rfl, rfl, rfl, rfl, by simp only [hz, ceilSqrt_zero], rfl, rfl⟩

/-- On an infeasible plan for two or more layers `ChipFloorPlanChecked` does not return:
the location loop is aborted at layer `1`. -/
theorem ChipFloorPlanChecked_infeasible_long (p : Param) (fuel : ℕ)
    (findNumTile findUtilization findSpeedUp : Bool)
    (netStructure : List Layer) (markNM : List ℤ) (maxPESizeNM maxTileSizeCM numPENM : ℚ)
    (thisTileTotal0 : ℚ)
    (h : (p.novelMapping = true ∧ (maxPESizeNM < 2 * (p.numRowSubArray : ℚ) ∨
            maxTileSizeCM < 4 * (p.numRowSubArray : ℚ))) ∨
         (p.novelMapping = false ∧ maxTileSizeCM < 4 * (p.numRowSubArray : ℚ)))
    (hlen : 2 ≤ netStructure.length) :
    ChipFloorPlanChecked p fuel findNumTile findUtilization findSpeedUp netStructure markNM
        maxPESizeNM maxTileSizeCM numPENM thisTileTotal0 = none := by
  have hs := floorPlanSearch_infeasible p fuel netStructure markNM maxPESizeNM maxTileSizeCM
    numPENM h
  unfold ChipFloorPlanChecked
  rw [hs]
  simp only [Option.bind_eq_bind, Option.some_bind]
  rw [tileLocationsChecked_abort _ _ _ _ hlen
    (Or.inl (show at2? FloorPlan.init.numTileEachLayer 0 1 = none from rfl))]
  rfl

theorem chipDesignInitialize_netTwo_CM :
    ChipDesignInitialize paramCM netTwo = ⟨[0, 0], 0, 256, 0⟩ := by
  have h1 : minCube 128 = 128 := by
    have := minCube_zpow 7
    norm_num at this
    exact this
  have h2 : minCube 256 = 256 := by
    have := minCube_zpow 8
    norm_num at this
    exact this
  simp [ChipDesignInitialize, paramCM, netTwo, markBodyCM, layerAt, h1, h2, List.range_succ]
  norm_num

/-- C3. If the size precondition fails (novel mapping on and `maxPESizeNM <
2*numRowSubArray` or `maxTileSizeCM < 4*numRowSubArray`; novel mapping off and
`maxTileSizeCM < 4*numRowSubArray`), `ChipFloorPlan` performs no search: the size search
ends at once, for every fuel, in the initial state, in which `desiredNumTileNM`,
`desiredPESizeNM`, `desiredNumTileCM`, `desiredTileSizeCM`, `desiredPESizeCM` are `0`, and
`numTileRow` becomes `ceil(sqrt(0)) = 0`.  The function then runs its tile-location loop
on the empty table `numTileEachLayer` with `numTileRow = 0`.  For a network of at most
one layer the loop touches neither and the function returns with these values.  For a
network of two or more layers the loop reads `numTileEachLayer[0][1]` of the empty table
and divides by `numTileRow = 0` (Chip.cpp 276-278): the run is aborted there, so the
function does not leave the sizes at `0`, it does not return.  (The products
`2*numRowSubArray` and `4*numRowSubArray` of the test are `int` products in the source;
the statement is for a `numRowSubArray` for which they fit.) -/
theorem chipFloorPlan_infeasible (p : Param) (fuel : ℕ)
    (findNumTile findUtilization findSpeedUp : Bool)
    (netStructure : List Layer) (markNM : List ℤ) (maxPESizeNM maxTileSizeCM numPENM : ℚ)
    (thisTileTotal0 : ℚ) (_hfit : FitsInt (4 * p.numRowSubArray))
    (h : (p.novelMapping = true ∧ (maxPESizeNM < 2 * (p.numRowSubArray : ℚ) ∨
            maxTileSizeCM < 4 * (p.numRowSubArray : ℚ))) ∨
         (p.novelMapping = false ∧ maxTileSizeCM < 4 * (p.numRowSubArray : ℚ))) :
    floorPlanSearch p fuel netStructure markNM maxPESizeNM maxTileSizeCM numPENM
      = some FloorPlan.init ∧
    FloorPlan.init.numTileEachLayer = [] ∧
    ceilSqrt (FloorPlan.init.desiredNumTileCM + FloorPlan.init.desiredNumTileNM) = 0 ∧
    (netStructure.length ≤ 1 →
      ∃ r, ChipFloorPlanChecked p fuel findNumTile findUtilization findSpeedUp netStructure
          markNM maxPESizeNM maxTileSizeCM numPENM thisTileTotal0 = some r ∧
        r.2.desiredNumTileNM = 0 ∧ r.2.desiredPESizeNM = 0 ∧ r.2.desiredNumTileCM = 0 ∧
        r.2.desiredTileSizeCM = 0 ∧ r.2.desiredPESizeCM = 0 ∧ r.2.numTileRow = 0 ∧
        r.2.maxUtilizationCM = 0 ∧ r.2.maxUtilizationNM = 0) ∧
    (2 ≤ netStructure.length →
      at2? ([] : List (List ℚ)) 0 1 = none ∧
      tileLocationsChecked [] 0 thisTileTotal0 netStructure.length = none ∧
      ChipFloorPlanChecked p fuel findNumTile findUtilization findSpeedUp netStructure
          markNM maxPESizeNM maxTileSizeCM numPENM thisTileTotal0 = none) :=
  ⟨floorPlanSearch_infeasible p fuel netStructure markNM maxPESizeNM maxTileSizeCM numPENM h,
    rfl,
    by simp only [FloorPlan.init, add_zero, ceilSqrt_zero],
    ChipFloorPlanChecked_infeasible_short p fuel findNumTile findUtilization findSpeedUp
      netStructure markNM maxPESizeNM maxTileSizeCM numPENM thisTileTotal0 h,
    fun hlen => ⟨rfl, tileLocationsChecked_abort [] 0 thisTileTotal0 netStructure.length hlen
        (Or.inl rfl),
      ChipFloorPlanChecked_infeasible_long p fuel findNumTile findUtilization findSpeedUp
        netStructure markNM maxPESizeNM maxTileSizeCM numPENM thisTileTotal0 h hlen⟩⟩

/-- Witness of C3: the two-layer network `netTwo` without novel mapping has
`maxTileSizeCM = 256 < 4*128`; the plan is infeasible, the size search returns the initial
state, and the tile-location loop is aborted at layer `1`. -/
theorem chipFloorPlan_infeasible_witness :
    ChipDesignInitialize paramCM netTwo = ⟨[0, 0], 0, 256, 0⟩ ∧
    floorPlanSearch paramCM 8 netTwo [0, 0] 0 256 0 = some FloorPlan.init ∧
    tileLocationsChecked [] 0 0 netTwo.length = none ∧
    ChipFloorPlanChecked paramCM 8 true false false netTwo [0, 0] 0 256 0 0 = none :=
  have h := chipFloorPlan_infeasible paramCM 8 true false false netTwo [0, 0] 0 256 0 0
    (by norm_num [FitsInt, paramCM]) (Or.inr ⟨rfl, by norm_num [paramCM]⟩)
  ⟨chipDesignInitialize_netTwo_CM, h.1, (h.2.2.2.2 (by decide)).2.1, (h.2.2.2.2 (by decide)).2.2⟩

/-! ## Novel mapping needs layers of both kinds -/

end NeuroSim
